import Mathlib

/-! ppremake: scopes, variable expansion and directory paths

A shallow embedding of the variable/macro engine of ppremake
(`ppScope.cxx`, `ppDirectory.cxx`, `ppCommandFile.cxx`) together with the
properties proved about it.

Conventions of the embedding

* `std::string` is `Str = List Char`; a position `p` inside a string is
  represented by the suffix that starts at `p`.
* Objects that the C++ code reaches through pointers (`PPScope *`,
  `PPDirectory *`) live in arenas (`World.scopes`, `World.dirs`) and a
  pointer is an index into the arena; `none` is the null pointer.
* Process-wide statics (`PPScope::_scope_stack`, `current_output_directory`,
  the subroutine registry, the environment read by `getenv`) are fields of
  `World`.
* Recursion that the C++ code performs without a bound takes an explicit
  `fuel`; running out of fuel is reported as `Fault.fuel`, and an assertion
  failure, null dereference or uncaught exception as `Fault.abort`.
-/

namespace PPRemake

/-- The type of `std::string` values. -/
abbrev Str := List Char

/-- The two ways a run can fail to produce a value. -/
inductive Fault where
  | fuel
  | abort
  deriving DecidableEq, Repr

deriving instance DecidableEq for Except

/-! ## Constants of `ppremake.h` -/

abbrev COMMAND_PREFIX : Char := '#'
abbrev VARIABLE_PREFIX : Char := '$'
abbrev VARIABLE_OPEN_BRACE : Char := '['
abbrev VARIABLE_CLOSE_BRACE : Char := ']'
abbrev PATTERN_WILDCARD : Char := '%'
abbrev BEGIN_COMMENT : Str := ['/', '/']
abbrev FUNCTION_PARAMETER_SEPARATOR : Char := ','
abbrev VARIABLE_OPEN_NESTED : Char := '('
abbrev VARIABLE_CLOSE_NESTED : Char := ')'
abbrev VARIABLE_PATSUBST : Str := [':']
abbrev VARIABLE_PATSUBST_DELIM : Str := ['=']

/-! ## `<ctype.h>` in the C locale -/

/-- The C `isspace`: space, `\t`, `\n`, `\v`, `\f`, `\r`. -/
def isspace (c : Char) : Bool :=
  c.toNat == 32 || (9 ≤ c.toNat && c.toNat ≤ 13)

/-- The C `isalpha`. -/
def isalpha (c : Char) : Bool :=
  (65 ≤ c.toNat && c.toNat ≤ 90) || (97 ≤ c.toNat && c.toNat ≤ 122)

/-- The C `toupper`. -/
def toupper (c : Char) : Char :=
  if 97 ≤ c.toNat ∧ c.toNat ≤ 122 then Char.ofNat (c.toNat - 32) else c

/-- The C `tolower`. -/
def tolower (c : Char) : Char :=
  if 65 ≤ c.toNat ∧ c.toNat ≤ 90 then Char.ofNat (c.toNat + 32) else c

/-! ## String helpers of the C++ standard library -/

/-- The test `p + 1 < str.length() && str[p] == VARIABLE_PREFIX &&
str[p + 1] == VARIABLE_OPEN_BRACE` on the suffix that starts at `p`. -/
def at_reference : Str → Bool
  | c :: d :: _ => c == VARIABLE_PREFIX && d == VARIABLE_OPEN_BRACE
  | _ => false

/-- Whether `pat` is a prefix of `s`. -/
def starts_with (pat : Str) (s : Str) : Bool := pat.isPrefixOf s

/-- The call `str.find(pat)` of `std::string`: the first position at which
`pat` occurs, `none` for `npos`. -/
def str_find (pat : Str) : Str → Option Nat
  | [] => if pat.isEmpty then some 0 else none
  | c :: cs =>
    if starts_with pat (c :: cs) then some 0
    else (str_find pat cs).map (· + 1)

/-- Removes the trailing whitespace of a token, as the loop
`while (q > 0 && isspace(token[q - 1])) q--` followed by `substr(0, q)`. -/
def strip_trailing (token : Str) : Str :=
  (token.reverse.dropWhile isspace).reverse

/-! ## `tokenize.h` (not among the sources) -/

/-- Modelled from the spec: `tokenize_whitespace` of `tokenize.h`, which is
not among the sources.  It produces the non-empty substrings delimited by
runs of whitespace; leading and trailing whitespace is ignored.  The first
argument is the word being collected. -/
def tokenize_whitespace_loop : Str → Str → List Str
  | cur, [] => if cur.isEmpty then [] else [cur]
  | cur, c :: cs =>
    if isspace c then
      (if cur.isEmpty then tokenize_whitespace_loop [] cs
       else cur :: tokenize_whitespace_loop [] cs)
    else tokenize_whitespace_loop (cur ++ [c]) cs

/-- Modelled from the spec: `tokenize_whitespace` of `tokenize.h`. -/
def tokenize_whitespace (s : Str) : List Str := tokenize_whitespace_loop [] s

/-- Modelled from the spec: `repaste` of `tokenize.h`, which joins the words
with the separator between them. -/
def repaste (words : List Str) (sep : Str) : Str :=
  sep.intercalate words

/-- Modelled from the spec: `trim_blanks` of `tokenize.h`, which removes
leading and trailing whitespace. -/
def trim_blanks (s : Str) : Str := strip_trailing (s.dropWhile isspace)

/-- Modelled from the spec: `tokenize` of `tokenize.h`, the split at every
delimiter character (empty pieces are kept).  The first argument is the
piece being collected. -/
def tokenize_loop (delimiters : Str) : Str → Str → List Str
  | cur, [] => [cur]
  | cur, c :: cs =>
    if delimiters.contains c then cur :: tokenize_loop delimiters [] cs
    else tokenize_loop delimiters (cur ++ [c]) cs

/-- Modelled from the spec: `tokenize` of `tokenize.h`. -/
def tokenize (s : Str) (delimiters : Str) : List Str :=
  tokenize_loop delimiters [] s

/-! ## Data model -/

/-- Modelled from the spec: a `PPSubroutine` (its class is not among the
sources): the formal parameter names and the captured raw lines. -/
structure PPSubroutine where
  formals : List Str
  lines : List Str
  deriving DecidableEq, Repr

/-- A `PPScope`.  Each definition of `_map_variables` maps a key to a scope;
`_named_scopes` tells whether the pointer of that name is non-null. -/
structure PPScope where
  _variables : List (Str × Str)
  _map_variables : List (Str × List (Str × Nat))
  _parent_scope : Option Nat
  _directory : Option Nat
  _named_scopes : Bool
  deriving DecidableEq, Repr

/-- A `PPDirectory`.  `_children` is the vector of subdirectories in the
order of their creation and `_scope` the scope of the directory, if it has a
source file.  The sets `_i_depend_on` and `_depends_on_me` (of type
`Depends`, a set of directories) are the lists of their elements in the
order in which the set is traversed. -/
structure PPDirectory where
  _dirname : Str
  _parent : Option Nat
  _depth : Nat
  _depends_index : Int
  _children : List Nat := []
  _scope : Option Nat := none
  _i_depend_on : List Nat := []
  _depends_on_me : List Nat := []
  _computing_depends_index : Bool := false
  deriving DecidableEq, Repr

/-- The process state: the heap of scopes, the heap of directories, the
process-wide statics, and the text written so far to every output stream
(a stream is addressed by its index). -/
structure World where
  scopes : List PPScope
  _scope_stack : List Nat
  environ : List (Str × Str)
  funcs : List (Str × PPSubroutine)
  named : List (Str × List Nat)
  dirs : List PPDirectory
  current_output_directory : Option Nat
  streams : List Str
  subs : List (Str × PPSubroutine) := []
  deriving DecidableEq, Repr

/-- The C `getenv`. -/
def getenv (w : World) (name : Str) : Option Str := w.environ.lookup name

/-- Modelled from the spec: `PPSubroutine::get_func`, the lookup in the
function registry; `none` is the not-found result. -/
def get_func (w : World) (name : Str) : Option PPSubroutine := w.funcs.lookup name

/-- The assignment `m[key] = value` of a `std::map`. -/
def map_insert {β : Type} (key : Str) (value : β) : List (Str × β) → List (Str × β)
  | [] => [(key, value)]
  | (k, v) :: rest =>
    if k = key then (k, value) :: rest else (k, v) :: map_insert key value rest

/-- Writes the scope `sc` at address `sid`. -/
def World.put_scope (w : World) (sid : Nat) (sc : PPScope) : World :=
  { w with scopes := w.scopes.set sid sc }

/-- The method `PPScope::define_variable`. -/
def define_variable (w : World) (sid : Nat) (varname definition : Str) :
    Except Fault World :=
  match w.scopes[sid]? with
  | none => .error .abort
  | some sc =>
    .ok (w.put_scope sid { sc with _variables := map_insert varname definition sc._variables })

/-! ## `PPDirectory::get_rel_to` -/

/-- The first loop of `get_rel_to`: `while (a->_depth > b->_depth)`. -/
def get_rel_to_loop1 (w : World) : Nat → Nat → Nat → Str → Except Fault (Nat × Str)
  | 0, _, _, _ => .error .fuel
  | fuel + 1, a, b, pre =>
    match w.dirs[a]?, w.dirs[b]? with
    | some da, some db =>
      if da._depth > db._depth then
        match da._parent with
        | none => .error .abort
        | some pa => get_rel_to_loop1 w fuel pa b (pre ++ "../".toList)
      else .ok (a, pre)
    | _, _ => .error .abort

/-- The second loop of `get_rel_to`: `while (b->_depth > a->_depth)`. -/
def get_rel_to_loop2 (w : World) : Nat → Nat → Nat → Str → Except Fault (Nat × Str)
  | 0, _, _, _ => .error .fuel
  | fuel + 1, a, b, post =>
    match w.dirs[a]?, w.dirs[b]? with
    | some da, some db =>
      if db._depth > da._depth then
        match db._parent with
        | none => .error .abort
        | some pb => get_rel_to_loop2 w fuel a pb (db._dirname ++ "/".toList ++ post)
      else .ok (b, post)
    | _, _ => .error .abort

/-- The third loop of `get_rel_to`: `while (a != b)`. -/
def get_rel_to_loop3 (w : World) : Nat → Nat → Nat → Str → Str → Except Fault (Str × Str)
  | 0, _, _, _, _ => .error .fuel
  | fuel + 1, a, b, pre, post =>
    if a ≠ b then
      match w.dirs[a]?, w.dirs[b]? with
      | some da, some db =>
        match da._parent, db._parent with
        | some pa, some pb =>
          get_rel_to_loop3 w fuel pa pb (pre ++ "../".toList) (db._dirname ++ "/".toList ++ post)
        | _, _ => .error .abort
      | _, _ => .error .abort
    else .ok (pre, post)

/-- The method `PPDirectory::get_rel_to`: `this_dir` is the receiver and
`other` the argument.  The loops walk up parent pointers, so the number of
directories bounds their length on every tree a constructor can build. -/
def get_rel_to (w : World) (this_dir other : Nat) : Except Fault Str :=
  if this_dir = other then .ok ".".toList
  else
    match get_rel_to_loop1 w (w.dirs.length + 1) this_dir other [] with
    | .error e => .error e
    | .ok (a, pre) =>
      match get_rel_to_loop2 w (w.dirs.length + 1) a other [] with
      | .error e => .error e
      | .ok (b, post) =>
        match get_rel_to_loop3 w (w.dirs.length + 1) a b pre post with
        | .error e => .error e
        | .ok (pre2, post2) =>
          let result := pre2 ++ post2
          if result.isEmpty then .error .abort
          else .ok (result.take (result.length - 1))

/-- The conversion `sprintf(buffer, "%d", n)`. -/
def sprintf_d (n : Int) : Str := (toString n).toList

/-! ## Variable lookup and assignment -/

/-- The method `PPScope::p_get_variable`, with fuel for the recursion up
the static parent chain.  The result `some d` stands for `true` with
`result = d`, and `none` for `false`. -/
def p_get_variable_rec (w : World) : Nat → Nat → Str → Except Fault (Option Str)
  | 0, _, _ => .error .fuel
  | fuel + 1, sid, varname =>
    match w.scopes[sid]? with
    | none => .error .abort
    | some sc =>
      match sc._variables.lookup varname with
      | some d => .ok (some d)
      | none =>
        if varname = "RELDIR".toList ∧ sc._directory.isSome ∧
            w.current_output_directory.isSome then
          match w.current_output_directory, sc._directory with
          | some cur, some dir =>
            (match get_rel_to w cur dir with
             | .error e => .error e
             | .ok r => .ok (some r))
          | _, _ => .error .abort
        else if varname = "DEPENDS_INDEX".toList ∧ sc._directory.isSome then
          match sc._directory with
          | some dir =>
            (match w.dirs[dir]? with
             | none => .error .abort
             | some d => .ok (some (sprintf_d d._depends_index)))
          | none => .error .abort
        else
          match sc._parent_scope with
          | some parent => p_get_variable_rec w fuel parent varname
          | none => .ok none

/-- The method `PPScope::p_get_variable`.  A chain of static parents that
does not repeat a scope has at most `w.scopes.length` members. -/
def p_get_variable (w : World) (sid : Nat) (varname : Str) : Except Fault (Option Str) :=
  p_get_variable_rec w w.scopes.length sid varname

/-- The assignment `(*vi).second = definition` at the entry found by
`_variables.find(varname)`. -/
def map_assign (varname definition : Str) : List (Str × Str) → List (Str × Str)
  | [] => []
  | (k, v) :: rest =>
    if k = varname then (k, definition) :: rest
    else (k, v) :: map_assign varname definition rest

/-- The method `PPScope::p_set_variable`, with fuel for the recursion up the
static parent chain. -/
def p_set_variable_rec : Nat → World → Nat → Str → Str → Except Fault (Bool × World)
  | 0, _, _, _, _ => .error .fuel
  | fuel + 1, w, sid, varname, definition =>
    match w.scopes[sid]? with
    | none => .error .abort
    | some sc =>
      match sc._variables.lookup varname with
      | some _ =>
        .ok (true, w.put_scope sid
          { sc with _variables := map_assign varname definition sc._variables })
      | none =>
        match sc._parent_scope with
        | some parent => p_set_variable_rec fuel w parent varname definition
        | none => .ok (false, w)

/-- The method `PPScope::p_set_variable`. -/
def p_set_variable (w : World) (sid : Nat) (varname definition : Str) :
    Except Fault (Bool × World) :=
  p_set_variable_rec w.scopes.length w sid varname definition

/-- The loop of `set_variable` over the scope stack; the list holds the
entries still to visit, innermost first. -/
def set_variable_stack (w : World) (varname definition : Str) :
    List Nat → Except Fault (Bool × World)
  | [] => .ok (false, w)
  | si :: rest =>
    match p_set_variable w si varname definition with
    | .error e => .error e
    | .ok (true, w2) => .ok (true, w2)
    | .ok (false, _) => set_variable_stack w varname definition rest

/-- The method `PPScope::set_variable`. -/
def set_variable (w : World) (sid : Nat) (varname definition : Str) :
    Except Fault (Bool × World) :=
  match p_set_variable w sid varname definition with
  | .error e => .error e
  | .ok (true, w2) => .ok (true, w2)
  | .ok (false, _) =>
    match set_variable_stack w varname definition w._scope_stack.reverse with
    | .error e => .error e
    | .ok (true, w2) => .ok (true, w2)
    | .ok (false, _) =>
      match getenv w varname with
      | some _ =>
        let bottom := match w._scope_stack with
          | [] => sid
          | front :: _ => front
        (match define_variable w bottom varname definition with
         | .error e => .error e
         | .ok w2 => .ok (true, w2))
      | none => .ok (false, w)

/-- The loop of `get_variable` over the scope stack; the list holds the
entries still to visit, innermost first. -/
def get_variable_stack (w : World) (varname : Str) : List Nat → Except Fault (Option Str)
  | [] => .ok none
  | si :: rest =>
    match p_get_variable w si varname with
    | .error e => .error e
    | .ok (some d) => .ok (some d)
    | .ok none => get_variable_stack w varname rest

/-! ## Scanning a reference without expanding it -/

mutual
/-- The method `PPScope::r_scan_variable` on the suffix that starts at `vp`:
it returns the text of the reference and the suffix that starts at the new
`vp`. -/
def r_scan_variable_rec : Nat → Str → Except Fault (Str × Str)
  | 0, _ => .error .fuel
  | fuel + 1, str =>
    match r_scan_variable_loop fuel (str.drop 2) with
    | .error e => .error e
    | .ok rest => .ok (str.take (str.length - rest.length), rest)
termination_by structural fuel _ => fuel

/-- The loop `while (p < str.length() && str[p] != VARIABLE_CLOSE_BRACE)` of
`r_scan_variable` followed by the step over the closing bracket; it returns
the suffix at the final `p`. -/
def r_scan_variable_loop : Nat → Str → Except Fault Str
  | 0, _ => .error .fuel
  | _ + 1, [] => .ok []
  | fuel + 1, c :: cs =>
    if c = VARIABLE_CLOSE_BRACE then .ok cs
    else if at_reference (c :: cs) then
      match r_scan_variable_rec fuel (c :: cs) with
      | .error e => .error e
      | .ok (_, rest) => r_scan_variable_loop fuel rest
    else r_scan_variable_loop fuel cs
termination_by structural fuel _ => fuel

end

/-- The method `PPScope::r_scan_variable`; every call consumes a character,
so the length of the string bounds the recursion. -/
def r_scan_variable (str : Str) : Except Fault (Str × Str) :=
  r_scan_variable_rec (str.length + 1) str

/-! ## `PPFilenamePattern` (not among the sources) -/

/-- Modelled from the spec: a `PPFilenamePattern`, whose class is not among
the sources: the literal text before and after the single wildcard. -/
structure PPFilenamePattern where
  has_wildcard : Bool
  before : Str
  after : Str
  deriving DecidableEq, Repr

/-- Modelled from the spec: the constructor of `PPFilenamePattern`, which
splits the pattern at its wildcard marker. -/
def PPFilenamePattern.make (pattern : Str) : PPFilenamePattern :=
  match str_find [PATTERN_WILDCARD] pattern with
  | none => { has_wildcard := false, before := pattern, after := [] }
  | some p => { has_wildcard := true, before := pattern.take p, after := pattern.drop (p + 1) }

/-- Modelled from the spec: `PPFilenamePattern::matches`: the word begins
with the literal text before the wildcard and ends with the text after it,
without overlap; a pattern without wildcard matches by equality. -/
def PPFilenamePattern.matches (pat : PPFilenamePattern) (word : Str) : Bool :=
  if pat.has_wildcard then
    pat.before.isPrefixOf word && pat.after.isSuffixOf word &&
      decide (pat.before.length + pat.after.length ≤ word.length)
  else decide (word = pat.before)

/-- The result of `PPFilenamePattern::transform` where the spec does not
give it: for a word that the from-pattern does not match, or a from-pattern
without wildcard.  The arguments are the to-pattern, the word and the
from-pattern. -/
abbrev Unmatched := PPFilenamePattern → Str → PPFilenamePattern → Str

/-- Modelled from the spec: `PPFilenamePattern::transform`: a pattern without
wildcard gives its literal text; otherwise, for a word that `source` matches
with its wildcard, this pattern's own literal texts around the part of `word`
that matched the wildcard of `source`.  The spec says nothing of a word that
`source` does not match: there the result is that of the parameter
`unmatched`. -/
def PPFilenamePattern.transform (unmatched : Unmatched) (pat : PPFilenamePattern)
    (word : Str) (source : PPFilenamePattern) : Str :=
  if ¬ pat.has_wildcard then pat.before
  else if source.has_wildcard ∧ source.matches word then
    pat.before ++
      (word.drop source.before.length).take
        (word.length - source.before.length - source.after.length) ++
      pat.after
  else unmatched pat word source

/-! ## Collaborators outside the engine -/

/-- The result of an operation that may change the process state. -/
abbrev Eval (α : Type) := Except Fault (α × World)

/-- The collaborators that the expansion engine calls but that are not part
of it: the file system and subprocess calls of the C library, and the
command-file interpreter that replays the body of a user function
(`read_lines w scope lines` constructs a `PPCommandFile` on `scope`, feeds
it the lines up to the first failing one, calls `end_read` when none failed,
and returns the text written to its stream). -/
structure External where
  glob : Str → List Str
  stat_isdir : Str → Bool
  stat_isreg : Str → Bool
  access : Str → Bool
  find_searchpath : List Str → Str → Str
  shell : Str → Str
  read_lines : World → Nat → List Str → Eval Str
  transform_unmatched : Unmatched

/-- Modelled from the spec: `PPNamedScopes::get_scopes`, the lookup of a
scope name in the registry of named scopes (its class is not among the
sources). -/
def get_scopes (w : World) (name : Str) : List Nat := (w.named.lookup name).getD []

/-- The method `PPScope::push_scope`. -/
def push_scope (w : World) (scope : Nat) : World :=
  { w with _scope_stack := w._scope_stack ++ [scope] }

/-- The method `PPScope::pop_scope`. -/
def pop_scope (w : World) : Except Fault (Nat × World) :=
  match w._scope_stack.getLast? with
  | none => .error .abort
  | some back => .ok (back, { w with _scope_stack := w._scope_stack.dropLast })

/-- The method `PPScope::p_find_map_variable`, with fuel for the recursion
up the static parent chain; `none` stands for `_null_map_def`. -/
def p_find_map_variable_rec (w : World) : Nat → Nat → Str →
    Except Fault (Option (List (Str × Nat)))
  | 0, _, _ => .error .fuel
  | fuel + 1, sid, varname =>
    match w.scopes[sid]? with
    | none => .error .abort
    | some sc =>
      match sc._map_variables.lookup varname with
      | some d => .ok (some d)
      | none =>
        match sc._parent_scope with
        | some parent => p_find_map_variable_rec w fuel parent varname
        | none => .ok none

/-- The method `PPScope::p_find_map_variable`. -/
def p_find_map_variable (w : World) (sid : Nat) (varname : Str) :
    Except Fault (Option (List (Str × Nat))) :=
  p_find_map_variable_rec w w.scopes.length sid varname

/-- The loop of `find_map_variable` over the scope stack, innermost first. -/
def find_map_variable_stack (w : World) (varname : Str) :
    List Nat → Except Fault (Option (List (Str × Nat)))
  | [] => .ok none
  | si :: rest =>
    match p_find_map_variable w si varname with
    | .error e => .error e
    | .ok (some d) => .ok (some d)
    | .ok none => find_map_variable_stack w varname rest

/-- The method `PPScope::find_map_variable`. -/
def find_map_variable (w : World) (sid : Nat) (varname : Str) :
    Except Fault (Option (List (Str × Nat))) :=
  match p_find_map_variable w sid varname with
  | .error e => .error e
  | .ok (some d) => .ok (some d)
  | .ok none => find_map_variable_stack w varname w._scope_stack.reverse

/-- The scope whose `_map_variables` holds the definition that
`p_find_map_variable` returns a reference to. -/
def p_find_map_variable_owner_rec (w : World) : Nat → Nat → Str → Except Fault (Option Nat)
  | 0, _, _ => .error .fuel
  | fuel + 1, sid, varname =>
    match w.scopes[sid]? with
    | none => .error .abort
    | some sc =>
      match sc._map_variables.lookup varname with
      | some _ => .ok (some sid)
      | none =>
        match sc._parent_scope with
        | some parent => p_find_map_variable_owner_rec w fuel parent varname
        | none => .ok none

/-- The owner of the definition that `p_find_map_variable` returns. -/
def p_find_map_variable_owner (w : World) (sid : Nat) (varname : Str) :
    Except Fault (Option Nat) :=
  p_find_map_variable_owner_rec w w.scopes.length sid varname

/-- The loop of `find_map_variable` over the scope stack, innermost first,
for the owner of the definition. -/
def find_map_variable_owner_stack (w : World) (varname : Str) :
    List Nat → Except Fault (Option Nat)
  | [] => .ok none
  | si :: rest =>
    match p_find_map_variable_owner w si varname with
    | .error e => .error e
    | .ok (some d) => .ok (some d)
    | .ok none => find_map_variable_owner_stack w varname rest

/-- The scope whose `_map_variables` holds the definition that
`find_map_variable` returns a reference to; `none` stands for
`_null_map_def`. -/
def find_map_variable_owner (w : World) (sid : Nat) (varname : Str) :
    Except Fault (Option Nat) :=
  match p_find_map_variable_owner w sid varname with
  | .error e => .error e
  | .ok (some d) => .ok (some d)
  | .ok none => find_map_variable_owner_stack w varname w._scope_stack.reverse

/-- The map that a reference returned by `find_map_variable` denotes, as it
is when the reference is used: the definition of `varname` that the scope
`owner` holds in the present state. -/
def map_variable_at (w : World) (owner : Nat) (varname : Str) : List (Str × Nat) :=
  match w.scopes[owner]? with
  | none => []
  | some sc => (sc._map_variables.lookup varname).getD []

/-- The method `PPScope::glob_string`. -/
def glob_string (X : External) (str : Str) : List Str :=
  ((tokenize_whitespace str).map X.glob).flatten

/-! ## The built-in functions

Each built-in receives the unexpanded parameter string.  The methods of the
scope that it calls back (`expand_string`, `tokenize_params`, ...) are
passed in as arguments, so that the recursion of the engine can be tied
afterwards. -/

/-- The type of `expand_string` and `expand_variable` on a fixed scope. -/
abbrev ExpandFn := World → Str → Eval Str

/-- The type of `scope->expand_string` for a scope chosen by the caller. -/
abbrev ExpandInFn := World → Nat → Str → Eval Str

/-- The type of `tokenize_params` on a fixed scope with a fixed flag. -/
abbrev TokenizeFn := World → Str → Eval (List Str)

/-- The method `PPScope::expand_wildcard`. -/
def expand_wildcard (X : External) (expand_string : ExpandFn) (w : World) (params : Str) :
    Eval Str :=
  match expand_string w params with
  | .error e => .error e
  | .ok (str, w) => .ok (repaste (glob_string X str) " ".toList, w)

/-- The method `PPScope::expand_isdir`. -/
def expand_isdir (X : External) (expand_string : ExpandFn) (w : World) (params : Str) :
    Eval Str :=
  match expand_string w params with
  | .error e => .error e
  | .ok (str, w) =>
    match glob_string X str with
    | [] => .ok ([], w)
    | filename :: _ => .ok (if X.stat_isdir filename then filename else [], w)

/-- The method `PPScope::expand_isfile`. -/
def expand_isfile (X : External) (expand_string : ExpandFn) (w : World) (params : Str) :
    Eval Str :=
  match expand_string w params with
  | .error e => .error e
  | .ok (str, w) =>
    match glob_string X str with
    | [] => .ok ([], w)
    | filename :: _ => .ok (if X.stat_isreg filename then filename else [], w)

/-- The method `PPScope::expand_libtest`, outside `PLATFORM_WIN32`. -/
def expand_libtest (X : External) (tokenize_params : TokenizeFn) (w : World) (params : Str) :
    Eval Str :=
  match tokenize_params w params with
  | .error e => .error e
  | .ok (tokens, w) =>
    match tokens with
    | [t0, t1] =>
      let directories := tokenize_whitespace t0 ++
        (match getenv w "LD_LIBRARY_PATH".toList with
         | some ld => tokenize ld ":".toList
         | none => []) ++ ["/lib".toList, "/usr/lib".toList]
      (match tokenize_whitespace t1 with
       | [] => .ok ([], w)
       | libname :: _ =>
         let found := X.find_searchpath directories ("lib".toList ++ libname ++ ".a".toList)
         if found.isEmpty then
           .ok (X.find_searchpath directories ("lib".toList ++ libname ++ ".so".toList), w)
         else .ok (found, w))
    | _ => .ok ([], w)

/-- The method `PPScope::expand_bintest`, outside `PLATFORM_WIN32`. -/
def expand_bintest (X : External) (expand_string : ExpandFn) (w : World) (params : Str) :
    Eval Str :=
  match expand_string w params with
  | .error e => .error e
  | .ok (binname, w) =>
    match binname with
    | [] => .ok ([], w)
    | c :: _ =>
      if c = '/' then .ok (if X.access binname then binname else [], w)
      else
        match getenv w "PATH".toList with
        | none => .ok ([], w)
        | some pathvar => .ok (X.find_searchpath (tokenize pathvar ":".toList) binname, w)

/-- The method `PPScope::expand_shell`. -/
def expand_shell (X : External) (expand_string : ExpandFn) (w : World) (params : Str) :
    Eval Str :=
  match expand_string w params with
  | .error e => .error e
  | .ok (command, w) => .ok (repaste (tokenize_whitespace (X.shell command)) " ".toList, w)

/-- The component loop of `expand_standardize`, on the suffix that starts
at `p` (which is not at a slash). -/
def standardize_loop : Nat → Str → List Str → List Str
  | 0, _, components => components
  | _ + 1, [], components => components
  | fuel + 1, c :: cs, components =>
    let component := (c :: cs).takeWhile (· ≠ '/')
    let rest := ((c :: cs).dropWhile (· ≠ '/')).dropWhile (· = '/')
    let components2 :=
      if component = ".".toList then components
      else if component = "..".toList ∧ ¬ components.isEmpty ∧
          ¬ (components.getLast? = some "..".toList) then components.dropLast
      else components ++ [component]
    standardize_loop fuel rest components2

/-- The method `PPScope::expand_standardize`. -/
def expand_standardize (expand_string : ExpandFn) (w : World) (params : Str) : Eval Str :=
  match expand_string w params with
  | .error e => .error e
  | .ok (filename, w) =>
    match filename with
    | [] => .ok ([], w)
    | c :: _ =>
      let components :=
        standardize_loop (filename.length + 1) (filename.dropWhile (· = '/')) []
      .ok ((if c = '/' then "/".toList else []) ++ repaste components "/".toList, w)

/-- The method `PPScope::expand_firstword`. -/
def expand_firstword (expand_string : ExpandFn) (w : World) (params : Str) : Eval Str :=
  match expand_string w params with
  | .error e => .error e
  | .ok (str, w) => .ok ((tokenize_whitespace str).headD [], w)

/-- The from/to pairs that `expand_patsubst` builds from the tokens before
the last one; `none` when a from-pattern lacks the wildcard. -/
def patsubst_patterns : List Str → Option (List (List PPFilenamePattern × PPFilenamePattern))
  | f :: t :: rest =>
    let froms := (tokenize_whitespace f).map PPFilenamePattern.make
    if froms.all (·.has_wildcard) then
      (patsubst_patterns rest).map ((froms, PPFilenamePattern.make t) :: ·)
    else none
  | _ => some []

/-- The inner loops of `expand_patsubst` for one word: the first from-pattern
that matches decides the transform. -/
def patsubst_word (unmatched : Unmatched) (word : Str) :
    List (List PPFilenamePattern × PPFilenamePattern) → Str
  | [] => word
  | (froms, target) :: rest =>
    match froms.find? (·.matches word) with
    | some pi => target.transform unmatched word pi
    | none => patsubst_word unmatched word rest

/-- The method `PPScope::expand_patsubst`. -/
def expand_patsubst (unmatched : Unmatched) (tokenize_params : TokenizeFn) (w : World)
    (params : Str) : Eval Str :=
  match tokenize_params w params with
  | .error e => .error e
  | .ok (tokens, w) =>
    if tokens.length < 3 then .ok ([], w)
    else if tokens.length % 2 ≠ 1 then .ok ([], w)
    else
      let words := tokenize_whitespace (tokens.getLast?.getD [])
      match patsubst_patterns tokens.dropLast with
      | none => .ok ([], w)
      | some pats => .ok (repaste (words.map (patsubst_word unmatched · pats)) " ".toList, w)

/-- The method `PPScope::expand_filter`. -/
def expand_filter (tokenize_params : TokenizeFn) (w : World) (params : Str) : Eval Str :=
  match tokenize_params w params with
  | .error e => .error e
  | .ok (tokens, w) =>
    match tokens with
    | [t0, t1] =>
      let patterns := (tokenize_whitespace t0).map PPFilenamePattern.make
      let words := (tokenize_whitespace t1).filter (fun word => patterns.any (·.matches word))
      .ok (repaste words " ".toList, w)
    | _ => .ok ([], w)

/-- The method `PPScope::expand_filter_out`. -/
def expand_filter_out (tokenize_params : TokenizeFn) (w : World) (params : Str) : Eval Str :=
  match tokenize_params w params with
  | .error e => .error e
  | .ok (tokens, w) =>
    match tokens with
    | [t0, t1] =>
      let patterns := (tokenize_whitespace t0).map PPFilenamePattern.make
      let words := (tokenize_whitespace t1).filter (fun word => !patterns.any (·.matches word))
      .ok (repaste words " ".toList, w)
    | _ => .ok ([], w)

/-- The search of `expand_subst` for one word among the subst/replace
pairs. -/
def subst_word (word : Str) : List Str → Str
  | f :: t :: rest => if f = word then t else subst_word word rest
  | _ => word

/-- The method `PPScope::expand_subst`. -/
def expand_subst (tokenize_params : TokenizeFn) (w : World) (params : Str) : Eval Str :=
  match tokenize_params w params with
  | .error e => .error e
  | .ok (tokens, w) =>
    if tokens.length < 3 then .ok ([], w)
    else if tokens.length % 2 ≠ 1 then .ok ([], w)
    else
      let words := tokenize_whitespace (tokens.getLast?.getD [])
      .ok (repaste (words.map (subst_word · tokens.dropLast)) " ".toList, w)

/-- The comparison `a < b` of `std::string`. -/
def str_lt : Str → Str → Bool
  | [], [] => false
  | [], _ :: _ => true
  | _ :: _, [] => false
  | a :: as, b :: bs => a.toNat < b.toNat || (a == b && str_lt as bs)

/-- The insertion of one word into a sorted list of words. -/
def sort_insert (x : Str) : List Str → List Str
  | [] => [x]
  | y :: ys => if str_lt y x then y :: sort_insert x ys else x :: y :: ys

/-- The call `sort(words.begin(), words.end())` (a sort is determined by the
order because equal strings are indistinguishable). -/
def sort_words (words : List Str) : List Str := words.foldr sort_insert []

/-- The call `unique(first, last)` of the standard library, which drops
every element equal to its predecessor. -/
def std_unique : List Str → List Str
  | a :: b :: rest => if a = b then std_unique (b :: rest) else a :: std_unique (b :: rest)
  | l => l

/-- The method `PPScope::expand_sort`. -/
def expand_sort (expand_string : ExpandFn) (w : World) (params : Str) : Eval Str :=
  match expand_string w params with
  | .error e => .error e
  | .ok (str, w) =>
    .ok (repaste (std_unique (sort_words (tokenize_whitespace str))) " ".toList, w)

/-- The loop of `expand_unique`: keeps the first appearance of each word. -/
def unique_loop : List Str → List Str → List Str
  | _, [] => []
  | included_words, word :: rest =>
    if word ∈ included_words then unique_loop included_words rest
    else word :: unique_loop (word :: included_words) rest

/-- The method `PPScope::expand_unique`. -/
def expand_unique (expand_string : ExpandFn) (w : World) (params : Str) : Eval Str :=
  match expand_string w params with
  | .error e => .error e
  | .ok (str, w) => .ok (repaste (unique_loop [] (tokenize_whitespace str)) " ".toList, w)

/-- The method `PPScope::expand_if`. -/
def expand_if (tokenize_params : TokenizeFn) (w : World) (params : Str) : Eval Str :=
  match tokenize_params w params with
  | .error e => .error e
  | .ok (tokens, w) =>
    match tokens with
    | [t0, t1] => .ok (if ¬ t0.isEmpty then t1 else [], w)
    | [t0, t1, t2] => .ok (if ¬ t0.isEmpty then t1 else t2, w)
    | _ => .ok ([], w)

/-- The method `PPScope::expand_eq`. -/
def expand_eq (tokenize_params : TokenizeFn) (w : World) (params : Str) : Eval Str :=
  match tokenize_params w params with
  | .error e => .error e
  | .ok (tokens, w) =>
    match tokens with
    | [t0, t1] => .ok (if t0 = t1 then "1".toList else [], w)
    | _ => .ok ([], w)

/-- The method `PPScope::expand_ne`. -/
def expand_ne (tokenize_params : TokenizeFn) (w : World) (params : Str) : Eval Str :=
  match tokenize_params w params with
  | .error e => .error e
  | .ok (tokens, w) =>
    match tokens with
    | [t0, t1] => .ok (if ¬ (t0 = t1) then "1".toList else [], w)
    | _ => .ok ([], w)

/-- The method `PPScope::expand_not`. -/
def expand_not (tokenize_params : TokenizeFn) (w : World) (params : Str) : Eval Str :=
  match tokenize_params w params with
  | .error e => .error e
  | .ok (tokens, w) =>
    match tokens with
    | [t0] => .ok (if t0.isEmpty then "1".toList else [], w)
    | _ => .ok ([], w)

/-- The method `PPScope::expand_or`. -/
def expand_or (tokenize_params : TokenizeFn) (w : World) (params : Str) : Eval Str :=
  match tokenize_params w params with
  | .error e => .error e
  | .ok (tokens, w) => .ok ((tokens.find? (fun t => !t.isEmpty)).getD [], w)

/-- The method `PPScope::expand_and`. -/
def expand_and (tokenize_params : TokenizeFn) (w : World) (params : Str) : Eval Str :=
  match tokenize_params w params with
  | .error e => .error e
  | .ok (tokens, w) =>
    if tokens.any (·.isEmpty) then .ok ([], w)
    else
      match tokens.getLast? with
      | none => .ok ("1".toList, w)
      | some back => .ok (back, w)

/-- The method `PPScope::expand_upcase`. -/
def expand_upcase (expand_string : ExpandFn) (w : World) (params : Str) : Eval Str :=
  match expand_string w params with
  | .error e => .error e
  | .ok (result, w) => .ok (result.map toupper, w)

/-- The method `PPScope::expand_downcase`. -/
def expand_downcase (expand_string : ExpandFn) (w : World) (params : Str) : Eval Str :=
  match expand_string w params with
  | .error e => .error e
  | .ok (result, w) => .ok (result.map tolower, w)

/-- The method `PPScope::expand_cdefine`. -/
def expand_cdefine (expand_variable : ExpandFn) (w : World) (params : Str) : Eval Str :=
  let varname := trim_blanks params
  match expand_variable w varname with
  | .error e => .error e
  | .ok (str, w) =>
    let expansion := trim_blanks str
    if expansion.isEmpty then .ok ("#undef ".toList ++ varname, w)
    else .ok ("#define ".toList ++ varname ++ " ".toList ++ expansion, w)

/-- The loop of the map-variable built-ins over a list of keys: the
expression is expanded in the scope of every key that the map holds, and the
non-empty expansions are collected.  The map is read through the reference
`def`, the definition of `varname` held by the scope `owner`, as it is at
each lookup. -/
def expand_map_variable_keys (expand_string_in : ExpandInFn) (owner : Nat) (varname : Str)
    (expression : Str) : World → List Str → Eval (List Str)
  | w, [] => .ok ([], w)
  | w, key :: rest =>
    match (map_variable_at w owner varname).lookup key with
    | none => expand_map_variable_keys expand_string_in owner varname expression w rest
    | some scope =>
      match expand_string_in w scope expression with
      | .error e => .error e
      | .ok (expansion, w) =>
        match expand_map_variable_keys expand_string_in owner varname expression w rest with
        | .error e => .error e
        | .ok (results, w) =>
          .ok (if expansion.isEmpty then results else expansion :: results, w)

/-- The method `PPScope::expand_map_variable` with the keys already split. -/
def expand_map_variable_keyed (expand_string_in : ExpandInFn) (w : World) (sid : Nat)
    (varname expression : Str) (keys : List Str) : Eval Str :=
  match find_map_variable_owner w sid varname with
  | .error e => .error e
  | .ok none => .ok ([], w)
  | .ok (some owner) =>
    match expand_map_variable_keys expand_string_in owner varname expression w keys with
    | .error e => .error e
    | .ok (results, w) => .ok (repaste results " ".toList, w)

/-- The method `PPScope::expand_map_variable` on the parameter string. -/
def expand_map_variable (tokenize_noexpand : TokenizeFn) (expand_string : ExpandFn)
    (expand_string_in : ExpandInFn) (w : World) (sid : Nat) (varname params : Str) :
    Eval Str :=
  match tokenize_noexpand w params with
  | .error e => .error e
  | .ok (tokens, w) =>
    match tokens with
    | [t0, t1] =>
      (match expand_string w t1 with
       | .error e => .error e
       | .ok (str, w) =>
         expand_map_variable_keyed expand_string_in w sid varname t0 (tokenize_whitespace str))
    | _ => .ok ([], w)

/-- The loop of `expand_closure` over the words of one pass.  The state is
the set of words seen, the results and the pending partial results. -/
def closure_pass (expand_string_in : ExpandInFn) (owner : Nat) (varname : Str)
    (expression close_on : Str) :
    World → List Str → List Str → List Str → List Str → Eval (List Str × List Str × List Str)
  | w, [], closure, results, next_pass => .ok ((closure, results, next_pass), w)
  | w, word :: rest, closure, results, next_pass =>
    if word ∈ closure then
      closure_pass expand_string_in owner varname expression close_on w rest closure results
        next_pass
    else
      match (map_variable_at w owner varname).lookup word with
      | none =>
        closure_pass expand_string_in owner varname expression close_on w rest
          (word :: closure) results next_pass
      | some scope =>
        match expand_string_in w scope expression with
        | .error e => .error e
        | .ok (r, w) =>
          match expand_string_in w scope close_on with
          | .error e => .error e
          | .ok (n, w) =>
            closure_pass expand_string_in owner varname expression close_on w rest
              (word :: closure) (results ++ [r]) (next_pass ++ [n])

/-- The loop `while (!next_pass.empty())` of `expand_closure`. -/
def closure_loop (expand_string_in : ExpandInFn) (owner : Nat) (varname : Str)
    (expression close_on : Str) :
    Nat → World → List Str → List Str → List Str → Eval (List Str)
  | 0, _, _, _, _ => .error .fuel
  | fuel + 1, w, closure, results, next_pass =>
    match next_pass.getLast? with
    | none => .ok (results, w)
    | some back =>
      match closure_pass expand_string_in owner varname expression close_on w
          (tokenize_whitespace back) closure results next_pass.dropLast with
      | .error e => .error e
      | .ok ((closure, results, next_pass), w) =>
        closure_loop expand_string_in owner varname expression close_on fuel w closure results
          next_pass

/-- The method `PPScope::expand_closure`; `fuel` bounds the number of
passes.  The reference `def` that `find_map_variable` returns is kept as the
scope that holds the definition, and the map is read through it at every
lookup. -/
def expand_closure (tokenize_noexpand : TokenizeFn) (expand_string : ExpandFn)
    (expand_string_in : ExpandInFn) (fuel : Nat) (w : World) (sid : Nat) (params : Str) :
    Eval Str :=
  match tokenize_noexpand w params with
  | .error e => .error e
  | .ok (tokens, w) =>
    if tokens.length ≠ 2 ∧ tokens.length ≠ 3 then .ok ([], w)
    else
      match expand_string w (tokens.getD 0 []) with
      | .error e => .error e
      | .ok (varname, w) =>
        let expression := tokens.getD 1 []
        let close_on := if tokens.length > 2 then tokens.getD 2 [] else expression
        match find_map_variable_owner w sid varname with
        | .error e => .error e
        | .ok none => .ok ([], w)
        | .ok (some owner) =>
          match expand_string w expression with
          | .error e => .error e
          | .ok (r, w) =>
            match expand_string w close_on with
            | .error e => .error e
            | .ok (n, w) =>
              match closure_loop expand_string_in owner varname expression close_on fuel w []
                [r] [n]
              with
              | .error e => .error e
              | .ok (results, w) => .ok (repaste results " ".toList, w)

/-- The method `PPScope::expand_unmapped`. -/
def expand_unmapped (tokenize_noexpand : TokenizeFn) (expand_string : ExpandFn)
    (w : World) (sid : Nat) (params : Str) : Eval Str :=
  match tokenize_noexpand w params with
  | .error e => .error e
  | .ok (tokens, w) =>
    match tokens with
    | [t0, t1] =>
      (match expand_string w t0 with
       | .error e => .error e
       | .ok (varname, w) =>
         match expand_string w t1 with
         | .error e => .error e
         | .ok (str, w) =>
           match find_map_variable w sid varname with
           | .error e => .error e
           | .ok none => .ok ([], w)
           | .ok (some mapdef) =>
             .ok (repaste ((tokenize_whitespace str).filter
               (fun key => (mapdef.lookup key).isNone)) " ".toList, w))
    | _ => .ok ([], w)

/-- The loop of `expand_variable_nested` over the scopes found. -/
def expand_variable_nested_scopes (expand_variable_in : ExpandInFn) (varname : Str) :
    World → List Nat → Eval (List Str)
  | w, [] => .ok ([], w)
  | w, scope :: rest =>
    match expand_variable_in w scope varname with
    | .error e => .error e
    | .ok (nested, w) =>
      match expand_variable_nested_scopes expand_variable_in varname w rest with
      | .error e => .error e
      | .ok (results, w) => .ok (if nested.isEmpty then results else nested :: results, w)

/-- The method `PPScope::expand_variable_nested`. -/
def expand_variable_nested (expand_variable_in : ExpandInFn) (w : World) (sid : Nat)
    (varname scope_names : Str) : Eval Str :=
  match w.scopes[sid]? with
  | none => .error .abort
  | some sc =>
    if ¬ sc._named_scopes then .ok ([], w)
    else
      let scopes := ((tokenize_whitespace scope_names).map (get_scopes w)).flatten
      match expand_variable_nested_scopes expand_variable_in varname w scopes with
      | .error e => .error e
      | .ok (results, w) => .ok (repaste results " ".toList, w)

/-- The loop of `define_formals` that binds each formal to its actual, or to
the empty string when the actuals have run out. -/
def define_formals_loop : World → Nat → List Str → List Str → Except Fault World
  | w, _, [], _ => .ok w
  | w, sid, formal :: formals, actual_words =>
    match define_variable w sid formal (actual_words.headD []) with
    | .error e => .error e
    | .ok w => define_formals_loop w sid formals actual_words.tail

/-- The inline patsubst that `r_expand_variable` applies to the expansion
of `$[varname:from=to]`. -/
def inline_patsubst (unmatched : Unmatched) (patsubst result : Str) : Str :=
  match tokenize patsubst VARIABLE_PATSUBST_DELIM with
  | [t0, t1] =>
    let source := PPFilenamePattern.make t0
    let target := PPFilenamePattern.make t1
    if ¬ source.has_wildcard ∨ ¬ target.has_wildcard then []
    else
      repaste ((tokenize_whitespace result).map (target.transform unmatched · source))
        " ".toList
  | _ => result

/-- Attaches to a result the suffix at which the caller goes on. -/
def with_rest (rest : Str) : Eval Str → Eval (Str × Str)
  | .error e => .error e
  | .ok (r, w) => .ok ((r, rest), w)

/-! ## The recursive expansion engine

`expanded` is the linked list of `ExpandedVariable` records, innermost
first.  Every function returns the process state next to its value, because
the body of a user function may change it. -/

mutual

/-- The method `PPScope::r_expand_string`, on the suffix that starts at
`p`. -/
def r_expand_string (X : External) :
    Nat → World → Nat → List Str → Str → Eval Str
  | 0, _, _, _, _ => .error .fuel
  | _ + 1, w, _, _, [] => .ok ([], w)
  | fuel + 1, w, sid, expanded, c :: cs =>
    if at_reference (c :: cs) then
      match r_expand_variable X fuel w sid expanded (c :: cs) with
      | .error e => .error e
      | .ok ((text, rest), w) =>
        match r_expand_string X fuel w sid expanded rest with
        | .error e => .error e
        | .ok (result, w) => .ok (text ++ result, w)
    else
      match r_expand_string X fuel w sid expanded cs with
      | .error e => .error e
      | .ok (result, w) => .ok (c :: result, w)
termination_by structural fuel _ _ _ _ => fuel

/-- The loop `while (p < str.length() && str[p] != VARIABLE_CLOSE_BRACE)` of
`r_expand_variable`, followed by the step over the closing bracket.  `k` is
`p - (vp + 2)`; the result is `varname`, the suffix at the new `vp`,
`whitespace_at` and `open_nested_at`. -/
def r_expand_variable_loop (X : External) :
    Nat → World → Nat → List Str → Str → Nat → Str → Nat → Nat →
      Eval (Str × Str × Nat × Nat)
  | 0, _, _, _, _, _, _, _, _ => .error .fuel
  | _ + 1, w, _, _, [], _, varname, whitespace_at, open_nested_at =>
    .ok ((varname, [], whitespace_at, open_nested_at), w)
  | fuel + 1, w, sid, expanded, c :: cs, k, varname, whitespace_at, open_nested_at =>
    if c = VARIABLE_CLOSE_BRACE then
      .ok ((varname, cs, whitespace_at, open_nested_at), w)
    else if at_reference (c :: cs) then
      if whitespace_at ≠ 0 then
        match r_scan_variable (c :: cs) with
        | .error e => .error e
        | .ok (text, rest) =>
          r_expand_variable_loop X fuel w sid expanded rest
            (k + ((c :: cs).length - rest.length)) (varname ++ text)
            whitespace_at open_nested_at
      else
        match r_expand_variable X fuel w sid expanded (c :: cs) with
        | .error e => .error e
        | .ok ((text, rest), w) =>
          r_expand_variable_loop X fuel w sid expanded rest
            (k + ((c :: cs).length - rest.length)) (varname ++ text)
            whitespace_at open_nested_at
    else
      let open_nested_at2 :=
        if open_nested_at = 0 ∧ c = VARIABLE_OPEN_NESTED then k else open_nested_at
      let whitespace_at2 :=
        if open_nested_at2 = 0 ∧ whitespace_at = 0 ∧ isspace c then k else whitespace_at
      r_expand_variable_loop X fuel w sid expanded cs (k + 1) (varname ++ [c])
        whitespace_at2 open_nested_at2
termination_by structural fuel _ _ _ _ _ _ _ _ => fuel

/-- The method `PPScope::r_expand_variable`, on the suffix that starts at
`vp`: it returns the expansion and the suffix at the new `vp`. -/
def r_expand_variable (X : External) :
    Nat → World → Nat → List Str → Str → Eval (Str × Str)
  | 0, _, _, _, _ => .error .fuel
  | fuel + 1, w, sid, expanded, str =>
    match r_expand_variable_loop X fuel w sid expanded (str.drop 2) 0 [] 0 0 with
    | .error e => .error e
    | .ok ((varname, rest, whitespace_at, _), w) =>
      if whitespace_at ≠ 0 then
        -- `varname.substr(p)` throws when `p` lies beyond the end.
        if whitespace_at > varname.length then .error .abort
        else
          let funcname := varname.take whitespace_at
          let params := (varname.drop whitespace_at).dropWhile isspace
          match get_func w funcname with
          | some sub => with_rest rest (expand_function X fuel w sid funcname sub params)
          | none =>
            let expand_string : ExpandFn := fun w s => r_expand_string X fuel w sid [] s
            let expand_string_in : ExpandInFn := fun w scope s =>
              r_expand_string X fuel w scope [] s
            let tokenize_expand : TokenizeFn := fun w s => tokenize_params X fuel w sid s true
            let tokenize_noexpand : TokenizeFn := fun w s =>
              tokenize_params X fuel w sid s false
            with_rest rest
              (if funcname = "wildcard".toList then expand_wildcard X expand_string w params
               else if funcname = "isdir".toList then expand_isdir X expand_string w params
               else if funcname = "isfile".toList then expand_isfile X expand_string w params
               else if funcname = "libtest".toList then
                 expand_libtest X tokenize_expand w params
               else if funcname = "bintest".toList then
                 expand_bintest X expand_string w params
               else if funcname = "shell".toList then expand_shell X expand_string w params
               else if funcname = "standardize".toList then
                 expand_standardize expand_string w params
               else if funcname = "firstword".toList then
                 expand_firstword expand_string w params
               else if funcname = "patsubst".toList then
                 expand_patsubst X.transform_unmatched tokenize_expand w params
               else if funcname = "subst".toList then expand_subst tokenize_expand w params
               else if funcname = "filter".toList then expand_filter tokenize_expand w params
               else if funcname = "filter_out".toList ∨ funcname = "filter-out".toList then
                 expand_filter_out tokenize_expand w params
               else if funcname = "sort".toList then expand_sort expand_string w params
               else if funcname = "unique".toList then expand_unique expand_string w params
               else if funcname = "if".toList then expand_if tokenize_expand w params
               else if funcname = "eq".toList then expand_eq tokenize_expand w params
               else if funcname = "ne".toList then expand_ne tokenize_expand w params
               else if funcname = "not".toList then expand_not tokenize_expand w params
               else if funcname = "or".toList then expand_or tokenize_expand w params
               else if funcname = "and".toList then expand_and tokenize_expand w params
               else if funcname = "upcase".toList then expand_upcase expand_string w params
               else if funcname = "downcase".toList then
                 expand_downcase expand_string w params
               else if funcname = "cdefine".toList then
                 expand_cdefine (fun w s => expand_variable X fuel w sid s) w params
               else if funcname = "closure".toList then
                 expand_closure tokenize_noexpand expand_string expand_string_in fuel w sid
                   params
               else if funcname = "unmapped".toList then
                 expand_unmapped tokenize_noexpand expand_string w sid params
               else
                 expand_map_variable tokenize_noexpand expand_string expand_string_in w sid
                   funcname params)
      else if varname ∈ expanded then
        -- a cyclical expansion
        .ok (([], rest), w)
      else
        let patsubst_at := str_find VARIABLE_PATSUBST varname
        let patsubst := match patsubst_at with
          | some p => varname.drop (p + VARIABLE_PATSUBST.length)
          | none => []
        let varname := match patsubst_at with
          | some p => varname.take p
          | none => varname
        let nested_at := str_find [VARIABLE_OPEN_NESTED] varname
        let nested := nested_at.isSome ∧ varname.getLast? = some VARIABLE_CLOSE_NESTED
        let varname2 := match nested_at with
          | some p => if nested then varname.take p else varname
          | none => varname
        let expansion : Eval Str :=
          match nested_at with
          | some p =>
            if nested then
              expand_variable_nested (fun w scope s => expand_variable X fuel w scope s) w sid
                (varname.take p) ((varname.drop (p + 1)).take (varname.length - 1 - (p + 1)))
            else get_variable X fuel w sid varname
          | none => get_variable X fuel w sid varname
        match expansion with
        | .error e => .error e
        | .ok (expansion, w) =>
          match r_expand_string X fuel w sid (varname2 :: expanded) expansion with
          | .error e => .error e
          | .ok (result, w) =>
            .ok ((if patsubst_at.isSome then
                    inline_patsubst X.transform_unmatched patsubst result
                  else result,
                  rest), w)
termination_by structural fuel _ _ _ _ => fuel

/-- The inner loop `while (p < str.length() && str[p] !=
FUNCTION_PARAMETER_SEPARATOR)` of `tokenize_params`: it returns the token
and the suffix at the final `p`. -/
def tokenize_params_token (X : External) :
    Nat → World → Nat → Bool → Str → Str → Eval (Str × Str)
  | 0, _, _, _, _, _ => .error .fuel
  | _ + 1, w, _, _, [], token => .ok ((token, []), w)
  | fuel + 1, w, sid, expand, c :: cs, token =>
    if c = FUNCTION_PARAMETER_SEPARATOR then .ok ((token, c :: cs), w)
    else if at_reference (c :: cs) then
      if expand then
        match r_expand_variable X fuel w sid [] (c :: cs) with
        | .error e => .error e
        | .ok ((text, rest), w) =>
          tokenize_params_token X fuel w sid expand rest (token ++ text)
      else
        match r_scan_variable (c :: cs) with
        | .error e => .error e
        | .ok (text, rest) => tokenize_params_token X fuel w sid expand rest (token ++ text)
    else tokenize_params_token X fuel w sid expand cs (token ++ [c])
termination_by structural fuel _ _ _ _ _ => fuel

/-- The outer loop `while (p < str.length())` of `tokenize_params`, on the
suffix that starts at `p`; it returns the tokens appended. -/
def tokenize_params (X : External) :
    Nat → World → Nat → Str → Bool → Eval (List Str)
  | 0, _, _, _, _ => .error .fuel
  | _ + 1, w, _, [], _ => .ok ([], w)
  | fuel + 1, w, sid, c :: cs, expand =>
    match tokenize_params_token X fuel w sid expand ((c :: cs).dropWhile isspace) [] with
    | .error e => .error e
    | .ok ((token, rest), w) =>
      -- `tokens.push_back(token.substr(0, q)); p++;`
      match rest.drop 1 with
      | [] =>
        if rest.length = 1 then .ok ([strip_trailing token, []], w)
        else .ok ([strip_trailing token], w)
      | d :: ds =>
        match tokenize_params X fuel w sid (d :: ds) expand with
        | .error e => .error e
        | .ok (tokens, w) => .ok (strip_trailing token :: tokens, w)
termination_by structural fuel _ _ _ _ => fuel

/-- The method `PPScope::define_formals`. -/
def define_formals (X : External) :
    Nat → World → Nat → Str → List Str → Str → Except Fault World
  | 0, _, _, _, _, _ => .error .fuel
  | fuel + 1, w, sid, _, formals, actuals =>
    match tokenize_params X fuel w sid actuals true with
    | .error e => .error e
    | .ok (actual_words, w) => define_formals_loop w sid formals actual_words
termination_by structural fuel _ _ _ _ _ => fuel

/-- The method `PPScope::expand_function`. -/
def expand_function (X : External) :
    Nat → World → Nat → Str → PPSubroutine → Str → Eval Str
  | 0, _, _, _, _, _ => .error .fuel
  | fuel + 1, w, sid, funcname, sub, params =>
    match w.scopes[sid]? with
    | none => .error .abort
    | some sc =>
      let w := push_scope w sid
      let nested_scope := w.scopes.length
      let w := { w with scopes := w.scopes ++
        [{ _variables := [], _map_variables := [], _parent_scope := none,
           _directory := none, _named_scopes := sc._named_scopes }] }
      match define_formals X fuel w nested_scope funcname sub.formals params with
      | .error e => .error e
      | .ok w =>
        match X.read_lines w nested_scope sub.lines with
        | .error e => .error e
        | .ok (str, w) =>
          match pop_scope w with
          | .error e => .error e
          | .ok (_, w) => .ok (repaste (tokenize_whitespace str) " ".toList, w)
termination_by structural fuel _ _ _ _ _ => fuel

/-- The method `PPScope::get_variable`. -/
def get_variable (X : External) : Nat → World → Nat → Str → Eval Str
  | 0, _, _, _ => .error .fuel
  | fuel + 1, w, sid, varname =>
    match get_func w varname with
    | some sub => expand_function X fuel w sid varname sub []
    | none =>
      match p_get_variable w sid varname with
      | .error e => .error e
      | .ok (some result) => .ok (result, w)
      | .ok none =>
        match get_variable_stack w varname w._scope_stack.reverse with
        | .error e => .error e
        | .ok (some result) => .ok (result, w)
        | .ok none =>
          match getenv w varname with
          | some env => .ok (env, w)
          | none => .ok ([], w)
termination_by structural fuel _ _ _ => fuel

/-- The method `PPScope::expand_variable`. -/
def expand_variable (X : External) : Nat → World → Nat → Str → Eval Str
  | 0, _, _, _ => .error .fuel
  | fuel + 1, w, sid, varname =>
    match get_variable X fuel w sid varname with
    | .error e => .error e
    | .ok (str, w) => r_expand_string X fuel w sid [] str
termination_by structural fuel _ _ _ => fuel

end

/-- The method `PPScope::expand_string`. -/
def expand_string (X : External) (fuel : Nat) (w : World) (sid : Nat) (str : Str) :
    Eval Str :=
  r_expand_string X fuel w sid [] str


/-! ## The command-file interpreter (`ppCommandFile.cxx`)

The class declarations of `ppCommandFile.h` are not among the sources; the
structures below have the members that `ppCommandFile.cxx` uses. -/

/-- The states of an `IfNesting` record. -/
inductive IfState where
  | IS_on
  | IS_off
  | IS_else
  | IS_done
  deriving DecidableEq, Repr

/-- The line formats of a `WriteState`. -/
inductive WriteFormat where
  | WF_straight
  | WF_collapse
  | WF_makefile
  deriving DecidableEq, Repr

/-- A `WriteState`: the stream written to, the format and whether the last
line written was blank. -/
structure WriteState where
  _out : Nat
  _format : WriteFormat
  _last_blank : Bool
  deriving DecidableEq, Repr

/-- The kinds of a `BlockNesting` record. -/
inductive BlockState where
  | BS_begin
  | BS_forscopes
  | BS_nested_forscopes
  | BS_foreach
  | BS_nested_foreach
  | BS_formap
  | BS_nested_formap
  | BS_defsub
  | BS_defun
  | BS_output
  deriving DecidableEq, Repr

/-- A `BlockNesting` record. -/
structure BlockNesting where
  _state : BlockState
  _name : Str
  _write_state : WriteState
  _scope : Nat
  _words : List Str
  _true_name : Str
  _tempnam : Option Str
  _output : Nat
  deriving DecidableEq, Repr

/-- The members of a `PPCommandFile`; the linked lists `_if_nesting` and
`_block_nesting` have their innermost record first. -/
structure PPCommandFile where
  _native_scope : Nat
  _scope : Nat
  _got_command : Bool
  _in_for : Bool
  _if_nesting : List IfState
  _block_nesting : List BlockNesting
  _command : Str
  _params : Str
  _write_state : WriteState
  _saved_lines : List Str
  deriving DecidableEq, Repr

/-- The result of a method of the interpreter that returns `bool`. -/
abbrev Step := Except Fault (Bool × PPCommandFile × World)

/-- The insertion `(*_out) << text`. -/
def stream_write (w : World) (out : Nat) (text : Str) : Except Fault World :=
  match w.streams[out]? with
  | none => .error .abort
  | some written => .ok { w with streams := w.streams.set out (written ++ text) }

/-- The method `WriteState::write_collapse_line`. -/
def write_collapse_line (ws : WriteState) (w : World) (line : Str) :
    Except Fault (Bool × WriteState × World) :=
  if line.isEmpty then
    if ¬ ws._last_blank then
      match stream_write w ws._out "\n".toList with
      | .error e => .error e
      | .ok w => .ok (true, { ws with _last_blank := true }, w)
    else .ok (true, ws, w)
  else
    match stream_write w ws._out (line ++ "\n".toList) with
    | .error e => .error e
    | .ok w => .ok (true, { ws with _last_blank := false }, w)

/-- The folding loop of `write_makefile_line` over the words after the
second one; it returns the text written. -/
def makefile_fold : Nat → List Str → Str
  | _, [] => []
  | col, word :: rest =>
    if col + (word.length + 1) > 72 then
      " \\\n   ".toList ++ " ".toList ++ word ++ makefile_fold (4 + word.length) rest
    else " ".toList ++ word ++ makefile_fold (col + (word.length + 1)) rest

/-- The method `WriteState::write_makefile_line`. -/
def write_makefile_line (ws : WriteState) (w : World) (line : Str) :
    Except Fault (Bool × WriteState × World) :=
  if line.length ≤ 72 then write_collapse_line ws w line
  else
    let text :=
      match tokenize_whitespace line with
      | w0 :: w1 :: w2 :: rest =>
        if w1 = "=".toList ∨ w1 = ":".toList then
          w0 ++ " ".toList ++ w1 ++ makefile_fold 80 (w2 :: rest) ++ "\n".toList
        else line ++ "\n".toList
      | _ => line ++ "\n".toList
    match stream_write w ws._out text with
    | .error e => .error e
    | .ok w => .ok (true, { ws with _last_blank := false }, w)

/-- The method `WriteState::write_line`. -/
def write_line (ws : WriteState) (w : World) (line : Str) :
    Except Fault (Bool × WriteState × World) :=
  match ws._format with
  | .WF_straight =>
    (match stream_write w ws._out (line ++ "\n".toList) with
     | .error e => .error e
     | .ok w => .ok (true, ws, w))
  | .WF_collapse => write_collapse_line ws w line
  | .WF_makefile => write_makefile_line ws w line

/-- The method `PPCommandFile::failed_if`. -/
def failed_if (cf : PPCommandFile) : Bool :=
  match cf._if_nesting with
  | [] => false
  | state :: _ => state = .IS_off || state = .IS_done

/-- The loop of the if-family handlers that tests whether the parameter
string holds only whitespace. -/
def is_empty_params (params : Str) : Bool := params.all isspace

/-- The method `PPCommandFile::handle_if_command`. -/
def handle_if_command (X : External) (fuel : Nat) (cf : PPCommandFile) (w : World) : Step :=
  if failed_if cf then
    .ok (true, { cf with _if_nesting := .IS_done :: cf._if_nesting }, w)
  else
    let expanded : Eval Str :=
      if ¬ cf._in_for then expand_string X fuel w cf._scope cf._params
      else .ok (cf._params, w)
    match expanded with
    | .error e => .error e
    | .ok (params, w) =>
      .ok (true,
        { cf with
          _params := params,
          _if_nesting :=
            (if is_empty_params params then IfState.IS_off else IfState.IS_on) ::
              cf._if_nesting }, w)

/-- The method `PPCommandFile::handle_elif_command`. -/
def handle_elif_command (X : External) (fuel : Nat) (cf : PPCommandFile) (w : World) : Step :=
  match cf._if_nesting with
  | [] => .ok (false, cf, w)
  | state :: next =>
    if state = .IS_else then .ok (false, cf, w)
    else if state = .IS_on ∨ state = .IS_done then
      .ok (true, { cf with _if_nesting := .IS_done :: next }, w)
    else
      let expanded : Eval Str :=
        if ¬ cf._in_for then expand_string X fuel w cf._scope cf._params
        else .ok (cf._params, w)
      match expanded with
      | .error e => .error e
      | .ok (params, w) =>
        .ok (true,
          { cf with
            _params := params,
            _if_nesting :=
              (if is_empty_params params then IfState.IS_off else IfState.IS_on) :: next },
          w)

/-- The method `PPCommandFile::handle_else_command`. -/
def handle_else_command (cf : PPCommandFile) (w : World) : Step :=
  match cf._if_nesting with
  | [] => .ok (false, cf, w)
  | state :: next =>
    if state = .IS_else then .ok (false, cf, w)
    else if state = .IS_on ∨ state = .IS_done then
      .ok (true, { cf with _if_nesting := .IS_done :: next }, w)
    else .ok (true, { cf with _if_nesting := .IS_else :: next }, w)

/-- The method `PPCommandFile::handle_endif_command`. -/
def handle_endif_command (cf : PPCommandFile) (w : World) : Step :=
  match cf._if_nesting with
  | [] => .ok (false, cf, w)
  | _ :: next => .ok (true, { cf with _if_nesting := next }, w)

/-- The method `PPCommandFile::handle_error_command`. -/
def handle_error_command (X : External) (fuel : Nat) (cf : PPCommandFile) (w : World) :
    Step :=
  match expand_string X fuel w cf._scope cf._params with
  | .error e => .error e
  | .ok (_, w) => .ok (false, cf, w)

/-- The first word of the parameters of `#define`, `#set` and `#defer`:
the text before the first whitespace. -/
def params_varname (params : Str) : Str := params.takeWhile (fun c => !isspace c)

/-- The text after the first word of the parameters and the whitespace that
follows it. -/
def params_definition (params : Str) : Str :=
  (params.dropWhile (fun c => !isspace c)).dropWhile isspace

/-- The method `PPCommandFile::handle_define_command`. -/
def handle_define_command (X : External) (fuel : Nat) (cf : PPCommandFile) (w : World) :
    Step :=
  match expand_string X fuel w cf._scope (params_definition cf._params) with
  | .error e => .error e
  | .ok (definition, w) =>
    match define_variable w cf._scope (params_varname cf._params) definition with
    | .error e => .error e
    | .ok w => .ok (true, cf, w)

/-- The method `PPCommandFile::handle_set_command`. -/
def handle_set_command (X : External) (fuel : Nat) (cf : PPCommandFile) (w : World) :
    Step :=
  match expand_string X fuel w cf._scope (params_definition cf._params) with
  | .error e => .error e
  | .ok (definition, w) =>
    match set_variable w cf._scope (params_varname cf._params) definition with
    | .error e => .error e
    | .ok (false, _) => .ok (false, cf, w)
    | .ok (true, w) => .ok (true, cf, w)

/-- The handlers of the commands, as arguments of `handle_command`, which
only dispatches to them; `close_output` is the end of an `#output` block in
`handle_end_command`. -/
structure Handlers where
  handle_begin_command : PPCommandFile → World → Step
  handle_forscopes_command : PPCommandFile → World → Step
  handle_foreach_command : PPCommandFile → World → Step
  handle_formap_command : PPCommandFile → World → Step
  handle_format_command : PPCommandFile → World → Step
  handle_output_command : PPCommandFile → World → Step
  handle_print_command : PPCommandFile → World → Step
  handle_defsub_command : Bool → PPCommandFile → World → Step
  handle_end_command : PPCommandFile → World → Step
  handle_include_command : PPCommandFile → World → Step
  handle_sinclude_command : PPCommandFile → World → Step
  handle_call_command : PPCommandFile → World → Step
  handle_defer_command : PPCommandFile → World → Step
  handle_map_command : PPCommandFile → World → Step
  handle_addmap_command : PPCommandFile → World → Step
  close_output : BlockNesting → World → Except Fault (Bool × World) := fun _ w => .ok (true, w)

/-- The method `PPCommandFile::handle_command`.  When `_params` is empty the
test `_params[_params.length() - 1] == '\\'` reads the byte before the
buffer; `stray` is the character found there, and the assignment to that
position that follows a backslash is a write outside the string. -/
def handle_command (X : External) (H : Handlers) (stray : Char) (fuel : Nat)
    (cf : PPCommandFile) (w : World) (line : Str) : Step :=
  let cf :=
    if cf._got_command then { cf with _params := cf._params ++ line }
    else
      { cf with
        _command := line.takeWhile (fun c => !isspace c),
        _params := (line.dropWhile (fun c => !isspace c)).dropWhile isspace }
  if cf._params.getLast?.getD stray = '\\' then
    if cf._params.isEmpty then .error .abort
    else .ok (true, { cf with _got_command := true,
                              _params := cf._params.dropLast ++ " ".toList }, w)
  else
    let cf := { cf with _got_command := false }
    if cf._command = "if".toList then handle_if_command X fuel cf w
    else if cf._command = "elif".toList then handle_elif_command X fuel cf w
    else if cf._command = "else".toList then handle_else_command cf w
    else if cf._command = "endif".toList then handle_endif_command cf w
    else if failed_if cf then .ok (true, cf, w)
    else if cf._command = "begin".toList then H.handle_begin_command cf w
    else if cf._command = "forscopes".toList then H.handle_forscopes_command cf w
    else if cf._command = "foreach".toList then H.handle_foreach_command cf w
    else if cf._command = "formap".toList then H.handle_formap_command cf w
    else if cf._command = "format".toList then H.handle_format_command cf w
    else if cf._command = "output".toList then H.handle_output_command cf w
    else if cf._command = "print".toList then H.handle_print_command cf w
    else if cf._command = "defsub".toList then H.handle_defsub_command true cf w
    else if cf._command = "defun".toList then H.handle_defsub_command false cf w
    else if cf._command = "end".toList then H.handle_end_command cf w
    else if cf._in_for then .ok (true, cf, w)
    else if cf._command = "include".toList then H.handle_include_command cf w
    else if cf._command = "sinclude".toList then H.handle_sinclude_command cf w
    else if cf._command = "call".toList then H.handle_call_command cf w
    else if cf._command = "error".toList then handle_error_command X fuel cf w
    else if cf._command = "defer".toList then H.handle_defer_command cf w
    else if cf._command = "define".toList then handle_define_command X fuel cf w
    else if cf._command = "set".toList then handle_set_command X fuel cf w
    else if cf._command = "map".toList then H.handle_map_command cf w
    else if cf._command = "addmap".toList then H.handle_addmap_command cf w
    else .ok (false, cf, w)

/-- The call `line.find(begin_comment, start)`. -/
def find_from (pat : Str) (line : Str) (start : Nat) : Option Nat :=
  (str_find pat (line.drop start)).map (· + start)

/-- The loop of `read_line` that looks for a comment marker at the start of
the line or after whitespace; the candidate moves to the right at every
turn. -/
def find_comment_loop (text : Str) : Nat → Option Nat → Except Fault (Option Nat)
  | 0, _ => .error .fuel
  | _ + 1, none => .ok none
  | fuel + 1, some comment =>
    if comment = 0 ∨ (text[comment - 1]?.map isspace) = some true then .ok (some comment)
    else
      find_comment_loop text fuel
        (find_from BEGIN_COMMENT text (comment + BEGIN_COMMENT.length))

/-- The position at which `read_line` cuts a comment off, `none` for
`npos`. -/
def find_comment (line : Str) : Except Fault (Option Nat) :=
  find_comment_loop line (line.length + 1) (find_from BEGIN_COMMENT line 0)

/-- The method `PPCommandFile::read_line`. -/
def read_line (X : External) (H : Handlers) (stray : Char) (fuel : Nat)
    (cf : PPCommandFile) (w : World) (line : Str) : Step :=
  match find_comment line with
  | .error e => .error e
  | .ok found =>
    -- the whitespace before the comment goes with it
    let line := match found with
      | some comment => strip_trailing (line.take comment)
      | none => line
    let comment := found.map (fun _ => line.length)
    if comment ≠ some 0 then
      let cf := if cf._in_for then { cf with _saved_lines := cf._saved_lines ++ [line] } else cf
      if cf._got_command then handle_command X H stray fuel cf w line
      else
        let body := line.dropWhile isspace
        let is_command : Bool :=
          match body with
          | c :: d :: _ => c = COMMAND_PREFIX && isalpha d
          | _ => false
        if is_command then handle_command X H stray fuel cf w (body.drop 1)
        else
          let line := if body.isEmpty then [] else line
          if ¬ cf._in_for ∧ ¬ failed_if cf then
            match expand_string X fuel w cf._scope line with
            | .error e => .error e
            | .ok (text, w) =>
              match write_line cf._write_state w text with
              | .error e => .error e
              | .ok (ok, ws, w) => .ok (ok, { cf with _write_state := ws }, w)
          else .ok (true, cf, w)
    else .ok (true, cf, w)

/-! ## The dependency order of directories (`ppDirectory.cxx`) -/

/-- The comparison of `SortDirectoriesByDependencyAndName`. -/
def sort_directories_lt (a b : PPDirectory) : Bool :=
  if a._depends_index ≠ b._depends_index then decide (a._depends_index < b._depends_index)
  else str_lt a._dirname b._dirname

/-- The comparison of `SortDirectoriesByDependencyAndName` on two pointers
into the arena of directories. -/
def directories_lt (w : World) (a b : Nat) : Bool :=
  match w.dirs[a]?, w.dirs[b]? with
  | some da, some db => sort_directories_lt da db
  | _, _ => false

/-- The insertion of one element into a sorted list, before the first
element that the comparison puts after it. -/
def std_sort_insert {α : Type} (lt : α → α → Bool) (x : α) : List α → List α
  | [] => [x]
  | y :: ys => if lt x y then x :: y :: ys else y :: std_sort_insert lt x ys

/-- The call `sort(first, last, comp)` of the standard library, as an
insertion sort.  The standard leaves open the relative order of elements
that the comparison does not tell apart. -/
def std_sort {α : Type} (lt : α → α → Bool) (l : List α) : List α :=
  l.foldr (std_sort_insert lt) []

/-- The vector `copy_children` of `get_child_dirnames` and
`get_complete_subtree` after the call of `sort`. -/
def sorted_children (w : World) (dir : PPDirectory) : List Nat :=
  std_sort (directories_lt w) dir._children

/-- The names of the directories at the given addresses; `none` when one
of them is not the address of a directory. -/
def dirnames_of (w : World) : List Nat → Option (List Str)
  | [] => some []
  | d :: rest =>
    match w.dirs[d]?, dirnames_of w rest with
    | some dir, some names => some (dir._dirname :: names)
    | _, _ => none

/-- The method `PPDirectory::get_child_dirnames`. -/
def get_child_dirnames (w : World) (d : Nat) : Except Fault Str :=
  match w.dirs[d]? with
  | none => .error .abort
  | some dir =>
    match dirnames_of w (sorted_children w dir) with
    | none => .error .abort
    | some words => .ok (repaste words " ".toList)

/-- The method `PPDirectory::get_path`, with fuel for the recursion towards
the root. -/
def get_path (w : World) : Nat → Nat → Except Fault Str
  | 0, _ => .error .fuel
  | fuel + 1, d =>
    match w.dirs[d]? with
    | none => .error .abort
    | some dir =>
      match dir._parent with
      | none => .ok ".".toList
      | some p =>
        match w.dirs[p]? with
        | none => .error .abort
        | some parent =>
          if parent._parent = none then .ok dir._dirname
          else
            match get_path w fuel p with
            | .error e => .error e
            | .ok path => .ok (path ++ "/".toList ++ dir._dirname)

/-- The loop over the sorted children of `get_complete_subtree`; `subtree`
is the recursive call. -/
def get_complete_subtree_loop (subtree : Nat → Except Fault Str) :
    List Nat → Except Fault (List Str)
  | [] => .ok []
  | c :: rest =>
    match subtree c with
    | .error e => .error e
    | .ok word =>
      match get_complete_subtree_loop subtree rest with
      | .error e => .error e
      | .ok words => .ok (word :: words)

/-- The method `PPDirectory::get_complete_subtree`, with fuel for the
recursion into the subdirectories. -/
def get_complete_subtree (w : World) : Nat → Nat → Except Fault Str
  | 0, _ => .error .fuel
  | fuel + 1, d =>
    match w.dirs[d]? with
    | none => .error .abort
    | some dir =>
      match get_path w (w.dirs.length + 1) d with
      | .error e => .error e
      | .ok path =>
        match get_complete_subtree_loop (get_complete_subtree w fuel)
            (sorted_children w dir) with
        | .error e => .error e
        | .ok words => .ok (repaste (path :: words) " ".toList)

/-- The loop over `_i_depend_on` of `compute_depends_index`; `compute` is
the recursive call.  The result is `none` when the loop returns `false`, and
`max_index` when it runs to its end. -/
def compute_depends_index_loop
    (compute : List PPDirectory → Nat → Except Fault (Bool × List PPDirectory)) :
    List PPDirectory → List Nat → Int → Except Fault (Option Int × List PPDirectory)
  | dirs, [], max_index => .ok (some max_index, dirs)
  | dirs, di :: rest, max_index =>
    match dirs[di]? with
    | none => .error .abort
    | some dep =>
      if dep._computing_depends_index then .ok (none, dirs)
      else
        match compute dirs di with
        | .error e => .error e
        | .ok (false, dirs) => .ok (none, dirs)
        | .ok (true, dirs) =>
          match dirs[di]? with
          | none => .error .abort
          | some dep =>
            compute_depends_index_loop compute dirs rest (max max_index dep._depends_index)

/-- The method `PPDirectory::compute_depends_index` on the directory `d`,
with fuel for the recursion into the directories it depends on. -/
def compute_depends_index_rec : Nat → List PPDirectory → Nat →
    Except Fault (Bool × List PPDirectory)
  | 0, _, _ => .error .fuel
  | fuel + 1, dirs, d =>
    match dirs[d]? with
    | none => .error .abort
    | some dir =>
      if dir._depends_index ≠ 0 then .ok (true, dirs)
      else if dir._i_depend_on.isEmpty then
        .ok (true, dirs.set d { dir with _depends_index := 1 })
      else
        match compute_depends_index_loop (compute_depends_index_rec fuel)
            (dirs.set d { dir with _computing_depends_index := true }) dir._i_depend_on 0 with
        | .error e => .error e
        | .ok (none, dirs) => .ok (false, dirs)
        | .ok (some max_index, dirs) =>
          match dirs[d]? with
          | none => .error .abort
          | some dir =>
            .ok (true, dirs.set d { dir with _computing_depends_index := false,
                                             _depends_index := max_index + 1 })

/-- The method `PPDirectory::compute_depends_index`.  Every recursive call
marks one more directory as being computed, so the recursion is never deeper
than the number of directories. -/
def compute_depends_index (dirs : List PPDirectory) (d : Nat) :
    Except Fault (Bool × List PPDirectory) :=
  compute_depends_index_rec (dirs.length + 1) dirs d

/-- The loop over `_children` of `resolve_dependencies`; `resolve` is the
recursive call. -/
def resolve_dependencies_loop (resolve : World → Nat → Except Fault (Bool × World)) :
    World → List Nat → Except Fault (Bool × World)
  | w, [] => .ok (true, w)
  | w, c :: rest =>
    match resolve w c with
    | .error e => .error e
    | .ok (false, w) => .ok (false, w)
    | .ok (true, w) => resolve_dependencies_loop resolve w rest

/-- The method `PPDirectory::resolve_dependencies`, with fuel for the
recursion into the subdirectories. -/
def resolve_dependencies : Nat → World → Nat → Except Fault (Bool × World)
  | 0, _, _ => .error .fuel
  | fuel + 1, w, d =>
    match compute_depends_index w.dirs d with
    | .error e => .error e
    | .ok (false, dirs) => .ok (false, { w with dirs := dirs })
    | .ok (true, dirs) =>
      match dirs[d]? with
      | none => .error .abort
      | some dir =>
        match resolve_dependencies_loop (resolve_dependencies fuel) { w with dirs := dirs }
            dir._children with
        | .error e => .error e
        | .ok (false, w) => .ok (false, w)
        | .ok (true, w) =>
          match w.dirs[d]? with
          | none => .error .abort
          | some dir =>
            match dir._scope with
            | none => .ok (true, w)
            | some scope =>
              match get_child_dirnames w d with
              | .error e => .error e
              | .ok subdirs =>
                match define_variable w scope "SUBDIRS".toList subdirs with
                | .error e => .error e
                | .ok w =>
                  match get_complete_subtree w (w.dirs.length + 1) d with
                  | .error e => .error e
                  | .ok subtree =>
                    match define_variable w scope "SUBTREE".toList subtree with
                    | .error e => .error e
                    | .ok w => .ok (true, w)

/-- The loop of `get_complete_i_depend_on` and `get_complete_depends_on_me`
over a set of directories; `complete` is the recursive call and `dep` the
set being filled, as the list of its elements. -/
def get_complete_loop (complete : Nat → List Nat → Except Fault (List Nat)) :
    List Nat → List Nat → Except Fault (List Nat)
  | [], dep => .ok dep
  | dir :: rest, dep =>
    if dir ∈ dep then get_complete_loop complete rest dep
    else
      match complete dir (dir :: dep) with
      | .error e => .error e
      | .ok dep => get_complete_loop complete rest dep

/-- The method `PPDirectory::get_complete_i_depend_on` on the directory
`d`, with fuel for the recursion. -/
def get_complete_i_depend_on_rec (dirs : List PPDirectory) :
    Nat → Nat → List Nat → Except Fault (List Nat)
  | 0, _, _ => .error .fuel
  | fuel + 1, d, dep =>
    match dirs[d]? with
    | none => .error .abort
    | some dir =>
      get_complete_loop (get_complete_i_depend_on_rec dirs fuel) dir._i_depend_on dep

/-- The method `PPDirectory::get_complete_i_depend_on`.  Every recursive
call follows the insertion of a new directory into the set, so the recursion
is never deeper than the number of directories. -/
def get_complete_i_depend_on (dirs : List PPDirectory) (d : Nat) (dep : List Nat) :
    Except Fault (List Nat) :=
  get_complete_i_depend_on_rec dirs (dirs.length + 1) d dep

/-- The method `PPDirectory::get_complete_depends_on_me` on the directory
`d`, with fuel for the recursion. -/
def get_complete_depends_on_me_rec (dirs : List PPDirectory) :
    Nat → Nat → List Nat → Except Fault (List Nat)
  | 0, _, _ => .error .fuel
  | fuel + 1, d, dep =>
    match dirs[d]? with
    | none => .error .abort
    | some dir =>
      get_complete_loop (get_complete_depends_on_me_rec dirs fuel) dir._depends_on_me dep

/-- The method `PPDirectory::get_complete_depends_on_me`. -/
def get_complete_depends_on_me (dirs : List PPDirectory) (d : Nat) (dep : List Nat) :
    Except Fault (List Nat) :=
  get_complete_depends_on_me_rec dirs (dirs.length + 1) d dep

/-! ## The block commands of the interpreter (`ppCommandFile.cxx`) -/

abbrev SCOPE_DIRNAME_SEPARATOR : Char := '/'

/-- Modelled from the spec: `contains_whitespace` of `tokenize.h`, which is
not among the sources. -/
def contains_whitespace (s : Str) : Bool := s.any isspace

/-- The registry of named scopes with one more scope entered under
`name`, after the scopes that already have this name. -/
def registry_add (name : Str) (sid : Nat) : List (Str × List Nat) → List (Str × List Nat)
  | [] => [(name, [sid])]
  | (k, v) :: rest =>
    if k = name then (k, v ++ [sid]) :: rest else (k, v) :: registry_add name sid rest

/-- Modelled from the spec: `PPNamedScopes::make_scope` (its class is not
among the sources), which creates a scope that knows the registry and enters
it in the registry under the name. -/
def make_scope (w : World) (name : Str) : Nat × World :=
  (w.scopes.length,
   { w with
     scopes := w.scopes ++
       [{ _variables := [], _map_variables := [], _parent_scope := none, _directory := none,
          _named_scopes := true }],
     named := registry_add name w.scopes.length w.named })

/-- The method `PPScope::set_parent`. -/
def set_parent (w : World) (sid parent : Nat) : Except Fault World :=
  match w.scopes[sid]? with
  | none => .error .abort
  | some sc => .ok (w.put_scope sid { sc with _parent_scope := some parent })

/-- The method `PPScope::get_bottom_scope`. -/
def get_bottom_scope (w : World) : Except Fault Nat :=
  match w._scope_stack with
  | [] => .error .abort
  | bottom :: _ => .ok bottom

/-- The loop of `get_directory` over the scope stack, from its top. -/
def get_directory_stack (w : World) : List Nat → Except Fault (Option Nat)
  | [] => .ok none
  | si :: rest =>
    match w.scopes[si]? with
    | none => .error .abort
    | some sc =>
      match sc._directory with
      | some d => .ok (some d)
      | none => get_directory_stack w rest

/-- The method `PPScope::get_directory`. -/
def get_directory (w : World) (sid : Nat) : Except Fault (Option Nat) :=
  match w.scopes[sid]? with
  | none => .error .abort
  | some sc =>
    match sc._directory with
    | some d => .ok (some d)
    | none => get_directory_stack w w._scope_stack.reverse

/-- Modelled from the spec: the comparison used by
`PPNamedScopes::sort_by_dependency` (its class is not among the sources):
ascending depends-index of the directory of the scope, ties broken by the
name of the directory.  A scope without a directory stands before the
scopes that have one. -/
def scopes_lt (w : World) (a b : Nat) : Bool :=
  match get_directory w a, get_directory w b with
  | .ok (some da), .ok (some db) => directories_lt w da db
  | .ok none, .ok (some _) => true
  | _, _ => false

/-- Modelled from the spec: the insertion of one scope into the sorted
vector of `PPNamedScopes::sort_by_dependency`, after the scopes that the
comparison puts before it. -/
def sort_by_dependency_insert (w : World) (x : Nat) : List Nat → List Nat
  | [] => [x]
  | y :: ys =>
    if scopes_lt w y x then y :: sort_by_dependency_insert w x ys else x :: y :: ys

/-- Modelled from the spec: `PPNamedScopes::sort_by_dependency`, which puts
the scopes in the order of ascending depends-index of their directories,
ties broken by the name of the directory.  The spec gives no order for
scopes that agree in both (scopes of one directory): they keep the order in
which they stand in the vector. -/
def sort_by_dependency (w : World) (scopes : List Nat) : List Nat :=
  scopes.foldr (sort_by_dependency_insert w) []

/-- A new `BlockNesting` record as the block commands fill it in: the kind,
the name, the words, and the writer and scope of the interpreter; the other
members are those of a record that opens no file. -/
def open_block (state : BlockState) (name : Str) (words : List Str) (cf : PPCommandFile) :
    BlockNesting :=
  { _state := state, _name := name, _write_state := cf._write_state, _scope := cf._scope,
    _words := words, _true_name := [], _tempnam := none, _output := 0 }

/-- The end of the commands that capture lines: the record becomes the
innermost one, and outside a capture the capture starts with no saved
line. -/
def begin_capture (nest : BlockNesting) (cf : PPCommandFile) : PPCommandFile :=
  if cf._in_for then { cf with _block_nesting := nest :: cf._block_nesting }
  else
    { cf with _block_nesting := nest :: cf._block_nesting, _in_for := true, _saved_lines := [] }

/-- The method `PPCommandFile::handle_begin_command`. -/
def handle_begin_command (X : External) (fuel : Nat) (cf : PPCommandFile) (w : World) :
    Step :=
  match expand_string X fuel w cf._scope cf._params with
  | .error e => .error e
  | .ok (text, w) =>
    let nest := open_block .BS_begin (trim_blanks text) [] cf
    if contains_whitespace nest._name then .ok (false, cf, w)
    else if SCOPE_DIRNAME_SEPARATOR ∈ nest._name then .ok (false, cf, w)
    else
      let cf := { cf with _block_nesting := nest :: cf._block_nesting }
      if nest._name = "global".toList then
        match get_bottom_scope w with
        | .error e => .error e
        | .ok bottom => .ok (true, { cf with _scope := bottom }, w)
      else
        match w.scopes[cf._scope]? with
        | none => .error .abort
        | some sc =>
          if ¬ sc._named_scopes then .error .abort
          else
            match set_parent (make_scope w nest._name).2 (make_scope w nest._name).1
                cf._scope with
            | .error e => .error e
            | .ok w2 => .ok (true, { cf with _scope := (make_scope w nest._name).1 }, w2)

/-- The method `PPCommandFile::handle_forscopes_command`. -/
def handle_forscopes_command (X : External) (fuel : Nat) (cf : PPCommandFile) (w : World) :
    Step :=
  match expand_string X fuel w cf._scope cf._params with
  | .error e => .error e
  | .ok (text, w) =>
    let state := if cf._in_for then BlockState.BS_nested_forscopes else BlockState.BS_forscopes
    .ok (true, begin_capture (open_block state (trim_blanks text) [] cf) cf, w)

/-- The method `PPCommandFile::handle_foreach_command`. -/
def handle_foreach_command (X : External) (fuel : Nat) (cf : PPCommandFile) (w : World) :
    Step :=
  match expand_string X fuel w cf._scope cf._params with
  | .error e => .error e
  | .ok (text, w) =>
    match tokenize_whitespace text with
    | [] => .ok (false, cf, w)
    | variable_name :: values =>
      let state := if cf._in_for then BlockState.BS_nested_foreach else BlockState.BS_foreach
      .ok (true, begin_capture (open_block state variable_name values cf) cf, w)

/-- The method `PPCommandFile::handle_formap_command`. -/
def handle_formap_command (X : External) (fuel : Nat) (cf : PPCommandFile) (w : World) :
    Step :=
  match expand_string X fuel w cf._scope cf._params with
  | .error e => .error e
  | .ok (text, w) =>
    match tokenize_whitespace text with
    | [variable_name, mapvar] =>
      let state := if cf._in_for then BlockState.BS_nested_formap else BlockState.BS_formap
      .ok (true, begin_capture (open_block state variable_name [mapvar] cf) cf, w)
    | _ => .ok (false, cf, w)

/-- The method `PPCommandFile::handle_format_command`. -/
def handle_format_command (X : External) (fuel : Nat) (cf : PPCommandFile) (w : World) :
    Step :=
  match expand_string X fuel w cf._scope cf._params with
  | .error e => .error e
  | .ok (text, w) =>
    let cf := { cf with _params := trim_blanks text }
    if cf._params = "straight".toList then
      .ok (true, { cf with _write_state := { cf._write_state with _format := .WF_straight } }, w)
    else if cf._params = "collapse".toList then
      .ok (true, { cf with _write_state := { cf._write_state with _format := .WF_collapse } }, w)
    else if cf._params = "makefile".toList then
      .ok (true, { cf with _write_state := { cf._write_state with _format := .WF_makefile } }, w)
    else .ok (true, cf, w)

/-- The method `PPCommandFile::handle_print_command`; the text goes to the
standard error stream. -/
def handle_print_command (X : External) (fuel : Nat) (cf : PPCommandFile) (w : World) :
    Step :=
  if ¬ cf._in_for then
    match expand_string X fuel w cf._scope cf._params with
    | .error e => .error e
    | .ok (_, w) => .ok (true, cf, w)
  else .ok (true, cf, w)

/-- The method `PPCommandFile::is_valid_formal`. -/
def is_valid_formal (formal_parameter_name : Str) : Bool :=
  !formal_parameter_name.isEmpty &&
    formal_parameter_name.all (fun c => !(" \n\t$[],".toList.contains c))

/-- The method `PPCommandFile::handle_defsub_command`. -/
def handle_defsub_command (X : External) (fuel : Nat) (is_defsub : Bool)
    (cf : PPCommandFile) (w : World) : Step :=
  let subroutine_name := trim_blanks (params_varname cf._params)
  if subroutine_name.isEmpty then .ok (false, cf, w)
  else
    match tokenize_params X fuel w cf._scope
        (cf._params.dropWhile (fun c => !isspace c)) false with
    | .error e => .error e
    | .ok (formals, w) =>
      if ¬ formals.all is_valid_formal then .ok (false, cf, w)
      else if cf._in_for then .ok (false, cf, w)
      else
        let state := if is_defsub then BlockState.BS_defsub else BlockState.BS_defun
        .ok (true, begin_capture (open_block state subroutine_name formals cf) cf, w)

/-- A reader of one line: `read_line` as the replays call it. -/
abbrev Reader := PPCommandFile → World → Str → Step

/-- The loop `for (li = lines.begin(); li != lines.end() && okflag; ++li)`
of the replays, which reads the saved lines until one fails. -/
def replay_lines (reader : Reader) : List Str → Bool → PPCommandFile → World → Step
  | [], okflag, cf, w => .ok (okflag, cf, w)
  | line :: rest, okflag, cf, w =>
    if okflag then
      match reader cf w line with
      | .error e => .error e
      | .ok (okflag, cf, w) => replay_lines reader rest okflag cf w
    else .ok (false, cf, w)

/-- The loop over the words of `replay_foreach`. -/
def replay_foreach_loop (reader : Reader) (varname : Str) (lines : List Str) :
    List Str → Bool → PPCommandFile → World → Step
  | [], okflag, cf, w => .ok (okflag, cf, w)
  | word :: rest, okflag, cf, w =>
    match define_variable w cf._scope varname word with
    | .error e => .error e
    | .ok w =>
      match replay_lines reader lines okflag cf w with
      | .error e => .error e
      | .ok (okflag, cf, w) => replay_foreach_loop reader varname lines rest okflag cf w

/-- The method `PPCommandFile::replay_foreach`. -/
def replay_foreach (reader : Reader) (cf : PPCommandFile) (w : World) (varname : Str)
    (words : List Str) : Step :=
  -- `lines.swap(_saved_lines)`, then the assertion and `lines.pop_back()`
  if cf._saved_lines.isEmpty then .error .abort
  else
    replay_foreach_loop reader varname cf._saved_lines.dropLast words true
      { cf with _saved_lines := [] } w

/-- The loop over the scopes of `replay_forscopes`. -/
def replay_forscopes_loop (reader : Reader) (lines : List Str) :
    List Nat → Bool → PPCommandFile → World → Step
  | [], okflag, cf, w => .ok (okflag, cf, w)
  | scope :: rest, okflag, cf, w =>
    match replay_lines reader lines okflag { cf with _scope := scope }
        (push_scope w cf._scope) with
    | .error e => .error e
    | .ok (okflag, cf, w) =>
      match pop_scope w with
      | .error e => .error e
      | .ok (back, w) =>
        replay_forscopes_loop reader lines rest okflag { cf with _scope := back } w

/-- The method `PPCommandFile::replay_forscopes`. -/
def replay_forscopes (reader : Reader) (cf : PPCommandFile) (w : World) (name : Str) :
    Step :=
  if cf._saved_lines.isEmpty then .error .abort
  else
    match w.scopes[cf._scope]? with
    | none => .error .abort
    | some sc =>
      let words := tokenize_whitespace name
      -- `named_scopes->get_scopes` on a null pointer
      if ¬ sc._named_scopes ∧ ¬ words.isEmpty then .error .abort
      else
        replay_forscopes_loop reader cf._saved_lines.dropLast
          (sort_by_dependency w (words.map (get_scopes w)).flatten) true
          { cf with _saved_lines := [] } w

/-- The entry at which the iterator `di` of `replay_formap` stands: the
first entry of the map at the start, and after `++di` the entry that follows
the one just visited, whose key is `last`.  The definition holds its entries
in the order of their keys, so this is the first entry whose key comes after
`last`. -/
def formap_next (mapdef : List (Str × Nat)) : Option Str → Option (Str × Nat)
  | none => mapdef.head?
  | some last => mapdef.find? (fun entry => str_lt last entry.1)

/-- The loop over the map definition of `replay_formap`.  The map is read
through the reference `def`, the definition of `mapvar` held by the scope
`owner`, as it is when the iterator advances; `last` is the key of the entry
just visited, and the natural number bounds the number of entries visited. -/
def replay_formap_loop (reader : Reader) (varname : Str) (lines : List Str) (owner : Nat)
    (mapvar : Str) : Nat → Option Str → Bool → PPCommandFile → World → Step
  | 0, _, _, _, _ => .error .fuel
  | fuel + 1, last, okflag, cf, w =>
    match formap_next (map_variable_at w owner mapvar) last with
    | none => .ok (okflag, cf, w)
    | some (key, scope) =>
      if okflag then
        match define_variable w cf._scope varname key with
        | .error e => .error e
        | .ok w =>
          match replay_lines reader lines okflag { cf with _scope := scope }
              (push_scope w cf._scope) with
          | .error e => .error e
          | .ok (okflag, cf, w) =>
            match pop_scope w with
            | .error e => .error e
            | .ok (back, w) =>
              replay_formap_loop reader varname lines owner mapvar fuel (some key) okflag
                { cf with _scope := back } w
      else .ok (false, cf, w)

/-- The method `PPCommandFile::replay_formap`; `fuel` bounds the number of
entries visited. -/
def replay_formap (reader : Reader) (fuel : Nat) (cf : PPCommandFile) (w : World)
    (varname mapvar : Str) : Step :=
  if cf._saved_lines.isEmpty then .error .abort
  else
    match find_map_variable_owner w cf._scope mapvar with
    | .error e => .error e
    | .ok none => .ok (false, { cf with _saved_lines := [] }, w)
    | .ok (some owner) =>
      replay_formap_loop reader varname cf._saved_lines.dropLast owner mapvar fuel none true
        { cf with _saved_lines := [] } w

/-- Modelled from the spec: `PPSubroutine::define_sub`, the entry of a
subroutine in the registry of the subroutines called by `#call` (the class
is not among the sources). -/
def define_sub (w : World) (name : Str) (sub : PPSubroutine) : World :=
  { w with subs := map_insert name sub w.subs }

/-- Modelled from the spec: `PPSubroutine::define_func`, the entry of a
subroutine in the registry of the functions. -/
def define_func (w : World) (name : Str) (sub : PPSubroutine) : World :=
  { w with funcs := map_insert name sub w.funcs }

/-- The method `PPCommandFile::handle_end_command`.  `close_output` stands
for the end of an `#output` block outside a capture (the check and the close
of the file and `compare_output`).  Two `WriteState` objects of one
interpreter write to different streams, so the comparison of the two
pointers is the comparison of their `_out`. -/
def handle_end_command (X : External)
    (close_output : BlockNesting → World → Except Fault (Bool × World)) (reader : Reader)
    (fuel : Nat) (cf : PPCommandFile) (w : World) : Step :=
  match cf._block_nesting with
  | [] => .ok (false, cf, w)
  | nest :: next =>
    match expand_string X fuel w cf._scope cf._params with
    | .error e => .error e
    | .ok (text, w) =>
      if trim_blanks text ≠ nest._name then .ok (false, cf, w)
      else
        let cf :=
          { cf with
            _scope := nest._scope,
            _write_state :=
              if cf._write_state._out ≠ nest._write_state._out then nest._write_state
              else cf._write_state,
            _block_nesting := next }
        match nest._state with
        | .BS_forscopes => replay_forscopes reader { cf with _in_for := false } w nest._name
        | .BS_foreach =>
          replay_foreach reader { cf with _in_for := false } w nest._name nest._words
        | .BS_formap =>
          (match nest._words with
           | [mapvar] =>
             replay_formap reader fuel { cf with _in_for := false } w nest._name mapvar
           | _ => .error .abort)
        | .BS_defsub =>
          if cf._saved_lines.isEmpty then .error .abort
          else
            .ok (true, { cf with _in_for := false, _saved_lines := [] },
              define_sub w nest._name
                { formals := nest._words, lines := cf._saved_lines.dropLast })
        | .BS_defun =>
          if cf._saved_lines.isEmpty then .error .abort
          else
            .ok (true, { cf with _in_for := false, _saved_lines := [] },
              define_func w nest._name
                { formals := nest._words, lines := cf._saved_lines.dropLast })
        | .BS_output =>
          if ¬ cf._in_for then
            match close_output nest w with
            | .error e => .error e
            | .ok (ok, w) => .ok (ok, cf, w)
          else .ok (true, cf, w)
        | _ => .ok (true, cf, w)

/-- The loop of `expand_self_reference`, on the suffix that starts at `p`;
`reference` is the text `$[varname]` and `fuel` the fuel of every
expansion. -/
def expand_self_reference_loop (X : External) (fuel : Nat) (sid : Nat) (reference : Str) :
    Nat → World → Str → Eval Str
  | 0, _, _ => .error .fuel
  | steps + 1, w, str =>
    match str_find reference str with
    | none => .ok (str, w)
    | some q =>
      match r_expand_variable X fuel w sid [] (str.drop q) with
      | .error e => .error e
      | .ok ((text, rest), w) =>
        match expand_self_reference_loop X fuel sid reference steps w rest with
        | .error e => .error e
        | .ok (result, w) => .ok (str.take q ++ text ++ result, w)

/-- The method `PPScope::expand_self_reference`.  Every turn of its loop
moves `p` to the right, so the loop has at most as many turns as the string
has characters. -/
def expand_self_reference (X : External) (fuel : Nat) (w : World) (sid : Nat)
    (str varname : Str) : Eval Str :=
  expand_self_reference_loop X fuel sid
    ([VARIABLE_PREFIX, VARIABLE_OPEN_BRACE] ++ varname ++ [VARIABLE_CLOSE_BRACE])
    (str.length + 1) w str

/-- The method `PPCommandFile::handle_defer_command`. -/
def handle_defer_command (X : External) (fuel : Nat) (cf : PPCommandFile) (w : World) :
    Step :=
  match expand_self_reference X fuel w cf._scope (params_definition cf._params)
      (params_varname cf._params) with
  | .error e => .error e
  | .ok (definition, w) =>
    match define_variable w cf._scope (params_varname cf._params) definition with
    | .error e => .error e
    | .ok w => .ok (true, cf, w)

/-- The handlers of the interpreter when its replays read their lines with
`reader`: those described above, and those of `B` for the commands
`#output`, `#include`, `#sinclude`, `#call`, `#map` and `#addmap`. -/
def interpreter_handlers (X : External) (B : Reader → Handlers) (fuel : Nat)
    (reader : Reader) : Handlers :=
  { B reader with
    handle_begin_command := handle_begin_command X fuel
    handle_forscopes_command := handle_forscopes_command X fuel
    handle_foreach_command := handle_foreach_command X fuel
    handle_formap_command := handle_formap_command X fuel
    handle_format_command := handle_format_command X fuel
    handle_print_command := handle_print_command X fuel
    handle_defsub_command := handle_defsub_command X fuel
    handle_end_command := handle_end_command X (B reader).close_output reader fuel
    handle_defer_command := handle_defer_command X fuel }

/-- The method `PPCommandFile::read_line` with its recursion through the
replays: `depth` bounds the nesting of the replays, and a replay nested
deeper runs out of fuel. -/
def read_line_rec (X : External) (B : Reader → Handlers) (stray : Char) (fuel : Nat) :
    Nat → Reader
  | 0 => fun _ _ _ => .error .fuel
  | depth + 1 =>
    read_line X (interpreter_handlers X B fuel (read_line_rec X B stray fuel depth)) stray fuel

/-- The loop of `read_stream` and `include_file`, which reads line after
line until one fails. -/
def read_lines (reader : Reader) : List Str → PPCommandFile → World → Step
  | [], cf, w => .ok (true, cf, w)
  | line :: rest, cf, w =>
    match reader cf w line with
    | .error e => .error e
    | .ok (false, cf, w) => .ok (false, cf, w)
    | .ok (true, cf, w) => read_lines reader rest cf w

/-- The word that `end_read` prints for the kind of an unclosed block. -/
def unclosed_kind : BlockState → Str
  | .BS_begin => "begin".toList
  | .BS_forscopes => "forscopes".toList
  | .BS_nested_forscopes => "forscopes".toList
  | .BS_foreach => "foreach".toList
  | .BS_nested_foreach => "foreach".toList
  | .BS_formap => "formap".toList
  | .BS_nested_formap => "formap".toList
  | .BS_defsub => "defsub".toList
  | .BS_defun => "defun".toList
  | .BS_output => "output".toList

/-- The method `PPCommandFile::end_read`; the third component is the text
written to the standard error stream. -/
def end_read (cf : PPCommandFile) : Bool × PPCommandFile × Str :=
  let if_report : Str := if cf._if_nesting ≠ [] then "Unclosed if\n".toList else []
  let block_report : Str :=
    match cf._block_nesting with
    | [] => []
    | nest :: _ =>
      "Unclosed ".toList ++ unclosed_kind nest._state ++ " ".toList ++ nest._name ++
        "\n".toList
  (decide (cf._if_nesting = [] ∧ cf._block_nesting = []),
   { cf with _if_nesting := [], _block_nesting := [] }, if_report ++ block_report)

/-- The method `PPCommandFile::read_stream` on the lines of the stream:
`begin_read` asserts that no frame is open. -/
def read_stream (reader : Reader) (cf : PPCommandFile) (w : World) (lines : List Str) :
    Step :=
  if cf._if_nesting ≠ [] ∨ cf._block_nesting ≠ [] then .error .abort
  else
    match read_lines reader lines cf w with
    | .error e => .error e
    | .ok (false, cf, w) => .ok (false, cf, w)
    | .ok (true, cf, w) => .ok ((end_read cf).1, (end_read cf).2.1, w)

/-! ## Process states and inputs used in the examples -/

/-- The text `$[` that opens a variable reference. -/
def reference_open : Str := [VARIABLE_PREFIX, VARIABLE_OPEN_BRACE]

/-- A set of collaborators for the examples: an empty file system, a shell
that prints nothing, function bodies that write nothing and a `transform`
that gives the empty string where the spec does not give its result. -/
def quiet : External where
  glob := fun _ => []
  stat_isdir := fun _ => false
  stat_isreg := fun _ => false
  access := fun _ => false
  find_searchpath := fun _ _ => []
  shell := fun _ => []
  read_lines := fun w _ _ => .ok ([], w)
  transform_unmatched := fun _ _ _ => []

/-- A scope without bindings, parent or directory. -/
def empty_scope : PPScope :=
  { _variables := [], _map_variables := [], _parent_scope := none, _directory := none,
    _named_scopes := false }

/-- A process state with the given scopes, one empty output stream and
nothing else. -/
def world_of (scopes : List PPScope) : World :=
  { scopes := scopes, _scope_stack := [], environ := [], funcs := [], named := [], dirs := [],
    current_output_directory := none, streams := [[]] }

/-- A scope in which `v` is defined as `$[upcase $[v]]`. -/
def upcase_cycle : World :=
  world_of [{ empty_scope with _variables := [("v".toList, "$[upcase $[v]]".toList)] }]

/-- A plain variable name: no whitespace, no bracket, no `:` and no `(`. -/
def plain_name (name : Str) : Prop :=
  ∀ c ∈ name, isspace c = false ∧ c ≠ '[' ∧ c ≠ ']' ∧ c ≠ ':' ∧ c ≠ '('

instance (name : Str) : Decidable (plain_name name) := by
  unfold plain_name; infer_instance

/-- The text `$[name]` of a plain reference to `name`. -/
def reference (name : Str) : Str :=
  VARIABLE_PREFIX :: VARIABLE_OPEN_BRACE :: (name ++ [VARIABLE_CLOSE_BRACE])

/-- A scope in which `v` is defined as `a$[v]b`. -/
def self_cycle : World :=
  world_of [{ empty_scope with _variables := [("v".toList, "a$[v]b".toList)] }]

/-- The splitting rule of the spec for `tokenize_params`, by bracket
counting: `depth` is the number of `$[` spans open at this point and `cur`
the piece collected so far.  A `$[` opens a span, a `]` closes the innermost
open span, and a separator splits only when no span is open; everything but
the splitting separators is copied. -/
def split_spans : Nat → Str → Str → List Str
  | _, cur, [] => [cur]
  | depth, cur, [c] =>
    if c = FUNCTION_PARAMETER_SEPARATOR ∧ depth = 0 then [cur, []] else [cur ++ [c]]
  | depth, cur, c :: d :: rest =>
    if c = VARIABLE_PREFIX ∧ d = VARIABLE_OPEN_BRACE then
      split_spans (depth + 1) (cur ++ [c, d]) rest
    else if c = VARIABLE_CLOSE_BRACE ∧ 0 < depth then
      split_spans (depth - 1) (cur ++ [c]) (d :: rest)
    else if c = FUNCTION_PARAMETER_SEPARATOR ∧ depth = 0 then
      cur :: split_spans 0 [] (d :: rest)
    else split_spans depth (cur ++ [c]) (d :: rest)

/-- The tokens that the spec prescribes for `tokenize_params` without
expansion: the pieces between the separators that lie outside every span,
each stripped of leading and trailing whitespace; the empty string has no
token. -/
def tokens_by_bracket_counting (str : Str) : List Str :=
  if str = [] then [] else (split_spans 0 [] str).map trim_blanks

/-- A scope in which `X` is defined as ` a`, a value that begins with a
space (as left by `#define X $[E] a` when `E` is empty). -/
def leading_space : World :=
  world_of [{ empty_scope with _variables := [("X".toList, " a".toList)] }]

/-- The static chain of a scope: the scope itself, then its static parent,
the parent of that, and so on; `none` when a pointer dangles or the chain
does not end within `fuel` steps. -/
def static_chain (w : World) : Nat → Nat → Option (List Nat)
  | 0, _ => none
  | fuel + 1, sid =>
    match w.scopes[sid]? with
    | none => none
    | some sc =>
      match sc._parent_scope with
      | none => some [sid]
      | some parent => (static_chain w fuel parent).map (sid :: ·)

/-- The static chains of the given scopes, one after the other. -/
def static_chains (w : World) : List Nat → Option (List Nat)
  | [] => some []
  | si :: rest =>
    match static_chain w w.scopes.length si, static_chains w rest with
    | some chain, some others => some (chain ++ others)
    | _, _ => none

/-- The resolution order of the spec for a scope: its static chain, nearest
first, then the static chain of every entry of the dynamic scope stack, from
the innermost entry to the outermost. -/
def resolution_order (w : World) (sid : Nat) : Option (List Nat) :=
  match static_chain w w.scopes.length sid, static_chains w w._scope_stack.reverse with
  | some own, some stacked => some (own ++ stacked)
  | _, _ => none

/-- The binding of a name in the local map of one scope. -/
def local_binding (w : World) (varname : Str) (sid : Nat) : Option Str :=
  match w.scopes[sid]? with
  | none => none
  | some sc => sc._variables.lookup varname

/-- The value that a scope synthesizes for `RELDIR` and `DEPENDS_INDEX`:
`RELDIR` needs a directory on the scope and a current output directory,
`DEPENDS_INDEX` a directory on the scope. -/
def synthesized (w : World) (varname : Str) (sc : PPScope) : Option (Except Fault Str) :=
  match sc._directory with
  | none => none
  | some dir =>
    if varname = "RELDIR".toList then
      match w.current_output_directory with
      | some cur => some (get_rel_to w cur dir)
      | none => none
    else if varname = "DEPENDS_INDEX".toList then
      some (match w.dirs[dir]? with
        | none => .error .abort
        | some d => .ok (sprintf_d d._depends_index))
    else none

/-- What one scope answers to a lookup: its local binding, or else the value
it synthesizes. -/
def scope_answer (w : World) (varname : Str) (sid : Nat) : Option (Except Fault Str) :=
  match w.scopes[sid]? with
  | none => none
  | some sc =>
    match sc._variables.lookup varname with
    | some d => some (.ok d)
    | none => synthesized w varname sc

/-- The outcome of a search through the scopes of `order` that stops at the
first scope with an answer. -/
def first_answer (w : World) (varname : Str) (order : List Nat) : Except Fault (Option Str) :=
  match order.findSome? (scope_answer w varname) with
  | some (.ok d) => .ok (some d)
  | some (.error e) => .error e
  | none => .ok none

/-- A tree with the root directory and its child `a`; the current output
directory is the root. -/
def two_dirs : List PPDirectory :=
  [{ _dirname := "top".toList, _parent := none, _depth := 0, _depends_index := 0 },
   { _dirname := "a".toList, _parent := some 0, _depth := 1, _depends_index := 0 }]

/-- Scope 1 belongs to directory `a` and has scope 0 as static parent, which
binds `RELDIR`. -/
def reldir_in_parent : World :=
  { world_of
      [{ empty_scope with _variables := [("RELDIR".toList, "elsewhere".toList)] },
       { empty_scope with _parent_scope := some 0, _directory := some 1 }] with
    dirs := two_dirs, current_output_directory := some 0 }

/-- Scope 1 belongs to directory `a`; scope 0, on the dynamic stack, binds
`RELDIR`. -/
def reldir_on_stack : World :=
  { world_of
      [{ empty_scope with _variables := [("RELDIR".toList, "elsewhere".toList)] },
       { empty_scope with _directory := some 1 }] with
    _scope_stack := [0], dirs := two_dirs, current_output_directory := some 0 }

/-- Four scopes: scope 2 binds `A` and has scope 1 as static parent, which
binds `A` and `B`; the dynamic stack holds scope 0 (bottom) and scope 3,
which bind `B` and `C`. -/
def lookup_world : World :=
  { world_of
      [{ empty_scope with _variables := [("B".toList, "bottom".toList),
          ("C".toList, "bottom".toList)] },
       { empty_scope with _variables := [("A".toList, "parent".toList),
          ("B".toList, "parent".toList)] },
       { empty_scope with
          _variables := [("A".toList, "local".toList)], _parent_scope := some 1 },
       { empty_scope with _variables := [("B".toList, "stack".toList),
          ("C".toList, "stack".toList)] }] with
    _scope_stack := [0, 3], environ := [("HOME".toList, "/root".toList)] }

/-- Whether a scope binds the name in its local map. -/
def binds (w : World) (varname : Str) (sid : Nat) : Bool :=
  (local_binding w varname sid).isSome

/-- The state in which the binding of `varname` in the local map of scope
`sid` has been overwritten and nothing else has changed. -/
def overwrite (w : World) (sid : Nat) (varname definition : Str) : World :=
  match w.scopes[sid]? with
  | none => w
  | some sc =>
    w.put_scope sid { sc with _variables := map_assign varname definition sc._variables }

/-- The name of a directory of the arena. -/
def dirname_of (w : World) (d : Nat) : Str :=
  match w.dirs[d]? with
  | none => []
  | some dir => dir._dirname

/-- `IsPath w d path`: `path` lists the directory `d`, its parent, the
parent of that and so on up to the root, and every directory on it records
as `_depth` its distance from the root, as the constructors of `PPDirectory`
arrange. -/
inductive IsPath (w : World) : Nat → List Nat → Prop where
  | root {d : Nat} {dir : PPDirectory} :
      w.dirs[d]? = some dir → dir._parent = none → dir._depth = 0 → IsPath w d [d]
  | child {d : Nat} {dir : PPDirectory} {p : Nat} {tl : List Nat} :
      w.dirs[d]? = some dir → dir._parent = some p → dir._depth = tl.length →
      IsPath w p tl → IsPath w d (d :: tl)

/-- The relative path that climbs `ups` levels and then descends through
the directories `downs` (listed from the deepest one upwards). -/
def relative_path (w : World) (ups : Nat) (downs : List Nat) : Str :=
  "/".toList.intercalate
    (List.replicate ups "..".toList ++ downs.reverse.map (dirname_of w))

/-- Three directories: the root, its child `a`, and `b` inside `a`.  Scope 0
belongs to `b`; the current output directory is the root. -/
def nested_dirs : World :=
  { world_of [{ empty_scope with _directory := some 2 }] with
    dirs :=
      [{ _dirname := "top".toList, _parent := none, _depth := 0, _depends_index := 0 },
       { _dirname := "a".toList, _parent := some 0, _depth := 1, _depends_index := 0 },
       { _dirname := "b".toList, _parent := some 1, _depth := 2, _depends_index := 0 }],
    current_output_directory := some 0 }

/-- The text `../` repeated `k` times. -/
def ups_text (k : Nat) : Str := (List.replicate k "../".toList).flatten

/-- The names of the directories `downs` (listed from the deepest one
upwards) from the top down, each followed by `/`. -/
def downs_text (w : World) (downs : List Nat) : Str :=
  (downs.reverse.map (fun d => dirname_of w d ++ "/".toList)).flatten

/-- Four directories: the root, its children `a` and `c`, and `b` inside
`a`.  Scope 0 belongs to `b`; the current output directory is `c`. -/
def sibling_dirs : World :=
  { world_of [{ empty_scope with _directory := some 2 }] with
    dirs :=
      [{ _dirname := "top".toList, _parent := none, _depth := 0, _depends_index := 0 },
       { _dirname := "a".toList, _parent := some 0, _depth := 1, _depends_index := 0 },
       { _dirname := "b".toList, _parent := some 1, _depth := 2, _depends_index := 0 },
       { _dirname := "c".toList, _parent := some 0, _depth := 1, _depends_index := 0 }],
    current_output_directory := some 3 }

/-- The constructor of `PPCommandFile`. -/
def new_command_file (scope : Nat) : PPCommandFile :=
  { _native_scope := scope, _scope := scope, _got_command := false, _in_for := false,
    _if_nesting := [], _block_nesting := [], _command := [], _params := [],
    _write_state := { _out := 0, _format := .WF_collapse, _last_blank := true },
    _saved_lines := [] }

/-- Handlers that do nothing and succeed, for the examples. -/
def idle_handlers : Handlers where
  handle_begin_command := fun cf w => .ok (true, cf, w)
  handle_forscopes_command := fun cf w => .ok (true, cf, w)
  handle_foreach_command := fun cf w => .ok (true, cf, w)
  handle_formap_command := fun cf w => .ok (true, cf, w)
  handle_format_command := fun cf w => .ok (true, cf, w)
  handle_output_command := fun cf w => .ok (true, cf, w)
  handle_print_command := fun cf w => .ok (true, cf, w)
  handle_defsub_command := fun _ cf w => .ok (true, cf, w)
  handle_end_command := fun cf w => .ok (true, cf, w)
  handle_include_command := fun cf w => .ok (true, cf, w)
  handle_sinclude_command := fun cf w => .ok (true, cf, w)
  handle_call_command := fun cf w => .ok (true, cf, w)
  handle_defer_command := fun cf w => .ok (true, cf, w)
  handle_map_command := fun cf w => .ok (true, cf, w)
  handle_addmap_command := fun cf w => .ok (true, cf, w)

/-- What a scan of a span achieves, in terms of bracket counting: `consumed`
is the text up to and including the bracket that closes the span. -/
def ScanResult (s consumed rest : Str) : Prop :=
  s = consumed ++ rest ∧
    ∀ (d : Nat) (cur : Str), split_spans (d + 1) cur s = split_spans d (cur ++ consumed) rest

/-- What the inner loop of `tokenize_params` achieves: `seg` is the text up
to the next separator outside every span, `rest` starts at that separator or
is empty. -/
def TokenResult (s seg rest : Str) : Prop :=
  s = seg ++ rest ∧
    ((rest = [] ∧ ∀ cur, split_spans 0 cur s = [cur ++ seg]) ∨
      ∃ r, rest = FUNCTION_PARAMETER_SEPARATOR :: r ∧
        ∀ cur, split_spans 0 cur s = (cur ++ seg) :: split_spans 0 [] r)

/-- `depends_on dirs a b`: the directory `b` is in the set `_i_depend_on` of
the directory `a`, a depends-on edge from `a` to `b`. -/
def depends_on (dirs : List PPDirectory) (a b : Nat) : Prop :=
  ∃ dir, dirs[a]? = some dir ∧ b ∈ dir._i_depend_on

/-- `depended_on_by dirs a b`: the directory `b` is in the set
`_depends_on_me` of the directory `a`. -/
def depended_on_by (dirs : List PPDirectory) (a b : Nat) : Prop :=
  ∃ dir, dirs[a]? = some dir ∧ b ∈ dir._depends_on_me

/-- Every member of a dependency set is the address of a directory. -/
def valid_dependencies (dirs : List PPDirectory) : Prop :=
  ∀ dir ∈ dirs, (∀ b ∈ dir._i_depend_on, b < dirs.length) ∧
    (∀ b ∈ dir._depends_on_me, b < dirs.length)

instance (dirs : List PPDirectory) : Decidable (valid_dependencies dirs) := by
  unfold valid_dependencies; infer_instance

/-- The number of directories, among `n`, that are not in the set `dep`. -/
def unvisited (n : Nat) (dep : List Nat) : Nat :=
  ((Finset.range n).filter (fun x => x ∉ dep)).card

/-- Four directories of which the first three depend on one another in a
circle, and the fourth on the first. -/
def circular_dirs : List PPDirectory :=
  [{ _dirname := "A".toList, _parent := none, _depth := 0, _depends_index := 0,
     _i_depend_on := [1], _depends_on_me := [2, 3] },
   { _dirname := "B".toList, _parent := none, _depth := 0, _depends_index := 0,
     _i_depend_on := [2], _depends_on_me := [0] },
   { _dirname := "C".toList, _parent := none, _depth := 0, _depends_index := 0,
     _i_depend_on := [0], _depends_on_me := [1] },
   { _dirname := "D".toList, _parent := none, _depth := 0, _depends_index := 0,
     _i_depend_on := [0], _depends_on_me := [] }]

/-- What a traversal of the edges `E` that starts at `d` with the set `S`
achieves when it ends with the set `S2`: the set has grown, by directories
reachable from `d` only, it holds the successors of `d`, and the successors
of every directory that was added. -/
def Traversed (E : Nat → Nat → Prop) (d : Nat) (S S2 : List Nat) : Prop :=
  (∀ x ∈ S, x ∈ S2) ∧ (∀ x ∈ S2, x ∉ S → Relation.TransGen E d x) ∧
    (∀ z, E d z → z ∈ S2) ∧ (∀ y ∈ S2, y ∉ S → ∀ z, E y z → z ∈ S2)

/-- A directory with the marks of `compute_depends_index` erased. -/
def erase_marks (dir : PPDirectory) : PPDirectory :=
  { dir with _depends_index := 0, _computing_depends_index := false }

/-- The directories with the marks of `compute_depends_index` erased: the
tree and the dependency graph. -/
def skeleton (dirs : List PPDirectory) : List PPDirectory := dirs.map erase_marks

/-- The value of `_depends_index` of the directory at `u`. -/
def index_of (dirs : List PPDirectory) (u : Nat) : Int :=
  match dirs[u]? with
  | some dir => dir._depends_index
  | none => 0

/-- The value of `_computing_depends_index` of the directory at `u`. -/
def computing (dirs : List PPDirectory) (u : Nat) : Bool :=
  match dirs[u]? with
  | some dir => dir._computing_depends_index
  | none => false

/-- The maximum of `m` and the indices of the directories `l`. -/
def max_index (dirs : List PPDirectory) : List Nat → Int → Int
  | [], m => m
  | v :: rest, m => max_index dirs rest (max m (index_of dirs v))

/-- The fresh state: every index is 0 and no directory is marked as being
computed. -/
def fresh (dirs : List PPDirectory) : Prop :=
  ∀ dir ∈ dirs, dir._depends_index = 0 ∧ dir._computing_depends_index = false

instance (dirs : List PPDirectory) : Decidable (fresh dirs) := by
  unfold fresh; infer_instance

/-- The state of the indices between two calls: no index is negative, and a
directory with an index is not marked as being computed, depends only on
directories with an index, and has as index one more than the maximum of
their indices (1 when it depends on no directory). -/
def Indexed (dirs : List PPDirectory) : Prop :=
  ∀ (u : Nat) (dir : PPDirectory), dirs[u]? = some dir → 0 ≤ dir._depends_index ∧
    (dir._depends_index ≠ 0 → dir._computing_depends_index = false ∧
      (∀ v ∈ dir._i_depend_on, index_of dirs v ≠ 0) ∧
      dir._depends_index = max_index dirs dir._i_depend_on 0 + 1)

/-- What a call leaves as it was: the marks `_computing_depends_index`, and
the index of every directory that had an index or was being computed. -/
def Kept (s s2 : List PPDirectory) : Prop :=
  (∀ u, computing s2 u = computing s u) ∧
    (∀ u, index_of s u ≠ 0 ∨ computing s u = true → index_of s2 u = index_of s u)

/-- A dependency cycle can be reached from `d`. -/
def cycle_reachable (dirs : List PPDirectory) (d : Nat) : Prop :=
  ∃ c, Relation.ReflTransGen (depends_on dirs) d c ∧ Relation.TransGen (depends_on dirs) c c

/-- The number of directories, among `n`, that have no index and are not
marked as being computed. -/
def whites (n : Nat) (dirs : List PPDirectory) : Nat :=
  ((Finset.range n).filter (fun u => index_of dirs u = 0 ∧ computing dirs u = false)).card

/-- What a call of `compute_depends_index` on `v` in the state `s` achieves
when it returns `b` and leaves the state `s2`; `dirs0` fixes the graph. -/
def Computed (dirs0 s : List PPDirectory) (v : Nat) (b : Bool) (s2 : List PPDirectory) :
    Prop :=
  skeleton s2 = skeleton dirs0 ∧
    (b = true → Indexed s2 ∧ Kept s s2 ∧ index_of s2 v ≠ 0) ∧
    (b = false → cycle_reachable dirs0 v)

/-- Three directories that depend on one another in a line: `app` on `lib`
and `lib` on `base`; `tool`, the fourth, depends on `lib` and `base`. -/
def layered_dirs : List PPDirectory :=
  [{ _dirname := "app".toList, _parent := none, _depth := 0, _depends_index := 0,
     _i_depend_on := [1], _depends_on_me := [] },
   { _dirname := "lib".toList, _parent := none, _depth := 0, _depends_index := 0,
     _i_depend_on := [2], _depends_on_me := [0, 3] },
   { _dirname := "base".toList, _parent := none, _depth := 0, _depends_index := 0,
     _i_depend_on := [], _depends_on_me := [1, 3] },
   { _dirname := "tool".toList, _parent := none, _depth := 0, _depends_index := 0,
     _i_depend_on := [2, 1], _depends_on_me := [] }]

/-- Every depends-on edge leads to a directory of smaller rank. -/
def ranked (dirs : List PPDirectory) (rank : Nat → Nat) : Prop :=
  ∀ a < dirs.length, ∀ dir ∈ dirs[a]?, ∀ b ∈ dir._i_depend_on, rank b < rank a

instance (dirs : List PPDirectory) (rank : Nat → Nat) : Decidable (ranked dirs rank) := by
  unfold ranked; infer_instance

/-- The order of the spec on sort keys (depends-index, directory name):
ascending index, ties broken by the name; `key_le k1 k2` lets `k1` stand
before `k2`. -/
def key_le (k1 k2 : Int × Str) : Prop :=
  k1.1 < k2.1 ∨ (k1.1 = k2.1 ∧ str_lt k2.2 k1.2 = false)

/-- The sort key of the directory at `a`. -/
def key_of (w : World) (a : Nat) : Int × Str := (index_of w.dirs a, dirname_of w a)

/-- The order of the spec on directories: the directory at `a` may be listed
before the directory at `b`. -/
def dependency_order (w : World) (a b : Nat) : Prop := key_le (key_of w a) (key_of w b)

/-- `subdirectory dirs a b`: the directory `b` is in the vector `_children`
of the directory `a`. -/
def subdirectory (dirs : List PPDirectory) (a b : Nat) : Prop :=
  ∃ dir, dirs[a]? = some dir ∧ b ∈ dir._children

/-- The state of the directories between two calls of
`compute_depends_index` made by `resolve_dependencies`: the graph is the
one of `dirs0`, the indices are consistent and no directory is marked as
being computed. -/
def Settled (dirs0 : List PPDirectory) (w : World) : Prop :=
  skeleton w.dirs = skeleton dirs0 ∧ Indexed w.dirs ∧ ∀ u, computing w.dirs u = false

/-- A tree of four directories: `top` with the children `gui`, `core` and
`net` (created in this order), each with a scope of its own.  `gui` depends
on `net` and `net` on `core`. -/
def project_tree : World :=
  { world_of [empty_scope, empty_scope, empty_scope, empty_scope] with
    dirs :=
      [{ _dirname := "top".toList, _parent := none, _depth := 0, _depends_index := 0,
         _children := [1, 2, 3], _scope := some 0 },
       { _dirname := "gui".toList, _parent := some 0, _depth := 1, _depends_index := 0,
         _scope := some 1, _i_depend_on := [3] },
       { _dirname := "core".toList, _parent := some 0, _depth := 1, _depends_index := 0,
         _scope := some 2, _depends_on_me := [3] },
       { _dirname := "net".toList, _parent := some 0, _depth := 1, _depends_index := 0,
         _scope := some 3, _i_depend_on := [2], _depends_on_me := [1] }] }

/-- An interpreter for the examples: the collaborators `quiet`, idle
handlers for the commands that touch files, subroutines and map variables,
a blank before the parameter buffer, and the given fuel for expansions and
depth for replays. -/
def example_reader (fuel depth : Nat) : Reader :=
  read_line_rec quiet (fun _ => idle_handlers) ' ' fuel depth

/-- A state with one scope that knows the registry of named scopes. -/
def registry_world : World := world_of [{ empty_scope with _named_scopes := true }]

/-- Three directories `x`, `y` and `z` with the depends-indices 3, 1 and 2;
the scopes 1, 2 and 3 belong to them, in this order, and are registered
under the name `lib`; scope 0 is the scope of the interpreter. -/
def indexed_scopes : World :=
  { world_of
      [{ empty_scope with _named_scopes := true },
       { empty_scope with _directory := some 0, _named_scopes := true },
       { empty_scope with _directory := some 1, _named_scopes := true },
       { empty_scope with _directory := some 2, _named_scopes := true }] with
    named := [("lib".toList, [1, 2, 3])],
    dirs :=
      [{ _dirname := "x".toList, _parent := none, _depth := 0, _depends_index := 3 },
       { _dirname := "y".toList, _parent := none, _depth := 0, _depends_index := 1 },
       { _dirname := "z".toList, _parent := none, _depth := 0, _depends_index := 2 }] }

/-- The sort key of the directory of a scope: its depends-index and its
name. -/
def scope_key (w : World) (s : Nat) : Int × Str :=
  match get_directory w s with
  | .ok (some d) => key_of w d
  | _ => (0, [])

/-- A scope whose directory is one of the arena. -/
def has_directory (w : World) (s : Nat) : Prop :=
  ∃ d, get_directory w s = .ok (some d) ∧ d < w.dirs.length

/-- A reader that changes nothing but the streams, where it records the
scope in which it is called by means of `h`. -/
def recording_reader (h : Nat → List Str → List Str) : Reader :=
  fun cf w _ => .ok (true, cf, { w with streams := h cf._scope w.streams })

/-- Three directories `b`, `a` and `c` with the depends-indices 1, 1 and 0.
The scopes 1, 2 and 3 belong to them, in this order, and the scope 4 to the
directory `a` as well; each defines `ID`, and all are registered under the
name `lib`, in the order 1, 2, 3, 4.  Scope 0 is the scope of the
interpreter. -/
def tied_scopes : World :=
  { world_of
      [{ empty_scope with _named_scopes := true },
       { empty_scope with _directory := some 0, _named_scopes := true,
                          _variables := [("ID".toList, "b1".toList)] },
       { empty_scope with _directory := some 1, _named_scopes := true,
                          _variables := [("ID".toList, "a1-first".toList)] },
       { empty_scope with _directory := some 2, _named_scopes := true,
                          _variables := [("ID".toList, "c0".toList)] },
       { empty_scope with _directory := some 1, _named_scopes := true,
                          _variables := [("ID".toList, "a1-second".toList)] }] with
    named := [("lib".toList, [1, 2, 3, 4])],
    dirs :=
      [{ _dirname := "b".toList, _parent := none, _depth := 0, _depends_index := 1 },
       { _dirname := "a".toList, _parent := none, _depth := 0, _depends_index := 1 },
       { _dirname := "c".toList, _parent := none, _depth := 0, _depends_index := 0 }] }

/-- A directory `top` whose children `b`, `a`, `c`, `d` were created in this
order and have the depends-indices 2, 2, 1 and 3. -/
def listed_dirs : World :=
  { world_of [] with
    dirs :=
      [{ _dirname := "top".toList, _parent := none, _depth := 0, _depends_index := 4,
         _children := [1, 2, 3, 4] },
       { _dirname := "b".toList, _parent := some 0, _depth := 1, _depends_index := 2 },
       { _dirname := "a".toList, _parent := some 0, _depth := 1, _depends_index := 2 },
       { _dirname := "c".toList, _parent := some 0, _depth := 1, _depends_index := 1 },
       { _dirname := "d".toList, _parent := some 0, _depth := 1, _depends_index := 3 }] }

/-- Whether `read_line` takes the line for a command: after the leading
whitespace stands the command prefix followed by a letter. -/
def is_command_line (line : Str) : Bool :=
  match line.dropWhile isspace with
  | c :: d :: _ => c == COMMAND_PREFIX && isalpha d
  | _ => false

/-- A line of plain text: it holds no comment marker and is not a
command. -/
def plain_text (line : Str) : Prop :=
  ¬ BEGIN_COMMENT <:+: line ∧ is_command_line line = false

instance (line : Str) : Decidable (plain_text line) := by
  unfold plain_text; infer_instance

/-- What the spec says of a line of plain text that is emitted: the line
(the empty line if it holds only whitespace) is expanded in the scope and
written by the writer. -/
def emit_line (X : External) (fuel : Nat) (sid : Nat) (ws : WriteState) (w : World)
    (line : Str) : Except Fault (WriteState × World) :=
  match expand_string X fuel w sid (if line.all isspace then [] else line) with
  | .error e => .error e
  | .ok (text, w) =>
    match write_line ws w text with
    | .error e => .error e
    | .ok (_, ws, w) => .ok (ws, w)

/-- The lines of a body emitted one after the other. -/
def emit_lines (X : External) (fuel : Nat) (sid : Nat) :
    List Str → WriteState → World → Except Fault (WriteState × World)
  | [], ws, w => .ok (ws, w)
  | line :: rest, ws, w =>
    match emit_line X fuel sid ws w line with
    | .error e => .error e
    | .ok (ws, w) => emit_lines X fuel sid rest ws w

/-- The text of a condition of `#if` or `#elif`, or of the parameters of a
command, as written after the command word: it holds no comment marker and
does not end with the continuation character. -/
def parameter_text (c : Str) : Prop :=
  ¬ BEGIN_COMMENT <:+: c ∧ (c.dropWhile isspace).getLast? ≠ some '\\'

instance (c : Str) : Decidable (parameter_text c) := by
  unfold parameter_text; infer_instance

/-- The lines of the branches that follow the first one, each an `#elif`
line with its condition, followed by its body. -/
def elif_lines (branches : List (Str × List Str)) : List Str :=
  (branches.map (fun b => ("#elif ".toList ++ b.1) :: b.2)).flatten

/-- The lines of the `#else` branch, if there is one, and the `#endif`
line. -/
def else_lines (otherwise : Option (List Str)) : List Str :=
  (match otherwise with
   | some body => "#else".toList :: body
   | none => []) ++ ["#endif".toList]

/-- The lines of the chain `#if c1` body1 `#elif c2` body2 ... `#else`
bodyN `#endif`; `first` and `branches` hold the conditions with their
bodies. -/
def chain_lines (first : Str × List Str) (branches : List (Str × List Str))
    (otherwise : Option (List Str)) : List Str :=
  ("#if ".toList ++ first.1) :: first.2 ++ (elif_lines branches ++ else_lines otherwise)

/-- The body that the spec selects in a chain: the body of the first
condition whose expansion holds a character that is not whitespace, or else
the `#else` body, or no line.  The conditions are expanded one after the
other until one holds. -/
def select_body (X : External) (fuel : Nat) (sid : Nat) :
    World → List (Str × List Str) → Option (List Str) → Eval (List Str)
  | w, [], otherwise => .ok (otherwise.getD [], w)
  | w, (c, body) :: rest, otherwise =>
    match expand_string X fuel w sid (c.dropWhile isspace) with
    | .error e => .error e
    | .ok (text, w) =>
      if text.all isspace then select_body X fuel sid w rest otherwise else .ok (body, w)

/-- What the spec says of a `#foreach` block: for every word, in order, the
variable is defined as the word in the scope and the body is emitted. -/
def replay_words (X : External) (fuel : Nat) (sid : Nat) (varname : Str) (body : List Str) :
    List Str → WriteState → World → Except Fault (WriteState × World)
  | [], ws, w => .ok (ws, w)
  | word :: rest, ws, w =>
    match define_variable w sid varname word with
    | .error e => .error e
    | .ok w =>
      match emit_lines X fuel sid body ws w with
      | .error e => .error e
      | .ok (ws, w) => replay_words X fuel sid varname body rest ws w

/-- The reader after the line `#if` with an empty condition: the frame of a
failing branch is open. -/
def in_failing_branch : PPCommandFile :=
  { new_command_file 0 with _if_nesting := [.IS_off], _command := "if".toList }

/-- The chain `#if c`, `yes`, `#else`, `no`, `#endif`. -/
def yes_no_chain (c : Str) : List Str :=
  chain_lines (c, ["yes".toList]) [] (some ["no".toList])

/-- The expansion of the reference `$[v]` when it stands outside every other
expansion: the text by which `r_expand_variable` replaces it. -/
def expand_reference (X : External) (fuel : Nat) (w : World) (sid : Nat) (v : Str) :
    Eval Str :=
  match r_expand_variable X fuel w sid [] (reference v) with
  | .error e => .error e
  | .ok ((text, _), w) => .ok (text, w)

/-- What the spec says of `expand_self_reference`, on the pieces of the
string that stand between the occurrences of `$[v]`: every piece is copied
unchanged, and every occurrence, from left to right, is replaced by the
expansion of `$[v]`. -/
def replace_self_references (X : External) (fuel : Nat) (sid : Nat) (v : Str) :
    World → Str → List Str → Eval Str
  | w, piece, [] => .ok (piece, w)
  | w, piece, next :: rest =>
    match expand_reference X fuel w sid v with
    | .error e => .error e
    | .ok (text, w) =>
      match replace_self_references X fuel sid v w next rest with
      | .error e => .error e
      | .ok (result, w) => .ok (piece ++ text ++ result, w)


/-- A scope in which `v` is defined as `old`. -/
def old_value : World :=
  world_of [{ empty_scope with _variables := [("v".toList, "old".toList)] }]

/-- Distinct directories have distinct scopes. -/
def distinct_scopes (dirs : List PPDirectory) : Prop :=
  ∀ (a b : Nat) (da db : PPDirectory) (sc : Nat), dirs[a]? = some da → dirs[b]? = some db →
    da._scope = some sc → db._scope = some sc → a = b

/-- The directory `A` is done: its children have their indices, and the
variable `SUBDIRS` of its scope, if it has one, holds what
`get_child_dirnames` returns for it. -/
def SubdirsListed (w : World) (A : Nat) : Prop :=
  (∀ dir, w.dirs[A]? = some dir → ∀ c ∈ dir._children, index_of w.dirs c ≠ 0) ∧
  ∀ dir sc, w.dirs[A]? = some dir → dir._scope = some sc →
    ∃ names, get_child_dirnames w A = .ok names ∧
      local_binding w "SUBDIRS".toList sc = some names

/-- What the spec says of the place of a comment: the first position, from
the left, at which the marker `//` stands at the start of the line or right
after a whitespace character.  `at_start` tells whether the position before
the text is the start of the line or a whitespace character. -/
def comment_start_from : Bool → Str → Option Nat
  | _, [] => none
  | at_start, c :: cs =>
    if at_start && starts_with BEGIN_COMMENT (c :: cs) then some 0
    else (comment_start_from (isspace c) cs).map (· + 1)

/-- The place of the comment of a line, `none` when it has none. -/
def comment_start (line : Str) : Option Nat := comment_start_from true line

/-- What the spec says of comment stripping: the line without the comment
and without the whitespace before it. -/
def strip_comment (line : Str) : Str :=
  match comment_start line with
  | none => line
  | some q => strip_trailing (line.take q)

/-- Whether the first marker, at position `i` of the text, opens a
comment. -/
def marker_qualifies (at_start : Bool) (suf : Str) (i : Nat) : Bool :=
  if i = 0 then at_start else (suf[i - 1]?.map isspace) = some true

/-- The marker `//` stands at position `p` of the text, and it stands at the
start of the line or right after a whitespace character. -/
def opens_comment (at_start : Bool) (s : Str) (p : Nat) : Prop :=
  starts_with BEGIN_COMMENT (s.drop p) = true ∧
    if p = 0 then at_start = true else (s[p - 1]?.map isspace) = some true

/-- What the spec says of a command written over several physical lines:
the single line obtained by replacing the trailing `\` of every line but the
last with one space and appending the next line.  `lines` are the lines that
end with `\`. -/
def join_continued : List Str → Str → Str
  | [], last => last
  | l :: ls, last => l.dropLast ++ ' ' :: join_continued ls last

/-- A scope in which `F` is defined as `upcase` and `G` as `sort`. -/
def function_names : World :=
  world_of [{ empty_scope with
    _variables := [("F".toList, "upcase".toList), ("G".toList, "sort".toList)] }]

/-- What the spec says of `patsubst` on one word: a word that matches one of
the from-patterns is replaced by the transform of the to-pattern, taken with
the first pattern that matches; any other word passes through unchanged. -/
def substitute_word (unmatched : Unmatched) (froms : List PPFilenamePattern)
    (target : PPFilenamePattern) (word : Str) : Str :=
  match froms.find? (·.matches word) with
  | some pi => target.transform unmatched word pi
  | none => word

/-- A map variable whose two scopes name each other: the scope of the key
`a` defines `next` as `b` and the scope of `b` defines it as `a`; the
starting scope defines `next` as `a`. -/
def cyclic_map : World :=
  world_of
    [{ empty_scope with
        _variables := [("next".toList, "a".toList), ("name".toList, "top".toList)],
        _map_variables := [("M".toList, [("a".toList, 1), ("b".toList, 2)])] },
     { empty_scope with
        _variables := [("next".toList, "b".toList), ("name".toList, "A".toList)] },
     { empty_scope with
        _variables := [("next".toList, "a".toList), ("name".toList, "B".toList)] }]

/-! ## `compare_output` on a disk -/

/-- A file on disk: its identity and its bytes. -/
structure DiskFile where
  inode : Nat
  bytes : List (Fin 256)
  deriving DecidableEq, Repr

/-- The directory entries that `compare_output` works on: the file that each
name refers to, if any. -/
abbrev Disk := Str → Option DiskFile

/-- The system call `unlink`: the result is `-1` when the name refers to no
file. -/
def unlink (disk : Disk) (name : Str) : Int × Disk :=
  match disk name with
  | none => (-1, disk)
  | some _ => (0, fun n => if n = name then none else disk n)

/-- The system call `rename`: the result is `-1` when the old name refers to
no file; otherwise the new name refers to the file of the old name, which is
gone. -/
def rename (disk : Disk) (oldname newname : Str) : Int × Disk :=
  match disk oldname with
  | none => (-1, disk)
  | some file =>
    (0, fun n => if n = newname then some file else if n = oldname then none else disk n)

/-- The state of an `ifstream`: whether the file was opened, the bytes not
yet read, and the end-of-file flag. -/
structure IfStream where
  is_open : Bool
  rest : List (Fin 256)
  eofbit : Bool
  deriving DecidableEq, Repr

/-- The constructor `ifstream(name)`. -/
def IfStream.open (disk : Disk) (name : Str) : IfStream :=
  match disk name with
  | none => { is_open := false, rest := [], eofbit := false }
  | some file => { is_open := true, rest := file.bytes, eofbit := false }

/-- The method `istream::get()`: the next byte as a non-negative `int`, or
`EOF` (`-1`); the end-of-file flag is raised when an open stream has no byte
left. -/
def IfStream.get (s : IfStream) : Int × IfStream :=
  if s.is_open = false ∨ s.eofbit = true then (-1, s)
  else
    match s.rest with
    | [] => (-1, { s with eofbit := true })
    | b :: rest => ((b.val : Int), { s with rest := rest })

/-- The loop `while (!in_a.eof() && !in_b.eof() && !differ)` of
`compare_output`. -/
def compare_output_loop : Nat → IfStream → IfStream → Bool → Except Fault Bool
  | 0, _, _, _ => .error .fuel
  | fuel + 1, in_a, in_b, differ =>
    if !in_a.eofbit && !in_b.eofbit && !differ then
      let (a, in_a) := in_a.get
      let (b, in_b) := in_b.get
      compare_output_loop fuel in_a in_b (a != b)
    else .ok differ

/-- The method `PPCommandFile::compare_output`; `fuel` bounds the number of
bytes compared. -/
def compare_output (fuel : Nat) (disk : Disk) (temp_name true_name : Str) :
    Except Fault (Bool × Disk) :=
  let in_a := IfStream.open disk temp_name
  let in_b := IfStream.open disk true_name
  let (a, in_a) := in_a.get
  let (b, in_b) := in_b.get
  match compare_output_loop fuel in_a in_b (a != b) with
  | .error e => .error e
  | .ok differ =>
    if differ then
      let (r, disk) := unlink disk true_name
      if r < 0 then .ok (false, disk)
      else
        let (r, disk) := rename disk temp_name true_name
        if r < 0 then .ok (false, disk)
        else .ok (true, disk)
    else
      let (_, disk) := unlink disk temp_name
      .ok (true, disk)

/-- A disk with a target `out` and a temporary file `tmp` of the same bytes,
and a target `old` whose temporary file `new` is longer. -/
def sample_disk : Disk := fun n =>
  if n = "out".toList then some { inode := 1, bytes := [104, 105] }
  else if n = "tmp".toList then some { inode := 2, bytes := [104, 105] }
  else if n = "old".toList then some { inode := 3, bytes := [104] }
  else if n = "new".toList then some { inode := 4, bytes := [104, 0] }
  else none

/-! ## Map variables, `#call` and the bodies of user functions -/

/-- The assignment `def[key] = scope` on a `MapVariableDefinition`, a
`std::map` that holds its entries in the order of their keys. -/
def map_variable_assign (key : Str) (scope : Nat) : List (Str × Nat) → List (Str × Nat)
  | [] => [(key, scope)]
  | (k, v) :: rest =>
    if k = key then (k, scope) :: rest
    else if str_lt key k then (key, scope) :: (k, v) :: rest
    else (k, v) :: map_variable_assign key scope rest

/-- The method `PPScope::add_to_map_variable`.  When the map variable is not
found the method prints a warning and returns. -/
def add_to_map_variable (w : World) (sid : Nat) (varname key : Str) (scope : Nat) :
    Except Fault World :=
  match find_map_variable_owner w sid varname with
  | .error e => .error e
  | .ok none => .ok w
  | .ok (some owner) =>
    match w.scopes[owner]? with
    | none => .error .abort
    | some sc =>
      let mapdef := map_variable_assign key scope ((sc._map_variables.lookup varname).getD [])
      let w := w.put_scope owner
        { sc with _map_variables := map_insert varname mapdef sc._map_variables }
      match set_variable w sid varname (repaste (mapdef.map Prod.fst) " ".toList) with
      | .error e => .error e
      | .ok (_, w) => .ok w

/-- The loop `def[*ki] = scope` over the keys of one scope. -/
def define_map_keys (scope : Nat) : List Str → List (Str × Nat) → List (Str × Nat)
  | [], mapdef => mapdef
  | key :: rest, mapdef => define_map_keys scope rest (map_variable_assign key scope mapdef)

/-- The loop of `define_map_variable` over the scopes found; the definition
is a reference into the scope `sid`, so each turn writes to that scope. -/
def define_map_variable_loop (X : External) (fuel : Nat) (sid : Nat)
    (varname key_varname : Str) : World → List Nat → List Str → Eval (List Str)
  | w, [], results => .ok (results, w)
  | w, scope :: rest, results =>
    match expand_variable X fuel w scope key_varname with
    | .error e => .error e
    | .ok (key_string, w) =>
      let keys := tokenize_whitespace key_string
      match w.scopes[sid]? with
      | none => .error .abort
      | some sc =>
        let mapdef := define_map_keys scope keys ((sc._map_variables.lookup varname).getD [])
        let w := w.put_scope sid
          { sc with _map_variables := map_insert varname mapdef sc._map_variables }
        define_map_variable_loop X fuel sid varname key_varname w rest (results ++ keys)

/-- The method `PPScope::define_map_variable(varname, key_varname,
scope_names)`. -/
def define_map_variable_scoped (X : External) (fuel : Nat) (w : World) (sid : Nat)
    (varname key_varname scope_names : Str) : Except Fault World :=
  match w.scopes[sid]? with
  | none => .error .abort
  | some sc =>
    let w := w.put_scope sid
      { sc with _map_variables := map_insert varname [] sc._map_variables }
    match define_variable w sid varname [] with
    | .error e => .error e
    | .ok w =>
      if sc._named_scopes = false then .ok w
      else if key_varname.isEmpty then .ok w
      else
        let scopes := ((tokenize_whitespace scope_names).map (get_scopes w)).flatten
        if scopes.isEmpty then .ok w
        else
          match define_map_variable_loop X fuel sid varname key_varname w scopes [] with
          | .error e => .error e
          | .ok (results, w) => define_variable w sid varname (repaste results " ".toList)

/-- The method `PPScope::define_map_variable(varname, definition)`, for a
definition of the form `key_varname(scope_names)`. -/
def define_map_variable (X : External) (fuel : Nat) (w : World) (sid : Nat)
    (varname definition : Str) : Except Fault World :=
  match str_find [VARIABLE_OPEN_NESTED] definition with
  | some p =>
    if definition.getLast? = some VARIABLE_CLOSE_NESTED then
      let q := definition.length - 1
      define_map_variable_scoped X fuel w sid varname (definition.take p)
        ((definition.drop (p + 1)).take (q - (p + 1)))
    else define_map_variable_scoped X fuel w sid varname definition []
  | none => define_map_variable_scoped X fuel w sid varname definition []

/-- The method `PPCommandFile::handle_map_command`. -/
def handle_map_command (X : External) (fuel : Nat) (cf : PPCommandFile) (w : World) : Step :=
  match define_map_variable X fuel w cf._scope (params_varname cf._params)
      (trim_blanks (params_definition cf._params)) with
  | .error e => .error e
  | .ok w => .ok (true, cf, w)

/-- The method `PPCommandFile::handle_addmap_command`. -/
def handle_addmap_command (X : External) (fuel : Nat) (cf : PPCommandFile) (w : World) :
    Step :=
  match expand_string X fuel w cf._scope (params_definition cf._params) with
  | .error e => .error e
  | .ok (text, w) =>
    match add_to_map_variable w cf._scope (params_varname cf._params) (trim_blanks text)
        cf._scope with
    | .error e => .error e
    | .ok w => .ok (true, cf, w)

/-- Modelled from the spec: `PPSubroutine::get_sub`, the lookup in the
registry of the subroutines called by `#call`; `none` is the null pointer
returned for a name that is not registered. -/
def get_sub (w : World) (name : Str) : Option PPSubroutine := w.subs.lookup name

/-- The method `PPCommandFile::handle_call_command`.  For a name that is not
registered the method prints a message and goes on, so `sub->_formals`
reads through the null pointer. -/
def handle_call_command (X : External) (fuel : Nat) (reader : Reader) (cf : PPCommandFile)
    (w : World) : Step :=
  let subroutine_name := trim_blanks (cf._params.takeWhile (fun c => !isspace c))
  let params := cf._params.dropWhile (fun c => !isspace c)
  if subroutine_name.isEmpty then .ok (false, cf, w)
  else
    let sub := get_sub w subroutine_name
    let old_scope := cf._scope
    match w.scopes[cf._scope]? with
    | none => .error .abort
    | some sc =>
      let w := push_scope w cf._scope
      let nested_scope := w.scopes.length
      let w := { w with scopes := w.scopes ++
        [{ _variables := [], _map_variables := [], _parent_scope := none,
           _directory := none, _named_scopes := sc._named_scopes }] }
      let cf := { cf with _scope := nested_scope }
      match sub with
      | none => .error .abort
      | some sub =>
        match define_formals X fuel w nested_scope subroutine_name sub.formals params with
        | .error e => .error e
        | .ok w =>
          match read_lines reader sub.lines cf w with
          | .error e => .error e
          | .ok (okflag, cf, w) =>
            match pop_scope w with
            | .error e => .error e
            | .ok (_, w) => .ok (okflag, { cf with _scope := old_scope }, w)

/-- The handlers of `B` with those of `#call`, `#map` and `#addmap`. -/
def call_and_map_handlers (X : External) (fuel : Nat) (B : Reader → Handlers)
    (reader : Reader) : Handlers :=
  { B reader with
    handle_call_command := handle_call_command X fuel reader
    handle_map_command := handle_map_command X fuel
    handle_addmap_command := handle_addmap_command X fuel }

/-- The part of `expand_function` that runs the body: a `PPCommandFile` on
the nested scope writes to a string stream of its own and reads the lines
until one fails.  The flag `okflag` of the loop, and that of `end_read`
after it, is not read again: the text of the stream is the result. -/
def function_body (reader : Reader) (w : World) (nested_scope : Nat) (lines : List Str) :
    Eval Str :=
  let ostr := w.streams.length
  let w := { w with streams := w.streams ++ [[]] }
  let command : PPCommandFile :=
    { new_command_file nested_scope with
      _write_state := { _out := ostr, _format := .WF_collapse, _last_blank := true } }
  match replay_lines reader lines true command w with
  | .error e => .error e
  | .ok (_, _, w) =>
    match w.streams[ostr]? with
    | none => .error .abort
    | some str => .ok (str, { w with streams := w.streams.take ostr })

/-- The collaborators `X` with the interpreter itself for the bodies of the
user functions; `level` bounds the nesting of function calls, and a call
nested deeper runs out of fuel. -/
def with_functions (X : External) (B : External → Reader → Handlers) (stray : Char)
    (fuel depth : Nat) : Nat → External
  | 0 => { X with read_lines := fun _ _ _ => .error .fuel }
  | level + 1 =>
    { X with
      read_lines := fun w scope lines =>
        function_body
          (read_line_rec (with_functions X B stray fuel depth level)
            (B (with_functions X B stray fuel depth level)) stray fuel depth)
          w scope lines }

/-- The interpreter of the examples: an empty file system, the handlers of
the source for every command but `#output`, `#include` and `#sinclude`,
and function bodies read by the interpreter itself. -/
def full_reader (fuel depth level : Nat) : Reader :=
  read_line_rec
    (with_functions quiet
      (fun X => call_and_map_handlers X fuel (fun _ => idle_handlers)) ' ' fuel depth level)
    (call_and_map_handlers
      (with_functions quiet
        (fun X => call_and_map_handlers X fuel (fun _ => idle_handlers)) ' ' fuel depth level)
      fuel (fun _ => idle_handlers))
    ' ' fuel depth

/-- A state with the starting scope 0 and two scopes registered under the
names `scopeA` and `scopeB`, which define `K` as `ka` and as `kb`. -/
def two_named : World :=
  { world_of
      [{ empty_scope with _named_scopes := true },
       { empty_scope with
         _named_scopes := true,
         _variables := [("K".toList, "ka".toList), ("v".toList, "in-a".toList)] },
       { empty_scope with
         _named_scopes := true,
         _variables := [("K".toList, "kb".toList), ("v".toList, "in-b".toList)] }] with
    named := [("scopeA".toList, [1]), ("scopeB".toList, [2])] }

/-- The result of a run of the interpreter and the text of every stream
after it. -/
def run_output (r : Step) : Except Fault (Bool × List Str) :=
  r.map (fun p => (p.1, p.2.2.streams))

/-- The two states have the same scope stack, and their scopes agree under
`f` one by one. -/
def same_frame {α : Type} (f : PPScope → α) (w w2 : World) : Prop :=
  w2._scope_stack = w._scope_stack ∧ w2.scopes.map f = w.scopes.map f

/-- A sequence of calls of `WriteState::write_line`, one per line. -/
def write_lines : WriteState → World → List Str → Except Fault (WriteState × World)
  | ws, w, [] => .ok (ws, w)
  | ws, w, line :: rest =>
    match write_line ws w line with
    | .error e => .error e
    | .ok (_, ws, w) => write_lines ws w rest

/-- What the spec says of the collapse format: of a run of consecutive empty
lines one is kept, and none before the first non-empty line; `last_blank`
tells whether the line before was empty (or there was none). -/
def collapse_blank_runs : Bool → List Str → List Str
  | _, [] => []
  | last_blank, line :: rest =>
    if line.isEmpty then
      if last_blank then collapse_blank_runs true rest else [] :: collapse_blank_runs true rest
    else line :: collapse_blank_runs false rest

/-- The text of a sequence of lines, each followed by a newline. -/
def lines_text (lines : List Str) : Str := (lines.map (· ++ "\n".toList)).flatten

/-- No two consecutive lines are empty. -/
def no_blank_pair : List Str → Bool
  | a :: b :: rest => !(a.isEmpty && b.isEmpty) && no_blank_pair (b :: rest)
  | _ => true

/-- A frame of the if-stack in a failing state, `IS_off` or `IS_done`. -/
def IfState.failing (s : IfState) : Bool := s = .IS_off || s = .IS_done

/-- The test of `failed_if` on an if-stack: its innermost frame is in a
failing state. -/
def innermost_failing : List IfState → Bool
  | [] => false
  | s :: _ => s.failing

/-- Every frame that stands over a failing frame is in the state
`IS_done`. -/
def if_stack_nested : List IfState → Prop
  | [] => True
  | s :: rest => (rest.any IfState.failing = true → s = .IS_done) ∧ if_stack_nested rest

/-- The states of the interpreter that the if-family commands reach from a
state without open frame; any other step keeps the if-stack. -/
inductive IfReachable (X : External) (fuel : Nat) : PPCommandFile → Prop where
  | start (cf : PPCommandFile) : cf._if_nesting = [] → IfReachable X fuel cf
  | other (cf cf2 : PPCommandFile) :
      IfReachable X fuel cf → cf2._if_nesting = cf._if_nesting → IfReachable X fuel cf2
  | on_if (cf cf2 : PPCommandFile) (w w2 : World) (b : Bool) :
      IfReachable X fuel cf → handle_if_command X fuel cf w = .ok (b, cf2, w2) →
      IfReachable X fuel cf2
  | on_elif (cf cf2 : PPCommandFile) (w w2 : World) (b : Bool) :
      IfReachable X fuel cf → handle_elif_command X fuel cf w = .ok (b, cf2, w2) →
      IfReachable X fuel cf2
  | on_else (cf cf2 : PPCommandFile) (w w2 : World) (b : Bool) :
      IfReachable X fuel cf → handle_else_command cf w = .ok (b, cf2, w2) →
      IfReachable X fuel cf2
  | on_endif (cf cf2 : PPCommandFile) (w w2 : World) (b : Bool) :
      IfReachable X fuel cf → handle_endif_command cf w = .ok (b, cf2, w2) →
      IfReachable X fuel cf2

/-- The result of `expand_standardize` for a filename that is already
expanded. -/
def standardize (filename : Str) : Str :=
  match filename with
  | [] => []
  | c :: _ =>
    (if c = '/' then "/".toList else []) ++
      repaste (standardize_loop (filename.length + 1) (filename.dropWhile (· = '/')) [])
        "/".toList

/-- The components of a standard filename: none is empty, holds a slash or
is `.`. -/
def plain_components (components : List Str) : Prop :=
  ∀ c ∈ components, c ≠ [] ∧ '/' ∉ c ∧ c ≠ ".".toList

/-- Every component `..` stands before every other component. -/
def parents_first (components : List Str) : Prop :=
  ∃ (k : Nat) (rest : List Str),
    components = List.replicate k "..".toList ++ rest ∧ "..".toList ∉ rest

/-- The number of separators of the text that lie outside every `$[...]`
span, by bracket counting from `depth` open spans. -/
def top_separators : Nat → Str → Nat
  | _, [] => 0
  | depth, [c] => if c = FUNCTION_PARAMETER_SEPARATOR ∧ depth = 0 then 1 else 0
  | depth, c :: d :: rest =>
    if c = VARIABLE_PREFIX ∧ d = VARIABLE_OPEN_BRACE then top_separators (depth + 1) rest
    else if c = VARIABLE_CLOSE_BRACE ∧ 0 < depth then top_separators (depth - 1) (d :: rest)
    else if c = FUNCTION_PARAMETER_SEPARATOR ∧ depth = 0 then
      top_separators 0 (d :: rest) + 1
    else top_separators depth (d :: rest)

/-- The number of spans open after the text, by bracket counting from
`depth` open spans. -/
def span_depth : Nat → Str → Nat
  | depth, [] => depth
  | depth, [c] => if c = VARIABLE_CLOSE_BRACE ∧ 0 < depth then depth - 1 else depth
  | depth, c :: d :: rest =>
    if c = VARIABLE_PREFIX ∧ d = VARIABLE_OPEN_BRACE then span_depth (depth + 1) rest
    else if c = VARIABLE_CLOSE_BRACE ∧ 0 < depth then span_depth (depth - 1) (d :: rest)
    else span_depth depth (d :: rest)

/-! ## `PPDirectory::read_depends_file` -/

/-- Modelled from the spec: `PPDirectoryTree::find_dirname` (its class is
not among the sources), the lookup in the index of the directory names, in
which the constructor of `PPDirectory` enters a name only when it is not
there yet: the first directory of that name, `none` for the null pointer. -/
def find_dirname (dirs : List PPDirectory) (dirname : Str) : Option Nat :=
  if dirs.findIdx (fun dir => dir._dirname = dirname) < dirs.length then
    some (dirs.findIdx (fun dir => dir._dirname = dirname))
  else none

/-- The call `insert` on a set of directories, held in the order of the
addresses. -/
def depends_insert (x : Nat) : List Nat → List Nat
  | [] => [x]
  | y :: rest =>
    if x = y then y :: rest
    else if x < y then x :: y :: rest
    else y :: depends_insert x rest

/-- An assignment to the members of the directory at the address `i`. -/
def update_directory (dirs : List PPDirectory) (i : Nat) (f : PPDirectory → PPDirectory) :
    List PPDirectory :=
  match dirs[i]? with
  | some dir => dirs.set i (f dir)
  | none => dirs

/-- The two insertions `_i_depend_on.insert(dir)` and
`dir->_depends_on_me.insert(this)` of `read_depends_file`. -/
def add_dependency (dirs : List PPDirectory) (this dir : Nat) : List PPDirectory :=
  update_directory
    (update_directory dirs this
      (fun d => { d with _i_depend_on := depends_insert dir d._i_depend_on }))
    dir (fun d => { d with _depends_on_me := depends_insert this d._depends_on_me })

/-- The loop of `read_depends_file` over the names listed in `DEPEND_DIRS`:
a name that is not found is reported and skipped, and the directory itself
is skipped. -/
def read_depends_loop (this : Nat) : List PPDirectory → List Str → List PPDirectory
  | dirs, [] => dirs
  | dirs, dirname :: rest =>
    match find_dirname dirs dirname with
    | none => read_depends_loop this dirs rest
    | some dir =>
      if dir ≠ this then read_depends_loop this (add_dependency dirs this dir) rest
      else read_depends_loop this dirs rest

/-- The part of `read_depends_file` for the directory itself, the block
`if (_scope != NULL)`: `false` stands for `return false`.  `expand_variable`
is the method of the scope and `read_file` the reading of the file by a
`PPCommandFile` on the scope; the registration of the headers
(`get_dependable_file`) and the current name of the registry of scopes are
not part of the state modelled. -/
def read_depends_here (expand_variable : World → Nat → Str → Eval Str)
    (read_file : World → Nat → Str → Except Fault (Bool × World)) (w : World) (this : Nat)
    (dir : PPDirectory) : Except Fault (Bool × World) :=
  match dir._scope with
  | none => .ok (true, w)
  | some scope =>
    match expand_variable w scope "DEPENDS_FILE".toList with
    | .error e => .error e
    | .ok (depends_filename, w) =>
      if depends_filename.isEmpty then .ok (false, w)
      else
        match read_file w scope depends_filename with
        | .error e => .error e
        | .ok (false, w) => .ok (false, w)
        | .ok (true, w) =>
          match expand_variable w scope "DEPEND_DIRS".toList with
          | .error e => .error e
          | .ok (dirnames, w) =>
            match expand_variable
                { w with dirs := read_depends_loop this w.dirs (tokenize_whitespace dirnames) }
                scope "DEPENDABLE_HEADERS".toList with
            | .error e => .error e
            | .ok (_, w) => .ok (true, w)

/-- The method `PPDirectory::read_depends_file`, with fuel for the recursion
into the subdirectories. -/
def read_depends_file (expand_variable : World → Nat → Str → Eval Str)
    (read_file : World → Nat → Str → Except Fault (Bool × World)) :
    Nat → World → Nat → Except Fault (Bool × World)
  | 0, _, _ => .error .fuel
  | fuel + 1, w, this =>
    match w.dirs[this]? with
    | none => .error .abort
    | some dir =>
      match read_depends_here expand_variable read_file w this dir with
      | .error e => .error e
      | .ok (false, w) => .ok (false, w)
      | .ok (true, w) =>
        match w.dirs[this]? with
        | none => .error .abort
        | some dir =>
          resolve_dependencies_loop (read_depends_file expand_variable read_file fuel) w
            dir._children

/-- The shape of the tree of directories: the depth and the children of
every directory. -/
def tree_of (dirs : List PPDirectory) : List (Nat × List Nat) :=
  dirs.map (fun d => (d._depth, d._children))

/-- No directory lies deeper than `bound`, and every child is a directory
one level below its parent. -/
def children_deeper (tree : List (Nat × List Nat)) (bound : Nat) : Prop :=
  ∀ (i : Nat) (p : Nat × List Nat), tree[i]? = some p →
    p.1 ≤ bound ∧ ∀ c ∈ p.2, ∃ q, tree[c]? = some q ∧ q.1 = p.1 + 1

/-- The two edge sets are mutually inverse, and no directory depends on
itself. -/
def inverse_edges (dirs : List PPDirectory) : Prop :=
  (∀ a b, depends_on dirs a b ↔ depended_on_by dirs b a) ∧ ∀ a, ¬ depends_on dirs a a

/-- The expansion of a variable as its binding in the scope itself, for the
examples. -/
def local_expansion (w : World) (sid : Nat) (varname : Str) : Eval Str :=
  .ok ((local_binding w varname sid).getD [], w)

/-- A tree of three directories with their scopes: `top` lists itself and
`b` in `DEPEND_DIRS`, `a` lists `b`, `top` and a name that is not a
directory, and `b` lists nothing. -/
def depends_tree : World :=
  { world_of
      [{ empty_scope with
         _variables := [("DEPENDS_FILE".toList, "d".toList),
                        ("DEPEND_DIRS".toList, "top b".toList)] },
       { empty_scope with
         _variables := [("DEPENDS_FILE".toList, "d".toList),
                        ("DEPEND_DIRS".toList, "b top nosuch b".toList)] },
       { empty_scope with _variables := [("DEPENDS_FILE".toList, "d".toList)] }] with
    dirs :=
      [{ _dirname := "top".toList, _parent := none, _depth := 0, _depends_index := 0,
         _children := [1, 2], _scope := some 0 },
       { _dirname := "a".toList, _parent := some 0, _depth := 1, _depends_index := 0,
         _scope := some 1 },
       { _dirname := "b".toList, _parent := some 0, _depth := 1, _depends_index := 0,
         _scope := some 2 }] }

/-- The parts of the state that a captured line should leave alone: the
current scope, the writer format, the text of the streams, the registry of
named scopes and the number of scopes; `ok` is the result of the read. -/
structure CaptureFrame where
  ok : Bool
  scope : Nat
  format : WriteFormat
  streams : List Str
  named : List (Str × List Nat)
  scopes : Nat
  deriving DecidableEq, Repr

/-- The frame of the state after a run of the interpreter. -/
def capture_frame (r : Step) : Except Fault CaptureFrame :=
  r.map (fun p =>
    { ok := p.1, scope := p.2.1._scope, format := p.2.1._write_state._format,
      streams := p.2.2.streams, named := p.2.2.named, scopes := p.2.2.scopes.length })

/-- The evaluation, when it returns, leaves the scope stack as it found it. -/
def stack_kept {α : Type} (w : World) (r : Eval α) : Prop :=
  ∀ a w2, r = .ok (a, w2) → w2._scope_stack = w._scope_stack

/-- Every function of the expansion engine, run with `fuel`, leaves the
scope stack as it found it. -/
def engine_kept (X : External) (fuel : Nat) : Prop :=
  (∀ w sid expanded s, stack_kept w (r_expand_string X fuel w sid expanded s)) ∧
  (∀ w sid expanded s k varname ws op,
    stack_kept w (r_expand_variable_loop X fuel w sid expanded s k varname ws op)) ∧
  (∀ w sid expanded s, stack_kept w (r_expand_variable X fuel w sid expanded s)) ∧
  (∀ w sid expand s token, stack_kept w (tokenize_params_token X fuel w sid expand s token)) ∧
  (∀ w sid s expand, stack_kept w (tokenize_params X fuel w sid s expand)) ∧
  (∀ w sid name formals actuals w2,
    define_formals X fuel w sid name formals actuals = .ok w2 →
    w2._scope_stack = w._scope_stack) ∧
  (∀ w sid funcname sub params,
    stack_kept w (expand_function X fuel w sid funcname sub params)) ∧
  (∀ w sid varname, stack_kept w (get_variable X fuel w sid varname)) ∧
  (∀ w sid varname, stack_kept w (expand_variable X fuel w sid varname))

/-- The update of the state, when it returns, leaves the scope stack as it
found it. -/
def world_kept (w : World) (r : Except Fault World) : Prop :=
  ∀ w2, r = .ok w2 → w2._scope_stack = w._scope_stack

/-- A step that returns a flag, a record and the state leaves the scope
stack, when it returns, as it found it. -/
def step_kept {α β : Type} (w : World) (r : Except Fault (α × β × World)) : Prop :=
  ∀ a b w2, r = .ok (a, b, w2) → w2._scope_stack = w._scope_stack

/-- The reader of one line leaves the scope stack as it found it. -/
def reader_kept (reader : Reader) : Prop :=
  ∀ cf w line, step_kept w (reader cf w line)

/-- Every handler leaves the scope stack as it found it. -/
structure handlers_kept (H : Handlers) : Prop where
  begin_kept : ∀ cf w, step_kept w (H.handle_begin_command cf w)
  forscopes_kept : ∀ cf w, step_kept w (H.handle_forscopes_command cf w)
  foreach_kept : ∀ cf w, step_kept w (H.handle_foreach_command cf w)
  formap_kept : ∀ cf w, step_kept w (H.handle_formap_command cf w)
  format_kept : ∀ cf w, step_kept w (H.handle_format_command cf w)
  output_kept : ∀ cf w, step_kept w (H.handle_output_command cf w)
  print_kept : ∀ cf w, step_kept w (H.handle_print_command cf w)
  defsub_kept : ∀ b cf w, step_kept w (H.handle_defsub_command b cf w)
  end_kept : ∀ cf w, step_kept w (H.handle_end_command cf w)
  include_kept : ∀ cf w, step_kept w (H.handle_include_command cf w)
  sinclude_kept : ∀ cf w, step_kept w (H.handle_sinclude_command cf w)
  call_kept : ∀ cf w, step_kept w (H.handle_call_command cf w)
  defer_kept : ∀ cf w, step_kept w (H.handle_defer_command cf w)
  map_kept : ∀ cf w, step_kept w (H.handle_map_command cf w)
  addmap_kept : ∀ cf w, step_kept w (H.handle_addmap_command cf w)
  close_kept : ∀ nest w, stack_kept w (H.close_output nest w)

/-- The handlers of `#output`, `#include` and `#sinclude` and the end of an
`#output` block leave the scope stack as they found it. -/
structure files_kept (H : Handlers) : Prop where
  of_output : ∀ cf w, step_kept w (H.handle_output_command cf w)
  of_include : ∀ cf w, step_kept w (H.handle_include_command cf w)
  of_sinclude : ∀ cf w, step_kept w (H.handle_sinclude_command cf w)
  of_close : ∀ nest w, stack_kept w (H.close_output nest w)

/-- The collaborators of the interpreter of the source: the file system of
`X`, and the interpreter itself for the bodies of the user functions. -/
def source_external (X : External) (B : Reader → Handlers) (stray : Char)
    (fuel depth level : Nat) : External :=
  with_functions X (fun X2 => call_and_map_handlers X2 fuel B) stray fuel depth level

/-- The interpreter of the source: `read_line` with the handlers of the
source for every command but `#output`, `#include` and `#sinclude`, which
`B` supplies, and with function bodies read by the interpreter itself. -/
def source_reader (X : External) (B : Reader → Handlers) (stray : Char)
    (fuel depth level : Nat) : Reader :=
  read_line_rec (source_external X B stray fuel depth level)
    (call_and_map_handlers (source_external X B stray fuel depth level) fuel B)
    stray fuel depth

/-- The flag, the current scope and the scope stack after a run of the
interpreter. -/
def stack_frame (r : Step) : Except Fault (Bool × Nat × List Nat) :=
  r.map (fun p => (p.1, p.2.1._scope, p.2.2._scope_stack))

/-- A state with the starting scope 0 on the scope stack, two named scopes,
a map variable `M` over them, and two subroutines: `f` fails at its second
line, `g` defines a variable. -/
def stacked_world : World :=
  { two_named with
    _scope_stack := [0],
    scopes := two_named.scopes.set 0
      { empty_scope with
        _named_scopes := true,
        _map_variables := [("M".toList, [("ka".toList, 1), ("kb".toList, 2)])] },
    subs :=
      [("f".toList, { formals := ["x".toList], lines := ["$[x]".toList, "#error no".toList] }),
       ("g".toList, { formals := [], lines := ["#define y 1".toList] })] }

/-- A string in which every reference is a plain `$[name]`, with the names
it refers to, in order: the string is a sequence of characters at which no
reference starts and of plain references. -/
inductive PlainRefs : Str → List Str → Prop where
  | nil : PlainRefs [] []
  | char (c : Char) (s : Str) (ns : List Str) :
    at_reference (c :: s) = false → PlainRefs s ns → PlainRefs (c :: s) ns
  | ref (name rest : Str) (ns : List Str) :
    plain_name name → PlainRefs rest ns → PlainRefs (reference name ++ rest) (name :: ns)

/-- The number of the names of `names` that are not on the chain
`expanded` of the variables being expanded. -/
def unguarded (names expanded : List Str) : Nat :=
  names.countP (fun n => decide (n ∉ expanded))

/-- Definitions in which `A` and `B` are defined through each other and `C`
through itself and both; `U` is not defined. -/
def mutual_bindings : List (Str × Str) :=
  [("A".toList, "a$[B]".toList), ("B".toList, "$[A]b$[U]".toList),
   ("C".toList, "$[C]$[A]$[B]".toList)]

/-- A state with one scope, which holds the definitions `bindings`. -/
def single_scope (bindings : List (Str × Str)) : World :=
  world_of [{ empty_scope with _variables := bindings }]

/-- The method `PPCommandFile::handle_output_command`.  The file that it
opens is a new, empty stream of the state; `tempnam` is the call of the C
library (`none` for a null result) and `opens` tells whether the file of a
name can be opened.  The new `WriteState` is the copy of the current one
made by the copy constructor, which keeps `_format` and `_last_blank`, with
`_out` set to the stream of the record. -/
def handle_output_command (X : External) (tempnam : Str → Str → Option Str)
    (opens : Str → Bool) (fuel : Nat) (cf : PPCommandFile) (w : World) : Step :=
  match expand_string X fuel w cf._scope cf._params with
  | .error e => .error e
  | .ok (text, w) =>
    let nest := open_block .BS_output (trim_blanks text) [] cf
    if cf._in_for then .ok (true, { cf with _block_nesting := nest :: cf._block_nesting }, w)
    else if nest._name.isEmpty then
      .ok (false, { cf with _block_nesting := nest :: cf._block_nesting }, w)
    else
      match expand_variable X fuel w cf._scope "DIRPREFIX".toList with
      | .error e => .error e
      | .ok (dirpfx, w) =>
        let filename :=
          if nest._name.head? = some '/' then nest._name else dirpfx ++ nest._name
        let temp : Except Fault (Option Str) :=
          if X.access filename then
            match tempnam (dirpfx ++ ".".toList) "pptmp".toList with
            | none => .error .abort
            | some t => .ok (some t)
          else .ok none
        match temp with
        | .error e => .error e
        | .ok tempname =>
          let nest := { nest with _true_name := filename, _tempnam := tempname }
          if ¬ opens (tempname.getD filename) then
            .ok (false, { cf with _block_nesting := nest :: cf._block_nesting }, w)
          else
            .ok (true,
              { cf with
                _block_nesting :=
                  { nest with _output := w.streams.length } :: cf._block_nesting,
                _write_state := { cf._write_state with _out := w.streams.length } },
              { w with streams := w.streams ++ [[]] })

/-- The interpreter of the examples with the `#output` of the source, on a
file system without files in which every file can be opened. -/
def output_reader (fuel depth level : Nat) : Reader :=
  source_reader quiet
    (fun _ =>
      { idle_handlers with
        handle_output_command :=
          handle_output_command quiet (fun _ _ => none) (fun _ => true) fuel })
    ' ' fuel depth level

/-! ## Properties -/

theorem at_reference_iff (s : Str) :
    at_reference s = true ↔ ∃ t, s = VARIABLE_PREFIX :: VARIABLE_OPEN_BRACE :: t := by
  match s with
  | [] => simp [at_reference]
  | [c] => simp [at_reference]
  | c :: d :: t => simp [at_reference]

theorem not_at_reference_of_not_infix (s : Str) (h : ¬ reference_open <:+: s) :
    at_reference s = false := by
  rcases hb : at_reference s with _ | _
  · rfl
  · obtain ⟨t, rfl⟩ := (at_reference_iff s).1 hb
    exact absurd ⟨[], t, rfl⟩ h

theorem not_infix_tail (c : Char) (s : Str) (h : ¬ reference_open <:+: c :: s) :
    ¬ reference_open <:+: s :=
  fun hs => h (hs.trans (List.suffix_cons c s).isInfix)

theorem r_expand_string_plain (X : External) (w : World) (sid : Nat) (expanded : List Str) :
    ∀ (s : Str) (fuel : Nat), ¬ reference_open <:+: s → s.length < fuel →
      r_expand_string X fuel w sid expanded s = .ok (s, w) := by
  intro s
  induction s with
  | nil =>
    intro fuel _ hf
    obtain ⟨n, rfl⟩ : ∃ n, fuel = n + 1 := ⟨fuel - 1, by simp at hf; omega⟩
    simp [r_expand_string]
  | cons c cs ih =>
    intro fuel hs hf
    obtain ⟨n, rfl⟩ : ∃ n, fuel = n + 1 := ⟨fuel - 1, by simp at hf; omega⟩
    have h1 := not_at_reference_of_not_infix _ hs
    have h2 := ih n (not_infix_tail c cs hs) (by simp at hf; omega)
    simp [r_expand_string, h1, h2]

/-- C1: a string that contains no `$[` is returned unchanged by
`expand_string`, in every scope and every process state (which is left as it
was), as soon as the fuel exceeds the length of the string. -/
theorem expand_string_without_reference (X : External) (w : World) (sid : Nat) (s : Str)
    (fuel : Nat) (hs : ¬ reference_open <:+: s) (hf : s.length < fuel) :
    expand_string X fuel w sid s = .ok (s, w) :=
  r_expand_string_plain X w sid [] s fuel hs hf

theorem expand_string_without_reference_witness :
    (¬ reference_open <:+: "lib foo.a".toList) ∧ "lib foo.a".toList.length < 10 ∧
    expand_string quiet 10 (world_of [empty_scope]) 0 "lib foo.a".toList =
      .ok ("lib foo.a".toList, world_of [empty_scope]) :=
  ⟨by decide, by decide,
   expand_string_without_reference quiet (world_of [empty_scope]) 0 "lib foo.a".toList 10
     (by decide) (by decide)⟩

/-! ### C2: a built-in call hides a cyclic reference from the cycle guard -/

theorem upcase_cycle_outer (n : Nat) :
    r_expand_string quiet (n + 4) upcase_cycle 0 [] "$[v]".toList =
      (match r_expand_variable quiet (n + 3) upcase_cycle 0 [] "$[v]".toList with
       | .error e => .error e
       | .ok ((text, rest), w) =>
         match r_expand_string quiet (n + 3) w 0 [] rest with
         | .error e => .error e
         | .ok (result, w) => .ok (text ++ result, w)) := rfl

theorem upcase_cycle_reference (n : Nat) :
    r_expand_variable quiet (n + 3) upcase_cycle 0 [] "$[v]".toList =
      (match r_expand_string quiet (n + 2) upcase_cycle 0 ["v".toList]
          "$[upcase $[v]]".toList with
       | .error e => .error e
       | .ok (result, w) => .ok ((result, []), w)) := rfl

theorem upcase_cycle_definition (n : Nat) :
    r_expand_string quiet (n + 2) upcase_cycle 0 ["v".toList] "$[upcase $[v]]".toList =
      (match r_expand_variable quiet (n + 1) upcase_cycle 0 ["v".toList]
          "$[upcase $[v]]".toList with
       | .error e => .error e
       | .ok ((text, rest), w) =>
         match r_expand_string quiet (n + 1) w 0 ["v".toList] rest with
         | .error e => .error e
         | .ok (result, w) => .ok (text ++ result, w)) := rfl

theorem upcase_cycle_call (n : Nat) :
    r_expand_variable quiet (n + 10) upcase_cycle 0 ["v".toList] "$[upcase $[v]]".toList =
      with_rest []
        (expand_upcase (fun w s => r_expand_string quiet (n + 9) w 0 [] s) upcase_cycle
          "$[v]".toList) := rfl

theorem upcase_cycle_step (n : Nat)
    (ih : r_expand_string quiet (n + 9) upcase_cycle 0 [] "$[v]".toList = .error .fuel) :
    r_expand_string quiet (n + 13) upcase_cycle 0 [] "$[v]".toList = .error .fuel := by
  rw [upcase_cycle_outer (n + 9), upcase_cycle_reference (n + 9),
    upcase_cycle_definition (n + 9), upcase_cycle_call n]
  simp only [expand_upcase, ih, with_rest]

theorem upcase_cycle_diverges :
    ∀ fuel, r_expand_string quiet fuel upcase_cycle 0 [] "$[v]".toList = .error .fuel
  | 0 => by decide
  | 1 => by decide
  | 2 => by decide
  | 3 => by decide
  | 4 => by decide
  | 5 => by decide
  | 6 => by decide
  | 7 => by decide
  | 8 => by decide
  | 9 => by decide
  | 10 => by decide
  | 11 => by decide
  | 12 => by decide
  | n + 13 => upcase_cycle_step n (upcase_cycle_diverges (n + 9))

/-- C2 (the code at the failing input): with `v` defined as
`$[upcase $[v]]`, `expand_string` of `$[v]` produces no result whatever the
fuel: the call of `upcase` restarts the expansion with an empty list of
expanded variables, so the cyclic reference is never cut off. -/
theorem expand_string_upcase_cycle_diverges (fuel : Nat) :
    expand_string quiet fuel upcase_cycle 0 "$[v]".toList = .error .fuel :=
  upcase_cycle_diverges fuel

/-! ### C3: a definition that refers to its own variable -/

theorem r_expand_variable_loop_plain (X : External) (w : World) (sid : Nat)
    (expanded : List Str) (rest : Str) :
    ∀ (name : Str) (fuel k : Nat) (acc : Str), plain_name name → name.length < fuel →
      r_expand_variable_loop X fuel w sid expanded (name ++ ']' :: rest) k acc 0 0 =
        .ok ((acc ++ name, rest, 0, 0), w) := by
  intro name
  induction name with
  | nil =>
    intro fuel k acc _ hf
    obtain ⟨n, rfl⟩ : ∃ n, fuel = n + 1 := ⟨fuel - 1, by simp at hf; omega⟩
    simp [r_expand_variable_loop]
  | cons c cs ih =>
    intro fuel k acc hp hf
    obtain ⟨n, rfl⟩ : ∃ n, fuel = n + 1 := ⟨fuel - 1, by simp at hf; omega⟩
    have hc := hp c (by simp)
    have hcs : plain_name cs := fun d hd => hp d (by simp [hd])
    have har : at_reference (c :: (cs ++ ']' :: rest)) = false := by
      cases cs with
      | nil => simp [at_reference, VARIABLE_OPEN_BRACE]
      | cons d ds => simp [at_reference, (hcs d (by simp)).2.1]
    have := ih n (k + 1) (acc ++ [c]) hcs (by simp at hf; omega)
    simp [r_expand_variable_loop, hc, har, this, VARIABLE_CLOSE_BRACE, VARIABLE_OPEN_NESTED]

theorem str_find_char_none (x : Char) :
    ∀ s : Str, (∀ c ∈ s, c ≠ x) → str_find [x] s = none := by
  intro s
  induction s with
  | nil => intro _; simp [str_find]
  | cons c cs ih =>
    intro h
    have hc : c ≠ x := h c (by simp)
    have := ih (fun d hd => h d (by simp [hd]))
    simp [str_find, starts_with, this, Ne.symm hc]

theorem get_variable_of_bound (X : External) (w : World) (sid : Nat) (name T : Str) (n : Nat)
    (hfun : get_func w name = none) (hget : p_get_variable w sid name = .ok (some T)) :
    get_variable X (n + 1) w sid name = .ok (T, w) := by
  simp [get_variable, hfun, hget]

theorem r_expand_variable_plain (X : External) (w : World) (sid : Nat) (expanded : List Str)
    (name rest : Str) (n : Nat) (hp : plain_name name) (hn : name.length < n) :
    r_expand_variable X (n + 1) w sid expanded (reference name ++ rest) =
      if name ∈ expanded then .ok (([], rest), w)
      else
        match get_variable X n w sid name with
        | .error e => .error e
        | .ok (expansion, w) =>
          match r_expand_string X n w sid (name :: expanded) expansion with
          | .error e => .error e
          | .ok (result, w) => .ok ((result, rest), w) := by
  have hloop := r_expand_variable_loop_plain X w sid expanded rest name n 0 [] hp hn
  have h1 : str_find VARIABLE_PATSUBST name = none :=
    str_find_char_none ':' name (fun c hc => (hp c hc).2.2.2.1)
  have h2 : str_find [VARIABLE_OPEN_NESTED] name = none :=
    str_find_char_none '(' name (fun c hc => (hp c hc).2.2.2.2)
  simp only [reference, List.cons_append, List.append_assoc, List.singleton_append] at *
  simp only [r_expand_variable, List.drop_succ_cons, List.drop_zero, hloop, List.nil_append]
  by_cases hmem : name ∈ expanded
  · simp [hmem]
  · simp [hmem, h1, h2]

theorem r_expand_string_append (X : External) (w : World) (sid : Nat) (expanded : List Str)
    (t : Str) (ht : t.head? ≠ some VARIABLE_OPEN_BRACE) :
    ∀ (seg : Str) (fuel : Nat), ¬ reference_open <:+: seg →
      r_expand_string X (fuel + seg.length) w sid expanded (seg ++ t) =
        match r_expand_string X fuel w sid expanded t with
        | .error e => .error e
        | .ok (result, w) => .ok (seg ++ result, w) := by
  intro seg
  induction seg with
  | nil =>
    intro fuel _
    simp only [List.length_nil, Nat.add_zero, List.nil_append]
    rcases r_expand_string X fuel w sid expanded t with e | ⟨r, w2⟩ <;> rfl
  | cons c cs ih =>
    intro fuel hs
    have har : at_reference (c :: (cs ++ t)) = false := by
      cases cs with
      | nil =>
        cases t with
        | nil => simp [at_reference]
        | cons d ds =>
          have : d ≠ VARIABLE_OPEN_BRACE := by simpa using ht
          simp [at_reference, this]
      | cons d ds =>
        rcases hb : at_reference (c :: (d :: ds ++ t)) with _ | _
        · rfl
        · simp [at_reference] at hb
          exact absurd ⟨[], ds, by simp [reference_open, hb.1, hb.2]⟩ hs
    have h2 := ih fuel (not_infix_tail c cs hs)
    simp only [List.length_cons, List.cons_append]
    rw [show fuel + (cs.length + 1) = (fuel + cs.length) + 1 by omega]
    simp only [r_expand_string, har, h2]
    rcases r_expand_string X fuel w sid expanded t with e | ⟨r, w2⟩ <;> simp

theorem intercalate_cons_cons (sep a b : Str) (l : List Str) :
    sep.intercalate (a :: b :: l) = a ++ (sep ++ sep.intercalate (b :: l)) := by
  simp [List.intercalate, List.intersperse]

theorem r_expand_string_intercalate (X : External) (w : World) (sid : Nat)
    (expanded : List Str) (name R : Str) (F : Nat)
    (H : ∀ (rest : Str) (fuel : Nat), F ≤ fuel →
      r_expand_variable X fuel w sid expanded (reference name ++ rest) = .ok ((R, rest), w)) :
    ∀ (rest : List Str) (seg : Str) (fuel : Nat),
      (∀ s ∈ seg :: rest, ¬ reference_open <:+: s) →
      ((reference name).intercalate (seg :: rest)).length + F < fuel →
      r_expand_string X fuel w sid expanded ((reference name).intercalate (seg :: rest)) =
        .ok (R.intercalate (seg :: rest), w) := by
  intro rest
  induction rest with
  | nil =>
    intro seg fuel hs hf
    have h1 : (reference name).intercalate [seg] = seg := by simp [List.intercalate]
    have h2 : R.intercalate [seg] = seg := by simp [List.intercalate]
    rw [h1] at hf ⊢
    rw [h2]
    exact r_expand_string_plain X w sid expanded seg fuel (hs seg (by simp)) (by omega)
  | cons s2 rest ih =>
    intro seg fuel hs hf
    rw [intercalate_cons_cons] at hf ⊢
    rw [intercalate_cons_cons]
    simp only [List.length_append] at hf
    obtain ⟨m, rfl⟩ : ∃ m, fuel = (m + 1) + seg.length :=
      ⟨fuel - seg.length - 1, by omega⟩
    have hhead : (reference name ++ (reference name).intercalate (s2 :: rest)).head? ≠
        some VARIABLE_OPEN_BRACE := by
      simp [reference, VARIABLE_PREFIX, VARIABLE_OPEN_BRACE]
    rw [r_expand_string_append X w sid expanded _ hhead seg (m + 1) (hs seg (by simp))]
    have hat : at_reference (reference name ++ (reference name).intercalate (s2 :: rest)) =
        true := by
      simp [reference, at_reference]
    have hrl : 2 ≤ (reference name).length := by simp [reference]
    have hv := H ((reference name).intercalate (s2 :: rest)) m (by omega)
    have hrec := ih s2 m (fun s h => hs s (by simp at h ⊢; tauto)) (by omega)
    have hstep : r_expand_string X (m + 1) w sid expanded
        (reference name ++ (reference name).intercalate (s2 :: rest)) =
        .ok (R ++ R.intercalate (s2 :: rest), w) := by
      generalize hT : (reference name).intercalate (s2 :: rest) = T at *
      cases hr : reference name ++ T with
      | nil => simp [reference] at hr
      | cons c cs =>
        rw [hr] at hat hv
        simp only [r_expand_string, hat, hv, hrec, if_true]
    rw [hstep]

theorem r_expand_variable_guarded (X : External) (w : World) (sid : Nat)
    (expanded : List Str) (name : Str) (hp : plain_name name) (hmem : name ∈ expanded)
    (rest : Str) (fuel : Nat) (hf : name.length + 2 ≤ fuel) :
    r_expand_variable X fuel w sid expanded (reference name ++ rest) = .ok (([], rest), w) := by
  obtain ⟨n, rfl⟩ : ∃ n, fuel = n + 1 := ⟨fuel - 1, by omega⟩
  rw [r_expand_variable_plain X w sid expanded name rest n hp (by omega)]
  simp [hmem]

theorem r_expand_variable_self (X : External) (w : World) (sid : Nat) (v T : Str)
    (segs : List Str) (hp : plain_name v) (hfun : get_func w v = none)
    (hget : p_get_variable w sid v = .ok (some T)) (hne : segs ≠ [])
    (hsegs : ∀ s ∈ segs, ¬ reference_open <:+: s) (hT : T = (reference v).intercalate segs)
    (rest : Str) (fuel : Nat) (hf : T.length + v.length + 4 ≤ fuel) :
    r_expand_variable X fuel w sid [] (reference v ++ rest) =
      .ok ((([] : Str).intercalate segs, rest), w) := by
  obtain ⟨n, rfl⟩ : ∃ n, fuel = n + 1 := ⟨fuel - 1, by omega⟩
  obtain ⟨m, rfl⟩ : ∃ m, n = m + 1 := ⟨n - 1, by omega⟩
  obtain ⟨seg, tl, rfl⟩ : ∃ seg tl, segs = seg :: tl := by
    cases segs with
    | nil => exact absurd rfl hne
    | cons a l => exact ⟨a, l, rfl⟩
  rw [r_expand_variable_plain X w sid [] v rest (m + 1) hp (by omega)]
  have hbody := r_expand_string_intercalate X w sid [v] v [] (v.length + 2)
    (fun r f hF => r_expand_variable_guarded X w sid [v] v hp (by simp) r f hF)
    tl seg (m + 1) hsegs (by rw [← hT]; omega)
  rw [← hT] at hbody
  simp [get_variable_of_bound X w sid v T m hfun hget, hbody]

/-- C3 (amended): for a plain name `v` that is no function and is bound in
the static chain to a text `T` made of pieces without `$[` joined by
`$[v]`, the reference `$[v]` expands to `T` with every `$[v]` replaced by
the empty string, and `expand_variable(v)`, which expands `T` outside the
cycle guard, gives `T` with every `$[v]` replaced by that expansion. -/
theorem expand_variable_self_reference (X : External) (w : World) (sid : Nat) (v T : Str)
    (segs : List Str) (fuel : Nat) (hp : plain_name v) (hfun : get_func w v = none)
    (hget : p_get_variable w sid v = .ok (some T)) (hne : segs ≠ [])
    (hsegs : ∀ s ∈ segs, ¬ reference_open <:+: s) (hT : T = (reference v).intercalate segs)
    (hf : 2 * T.length + 2 * v.length + 8 ≤ fuel) :
    expand_string X fuel w sid (reference v) = .ok (([] : Str).intercalate segs, w) ∧
    expand_variable X fuel w sid v =
      .ok ((([] : Str).intercalate segs).intercalate segs, w) := by
  have hself := fun (rest : Str) (f : Nat) (hF : T.length + v.length + 4 ≤ f) =>
    r_expand_variable_self X w sid v T segs hp hfun hget hne hsegs hT rest f hF
  constructor
  · have h := r_expand_string_intercalate X w sid [] v (([] : Str).intercalate segs)
      (T.length + v.length + 4) hself [[]] [] fuel (by simp [reference_open])
      (by simp [List.intercalate, reference]; omega)
    simpa [List.intercalate, expand_string] using h
  · obtain ⟨n, rfl⟩ : ∃ n, fuel = n + 1 := ⟨fuel - 1, by omega⟩
    obtain ⟨seg, tl, rfl⟩ : ∃ seg tl, segs = seg :: tl := by
      cases segs with
      | nil => exact absurd rfl hne
      | cons a l => exact ⟨a, l, rfl⟩
    obtain ⟨m, rfl⟩ : ∃ m, n = m + 1 := ⟨n - 1, by omega⟩
    have h := r_expand_string_intercalate X w sid [] v (([] : Str).intercalate (seg :: tl))
      (T.length + v.length + 4) hself tl seg (m + 1) hsegs (by rw [← hT]; omega)
    rw [← hT] at h
    simp [expand_variable, get_variable_of_bound X w sid v T m hfun hget, h]

theorem expand_variable_self_reference_witness :
    plain_name "v".toList ∧
    p_get_variable self_cycle 0 "v".toList = .ok (some "a$[v]b".toList) ∧
    "a$[v]b".toList = (reference "v".toList).intercalate ["a".toList, "b".toList] ∧
    expand_string quiet 24 self_cycle 0 "$[v]".toList = .ok ("ab".toList, self_cycle) ∧
    expand_variable quiet 24 self_cycle 0 "v".toList = .ok ("aabb".toList, self_cycle) :=
  ⟨by decide, by decide, by decide,
   expand_variable_self_reference quiet self_cycle 0 "v".toList "a$[v]b".toList
    ["a".toList, "b".toList] 24 (by decide) (by decide) (by decide) (by decide) (by decide)
    (by decide) (by decide)⟩

/-- C3 (counterexample): with `v` defined as `a$[v]b`, `expand_variable(v)`
is `aabb`, not `ab`. -/
theorem expand_variable_self_reference_counterexample :
    expand_variable quiet 24 self_cycle 0 "v".toList = .ok ("aabb".toList, self_cycle) ∧
    expand_variable quiet 24 self_cycle 0 "v".toList ≠ .ok ("ab".toList, self_cycle) := by
  decide

/-! ### C4: `tokenize_params` without expansion splits by bracket counting -/

theorem split_spans_cons (depth : Nat) (cur : Str) (c : Char) (cs : Str) :
    split_spans depth cur (c :: cs) =
      if at_reference (c :: cs) then
        split_spans (depth + 1) (cur ++ [VARIABLE_PREFIX, VARIABLE_OPEN_BRACE]) (cs.drop 1)
      else if c = VARIABLE_CLOSE_BRACE ∧ 0 < depth then
        split_spans (depth - 1) (cur ++ [c]) cs
      else if c = FUNCTION_PARAMETER_SEPARATOR ∧ depth = 0 then
        cur :: split_spans 0 [] cs
      else split_spans depth (cur ++ [c]) cs := by
  cases cs with
  | nil =>
    by_cases h1 : c = ']' <;> by_cases h2 : c = ',' <;> by_cases h3 : depth = 0 <;>
      simp [split_spans, at_reference, h1, h2, h3]
  | cons d rest =>
    by_cases h : c = '$' ∧ d = '['
    · obtain ⟨rfl, rfl⟩ := h
      simp [split_spans, at_reference]
    · have : ¬ (c = VARIABLE_PREFIX ∧ d = VARIABLE_OPEN_BRACE) := h
      simp only [split_spans, at_reference, this, if_false]
      simp [h]

theorem at_reference_of_ne (c : Char) (cs : Str) (h : c ≠ VARIABLE_PREFIX) :
    at_reference (c :: cs) = false := by
  cases cs with
  | nil => rfl
  | cons d t => simp [at_reference, h]

theorem r_scan_variable_counts :
    ∀ fuel : Nat,
      (∀ s : Str, s.length < fuel →
        ∃ consumed rest, r_scan_variable_loop fuel s = .ok rest ∧ ScanResult s consumed rest) ∧
      (∀ t : Str, t.length + 2 ≤ fuel →
        ∃ consumed rest,
          r_scan_variable_rec fuel (VARIABLE_PREFIX :: VARIABLE_OPEN_BRACE :: t) =
            .ok (VARIABLE_PREFIX :: VARIABLE_OPEN_BRACE :: consumed, rest) ∧
          ScanResult t consumed rest) := by
  intro fuel
  induction fuel with
  | zero =>
    exact ⟨fun s h => absurd h (by omega), fun t h => absurd h (by omega)⟩
  | succ n ih =>
    obtain ⟨ihl, ihr⟩ := ih
    constructor
    · intro s hs
      cases s with
      | nil =>
        exact ⟨[], [], by simp [r_scan_variable_loop], by simp, by simp [split_spans]⟩
      | cons c cs =>
        simp only [List.length_cons] at hs
        by_cases hc : c = VARIABLE_CLOSE_BRACE
        · refine ⟨[c], cs, by simp [r_scan_variable_loop, hc], by simp, ?_⟩
          intro d cur
          rw [split_spans_cons]
          subst hc
          simp [at_reference_of_ne VARIABLE_CLOSE_BRACE cs (by decide)]
        · by_cases har : at_reference (c :: cs) = true
          · obtain ⟨t, ht⟩ := (at_reference_iff _).1 har
            obtain ⟨rfl, rfl⟩ : c = VARIABLE_PREFIX ∧ cs = VARIABLE_OPEN_BRACE :: t := by
              simpa using ht
            simp only [List.length_cons] at hs
            obtain ⟨c1, r1, h1, hs1, hc1⟩ := ihr t (by omega)
            have hlen : r1.length ≤ t.length := by rw [hs1]; simp
            obtain ⟨c2, r2, h2, hs2, hc2⟩ := ihl r1 (by omega)
            refine ⟨VARIABLE_PREFIX :: VARIABLE_OPEN_BRACE :: (c1 ++ c2), r2, ?_, ?_, ?_⟩
            · simp only [r_scan_variable_loop, hc, har, h1, h2, if_true, if_false]
            · rw [hs1, hs2]; simp
            · intro d cur
              rw [split_spans_cons, if_pos har]
              simp only [List.drop_succ_cons, List.drop_zero]
              rw [hc1 (d + 1), hc2 d]
              simp
          · have har2 : at_reference (c :: cs) = false := by simpa using har
            obtain ⟨c1, r1, h1, hs1, hc1⟩ := ihl cs (by omega)
            refine ⟨c :: c1, r1, ?_, by rw [hs1]; simp, ?_⟩
            · simp only [r_scan_variable_loop, hc, har2, h1, if_false]
              simp
            · intro d cur
              rw [split_spans_cons]
              simp only [har2, hc, false_and, if_false]
              have : ¬ (c = FUNCTION_PARAMETER_SEPARATOR ∧ d + 1 = 0) := by omega
              simp only [this, if_false]
              rw [hc1 d]
              simp
    · intro t ht
      obtain ⟨c1, r1, h1, hs1, hc1⟩ := ihl t (by omega)
      refine ⟨c1, r1, ?_, hs1, hc1⟩
      simp only [r_scan_variable_rec, List.drop_succ_cons, List.drop_zero, h1]
      have : (VARIABLE_PREFIX :: VARIABLE_OPEN_BRACE :: t).length - r1.length = c1.length + 2
          := by
        rw [hs1]; simp; omega
      rw [this, hs1]
      simp

theorem r_scan_variable_counts_top (t : Str) :
    ∃ consumed rest,
      r_scan_variable (VARIABLE_PREFIX :: VARIABLE_OPEN_BRACE :: t) =
        .ok (VARIABLE_PREFIX :: VARIABLE_OPEN_BRACE :: consumed, rest) ∧
      ScanResult t consumed rest :=
  (r_scan_variable_counts _).2 t (by simp)

theorem tokenize_params_token_counts (X : External) (w : World) (sid : Nat) :
    ∀ (fuel : Nat) (s token : Str), s.length < fuel →
      ∃ seg rest,
        tokenize_params_token X fuel w sid false s token = .ok ((token ++ seg, rest), w) ∧
        TokenResult s seg rest := by
  intro fuel
  induction fuel with
  | zero => intro s _ h; exact absurd h (by omega)
  | succ n ih =>
    intro s token hs
    cases s with
    | nil =>
      exact ⟨[], [], by simp [tokenize_params_token], by simp,
        Or.inl ⟨rfl, by simp [split_spans]⟩⟩
    | cons c cs =>
      simp only [List.length_cons] at hs
      by_cases hc : c = FUNCTION_PARAMETER_SEPARATOR
      · refine ⟨[], c :: cs, by simp [tokenize_params_token, hc], by simp,
          Or.inr ⟨cs, by rw [hc], ?_⟩⟩
        intro cur
        rw [split_spans_cons]
        subst hc
        simp [at_reference_of_ne FUNCTION_PARAMETER_SEPARATOR cs (by decide)]
      · by_cases har : at_reference (c :: cs) = true
        · obtain ⟨t, ht⟩ := (at_reference_iff _).1 har
          obtain ⟨rfl, rfl⟩ : c = VARIABLE_PREFIX ∧ cs = VARIABLE_OPEN_BRACE :: t := by
            simpa using ht
          simp only [List.length_cons] at hs
          obtain ⟨c1, r1, h1, hs1, hc1⟩ := r_scan_variable_counts_top t
          have hlen : r1.length ≤ t.length := by rw [hs1]; simp
          obtain ⟨seg, rest, h2, hs2, hc2⟩ :=
            ih r1 (token ++ VARIABLE_PREFIX :: VARIABLE_OPEN_BRACE :: c1) (by omega)
          refine ⟨VARIABLE_PREFIX :: VARIABLE_OPEN_BRACE :: (c1 ++ seg), rest, ?_, ?_, ?_⟩
          · simp only [tokenize_params_token, hc, har, h1, h2, if_true, if_false]
            simp
          · rw [hs1, hs2]; simp
          · have hsplit : ∀ cur, split_spans 0 cur
                (VARIABLE_PREFIX :: VARIABLE_OPEN_BRACE :: t) =
                split_spans 0 (cur ++ VARIABLE_PREFIX :: VARIABLE_OPEN_BRACE :: c1) r1 := by
              intro cur
              rw [split_spans_cons, if_pos har]
              simp only [List.drop_succ_cons, List.drop_zero]
              rw [hc1 0]
              simp
            rcases hc2 with ⟨hr, hc2⟩ | ⟨r, hr, hc2⟩
            · refine Or.inl ⟨hr, fun cur => ?_⟩
              rw [hsplit, hc2]; simp
            · refine Or.inr ⟨r, hr, fun cur => ?_⟩
              rw [hsplit, hc2]; simp
        · have har2 : at_reference (c :: cs) = false := by simpa using har
          obtain ⟨seg, rest, h2, hs2, hc2⟩ := ih cs (token ++ [c]) (by omega)
          refine ⟨c :: seg, rest, ?_, by rw [hs2]; simp, ?_⟩
          · simp only [tokenize_params_token, hc, har2, h2, if_false]
            simp
          · have hsplit : ∀ cur, split_spans 0 cur (c :: cs) = split_spans 0 (cur ++ [c]) cs := by
              intro cur
              rw [split_spans_cons]
              simp [har2, hc]
            rcases hc2 with ⟨hr, hc2⟩ | ⟨r, hr, hc2⟩
            · refine Or.inl ⟨hr, fun cur => ?_⟩
              rw [hsplit, hc2]; simp
            · refine Or.inr ⟨r, hr, fun cur => ?_⟩
              rw [hsplit, hc2]; simp

theorem isspace_ne (c x : Char) (hc : isspace c = true) (hx : isspace x = false) : c ≠ x := by
  rintro rfl
  rw [hc] at hx
  exact absurd hx (by simp)

theorem split_spans_whitespace (s : Str) :
    ∀ cur : Str, split_spans 0 cur s =
      split_spans 0 (cur ++ s.takeWhile isspace) (s.dropWhile isspace) := by
  induction s with
  | nil => intro cur; simp
  | cons c cs ih =>
    intro cur
    by_cases hc : isspace c = true
    · have h1 : at_reference (c :: cs) = false :=
        at_reference_of_ne c cs (isspace_ne c _ hc (by decide))
      have h2 : c ≠ FUNCTION_PARAMETER_SEPARATOR := isspace_ne c _ hc (by decide)
      rw [split_spans_cons]
      simp only [h1, h2, Nat.lt_irrefl, and_false, false_and, if_false]
      rw [ih]
      simp [List.takeWhile_cons, List.dropWhile_cons, hc]
    · simp [List.takeWhile_cons, List.dropWhile_cons, hc]

theorem dropWhile_takeWhile_append (s seg rest : Str)
    (h : s.dropWhile isspace = seg ++ rest) :
    (s.takeWhile isspace ++ seg).dropWhile isspace = seg := by
  induction s with
  | nil =>
    have : seg = [] := by
      have h2 : seg ++ rest = [] := by simpa using h.symm
      exact (List.append_eq_nil.1 h2).1
    simp [this]
  | cons c cs ih =>
    by_cases hc : isspace c = true
    · simp only [List.takeWhile_cons, List.dropWhile_cons, hc, if_true] at h ⊢
      simpa [List.dropWhile_cons, hc] using ih h
    · simp only [List.takeWhile_cons, List.dropWhile_cons, hc] at h ⊢
      cases seg with
      | nil => simp
      | cons d ds =>
        have hd : c = d := by
          have := congrArg List.head? h
          simpa using this
        subst hd
        simp [List.dropWhile_cons, hc]

theorem trim_blanks_token (s seg rest : Str) (h : s.dropWhile isspace = seg ++ rest) :
    trim_blanks (s.takeWhile isspace ++ seg) = strip_trailing seg := by
  simp [trim_blanks, dropWhile_takeWhile_append s seg rest h]

theorem tokenize_params_counts (X : External) (w : World) (sid : Nat) :
    ∀ (fuel : Nat) (s : Str), s ≠ [] → s.length + 1 < fuel →
      tokenize_params X fuel w sid s false =
        .ok ((split_spans 0 [] s).map trim_blanks, w) := by
  intro fuel
  induction fuel with
  | zero => intro s _ h; exact absurd h (by omega)
  | succ n ih =>
    intro s hne hs
    cases s with
    | nil => exact absurd rfl hne
    | cons c cs =>
      have hdl : ((c :: cs).dropWhile isspace).length ≤ (c :: cs).length :=
        (List.dropWhile_sublist _).length_le
      obtain ⟨seg, rest, h1, hs1, hc1⟩ :=
        tokenize_params_token_counts X w sid n ((c :: cs).dropWhile isspace) [] (by omega)
      have htrim := trim_blanks_token (c :: cs) seg rest hs1
      have hrl : rest.length ≤ (c :: cs).length := by
        have : rest.length ≤ ((c :: cs).dropWhile isspace).length := by rw [hs1]; simp
        omega
      rw [split_spans_whitespace (c :: cs) []]
      simp only [List.nil_append] at h1 ⊢
      rcases hc1 with ⟨hr, hc1⟩ | ⟨r, hr, hc1⟩
      · subst hr
        simp [tokenize_params, h1, hc1, htrim]
      · subst hr
        rw [hc1]
        cases r with
        | nil =>
          have hnil : trim_blanks [] = [] := rfl
          simp [tokenize_params, h1, htrim, split_spans, hnil]
        | cons d ds =>
          have hlen : (d :: ds).length + 1 ≤ (c :: cs).length := by simpa using hrl
          have hrec := ih (d :: ds) (by simp) (by omega)
          simp [tokenize_params, h1, htrim, hrec]

/-- C4: without expansion, `tokenize_params` yields exactly the tokens
prescribed by bracket counting: the string is split at the separators that
lie outside every `$[...]` span (nested spans included), every span is
copied unchanged into its token, and each token is stripped of surrounding
whitespace.  In particular `a, $[X], c` gives `a`, `$[X]`, `c` and
`$[f a,b],c` gives `$[f a,b]`, `c`. -/
theorem tokenize_params_bracket_counting (X : External) (w : World) (sid : Nat) :
    (∀ (str : Str) (fuel : Nat), str.length + 1 < fuel →
      tokenize_params X fuel w sid str false = .ok (tokens_by_bracket_counting str, w)) ∧
    (∀ fuel : Nat, 11 < fuel →
      tokenize_params X fuel w sid "a, $[X], c".toList false =
        .ok (["a".toList, "$[X]".toList, "c".toList], w)) ∧
    (∀ fuel : Nat, 11 < fuel →
      tokenize_params X fuel w sid "$[f a,b],c".toList false =
        .ok (["$[f a,b]".toList, "c".toList], w)) := by
  have main : ∀ (str : Str) (fuel : Nat), str.length + 1 < fuel →
      tokenize_params X fuel w sid str false = .ok (tokens_by_bracket_counting str, w) := by
    intro str fuel hf
    by_cases hs : str = []
    · subst hs
      obtain ⟨n, rfl⟩ : ∃ n, fuel = n + 1 := ⟨fuel - 1, by simp at hf; omega⟩
      simp [tokenize_params, tokens_by_bracket_counting]
    · simp only [tokens_by_bracket_counting, hs, if_false]
      exact tokenize_params_counts X w sid fuel str hs hf
  refine ⟨main, fun fuel hf => ?_, fun fuel hf => ?_⟩
  · rw [main _ fuel (by simpa using hf)]
    have : tokens_by_bracket_counting "a, $[X], c".toList =
        ["a".toList, "$[X]".toList, "c".toList] := by decide
    rw [this]
  · rw [main _ fuel (by simpa using hf)]
    have : tokens_by_bracket_counting "$[f a,b],c".toList =
        ["$[f a,b]".toList, "c".toList] := by decide
    rw [this]

theorem tokenize_params_bracket_counting_witness :
    "$[f $[g a,b],c] , d,".toList.length + 1 < 24 ∧
    tokenize_params quiet 24 (world_of [empty_scope]) 0 "$[f $[g a,b],c] , d,".toList false =
      .ok (["$[f $[g a,b],c]".toList, "d".toList, []], world_of [empty_scope]) :=
  ⟨by decide,
   ((tokenize_params_bracket_counting quiet (world_of [empty_scope]) 0).1
      "$[f $[g a,b],c] , d,".toList 24 (by decide)).trans (by decide)⟩

/-! ### C5: a token may begin with whitespace when references are expanded -/

/-- C5 (the code at the failing input): with `X` defined as ` a`, the call
`tokenize_params("$[X]", tokens, true)` produces the single token ` a`, which
begins with a whitespace character. -/
theorem tokenize_params_expand_leading_space :
    tokenize_params quiet 20 leading_space 0 "$[X]".toList true =
      .ok ([" a".toList], leading_space) ∧
    (" a".toList.head?.map isspace) = some true := by
  decide

/-! ### C6, C7: the order of variable lookup -/

theorem static_chain_cases (w : World) (n sid : Nat) (chain : List Nat)
    (h : static_chain w (n + 1) sid = some chain) :
    ∃ sc, w.scopes[sid]? = some sc ∧
      ((sc._parent_scope = none ∧ chain = [sid]) ∨
        ∃ parent tl, sc._parent_scope = some parent ∧ static_chain w n parent = some tl ∧
          chain = sid :: tl) := by
  simp only [static_chain] at h
  cases hsc : w.scopes[sid]? with
  | none => simp [hsc] at h
  | some sc =>
    refine ⟨sc, rfl, ?_⟩
    simp only [hsc] at h
    cases hp : sc._parent_scope with
    | none =>
      simp only [hp] at h
      exact Or.inl ⟨rfl, by simpa using h.symm⟩
    | some parent =>
      simp only [hp] at h
      cases hc : static_chain w n parent with
      | none => simp [hc] at h
      | some tl => exact Or.inr ⟨parent, tl, rfl, hc, by simpa [hc] using h.symm⟩

theorem p_get_variable_rec_step (w : World) (varname : Str) (n sid : Nat) (sc : PPScope)
    (hsc : w.scopes[sid]? = some sc) :
    p_get_variable_rec w (n + 1) sid varname =
      match scope_answer w varname sid with
      | some (.ok d) => .ok (some d)
      | some (.error e) => .error e
      | none =>
        match sc._parent_scope with
        | some parent => p_get_variable_rec w n parent varname
        | none => .ok none := by
  have e1 : "RELDIR".toList = ['R', 'E', 'L', 'D', 'I', 'R'] := rfl
  have e2 : "DEPENDS_INDEX".toList =
      ['D', 'E', 'P', 'E', 'N', 'D', 'S', '_', 'I', 'N', 'D', 'E', 'X'] := rfl
  simp only [p_get_variable_rec, scope_answer, hsc, e1, e2]
  cases hl : sc._variables.lookup varname with
  | some d => rfl
  | none =>
    simp only [synthesized, e1, e2]
    cases hd : sc._directory with
    | none => simp
    | some dir =>
      by_cases h1 : varname = ['R', 'E', 'L', 'D', 'I', 'R']
      · cases hcur : w.current_output_directory with
        | none => subst h1; simp
        | some cur =>
          simp only [h1, Option.isSome_some, and_self, if_true]
          cases get_rel_to w cur dir <;> rfl
      · by_cases h2 : varname = ['D', 'E', 'P', 'E', 'N', 'D', 'S', '_', 'I', 'N', 'D', 'E', 'X']
        · simp only [h1, h2, false_and, if_false, Option.isSome_some, and_self, if_true]
          cases w.dirs[dir]? <;> rfl
        · simp [h1, h2]

theorem p_get_variable_rec_chain (w : World) (varname : Str) :
    ∀ (fuel sid : Nat) (chain : List Nat), static_chain w fuel sid = some chain →
      p_get_variable_rec w fuel sid varname = first_answer w varname chain := by
  intro fuel
  induction fuel with
  | zero => intro sid chain h; simp [static_chain] at h
  | succ n ih =>
    intro sid chain h
    obtain ⟨sc, hsc, hcases⟩ := static_chain_cases w n sid chain h
    rw [p_get_variable_rec_step w varname n sid sc hsc]
    rcases hcases with ⟨hp, rfl⟩ | ⟨parent, tl, hp, htl, rfl⟩
    · simp only [first_answer, List.findSome?_cons, List.findSome?_nil, hp]
      rcases scope_answer w varname sid with _ | ⟨e | d⟩ <;> rfl
    · simp only [first_answer, List.findSome?_cons, hp, ih parent tl htl]
      rcases scope_answer w varname sid with _ | ⟨e | d⟩ <;> rfl

theorem first_answer_append (w : World) (varname : Str) (a b : List Nat) :
    first_answer w varname (a ++ b) =
      match first_answer w varname a with
      | .ok none => first_answer w varname b
      | r => r := by
  induction a with
  | nil => simp [first_answer]
  | cons s tl ih =>
    simp only [first_answer, List.cons_append, List.findSome?_cons] at ih ⊢
    rcases scope_answer w varname s with _ | ⟨e | d⟩
    · exact ih
    · rfl
    · rfl

theorem get_variable_stack_chains (w : World) (varname : Str) :
    ∀ (stack order : List Nat), static_chains w stack = some order →
      get_variable_stack w varname stack = first_answer w varname order := by
  intro stack
  induction stack with
  | nil =>
    intro order h
    obtain rfl : [] = order := by simpa [static_chains] using h
    simp [get_variable_stack, first_answer]
  | cons si rest ih =>
    intro order h
    simp only [static_chains] at h
    cases hc : static_chain w w.scopes.length si with
    | none => simp [hc] at h
    | some chain =>
      cases hr : static_chains w rest with
      | none => simp [hc, hr] at h
      | some others =>
        obtain rfl : chain ++ others = order := by simpa [hc, hr] using h
        have h1 := p_get_variable_rec_chain w varname _ si chain hc
        rw [first_answer_append]
        simp only [get_variable_stack, p_get_variable, h1, ih others hr]
        rcases first_answer w varname chain with e | ⟨_ | d⟩ <;> rfl

theorem get_variable_first_answer (X : External) (w : World) (sid : Nat) (varname : Str)
    (order : List Nat) (n : Nat) (hfun : get_func w varname = none)
    (horder : resolution_order w sid = some order) :
    get_variable X (n + 1) w sid varname =
      match first_answer w varname order with
      | .error e => .error e
      | .ok (some d) => .ok (d, w)
      | .ok none => .ok ((getenv w varname).getD [], w) := by
  simp only [resolution_order] at horder
  cases hc : static_chain w w.scopes.length sid with
  | none => simp [hc] at horder
  | some own =>
    cases hr : static_chains w w._scope_stack.reverse with
    | none => simp [hc, hr] at horder
    | some stacked =>
      obtain rfl : own ++ stacked = order := by simpa [hc, hr] using horder
      have h1 := p_get_variable_rec_chain w varname _ sid own hc
      have h2 := get_variable_stack_chains w varname _ stacked hr
      rw [first_answer_append]
      simp only [get_variable, hfun, p_get_variable, h1, h2]
      rcases first_answer w varname own with e | ⟨_ | d⟩
      · rfl
      · simp only
        rcases first_answer w varname stacked with e | ⟨_ | d⟩
        · rfl
        · cases getenv w varname <;> rfl
        · rfl
      · rfl

theorem scope_answer_ordinary (w : World) (varname : Str)
    (h1 : varname ≠ "RELDIR".toList) (h2 : varname ≠ "DEPENDS_INDEX".toList) (sid : Nat) :
    scope_answer w varname sid = (local_binding w varname sid).map Except.ok := by
  simp only [scope_answer, local_binding]
  cases w.scopes[sid]? with
  | none => rfl
  | some sc =>
    cases hl : sc._variables.lookup varname with
    | some d => simp [hl]
    | none =>
      simp only [synthesized, h1, h2, if_false, hl]
      cases sc._directory <;> rfl

theorem first_answer_ordinary (w : World) (varname : Str)
    (h1 : varname ≠ "RELDIR".toList) (h2 : varname ≠ "DEPENDS_INDEX".toList)
    (order : List Nat) :
    first_answer w varname order = .ok (order.findSome? (local_binding w varname)) := by
  induction order with
  | nil => simp [first_answer]
  | cons s tl ih =>
    simp only [first_answer, List.findSome?_cons, scope_answer_ordinary w varname h1 h2 s]
      at ih ⊢
    cases local_binding w varname s with
    | none => simpa using ih
    | some d => rfl

/-- C6: for a name that is neither a registered function nor `RELDIR` or
`DEPENDS_INDEX`, `get_variable` returns the binding in the first scope of
the resolution order that binds the name in its local map (the scope, its
static parents nearest first, then the static chain of every stack entry
from the innermost to the outermost), else the value in the environment,
else the empty string; it returns a value and leaves the state unchanged. -/
theorem get_variable_lookup_order (X : External) (w : World) (sid : Nat) (varname : Str)
    (order : List Nat) (fuel : Nat) (hfun : get_func w varname = none)
    (h1 : varname ≠ "RELDIR".toList) (h2 : varname ≠ "DEPENDS_INDEX".toList)
    (horder : resolution_order w sid = some order) (hf : 0 < fuel) :
    get_variable X fuel w sid varname =
      .ok (match order.findSome? (local_binding w varname) with
           | some d => d
           | none =>
             match getenv w varname with
             | some env => env
             | none => [], w) := by
  obtain ⟨n, rfl⟩ : ∃ n, fuel = n + 1 := ⟨fuel - 1, by omega⟩
  rw [get_variable_first_answer X w sid varname order n hfun horder,
    first_answer_ordinary w varname h1 h2 order]
  cases order.findSome? (local_binding w varname) with
  | some d => rfl
  | none => cases getenv w varname <;> rfl

theorem get_variable_lookup_order_witness :
    resolution_order lookup_world 2 = some [2, 1, 3, 0] ∧
    get_variable quiet 1 lookup_world 2 "A".toList = .ok ("local".toList, lookup_world) ∧
    get_variable quiet 1 lookup_world 2 "B".toList = .ok ("parent".toList, lookup_world) :=
  ⟨by decide,
   get_variable_lookup_order quiet lookup_world 2 "A".toList [2, 1, 3, 0] 1 (by decide)
     (by decide) (by decide) (by decide) (by decide),
   (get_variable_lookup_order quiet lookup_world 2 "B".toList [2, 1, 3, 0] 1 (by decide)
     (by decide) (by decide) (by decide) (by decide)).trans (by decide)⟩

/-- C7 (amended): for every name that is no registered function, `RELDIR`
and `DEPENDS_INDEX` included, `get_variable` goes through the scopes of the
resolution order and stops at the first scope that binds the name in its
local map or, failing that, synthesizes the value (`synthesized`: a scope
with a directory, for `RELDIR` also a current output directory); only when
no scope answers does it turn to the environment and then to the empty
string.  So the value synthesized by a scope yields to a local binding of
that scope only, and precedes the bindings of its static parents and of the
dynamic stack. -/
theorem get_variable_special_order (X : External) (w : World) (sid : Nat) (varname : Str)
    (order : List Nat) (fuel : Nat) (hfun : get_func w varname = none)
    (horder : resolution_order w sid = some order) (hf : 0 < fuel) :
    get_variable X fuel w sid varname =
      match order.findSome? (scope_answer w varname) with
      | some (.ok d) => .ok (d, w)
      | some (.error e) => .error e
      | none => .ok ((getenv w varname).getD [], w) := by
  obtain ⟨n, rfl⟩ : ∃ n, fuel = n + 1 := ⟨fuel - 1, by omega⟩
  rw [get_variable_first_answer X w sid varname order n hfun horder]
  simp only [first_answer]
  rcases order.findSome? (scope_answer w varname) with _ | ⟨e | d⟩ <;> rfl

theorem get_variable_special_order_witness :
    resolution_order reldir_in_parent 1 = some [1, 0] ∧
    scope_answer reldir_in_parent "RELDIR".toList 1 = some (.ok "a".toList) ∧
    get_variable quiet 1 reldir_in_parent 1 "RELDIR".toList =
      .ok ("a".toList, reldir_in_parent) :=
  ⟨by decide, by decide,
   (get_variable_special_order quiet reldir_in_parent 1 "RELDIR".toList [1, 0] 1
     (by decide) (by decide) (by decide)).trans (by decide)⟩

/-- C7 (counterexample): `RELDIR` is bound to `elsewhere` in the static
parent of scope 1 (first state) or on the dynamic stack (second state), yet
`get_variable` on scope 1, which belongs to directory `a`, returns the
synthesized value `a`. -/
theorem get_variable_special_counterexample :
    (local_binding reldir_in_parent "RELDIR".toList 0 = some "elsewhere".toList ∧
      resolution_order reldir_in_parent 1 = some [1, 0] ∧
      get_variable quiet 1 reldir_in_parent 1 "RELDIR".toList =
        .ok ("a".toList, reldir_in_parent)) ∧
    (local_binding reldir_on_stack "RELDIR".toList 0 = some "elsewhere".toList ∧
      resolution_order reldir_on_stack 1 = some [1, 0] ∧
      get_variable quiet 1 reldir_on_stack 1 "RELDIR".toList =
        .ok ("a".toList, reldir_on_stack)) := by
  decide

/-! ### C9, C10: `set_variable` -/

theorem p_set_variable_rec_chain (w : World) (varname definition : Str) :
    ∀ (fuel sid : Nat) (chain : List Nat), static_chain w fuel sid = some chain →
      p_set_variable_rec fuel w sid varname definition =
        match chain.find? (binds w varname) with
        | some s0 => .ok (true, overwrite w s0 varname definition)
        | none => .ok (false, w) := by
  intro fuel
  induction fuel with
  | zero => intro sid chain h; simp [static_chain] at h
  | succ n ih =>
    intro sid chain h
    obtain ⟨sc, hsc, hcases⟩ := static_chain_cases w n sid chain h
    cases hl : sc._variables.lookup varname with
    | some d =>
      have hb : binds w varname sid = true := by simp [binds, local_binding, hsc, hl]
      have hfind : chain.find? (binds w varname) = some sid := by
        rcases hcases with ⟨_, rfl⟩ | ⟨_, _, _, _, rfl⟩ <;> simp [List.find?_cons, hb]
      simp [p_set_variable_rec, hsc, hl, hfind, overwrite]
    | none =>
      have hb : binds w varname sid = false := by simp [binds, local_binding, hsc, hl]
      rcases hcases with ⟨hp, rfl⟩ | ⟨parent, tl, hp, htl, rfl⟩
      · simp [p_set_variable_rec, hsc, hl, hp, List.find?_cons, hb]
      · simp [p_set_variable_rec, hsc, hl, hp, List.find?_cons, hb, ih parent tl htl]

theorem set_variable_stack_chains (w : World) (varname definition : Str) :
    ∀ (stack order : List Nat), static_chains w stack = some order →
      set_variable_stack w varname definition stack =
        match order.find? (binds w varname) with
        | some s0 => .ok (true, overwrite w s0 varname definition)
        | none => .ok (false, w) := by
  intro stack
  induction stack with
  | nil =>
    intro order h
    obtain rfl : [] = order := by simpa [static_chains] using h
    simp [set_variable_stack]
  | cons si rest ih =>
    intro order h
    simp only [static_chains] at h
    cases hc : static_chain w w.scopes.length si with
    | none => simp [hc] at h
    | some chain =>
      cases hr : static_chains w rest with
      | none => simp [hc, hr] at h
      | some others =>
        obtain rfl : chain ++ others = order := by simpa [hc, hr] using h
        have h1 := p_set_variable_rec_chain w varname definition _ si chain hc
        simp only [set_variable_stack, p_set_variable, h1, ih others hr, List.find?_append]
        cases chain.find? (binds w varname) <;> simp

theorem set_variable_order (w : World) (sid : Nat) (varname definition : Str)
    (order : List Nat) (horder : resolution_order w sid = some order) :
    set_variable w sid varname definition =
      match order.find? (binds w varname) with
      | some s0 => .ok (true, overwrite w s0 varname definition)
      | none =>
        match getenv w varname with
        | some _ =>
          (match define_variable w (w._scope_stack.headD sid) varname definition with
           | .error e => .error e
           | .ok w2 => .ok (true, w2))
        | none => .ok (false, w) := by
  simp only [resolution_order] at horder
  cases hc : static_chain w w.scopes.length sid with
  | none => simp [hc] at horder
  | some own =>
    cases hr : static_chains w w._scope_stack.reverse with
    | none => simp [hc, hr] at horder
    | some stacked =>
      obtain rfl : own ++ stacked = order := by simpa [hc, hr] using horder
      have h1 := p_set_variable_rec_chain w varname definition _ sid own hc
      have h2 := set_variable_stack_chains w varname definition _ stacked hr
      simp only [set_variable, p_set_variable, h1, h2, List.find?_append]
      cases own.find? (binds w varname) with
      | some s0 => simp
      | none =>
        cases stacked.find? (binds w varname) with
        | some s0 => simp
        | none =>
          cases getenv w varname with
          | none => simp
          | some e =>
            cases hst : w._scope_stack <;> simp

theorem lookup_map_assign_self (varname definition : Str) :
    ∀ (l : List (Str × Str)) (d : Str), l.lookup varname = some d →
      (map_assign varname definition l).lookup varname = some definition := by
  intro l
  induction l with
  | nil => intro d h; simp at h
  | cons kv rest ih =>
    intro d h
    obtain ⟨k, v⟩ := kv
    by_cases hk : k = varname
    · subst hk
      simp [map_assign, List.lookup]
    · have hk2 : (varname == k) = false := by simpa using Ne.symm hk
      simp only [List.lookup, hk2] at h
      simp [map_assign, hk, List.lookup, hk2, ih d h]

theorem lookup_map_assign_other (varname definition n : Str) (hn : n ≠ varname) :
    ∀ l : List (Str × Str), (map_assign varname definition l).lookup n = l.lookup n := by
  intro l
  induction l with
  | nil => rfl
  | cons kv rest ih =>
    obtain ⟨k, v⟩ := kv
    by_cases hk : k = varname
    · subst hk
      have : (n == k) = false := by simpa using hn
      simp [map_assign, List.lookup, this]
    · simp only [map_assign, hk, if_false, List.lookup, ih]

theorem local_binding_overwrite_self (w : World) (s0 : Nat) (varname definition : Str)
    (hb : binds w varname s0 = true) :
    local_binding (overwrite w s0 varname definition) varname s0 = some definition := by
  simp only [binds, local_binding] at hb
  cases hsc : w.scopes[s0]? with
  | none => simp [hsc] at hb
  | some sc =>
    simp only [hsc] at hb
    obtain ⟨d, hd⟩ := Option.isSome_iff_exists.1 hb
    have hlt : s0 < w.scopes.length := by
      rcases Nat.lt_or_ge s0 w.scopes.length with h | h
      · exact h
      · simp [List.getElem?_eq_none h] at hsc
    simp [overwrite, hsc, local_binding, World.put_scope, List.getElem?_set, hlt,
      lookup_map_assign_self varname definition sc._variables d hd]

theorem local_binding_overwrite_other (w : World) (s0 : Nat) (varname definition : Str)
    (s : Nat) (n : Str) (h : s ≠ s0 ∨ n ≠ varname) :
    local_binding (overwrite w s0 varname definition) n s = local_binding w n s := by
  simp only [overwrite]
  cases hsc : w.scopes[s0]? with
  | none => rfl
  | some sc =>
    simp only [local_binding, World.put_scope]
    by_cases hs : s = s0
    · subst hs
      have hn : n ≠ varname := by
        rcases h with h | h
        · exact absurd rfl h
        · exact h
      have hlt : s < w.scopes.length := by
        rcases Nat.lt_or_ge s w.scopes.length with h | h
        · exact h
        · simp [List.getElem?_eq_none h] at hsc
      simp [List.getElem?_set, hlt, hsc, lookup_map_assign_other varname definition n hn]
    · simp [List.getElem?_set, Ne.symm hs]

theorem resolution_order_head (w : World) (sid : Nat) (order : List Nat)
    (horder : resolution_order w sid = some order) : ∃ tl, order = sid :: tl := by
  simp only [resolution_order] at horder
  cases hc : static_chain w w.scopes.length sid with
  | none => simp [hc] at horder
  | some own =>
    cases hr : static_chains w w._scope_stack.reverse with
    | none => simp [hc, hr] at horder
    | some stacked =>
      obtain rfl : own ++ stacked = order := by simpa [hc, hr] using horder
      cases hlen : w.scopes.length with
      | zero => simp [hlen, static_chain] at hc
      | succ n =>
        rw [hlen] at hc
        obtain ⟨sc, _, hcases⟩ := static_chain_cases w n sid own hc
        rcases hcases with ⟨_, rfl⟩ | ⟨_, tl, _, _, rfl⟩
        · exact ⟨stacked, rfl⟩
        · exact ⟨tl ++ stacked, rfl⟩

/-- C9: when the name is bound in some scope of the resolution order and
`s0` is the first such scope, `set_variable` succeeds and the new state is
the old one with that single binding overwritten: the name is now bound to
the new definition in `s0`, every other binding of every scope is as before
(in particular the calling scope gets no new binding when it is not `s0`),
and the scope stack, the environment, the registries and the directories are
untouched. -/
theorem set_variable_overwrites_first (w : World) (sid : Nat) (varname definition : Str)
    (order : List Nat) (s0 : Nat) (horder : resolution_order w sid = some order)
    (hfirst : order.find? (binds w varname) = some s0) :
    set_variable w sid varname definition =
      .ok (true, overwrite w s0 varname definition) ∧
    local_binding (overwrite w s0 varname definition) varname s0 = some definition ∧
    (∀ (s : Nat) (n : Str), s ≠ s0 ∨ n ≠ varname →
      local_binding (overwrite w s0 varname definition) n s = local_binding w n s) ∧
    (sid ≠ s0 → local_binding (overwrite w s0 varname definition) varname sid = none) ∧
    (overwrite w s0 varname definition)._scope_stack = w._scope_stack ∧
    (overwrite w s0 varname definition).environ = w.environ ∧
    (overwrite w s0 varname definition).funcs = w.funcs ∧
    (overwrite w s0 varname definition).named = w.named ∧
    (overwrite w s0 varname definition).dirs = w.dirs ∧
    (overwrite w s0 varname definition).scopes.length = w.scopes.length := by
  have hb : binds w varname s0 = true := by
    have := List.find?_some hfirst
    simpa using this
  refine ⟨?_, local_binding_overwrite_self w s0 varname definition hb,
    fun s n h => local_binding_overwrite_other w s0 varname definition s n h, ?_, ?_, ?_, ?_,
    ?_, ?_, ?_⟩
  · rw [set_variable_order w sid varname definition order horder, hfirst]
  · intro hne
    rw [local_binding_overwrite_other w s0 varname definition sid varname (Or.inl hne)]
    obtain ⟨tl, rfl⟩ := resolution_order_head w sid order horder
    simp only [List.find?_cons] at hfirst
    cases hbs : binds w varname sid with
    | true => simp [hbs] at hfirst; exact absurd hfirst hne
    | false => simpa [binds] using hbs
  all_goals
    simp only [overwrite]
    cases w.scopes[s0]? <;> simp [World.put_scope]

theorem set_variable_overwrites_first_witness :
    resolution_order lookup_world 2 = some [2, 1, 3, 0] ∧
    [2, 1, 3, 0].find? (binds lookup_world "B".toList) = some 1 ∧
    set_variable lookup_world 2 "B".toList "new".toList =
      .ok (true, overwrite lookup_world 1 "B".toList "new".toList) ∧
    local_binding (overwrite lookup_world 1 "B".toList "new".toList) "B".toList 1 =
      some "new".toList :=
  ⟨by decide, by decide,
   (set_variable_overwrites_first lookup_world 2 "B".toList "new".toList [2, 1, 3, 0] 1
     (by decide) (by decide)).1,
   (set_variable_overwrites_first lookup_world 2 "B".toList "new".toList [2, 1, 3, 0] 1
     (by decide) (by decide)).2.1⟩

/-! ### C8: `RELDIR` and `get_rel_to` -/


theorem IsPath.head {w : World} {d : Nat} {path : List Nat} (h : IsPath w d path) :
    ∃ tl, path = d :: tl := by
  cases h with
  | root _ _ _ => exact ⟨[], rfl⟩
  | child _ _ _ _ => exact ⟨_, rfl⟩

theorem IsPath.depth {w : World} {d : Nat} {path : List Nat} (h : IsPath w d path) :
    ∃ dir, w.dirs[d]? = some dir ∧ dir._depth + 1 = path.length := by
  cases h with
  | root h1 _ h3 => exact ⟨_, h1, by simp [h3]⟩
  | child h1 _ h3 _ => exact ⟨_, h1, by simp [h3]⟩

theorem IsPath.parent {w : World} {d x : Nat} {t : List Nat} (h : IsPath w d (x :: t))
    (htl : t ≠ []) :
    x = d ∧ ∃ dir p, w.dirs[d]? = some dir ∧ dir._parent = some p ∧
      dir._depth = t.length ∧ IsPath w p t := by
  cases h with
  | root _ _ _ => exact absurd rfl htl
  | child h1 h2 h3 h4 => exact ⟨rfl, _, _, h1, h2, h3, h4⟩

theorem IsPath.unique {w : World} {d : Nat} {p1 : List Nat} (h1 : IsPath w d p1) :
    ∀ {p2 : List Nat}, IsPath w d p2 → p1 = p2 := by
  induction h1 with
  | root ha hb _ =>
    intro p2 h2
    cases h2 with
    | root _ _ _ => rfl
    | child hc hd _ _ =>
      rw [ha] at hc
      cases hc
      rw [hb] at hd
      cases hd
  | child ha hb _ _ ih =>
    intro p2 h2
    cases h2 with
    | root hc hd _ =>
      rw [ha] at hc
      cases hc
      rw [hb] at hd
      cases hd
    | child hc hd _ h4 =>
      rw [ha] at hc
      cases hc
      rw [hb] at hd
      cases hd
      rw [ih h4]

theorem IsPath.depth_lt {w : World} {d : Nat} {path : List Nat} (h : IsPath w d path) :
    ∀ x ∈ path, ∃ dir, w.dirs[x]? = some dir ∧ dir._depth < path.length := by
  induction h with
  | root h1 _ h3 =>
    intro x hx
    obtain rfl : x = _ := by simpa using hx
    exact ⟨_, h1, by simp [h3]⟩
  | child h1 _ h3 _ ih =>
    intro x hx
    rcases List.mem_cons.1 hx with rfl | hmem
    · exact ⟨_, h1, by simp [h3]⟩
    · obtain ⟨dir, hd, hlt⟩ := ih x hmem
      exact ⟨dir, hd, by simp; omega⟩

theorem IsPath.nodup {w : World} {d : Nat} {path : List Nat} (h : IsPath w d path) :
    path.Nodup := by
  induction h with
  | root _ _ _ => simp
  | child h1 _ h3 h4 ih =>
    refine List.nodup_cons.2 ⟨fun hmem => ?_, ih⟩
    obtain ⟨dir, hd, hlt⟩ := h4.depth_lt _ hmem
    rw [h1] at hd
    cases hd
    omega

theorem IsPath.length_le {w : World} {d : Nat} {path : List Nat} (h : IsPath w d path) :
    path.length ≤ w.dirs.length := by
  have hsub : path ⊆ List.range w.dirs.length := by
    intro x hx
    obtain ⟨dir, hd, _⟩ := h.depth_lt x hx
    rcases Nat.lt_or_ge x w.dirs.length with hlt | hge
    · exact List.mem_range.2 hlt
    · simp [List.getElem?_eq_none hge] at hd
  simpa using (List.subperm_of_subset h.nodup hsub).length_le

theorem get_rel_to_loop1_walk (w : World) (b : Nat) (pb : List Nat) (hb : IsPath w b pb)
    (a2 : Nat) (rest : List Nat) (hlen : (a2 :: rest).length = pb.length) :
    ∀ (ua : List Nat) (a fuel : Nat) (pre : Str), IsPath w a (ua ++ a2 :: rest) →
      ua.length < fuel →
      get_rel_to_loop1 w fuel a b pre = .ok (a2, pre ++ ups_text ua.length) := by
  obtain ⟨db, hdb, hdepb⟩ := hb.depth
  intro ua
  induction ua with
  | nil =>
    intro a fuel pre ha hf
    obtain ⟨n, rfl⟩ : ∃ n, fuel = n + 1 := ⟨fuel - 1, by simp at hf; omega⟩
    obtain ⟨tl, htl⟩ := ha.head
    obtain rfl : a2 = a := by simpa using congrArg List.head? htl
    obtain ⟨da, hda, hdepa⟩ := ha.depth
    have : ¬ da._depth > db._depth := by simp at hdepa hlen; omega
    simp [get_rel_to_loop1, hda, hdb, this, ups_text]
  | cons x ua ih =>
    intro a fuel pre ha hf
    obtain ⟨n, rfl⟩ : ∃ n, fuel = n + 1 := ⟨fuel - 1, by simp at hf; omega⟩
    obtain ⟨rfl, da, p, hda, hpar, hdep, hp⟩ := IsPath.parent (t := ua ++ a2 :: rest) ha
      (by simp)
    have hgt : da._depth > db._depth := by simp at hdep hlen; omega
    have := ih p n (pre ++ "../".toList) hp (by simp at hf; omega)
    simp only [get_rel_to_loop1, hda, hdb, hgt, hpar, if_true]
    rw [this]
    simp [ups_text, List.replicate_succ]

theorem get_rel_to_loop1_stay (w : World) (a b : Nat) (pa pb : List Nat)
    (ha : IsPath w a pa) (hb : IsPath w b pb) (hle : pa.length ≤ pb.length) (n : Nat)
    (pre : Str) : get_rel_to_loop1 w (n + 1) a b pre = .ok (a, pre) := by
  obtain ⟨da, hda, hdepa⟩ := ha.depth
  obtain ⟨db, hdb, hdepb⟩ := hb.depth
  have : ¬ da._depth > db._depth := by omega
  simp [get_rel_to_loop1, hda, hdb, this]

theorem downs_text_cons (w : World) (b : Nat) (ub : List Nat) :
    downs_text w (b :: ub) = downs_text w ub ++ (dirname_of w b ++ "/".toList) := by
  simp [downs_text]

theorem get_rel_to_loop2_walk (w : World) (a : Nat) (pa : List Nat) (ha : IsPath w a pa)
    (b2 : Nat) (rest : List Nat) (hlen : (b2 :: rest).length = pa.length) :
    ∀ (ub : List Nat) (b fuel : Nat) (post : Str), IsPath w b (ub ++ b2 :: rest) →
      ub.length < fuel →
      get_rel_to_loop2 w fuel a b post = .ok (b2, downs_text w ub ++ post) := by
  obtain ⟨da, hda, hdepa⟩ := ha.depth
  intro ub
  induction ub with
  | nil =>
    intro b fuel post hb hf
    obtain ⟨n, rfl⟩ : ∃ n, fuel = n + 1 := ⟨fuel - 1, by simp at hf; omega⟩
    obtain ⟨tl, htl⟩ := hb.head
    obtain rfl : b2 = b := by simpa using congrArg List.head? htl
    obtain ⟨db, hdb, hdepb⟩ := hb.depth
    have : ¬ db._depth > da._depth := by simp at hdepb hlen; omega
    simp [get_rel_to_loop2, hda, hdb, this, downs_text]
  | cons x ub ih =>
    intro b fuel post hb hf
    obtain ⟨n, rfl⟩ : ∃ n, fuel = n + 1 := ⟨fuel - 1, by simp at hf; omega⟩
    obtain ⟨rfl, db, p, hdb, hpar, hdep, hp⟩ := IsPath.parent (t := ub ++ b2 :: rest) hb
      (by simp)
    have hgt : db._depth > da._depth := by simp at hdep hlen; omega
    have := ih p n (db._dirname ++ "/".toList ++ post) hp (by simp at hf; omega)
    have hname : dirname_of w x = db._dirname := by simp [dirname_of, hdb]
    simp only [get_rel_to_loop2, hda, hdb, hgt, hpar, if_true]
    rw [this, downs_text_cons, hname]
    simp

theorem get_rel_to_loop2_stay (w : World) (a b : Nat) (pa pb : List Nat)
    (ha : IsPath w a pa) (hb : IsPath w b pb) (hle : pb.length ≤ pa.length) (n : Nat)
    (post : Str) : get_rel_to_loop2 w (n + 1) a b post = .ok (b, post) := by
  obtain ⟨da, hda, hdepa⟩ := ha.depth
  obtain ⟨db, hdb, hdepb⟩ := hb.depth
  have : ¬ db._depth > da._depth := by omega
  simp [get_rel_to_loop2, hda, hdb, this]

theorem getLast?_cons_of_ne (x : Nat) (l : List Nat) (h : l ≠ []) :
    (x :: l).getLast? = l.getLast? := by
  cases l with
  | nil => exact absurd rfl h
  | cons y tl => simp [List.getLast?_cons_cons]

theorem get_rel_to_loop3_walk (w : World) (common : List Nat) (hcommon : common ≠ []) :
    ∀ (ua ub : List Nat) (a b fuel : Nat) (pre post : Str), IsPath w a (ua ++ common) →
      IsPath w b (ub ++ common) → ua.length = ub.length →
      ua.getLast? ≠ ub.getLast? ∨ ua = [] → ua.length < fuel →
      get_rel_to_loop3 w fuel a b pre post =
        .ok (pre ++ ups_text ua.length, downs_text w ub ++ post) := by
  intro ua
  induction ua with
  | nil =>
    intro ub a b fuel pre post ha hb hlen _ hf
    obtain ⟨n, rfl⟩ : ∃ n, fuel = n + 1 := ⟨fuel - 1, by simp at hf; omega⟩
    obtain rfl : ub = [] := by
      cases ub with
      | nil => rfl
      | cons _ _ => simp at hlen
    obtain ⟨tl, rfl⟩ : ∃ tl, common = a :: tl := by simpa using ha.head
    obtain ⟨tl2, htl2⟩ := hb.head
    obtain rfl : a = b := by simpa using congrArg List.head? htl2
    simp [get_rel_to_loop3, ups_text, downs_text]
  | cons x ua ih =>
    intro ub a b fuel pre post ha hb hlen hnear hf
    obtain ⟨n, rfl⟩ : ∃ n, fuel = n + 1 := ⟨fuel - 1, by simp at hf; omega⟩
    obtain ⟨y, ub, rfl⟩ : ∃ y tl, ub = y :: tl := by
      cases ub with
      | nil => simp at hlen
      | cons y tl => exact ⟨y, tl, rfl⟩
    obtain ⟨rfl, da, pa, hda, hpa, _, hpath_a⟩ := IsPath.parent (t := ua ++ common) ha
      (by simp [hcommon])
    obtain ⟨rfl, db, pb, hdb, hpb, _, hpath_b⟩ := IsPath.parent (t := ub ++ common) hb
      (by simp [hcommon])
    have hlen2 : ua.length = ub.length := by simpa using hlen
    have hne : x ≠ y := by
      rintro rfl
      have heq := ha.unique hb
      have hu : ua = ub := by
        have : ua ++ common = ub ++ common := by simpa using heq
        exact List.append_cancel_right this
      rcases hnear with h | h
      · exact h (by rw [hu])
      · simp at h
    have hnear2 : ua.getLast? ≠ ub.getLast? ∨ ua = [] := by
      by_cases hua : ua = []
      · exact Or.inr hua
      · have hub : ub ≠ [] := by
          intro h; rw [h] at hlen2; exact hua (List.length_eq_zero.1 hlen2)
        rcases hnear with h | h
        · left
          rwa [getLast?_cons_of_ne x ua hua, getLast?_cons_of_ne y ub hub] at h
        · simp at h
    have := ih ub pa pb n (pre ++ "../".toList) (db._dirname ++ "/".toList ++ post)
      hpath_a hpath_b hlen2 hnear2 (by simp at hf; omega)
    have hname : dirname_of w y = db._dirname := by simp [dirname_of, hdb]
    simp only [get_rel_to_loop3, hne, hda, hdb, hpa, hpb, ne_eq, not_false_eq_true, if_true]
    rw [this, downs_text_cons, hname]
    simp [ups_text, List.replicate_succ]

theorem IsPath.suffix {w : World} :
    ∀ (ua : List Nat) {a a2 : Nat} {rest : List Nat}, IsPath w a (ua ++ a2 :: rest) →
      IsPath w a2 (a2 :: rest) := by
  intro ua
  induction ua with
  | nil =>
    intro a a2 rest h
    obtain ⟨tl, htl⟩ := h.head
    obtain rfl : a2 = a := by simpa using congrArg List.head? htl
    exact h
  | cons x ua ih =>
    intro a a2 rest h
    obtain ⟨_, _, _, _, _, _, hp⟩ := IsPath.parent (t := ua ++ a2 :: rest) h (by simp)
    exact ih hp

theorem downs_text_append (w : World) (l1 l2 : List Nat) :
    downs_text w (l1 ++ l2) = downs_text w l2 ++ downs_text w l1 := by
  simp [downs_text]

theorem ups_text_add (j m : Nat) : ups_text j ++ ups_text m = ups_text (j + m) := by
  unfold ups_text
  rw [List.replicate_add, List.flatten_append]

theorem flatten_slash_dropLast :
    ∀ l : List Str, l ≠ [] →
      (l.map (fun s => s ++ "/".toList)).flatten.dropLast = "/".toList.intercalate l := by
  intro l
  induction l with
  | nil => intro h; exact absurd rfl h
  | cons a tl ih =>
    intro _
    cases tl with
    | nil => simp [List.intercalate]
    | cons b tl2 =>
      have h2 := ih (by simp)
      have hR : ((b :: tl2).map (fun s => s ++ "/".toList)).flatten ≠ [] := by
        simp [List.map_cons, List.flatten_cons]
      rw [intercalate_cons_cons, ← h2, List.map_cons, List.flatten_cons,
        List.dropLast_append_of_ne_nil _ hR]
      simp

theorem texts_eq_flatten (w : World) (k : Nat) (downs : List Nat) :
    ups_text k ++ downs_text w downs =
      ((List.replicate k "..".toList ++ downs.reverse.map (dirname_of w)).map
        (fun s => s ++ "/".toList)).flatten := by
  simp [ups_text, downs_text, List.map_append, List.map_replicate, List.map_map,
    Function.comp_def]

theorem relative_path_eq (w : World) (k : Nat) (downs : List Nat)
    (h : k ≠ 0 ∨ downs ≠ []) :
    (ups_text k ++ downs_text w downs).take ((ups_text k ++ downs_text w downs).length - 1) =
      relative_path w k downs := by
  have hne : List.replicate k "..".toList ++ downs.reverse.map (dirname_of w) ≠ [] := by
    rcases h with h | h
    · cases k with
      | zero => exact absurd rfl h
      | succ n => simp [List.replicate_succ]
    · simp [h]
  rw [relative_path, ← flatten_slash_dropLast _ hne, List.dropLast_eq_take, texts_eq_flatten]

theorem getLast?_drop_of_lt (l : List Nat) (j : Nat) (h : j < l.length) :
    (l.drop j).getLast? = l.getLast? := by
  induction l generalizing j with
  | nil => simp at h
  | cons x tl ih =>
    cases j with
    | zero => rfl
    | succ i =>
      have hi : i < tl.length := by simpa using h
      have htl : tl ≠ [] := by
        intro h0; rw [h0] at hi; simp at hi
      rw [List.drop_succ_cons, ih i hi, getLast?_cons_of_ne x tl htl]

theorem get_rel_to_relative_path (w : World) (this_dir other : Nat)
    (ups downs common : List Nat) (hne : this_dir ≠ other)
    (hthis : IsPath w this_dir (ups ++ common)) (hother : IsPath w other (downs ++ common))
    (hcommon : common ≠ [])
    (hnear : ups = [] ∨ downs = [] ∨ ups.getLast? ≠ downs.getLast?) :
    get_rel_to w this_dir other = .ok (relative_path w ups.length downs) := by
  have hl1 := hthis.length_le
  have hl2 := hother.length_le
  simp only [List.length_append] at hl1 hl2
  have hnonempty : ups.length ≠ 0 ∨ downs ≠ [] := by
    by_cases hu : ups = []
    · right
      intro hd
      subst hu hd
      obtain ⟨t1, h1⟩ := hthis.head
      obtain ⟨t2, h2⟩ := hother.head
      simp only [List.nil_append] at h1 h2
      rw [h1] at h2
      exact hne (by simpa using (List.cons.inj h2).1)
    · left
      exact fun h => hu (List.length_eq_zero.1 h)
  obtain ⟨c0, ctl, rfl⟩ : ∃ c0 ctl, common = c0 :: ctl := by
    cases common with
    | nil => exact absurd rfl hcommon
    | cons c0 ctl => exact ⟨c0, ctl, rfl⟩
  have hfinal : ∀ pre post, pre = ups_text ups.length → post = downs_text w downs →
      (if (pre ++ post).isEmpty then (Except.error Fault.abort : Except Fault Str)
       else .ok ((pre ++ post).take ((pre ++ post).length - 1))) =
        .ok (relative_path w ups.length downs) := by
    intro pre post hp hq
    subst hp hq
    have hlen : (ups_text ups.length ++ downs_text w downs) ≠ [] := by
      rw [texts_eq_flatten]
      rcases hnonempty with h | h
      · cases hk : ups.length with
        | zero => exact absurd hk h
        | succ n => simp [List.replicate_succ]
      · obtain ⟨d, dtl, rfl⟩ : ∃ d dtl, downs = dtl ++ [d] :=
          ⟨downs.getLast h, downs.dropLast, (List.dropLast_append_getLast h).symm⟩
        simp
    rw [relative_path_eq w ups.length downs hnonempty]
    simp [hlen]
  simp only [get_rel_to, hne, if_false]
  rcases Nat.lt_or_ge downs.length ups.length with hlt | hge
  · -- the receiver is deeper: the first loop climbs, the second does nothing
    obtain ⟨a2, rest, hrest⟩ : ∃ a2 rest,
        ups.drop (ups.length - downs.length) ++ c0 :: ctl = a2 :: rest := by
      cases h : ups.drop (ups.length - downs.length) ++ c0 :: ctl with
      | nil => simp at h
      | cons a2 rest => exact ⟨a2, rest, rfl⟩
    have hsplit : ups ++ c0 :: ctl =
        ups.take (ups.length - downs.length) ++ a2 :: rest := by
      rw [← hrest, ← List.append_assoc, List.take_append_drop]
    have hdl : (ups.drop (ups.length - downs.length)).length = downs.length := by
      simp; omega
    have hlen2 : (a2 :: rest).length = (downs ++ c0 :: ctl).length := by
      rw [← hrest]; simp only [List.length_append, hdl]
    rw [hsplit] at hthis
    have h1 := get_rel_to_loop1_walk w other _ hother a2 rest hlen2
      (ups.take (ups.length - downs.length)) this_dir (w.dirs.length + 1) [] hthis
      (by simp; omega)
    have ha2 : IsPath w a2 (ups.drop (ups.length - downs.length) ++ c0 :: ctl) := by
      rw [hrest]; exact hthis.suffix
    have h2 := get_rel_to_loop2_stay w a2 other _ _ ha2 hother
      (by simp only [List.length_append, hdl]; omega) w.dirs.length []
    have hnear2 : (ups.drop (ups.length - downs.length)).getLast? ≠ downs.getLast? ∨
        ups.drop (ups.length - downs.length) = [] := by
      by_cases hd : downs = []
      · right
        subst hd
        simp
      · left
        rw [getLast?_drop_of_lt ups _ (by
          have : 0 < downs.length := List.length_pos.2 hd
          omega)]
        rcases hnear with h | h | h
        · subst h; simp at hlt
        · exact absurd h hd
        · exact h
    have h3 := get_rel_to_loop3_walk w (c0 :: ctl) (by simp)
      (ups.drop (ups.length - downs.length)) downs a2 other (w.dirs.length + 1)
      ([] ++ ups_text (ups.take (ups.length - downs.length)).length) [] ha2 hother hdl hnear2
      (by simp only [hdl]; omega)
    simp only [h1, h2, h3]
    apply hfinal
    · rw [List.nil_append, ups_text_add, hdl]
      congr 1
      simp; omega
    · simp
  · -- the receiver is not deeper: the second loop climbs from the other directory
    obtain ⟨b2, rest, hrest⟩ : ∃ b2 rest,
        downs.drop (downs.length - ups.length) ++ c0 :: ctl = b2 :: rest := by
      cases h : downs.drop (downs.length - ups.length) ++ c0 :: ctl with
      | nil => simp at h
      | cons b2 rest => exact ⟨b2, rest, rfl⟩
    have hsplit : downs ++ c0 :: ctl =
        downs.take (downs.length - ups.length) ++ b2 :: rest := by
      rw [← hrest, ← List.append_assoc, List.take_append_drop]
    have hdl : (downs.drop (downs.length - ups.length)).length = ups.length := by
      simp; omega
    have hlen2 : (b2 :: rest).length = (ups ++ c0 :: ctl).length := by
      rw [← hrest]; simp only [List.length_append, hdl]
    have h1 := get_rel_to_loop1_stay w this_dir other _ _ hthis hother
      (by simp only [List.length_append]; omega) w.dirs.length []
    have hother2 := hother
    rw [hsplit] at hother2
    have h2 := get_rel_to_loop2_walk w this_dir _ hthis b2 rest hlen2
      (downs.take (downs.length - ups.length)) other (w.dirs.length + 1) [] hother2
      (by simp; omega)
    have hb2 : IsPath w b2 (downs.drop (downs.length - ups.length) ++ c0 :: ctl) := by
      rw [hrest]; exact hother2.suffix
    have hnear2 : ups.getLast? ≠ (downs.drop (downs.length - ups.length)).getLast? ∨
        ups = [] := by
      by_cases hu : ups = []
      · exact Or.inr hu
      · left
        have hpos : 0 < ups.length := List.length_pos.2 hu
        rw [getLast?_drop_of_lt downs _ (by omega)]
        rcases hnear with h | h | h
        · exact absurd h hu
        · rw [h] at hge; exact absurd (List.length_eq_zero.1 (Nat.le_zero.1 hge)) hu
        · exact h
    have h3 := get_rel_to_loop3_walk w (c0 :: ctl) (by simp) ups
      (downs.drop (downs.length - ups.length)) this_dir b2 (w.dirs.length + 1) []
      (downs_text w (downs.take (downs.length - ups.length)) ++ []) hthis hb2 hdl.symm hnear2
      (by omega)
    simp only [h1, h2, h3]
    apply hfinal
    · simp
    · rw [List.append_nil, ← downs_text_append, List.take_append_drop]

/-- C8 (amended): for a scope that belongs to directory `D` and does not
bind `RELDIR` itself, while the current output directory is `O`, the value
of `RELDIR` is the relative path that leads from `O` to `D`: `.` when
`O = D`, and otherwise one `..` for each of the directories `ups` from `O` up
to (not including) the nearest common ancestor, followed by the names of the
directories `downs` from below that ancestor down to `D`. -/
theorem reldir_from_output_directory (X : External) (w : World) (sid : Nat) (sc : PPScope)
    (D O : Nat) (ups downs common : List Nat) (fuel : Nat)
    (hfun : get_func w "RELDIR".toList = none) (hsc : w.scopes[sid]? = some sc)
    (hlocal : sc._variables.lookup "RELDIR".toList = none) (hdir : sc._directory = some D)
    (hcur : w.current_output_directory = some O)
    (hO : IsPath w O (ups ++ common)) (hD : IsPath w D (downs ++ common))
    (hcommon : common ≠ [])
    (hnear : ups = [] ∨ downs = [] ∨ ups.getLast? ≠ downs.getLast?) (hf : 0 < fuel) :
    get_variable X fuel w sid "RELDIR".toList =
      .ok (if O = D then ".".toList else relative_path w ups.length downs, w) := by
  obtain ⟨n, rfl⟩ : ∃ n, fuel = n + 1 := ⟨fuel - 1, by omega⟩
  have hlt : sid < w.scopes.length := by
    rcases Nat.lt_or_ge sid w.scopes.length with h | h
    · exact h
    · simp [List.getElem?_eq_none h] at hsc
  obtain ⟨m, hm⟩ : ∃ m, w.scopes.length = m + 1 := ⟨w.scopes.length - 1, by omega⟩
  have hrel : get_rel_to w O D =
      .ok (if O = D then ".".toList else relative_path w ups.length downs) := by
    by_cases h : O = D
    · simp [get_rel_to, h]
    · simp only [h, if_false]
      exact get_rel_to_relative_path w O D ups downs common h hO hD hcommon hnear
  have hans : scope_answer w "RELDIR".toList sid =
      some (.ok (if O = D then ".".toList else relative_path w ups.length downs)) := by
    simp only [scope_answer, hsc, hlocal, synthesized, hdir, hcur, if_true, hrel]
  simp only [get_variable, hfun, p_get_variable, hm,
    p_get_variable_rec_step w "RELDIR".toList m sid sc hsc, hans]

theorem reldir_from_output_directory_witness :
    IsPath sibling_dirs 3 ([3] ++ [0]) ∧ IsPath sibling_dirs 2 ([2, 1] ++ [0]) ∧
    get_variable quiet 1 sibling_dirs 0 "RELDIR".toList =
      .ok ("../a/b".toList, sibling_dirs) :=
  have hroot : IsPath sibling_dirs 0 [0] := IsPath.root (d := 0) rfl rfl rfl
  have hc : IsPath sibling_dirs 3 ([3] ++ [0]) := IsPath.child (d := 3) rfl rfl rfl hroot
  have hb : IsPath sibling_dirs 2 ([2, 1] ++ [0]) :=
    IsPath.child (d := 2) rfl rfl rfl (IsPath.child (d := 1) rfl rfl rfl hroot)
  ⟨hc, hb,
   (reldir_from_output_directory quiet sibling_dirs 0 _ 2 3 [3] [2, 1] [0] 1 (by decide)
     rfl (by decide) rfl rfl hc hb (by decide) (by decide) (by decide)).trans (by decide)⟩

/-- C8 (counterexample): the scope belongs to `a/b` and the current output
directory is the root; `RELDIR` is `a/b`, the path from the output directory
to the directory of the scope, and not `../..`, the path from the directory
of the scope to the output directory. -/
theorem reldir_counterexample :
    get_variable quiet 1 nested_dirs 0 "RELDIR".toList = .ok ("a/b".toList, nested_dirs) ∧
    get_variable quiet 1 nested_dirs 0 "RELDIR".toList ≠
      .ok ("../..".toList, nested_dirs) := by
  decide

/-! ### C10: failure of `set_variable` and of the `#set` command -/

theorem define_variable_ok_of_valid (w : World) (sid : Nat) (varname definition : Str)
    (chain : List Nat) (n : Nat) (h : static_chain w n sid = some chain) :
    ∃ w2, define_variable w sid varname definition = .ok w2 := by
  cases n with
  | zero => simp [static_chain] at h
  | succ m =>
    obtain ⟨sc, hsc, _⟩ := static_chain_cases w m sid chain h
    exact ⟨w.put_scope sid
      { sc with _variables := map_insert varname definition sc._variables },
      by simp only [define_variable, hsc]⟩

theorem static_chains_mem (w : World) :
    ∀ (stack order : List Nat), static_chains w stack = some order →
      ∀ si ∈ stack, ∃ chain, static_chain w w.scopes.length si = some chain := by
  intro stack
  induction stack with
  | nil => intro _ _ si h; simp at h
  | cons s rest ih =>
    intro order h si hsi
    simp only [static_chains] at h
    cases hc : static_chain w w.scopes.length s with
    | none => simp [hc] at h
    | some chain =>
      cases hr : static_chains w rest with
      | none => simp [hc, hr] at h
      | some others =>
        rcases List.mem_cons.1 hsi with rfl | hmem
        · exact ⟨chain, hc⟩
        · exact ih others hr si hmem

theorem set_variable_fails_iff (w : World) (sid : Nat) (varname definition : Str)
    (order : List Nat) (horder : resolution_order w sid = some order) :
    (∃ r, set_variable w sid varname definition = .ok r) ∧
    (set_variable w sid varname definition = .ok (false, w) ↔
      (∀ s ∈ order, local_binding w varname s = none) ∧ getenv w varname = none) ∧
    (∀ w2, set_variable w sid varname definition = .ok (false, w2) → w2 = w) := by
  have hset := set_variable_order w sid varname definition order horder
  have hbottom : ∃ w2,
      define_variable w (w._scope_stack.headD sid) varname definition = .ok w2 := by
    simp only [resolution_order] at horder
    cases hc : static_chain w w.scopes.length sid with
    | none => simp [hc] at horder
    | some own =>
      cases hr : static_chains w w._scope_stack.reverse with
      | none => simp [hc, hr] at horder
      | some stacked =>
        cases hst : w._scope_stack with
        | nil => exact define_variable_ok_of_valid w sid varname definition own _ hc
        | cons front rest =>
          obtain ⟨chain, hfront⟩ := static_chains_mem w _ stacked hr front (by simp [hst])
          exact define_variable_ok_of_valid w front varname definition chain _ hfront
  obtain ⟨wb, hwb⟩ := hbottom
  rw [hset]
  cases hfind : order.find? (binds w varname) with
  | some s0 =>
    have hmem := List.mem_of_find?_eq_some hfind
    have hb : binds w varname s0 = true := by simpa using List.find?_some hfind
    refine ⟨⟨_, rfl⟩, ⟨fun h => by simp at h, fun h => ?_⟩, fun w2 h => by simp at h⟩
    have := h.1 s0 hmem
    simp [binds, this] at hb
  | none =>
    have hall : ∀ s ∈ order, local_binding w varname s = none := by
      intro s hs
      have := List.find?_eq_none.1 hfind s hs
      simpa [binds] using this
    cases henv : getenv w varname with
    | some e =>
      simp only [hwb]
      exact ⟨⟨_, rfl⟩, ⟨fun h => by simp at h, fun h => by simp at h⟩,
        fun w2 h => by simp at h⟩
    | none =>
      exact ⟨⟨_, rfl⟩, ⟨fun _ => ⟨hall, rfl⟩, fun _ => rfl⟩,
        fun w2 h => by simpa using h.symm⟩
theorem str_find_none_of_not_infix (pat : Str) :
    ∀ s : Str, ¬ pat <:+: s → str_find pat s = none := by
  intro s
  induction s with
  | nil =>
    intro h
    have : pat ≠ [] := by
      rintro rfl
      exact h List.nil_infix
    simp [str_find, this]
  | cons c cs ih =>
    intro h
    have h1 : starts_with pat (c :: cs) = false := by
      rcases hb : starts_with pat (c :: cs) with _ | _
      · rfl
      · have hp : pat <+: c :: cs := by simpa [starts_with] using hb
        exact absurd hp.isInfix h
    have h2 := ih (fun hs => h (hs.trans (List.suffix_cons c cs).isInfix))
    simp [str_find, h1, h2]

theorem find_comment_none (text : Str) (h : ¬ BEGIN_COMMENT <:+: text) :
    find_comment text = .ok none := by
  simp [find_comment, find_from, str_find_none_of_not_infix _ text h, find_comment_loop]

theorem takeWhile_word (word rest : Str) (hw : ∀ c ∈ word, isspace c = false) :
    (word ++ ' ' :: rest).takeWhile (fun c => !isspace c) = word := by
  induction word with
  | nil =>
    have hs : isspace ' ' = true := by decide
    simp [List.takeWhile_cons, hs]
  | cons c cs ih =>
    have hc := hw c (by simp)
    simp [List.takeWhile_cons, hc, ih (fun d hd => hw d (by simp [hd]))]

theorem dropWhile_word (word rest : Str) (hw : ∀ c ∈ word, isspace c = false) :
    (word ++ ' ' :: rest).dropWhile (fun c => !isspace c) = ' ' :: rest := by
  induction word with
  | nil =>
    have hs : isspace ' ' = true := by decide
    simp [List.dropWhile_cons, hs]
  | cons c cs ih =>
    have hc := hw c (by simp)
    simp [List.dropWhile_cons, hc, ih (fun d hd => hw d (by simp [hd]))]

theorem read_line_command (X : External) (H : Handlers) (stray : Char) (fuel : Nat)
    (cf : PPCommandFile) (w : World) (text : Str) (d : Char) (rest : Str)
    (hgot : cf._got_command = false) (hfor : cf._in_for = false)
    (hcomment : ¬ BEGIN_COMMENT <:+: text)
    (hbody : text.dropWhile isspace = COMMAND_PREFIX :: d :: rest) (hd : isalpha d = true) :
    read_line X H stray fuel cf w text = handle_command X H stray fuel cf w (d :: rest) := by
  simp only [read_line, find_comment_none _ hcomment]
  simp [hfor, hgot, hbody, hd]

theorem command_is_set :
    ("set".toList = "if".toList) = False ∧ ("set".toList = "elif".toList) = False ∧
    ("set".toList = "else".toList) = False ∧ ("set".toList = "endif".toList) = False ∧
    ("set".toList = "begin".toList) = False ∧ ("set".toList = "forscopes".toList) = False ∧
    ("set".toList = "foreach".toList) = False ∧ ("set".toList = "formap".toList) = False ∧
    ("set".toList = "format".toList) = False ∧ ("set".toList = "output".toList) = False ∧
    ("set".toList = "print".toList) = False ∧ ("set".toList = "defsub".toList) = False ∧
    ("set".toList = "defun".toList) = False ∧ ("set".toList = "end".toList) = False ∧
    ("set".toList = "include".toList) = False ∧ ("set".toList = "sinclude".toList) = False ∧
    ("set".toList = "call".toList) = False ∧ ("set".toList = "error".toList) = False ∧
    ("set".toList = "defer".toList) = False ∧ ("set".toList = "define".toList) = False := by
  simp

theorem handle_command_set (X : External) (H : Handlers) (stray : Char) (fuel : Nat)
    (cf : PPCommandFile) (w : World) (params : Str)
    (hgot : cf._got_command = false) (hfor : cf._in_for = false)
    (hif : failed_if cf = false)
    (hhead : params.head?.map isspace = some false)
    (hlast : params.getLast? ≠ some '\\') :
    handle_command X H stray fuel cf w ("set ".toList ++ params) =
      handle_set_command X fuel { cf with _command := "set".toList, _params := params } w := by
  obtain ⟨ns, sc, got, infor, ifn, bn, cmd, prm, ws, sl⟩ := cf
  simp only at hgot hfor
  subst hgot hfor
  obtain ⟨p0, ps, rfl⟩ : ∃ p0 ps, params = p0 :: ps := by
    cases params with
    | nil => simp at hhead
    | cons p0 ps => exact ⟨p0, ps, rfl⟩
  have hp0 : isspace p0 = false := by simpa using hhead
  have hsp : isspace ' ' = true := by decide
  have htake := takeWhile_word "set".toList (p0 :: ps) (by decide)
  have hdrop := dropWhile_word "set".toList (p0 :: ps) (by decide)
  have hlast2 : ¬ ((p0 :: ps).getLast?.getD stray = '\\') := by
    cases hg : (p0 :: ps).getLast? with
    | none => simp at hg
    | some c =>
      rw [hg] at hlast
      simpa using hlast
  simp only [failed_if] at hif
  obtain ⟨c1, c2, c3, c4, c5, c6, c7, c8, c9, c10, c11, c12, c13, c14, c15, c16, c17, c18, c19,
    c20⟩ := command_is_set
  have hline : "set ".toList ++ p0 :: ps = "set".toList ++ ' ' :: p0 :: ps := by simp
  rw [hline]
  simp only [handle_command, Bool.false_eq_true, if_false, htake, hdrop, List.dropWhile_cons, hsp,
    hp0, if_true, hlast2, failed_if, hif, c1, c2, c3, c4, c5, c6, c7, c8, c9, c10, c11, c12, c13, c14,
    c15, c16, c17, c18, c19, c20]

theorem read_line_set (X : External) (H : Handlers) (stray : Char) (fuel : Nat)
    (cf : PPCommandFile) (w : World) (varname definition : Str)
    (hgot : cf._got_command = false) (hfor : cf._in_for = false)
    (hif : failed_if cf = false)
    (hname : varname ≠ [] ∧ ∀ c ∈ varname, isspace c = false)
    (hdef : definition.head?.map isspace ≠ some true ∧ definition.getLast? ≠ some '\\')
    (hcomment : ¬ BEGIN_COMMENT <:+: "#set ".toList ++ varname ++ " ".toList ++ definition) :
    read_line X H stray fuel cf w ("#set ".toList ++ varname ++ " ".toList ++ definition) =
      handle_set_command X fuel
        { cf with _command := "set".toList, _params := varname ++ " ".toList ++ definition }
        w := by
  obtain ⟨v0, vs, rfl⟩ : ∃ v0 vs, varname = v0 :: vs := by
    cases varname with
    | nil => exact absurd rfl hname.1
    | cons v0 vs => exact ⟨v0, vs, rfl⟩
  have hv0 : isspace v0 = false := hname.2 v0 (by simp)
  have hline : "#set ".toList ++ (v0 :: vs) ++ " ".toList ++ definition =
      '#' :: 's' :: 'e' :: 't' :: ' ' :: v0 :: (vs ++ ' ' :: definition) := by simp
  rw [hline] at hcomment ⊢
  have hparams : ((v0 :: vs) ++ " ".toList ++ definition) = v0 :: (vs ++ ' ' :: definition) := by
    simp
  rw [hparams]
  have hlast : (v0 :: (vs ++ ' ' :: definition)).getLast? ≠ some '\\' := by
    cases hd : definition with
    | nil =>
      rw [show v0 :: (vs ++ [' ']) = (v0 :: vs) ++ [' '] by simp,
        List.getLast?_append_of_ne_nil _ (by simp)]
      simp
    | cons d ds =>
      rw [show v0 :: (vs ++ ' ' :: d :: ds) = (v0 :: vs ++ [' ']) ++ (d :: ds) by simp,
        List.getLast?_append_of_ne_nil _ (by simp), ← hd]
      exact hdef.2
  have hsharp : isspace '#' = false := by decide
  rw [read_line_command X H stray fuel cf w _ 's' ('e' :: 't' :: ' ' :: v0 :: (vs ++ ' ' :: definition))
    hgot hfor hcomment (by simp [List.dropWhile_cons, hsharp]) (by decide)]
  exact handle_command_set X H stray fuel cf w (v0 :: (vs ++ ' ' :: definition)) hgot hfor hif
    (by simp [hv0]) hlast

theorem params_of_set (varname text : Str) (hname : ∀ c ∈ varname, isspace c = false)
    (htext : text.head?.map isspace ≠ some true) :
    params_varname (varname ++ " ".toList ++ text) = varname ∧
    params_definition (varname ++ " ".toList ++ text) = text := by
  have h1 : varname ++ " ".toList ++ text = varname ++ ' ' :: text := by simp
  have hsp : isspace ' ' = true := by decide
  rw [h1]
  refine ⟨takeWhile_word varname text hname, ?_⟩
  rw [params_definition, dropWhile_word varname text hname]
  cases text with
  | nil => simp [List.dropWhile_cons, hsp]
  | cons t ts =>
    have ht : isspace t = false := by
      cases hb : isspace t with
      | false => rfl
      | true => simp [hb] at htext
    simp [List.dropWhile_cons, hsp, ht]

theorem read_line_set_fails (X : External) (H : Handlers) (stray : Char) (fuel : Nat)
    (cf : PPCommandFile) (w0 w : World) (varname text definition : Str)
    (hgot : cf._got_command = false) (hfor : cf._in_for = false)
    (hif : failed_if cf = false)
    (hname : varname ≠ [] ∧ ∀ c ∈ varname, isspace c = false)
    (htext : text.head?.map isspace ≠ some true ∧ text.getLast? ≠ some '\\')
    (hcomment : ¬ BEGIN_COMMENT <:+: "#set ".toList ++ varname ++ " ".toList ++ text)
    (hexpand : expand_string X fuel w0 cf._scope text = .ok (definition, w))
    (hset : set_variable w cf._scope varname definition = .ok (false, w)) :
    read_line X H stray fuel cf w0 ("#set ".toList ++ varname ++ " ".toList ++ text) =
      .ok (false,
        { cf with _command := "set".toList, _params := varname ++ " ".toList ++ text }, w) := by
  rw [read_line_set X H stray fuel cf w0 varname text hgot hfor hif hname htext hcomment]
  obtain ⟨h1, h2⟩ := params_of_set varname text hname.2 htext.1
  simp only [handle_set_command, h1, h2, hexpand, hset]

/-- C10: in a state whose parent chains end, `set_variable` returns a value;
it reports failure exactly when no scope of the resolution order binds the
name and the environment does not hold it, and then the state is unchanged;
and a line `#set <name> <text>` that is executed (no pending continuation,
no capture, no failing `#if`) makes `read_line` return failure when
`set_variable` fails on the expansion of the text. -/
theorem set_variable_failure (w : World) (sid : Nat) (varname definition : Str)
    (order : List Nat) (horder : resolution_order w sid = some order) :
    (∃ r, set_variable w sid varname definition = .ok r) ∧
    (set_variable w sid varname definition = .ok (false, w) ↔
      (∀ s ∈ order, local_binding w varname s = none) ∧ getenv w varname = none) ∧
    (∀ w2, set_variable w sid varname definition = .ok (false, w2) → w2 = w) ∧
    (∀ (X : External) (H : Handlers) (stray : Char) (fuel : Nat) (cf : PPCommandFile)
        (w0 : World) (text : Str),
      cf._scope = sid → cf._got_command = false → cf._in_for = false →
      failed_if cf = false → (varname ≠ [] ∧ ∀ c ∈ varname, isspace c = false) →
      (text.head?.map isspace ≠ some true ∧ text.getLast? ≠ some '\\') →
      ¬ BEGIN_COMMENT <:+: "#set ".toList ++ varname ++ " ".toList ++ text →
      expand_string X fuel w0 sid text = .ok (definition, w) →
      set_variable w sid varname definition = .ok (false, w) →
      read_line X H stray fuel cf w0 ("#set ".toList ++ varname ++ " ".toList ++ text) =
        .ok (false,
          { cf with _command := "set".toList, _params := varname ++ " ".toList ++ text },
          w)) := by
  obtain ⟨h1, h2, h3⟩ := set_variable_fails_iff w sid varname definition order horder
  refine ⟨h1, h2, h3, ?_⟩
  intro X H stray fuel cf w0 text hsc hgot hfor hif hname htext hcomment hexpand hset
  subst hsc
  exact read_line_set_fails X H stray fuel cf w0 w varname text definition hgot hfor hif hname
    htext hcomment hexpand hset

theorem set_variable_failure_witness :
    resolution_order lookup_world 2 = some [2, 1, 3, 0] ∧
    set_variable lookup_world 2 "Z".toList "x".toList = .ok (false, lookup_world) ∧
    read_line quiet idle_handlers 'x' 10 (new_command_file 2) lookup_world
        "#set Z x".toList =
      .ok (false, { new_command_file 2 with _command := "set".toList,
                                            _params := "Z x".toList }, lookup_world) :=
  have h := set_variable_failure lookup_world 2 "Z".toList "x".toList [2, 1, 3, 0] (by decide)
  have hset : set_variable lookup_world 2 "Z".toList "x".toList = .ok (false, lookup_world) :=
    h.2.1.2 ⟨by decide, by decide⟩
  ⟨by decide, hset,
   h.2.2.2 quiet idle_handlers 'x' 10 (new_command_file 2) lookup_world "x".toList rfl rfl rfl
     (by decide) (by decide) (by decide) (by decide) (by decide) hset⟩

/-! ### C20: the transitive closure of the dependency sets -/

theorem unvisited_mono (n : Nat) (S S2 : List Nat) (h : ∀ x ∈ S, x ∈ S2) :
    unvisited n S2 ≤ unvisited n S := by
  unfold unvisited
  apply Finset.card_le_card
  intro x hx
  simp only [Finset.mem_filter] at hx ⊢
  exact ⟨hx.1, fun hS => hx.2 (h x hS)⟩

theorem unvisited_cons_lt (n : Nat) (S : List Nat) (x : Nat) (hx : x < n) (hS : x ∉ S) :
    unvisited n (x :: S) < unvisited n S := by
  unfold unvisited
  apply Finset.card_lt_card
  rw [Finset.ssubset_iff_of_subset]
  · exact ⟨x, by simp [hx, hS], by simp⟩
  · intro y hy
    simp only [Finset.mem_filter, List.mem_cons, not_or] at hy ⊢
    exact ⟨hy.1, hy.2.2⟩

theorem get_complete_loop_traverses (E : Nat → Nat → Prop) (n fuel : Nat)
    (F : Nat → List Nat → Except Fault (List Nat))
    (ih : ∀ d S, d < n → unvisited n S < fuel → ∃ S2, F d S = .ok S2 ∧ Traversed E d S S2) :
    ∀ (l : List Nat) (S : List Nat), (∀ z ∈ l, z < n) → unvisited n S < fuel + 1 →
      ∃ S2, get_complete_loop F l S = .ok S2 ∧ (∀ x ∈ S, x ∈ S2) ∧
        (∀ x ∈ S2, x ∉ S → ∃ z ∈ l, Relation.ReflTransGen E z x) ∧
        (∀ z ∈ l, z ∈ S2) ∧ (∀ y ∈ S2, y ∉ S → ∀ z, E y z → z ∈ S2) := by
  intro l
  induction l with
  | nil =>
    intro S _ _
    exact ⟨S, rfl, fun x hx => hx, fun x hx hn => absurd hx hn, by simp,
      fun y hy hn => absurd hy hn⟩
  | cons dir rest ihl =>
    intro S hl hS
    have hrest : ∀ z ∈ rest, z < n := fun z hz => hl z (by simp [hz])
    by_cases hmem : dir ∈ S
    · obtain ⟨S2, h1, h2, h3, h4, h5⟩ := ihl S hrest hS
      refine ⟨S2, by simp [get_complete_loop, hmem, h1], h2, ?_, ?_, h5⟩
      · intro x hx hn
        obtain ⟨z, hz, hzx⟩ := h3 x hx hn
        exact ⟨z, by simp [hz], hzx⟩
      · intro z hz
        rcases List.mem_cons.1 hz with rfl | hz
        · exact h2 _ hmem
        · exact h4 z hz
    · have hdir : dir < n := hl dir (by simp)
      have hlt := unvisited_cons_lt n S dir hdir hmem
      obtain ⟨S1, hF, t1, t2, t3, t4⟩ := ih dir (dir :: S) hdir (by omega)
      have hS1 : unvisited n S1 < fuel + 1 := by
        have := unvisited_mono n (dir :: S) S1 t1
        omega
      obtain ⟨S2, h1, h2, h3, h4, h5⟩ := ihl S1 hrest hS1
      refine ⟨S2, by simp [get_complete_loop, hmem, hF, h1], ?_, ?_, ?_, ?_⟩
      · intro x hx
        exact h2 x (t1 x (by simp [hx]))
      · intro x hx hn
        by_cases hx1 : x ∈ S1
        · by_cases hxd : x = dir
          · exact ⟨dir, by simp, hxd ▸ Relation.ReflTransGen.refl⟩
          · have : x ∉ dir :: S := by simp [hxd, hn]
            exact ⟨dir, by simp, (t2 x hx1 this).to_reflTransGen⟩
        · obtain ⟨z, hz, hzx⟩ := h3 x hx hx1
          exact ⟨z, by simp [hz], hzx⟩
      · intro z hz
        rcases List.mem_cons.1 hz with rfl | hz
        · exact h2 _ (t1 _ (by simp))
        · exact h4 z hz
      · intro y hy hn z hyz
        by_cases hy1 : y ∈ S1
        · by_cases hyd : y = dir
          · exact h2 z (t3 z (hyd ▸ hyz))
          · have : y ∉ dir :: S := by simp [hyd, hn]
            exact h2 z (t4 y hy1 this z hyz)
        · exact h5 y hy hy1 z hyz

theorem get_complete_traverses (dirs : List PPDirectory) (edges : PPDirectory → List Nat)
    (hE : ∀ dir ∈ dirs, ∀ b ∈ edges dir, b < dirs.length)
    (F : Nat → Nat → List Nat → Except Fault (List Nat))
    (hF : ∀ fuel d dep, F (fuel + 1) d dep =
      match dirs[d]? with
      | none => .error .abort
      | some dir => get_complete_loop (F fuel) (edges dir) dep) :
    ∀ (fuel d : Nat) (S : List Nat), d < dirs.length → unvisited dirs.length S < fuel →
      ∃ S2, F fuel d S = .ok S2 ∧
        Traversed (fun a b => ∃ dir, dirs[a]? = some dir ∧ b ∈ edges dir) d S S2 := by
  intro fuel
  induction fuel with
  | zero => intro d S _ h; omega
  | succ fuel ih =>
    intro d S hd hS
    obtain ⟨dir, hdir⟩ : ∃ dir, dirs[d]? = some dir := ⟨dirs[d], List.getElem?_eq_getElem hd⟩
    obtain ⟨S2, h1, h2, h3, h4, h5⟩ :=
      get_complete_loop_traverses _ dirs.length fuel (F fuel) (ih) (edges dir) S
        (fun z hz => hE dir (List.getElem?_mem hdir) z hz) hS
    refine ⟨S2, by rw [hF, hdir]; exact h1, h2, ?_, ?_, h5⟩
    · intro x hx hn
      obtain ⟨z, hz, hzx⟩ := h3 x hx hn
      exact Relation.TransGen.head' ⟨dir, hdir, hz⟩ hzx
    · rintro z ⟨dir2, hdir2, hz⟩
      rw [hdir] at hdir2
      cases hdir2
      exact h4 z hz

theorem traversed_from_empty (E : Nat → Nat → Prop) (d : Nat) (S2 : List Nat)
    (h : Traversed E d [] S2) (x : Nat) : x ∈ S2 ↔ Relation.TransGen E d x := by
  obtain ⟨_, h2, h3, h4⟩ := h
  constructor
  · intro hx
    exact h2 x hx (by simp)
  · intro hx
    induction hx with
    | single hdz => exact h3 _ hdz
    | tail _ hyz ih => exact h4 _ ih (by simp) _ hyz

theorem transGen_swap_of_inverse (dirs : List PPDirectory)
    (hinv : ∀ a b, depended_on_by dirs a b ↔ depends_on dirs b a) (d x : Nat) :
    Relation.TransGen (depended_on_by dirs) d x ↔ Relation.TransGen (depends_on dirs) x d := by
  have : depended_on_by dirs = Function.swap (depends_on dirs) := by
    funext a b
    exact propext (hinv a b)
  rw [this, Relation.transGen_swap]

/-- C20: on every graph of directories whose dependency sets hold addresses
of directories, cyclic graphs included, `get_complete_i_depend_on` called on
a directory `d` with an empty set returns, and the set it has filled holds
exactly the directories that can be reached from `d` through one or more
depends-on edges (so `d` itself exactly when it lies on a cycle);
`get_complete_depends_on_me` does the same over the depended-on-by edges,
which are the reverse depends-on edges when the two families of sets are
inverse to each other. -/
theorem get_complete_is_transitive_closure (dirs : List PPDirectory) (d : Nat)
    (hvalid : valid_dependencies dirs) (hd : d < dirs.length) :
    (∃ dep, get_complete_i_depend_on dirs d [] = .ok dep ∧
      (∀ x, x ∈ dep ↔ Relation.TransGen (depends_on dirs) d x) ∧
      (d ∈ dep ↔ Relation.TransGen (depends_on dirs) d d)) ∧
    (∃ dep, get_complete_depends_on_me dirs d [] = .ok dep ∧
      (∀ x, x ∈ dep ↔ Relation.TransGen (depended_on_by dirs) d x) ∧
      ((∀ a b, depended_on_by dirs a b ↔ depends_on dirs b a) →
        ∀ x, x ∈ dep ↔ Relation.TransGen (depends_on dirs) x d)) := by
  have hfuel : unvisited dirs.length [] < dirs.length + 1 := by
    unfold unvisited
    have := Finset.card_filter_le (Finset.range dirs.length) (fun x => x ∉ ([] : List Nat))
    simp only [Finset.card_range] at this
    omega
  constructor
  · obtain ⟨dep, h1, h2⟩ :=
      get_complete_traverses dirs (fun dir => dir._i_depend_on)
        (fun dir hdir => (hvalid dir hdir).1) (get_complete_i_depend_on_rec dirs)
        (fun _ _ _ => rfl) (dirs.length + 1) d [] hd hfuel
    have hiff := traversed_from_empty _ d dep h2
    exact ⟨dep, h1, hiff, hiff d⟩
  · obtain ⟨dep, h1, h2⟩ :=
      get_complete_traverses dirs (fun dir => dir._depends_on_me)
        (fun dir hdir => (hvalid dir hdir).2) (get_complete_depends_on_me_rec dirs)
        (fun _ _ _ => rfl) (dirs.length + 1) d [] hd hfuel
    have hiff := traversed_from_empty _ d dep h2
    refine ⟨dep, h1, hiff, fun hinv x => ?_⟩
    rw [← transGen_swap_of_inverse dirs hinv]
    exact hiff x

theorem get_complete_is_transitive_closure_witness :
    valid_dependencies circular_dirs ∧
    get_complete_i_depend_on circular_dirs 3 [] = .ok [2, 1, 0] ∧
    (∃ dep, get_complete_i_depend_on circular_dirs 0 [] = .ok dep ∧
      (∀ x, x ∈ dep ↔ Relation.TransGen (depends_on circular_dirs) 0 x) ∧
      (0 ∈ dep ↔ Relation.TransGen (depends_on circular_dirs) 0 0)) :=
  ⟨by decide, by decide,
   (get_complete_is_transitive_closure circular_dirs 0 (by decide) (by decide)).1⟩

/-! ### C17, C18, C19: the dependency index -/

theorem skeleton_length (s t : List PPDirectory) (h : skeleton s = skeleton t) :
    s.length = t.length := by
  have := congrArg List.length h
  simpa [skeleton] using this

theorem skeleton_getElem? (s t : List PPDirectory) (h : skeleton s = skeleton t) (u : Nat)
    (a : PPDirectory) (ha : s[u]? = some a) :
    ∃ b, t[u]? = some b ∧ erase_marks b = erase_marks a := by
  have h1 : (skeleton s)[u]? = some (erase_marks a) := by simp [skeleton, ha]
  rw [h] at h1
  simp only [skeleton, List.getElem?_map, Option.map_eq_some'] at h1
  exact h1

theorem erase_marks_depends (a b : PPDirectory) (h : erase_marks b = erase_marks a) :
    b._i_depend_on = a._i_depend_on := by
  have := congrArg PPDirectory._i_depend_on h
  simpa [erase_marks] using this

theorem depends_on_skeleton (s t : List PPDirectory) (h : skeleton s = skeleton t) (a b : Nat) :
    depends_on s a b ↔ depends_on t a b := by
  constructor
  · rintro ⟨dir, hdir, hb⟩
    obtain ⟨dir2, h2, he⟩ := skeleton_getElem? s t h a dir hdir
    exact ⟨dir2, h2, by rw [erase_marks_depends _ _ he]; exact hb⟩
  · rintro ⟨dir, hdir, hb⟩
    obtain ⟨dir2, h2, he⟩ := skeleton_getElem? t s h.symm a dir hdir
    exact ⟨dir2, h2, by rw [erase_marks_depends _ _ he]; exact hb⟩

theorem skeleton_set (s : List PPDirectory) (d : Nat) (dir x : PPDirectory)
    (hd : s[d]? = some dir) (hx : erase_marks x = erase_marks dir) :
    skeleton (s.set d x) = skeleton s := by
  apply List.ext_getElem?
  intro u
  simp only [skeleton, List.getElem?_map, List.getElem?_set]
  by_cases hu : d = u
  · subst hu
    have hlt : d < s.length := by
      rcases Nat.lt_or_ge d s.length with h | h
      · exact h
      · rw [List.getElem?_eq_none h] at hd; cases hd
    simp [hlt, hd, hx]
  · simp [hu]

theorem index_of_set (s : List PPDirectory) (d u : Nat) (x : PPDirectory)
    (hd : d < s.length) :
    index_of (s.set d x) u = if u = d then x._depends_index else index_of s u := by
  unfold index_of
  by_cases hu : u = d
  · subst hu; simp [List.getElem?_set, hd]
  · have : ¬ d = u := fun h => hu h.symm
    simp [List.getElem?_set, hu, this]

theorem computing_set (s : List PPDirectory) (d u : Nat) (x : PPDirectory)
    (hd : d < s.length) :
    computing (s.set d x) u = if u = d then x._computing_depends_index else computing s u := by
  unfold computing
  by_cases hu : u = d
  · subst hu; simp [List.getElem?_set, hd]
  · have : ¬ d = u := fun h => hu h.symm
    simp [List.getElem?_set, hu, this]

theorem max_index_congr (s t : List PPDirectory) :
    ∀ (l : List Nat) (m : Int), (∀ v ∈ l, index_of s v = index_of t v) →
      max_index s l m = max_index t l m := by
  intro l
  induction l with
  | nil => intro m _; rfl
  | cons v rest ih =>
    intro m h
    simp only [max_index]
    rw [h v (by simp)]
    exact ih _ (fun x hx => h x (by simp [hx]))

theorem max_index_ge (s : List PPDirectory) :
    ∀ (l : List Nat) (m : Int), m ≤ max_index s l m ∧ ∀ v ∈ l, index_of s v ≤ max_index s l m := by
  intro l
  induction l with
  | nil => intro m; simp [max_index]
  | cons v rest ih =>
    intro m
    simp only [max_index]
    obtain ⟨h1, h2⟩ := ih (max m (index_of s v))
    refine ⟨le_trans (le_max_left _ _) h1, ?_⟩
    intro x hx
    rcases List.mem_cons.1 hx with rfl | hx
    · exact le_trans (le_max_right _ _) h1
    · exact h2 x hx

theorem max_index_attained (s : List PPDirectory) :
    ∀ (l : List Nat) (m : Int), max_index s l m = m ∨ ∃ v ∈ l, max_index s l m = index_of s v := by
  intro l
  induction l with
  | nil => intro m; left; rfl
  | cons v rest ih =>
    intro m
    simp only [max_index]
    rcases ih (max m (index_of s v)) with h | ⟨x, hx, h⟩
    · rcases max_choice m (index_of s v) with hm | hm
      · left; rw [h, hm]
      · right; exact ⟨v, by simp, by rw [h, hm]⟩
    · right; exact ⟨x, by simp [hx], h⟩

theorem index_of_getElem? (s : List PPDirectory) (u : Nat) (dir : PPDirectory)
    (h : s[u]? = some dir) : index_of s u = dir._depends_index := by
  simp [index_of, h]

theorem computing_getElem? (s : List PPDirectory) (u : Nat) (dir : PPDirectory)
    (h : s[u]? = some dir) : computing s u = dir._computing_depends_index := by
  simp [computing, h]

theorem Kept.refl (s : List PPDirectory) : Kept s s := ⟨fun _ => rfl, fun _ _ => rfl⟩

theorem Kept.trans {s s1 s2 : List PPDirectory} (h1 : Kept s s1) (h2 : Kept s1 s2) :
    Kept s s2 := by
  refine ⟨fun u => (h2.1 u).trans (h1.1 u), fun u hu => ?_⟩
  have e1 := h1.2 u hu
  have : index_of s1 u ≠ 0 ∨ computing s1 u = true := by
    rcases hu with hu | hu
    · left; rw [e1]; exact hu
    · right; rw [h1.1 u]; exact hu
  rw [h2.2 u this, e1]

theorem whites_le_of_kept (n : Nat) (s s2 : List PPDirectory) (h : Kept s s2) :
    whites n s2 ≤ whites n s := by
  unfold whites
  apply Finset.card_le_card
  intro u hu
  simp only [Finset.mem_filter] at hu ⊢
  refine ⟨hu.1, ?_, by rw [← h.1 u]; exact hu.2.2⟩
  by_contra h0
  have := h.2 u (Or.inl h0)
  rw [hu.2.1] at this
  exact h0 this.symm

theorem whites_lt_of_marked (n : Nat) (s s2 : List PPDirectory) (d : Nat) (hd : d < n)
    (hw : index_of s d = 0 ∧ computing s d = false)
    (hd2 : ¬ (index_of s2 d = 0 ∧ computing s2 d = false))
    (hother : ∀ u, u ≠ d → index_of s2 u = index_of s u ∧ computing s2 u = computing s u) :
    whites n s2 < whites n s := by
  unfold whites
  apply Finset.card_lt_card
  rw [Finset.ssubset_iff_of_subset]
  · exact ⟨d, by simp [hd, hw], fun h => hd2 (Finset.mem_filter.1 h).2⟩
  · intro u hu
    simp only [Finset.mem_filter] at hu ⊢
    have hne : u ≠ d := fun h => hd2 (h ▸ hu.2)
    obtain ⟨e1, e2⟩ := hother u hne
    exact ⟨hu.1, e1 ▸ hu.2.1, e2 ▸ hu.2.2⟩

theorem getElem?_lt {α : Type} (l : List α) (d : Nat) (x : α) (h : l[d]? = some x) :
    d < l.length := by
  rcases Nat.lt_or_ge d l.length with h1 | h1
  · exact h1
  · rw [List.getElem?_eq_none h1] at h; cases h

theorem valid_dependencies_lt (dirs : List PPDirectory) (hvalid : valid_dependencies dirs)
    (a b : Nat) (h : depends_on dirs a b) : b < dirs.length := by
  obtain ⟨dir, hdir, hb⟩ := h
  exact (hvalid dir (List.getElem?_mem hdir)).1 b hb

theorem Indexed_set_black (s : List PPDirectory) (d : Nat) (dir x : PPDirectory)
    (hd : s[d]? = some dir) (hI : Indexed s) (h0 : dir._depends_index = 0)
    (hxc : x._computing_depends_index = false) (hnn : 0 ≤ x._depends_index)
    (hall : ∀ v ∈ x._i_depend_on, index_of s v ≠ 0)
    (hxi : x._depends_index = max_index s x._i_depend_on 0 + 1) :
    Indexed (s.set d x) := by
  have hlt := getElem?_lt s d dir hd
  have hd0 : index_of s d = 0 := by rw [index_of_getElem? s d dir hd, h0]
  have hsame : ∀ l : List Nat, (∀ v ∈ l, index_of s v ≠ 0) →
      ∀ v ∈ l, index_of (s.set d x) v = index_of s v := by
    intro l hl v hv
    have hne : v ≠ d := fun h => hl v hv (h ▸ hd0)
    rw [index_of_set s d v x hlt, if_neg hne]
  intro u dir2 hu
  by_cases hud : u = d
  · subst hud
    have : dir2 = x := by
      simp [List.getElem?_set, hlt] at hu
      exact hu.symm
    subst this
    refine ⟨hnn, fun _ => ⟨hxc, ?_, ?_⟩⟩
    · intro v hv
      rw [hsame _ hall v hv]
      exact hall v hv
    · rw [max_index_congr (s.set u dir2) s _ 0 (hsame _ hall)]
      exact hxi
  · have hu2 : s[u]? = some dir2 := by
      have : ¬ d = u := fun h => hud h.symm
      simpa [List.getElem?_set, this] using hu
    obtain ⟨h1, h2⟩ := hI u dir2 hu2
    refine ⟨h1, fun hb => ?_⟩
    obtain ⟨c1, c2, c3⟩ := h2 hb
    refine ⟨c1, ?_, ?_⟩
    · intro v hv
      rw [hsame _ c2 v hv]
      exact c2 v hv
    · rw [max_index_congr (s.set d x) s _ 0 (hsame _ c2)]
      exact c3

theorem Indexed_set_gray (s : List PPDirectory) (d : Nat) (dir x : PPDirectory)
    (hd : s[d]? = some dir) (hI : Indexed s) (h0 : dir._depends_index = 0)
    (hx : x._depends_index = 0) :
    Indexed (s.set d x) := by
  have hlt := getElem?_lt s d dir hd
  have hsame : ∀ v, index_of (s.set d x) v = index_of s v := by
    intro v
    rw [index_of_set s d v x hlt]
    by_cases hv : v = d
    · subst hv; rw [if_pos rfl, hx, index_of_getElem? s v dir hd, h0]
    · rw [if_neg hv]
  intro u dir2 hu
  by_cases hud : u = d
  · subst hud
    have : dir2 = x := by
      simp [List.getElem?_set, hlt] at hu
      exact hu.symm
    subst this
    exact ⟨by rw [hx], fun h => absurd hx h⟩
  · have hu2 : s[u]? = some dir2 := by
      have : ¬ d = u := fun h => hud h.symm
      simpa [List.getElem?_set, this] using hu
    obtain ⟨h1, h2⟩ := hI u dir2 hu2
    refine ⟨h1, fun hb => ?_⟩
    obtain ⟨c1, c2, c3⟩ := h2 hb
    refine ⟨c1, ?_, ?_⟩
    · intro v hv
      rw [hsame v]
      exact c2 v hv
    · rw [max_index_congr (s.set d x) s _ 0 (fun v _ => hsame v)]
      exact c3

theorem compute_depends_index_loop_spec (dirs0 : List PPDirectory) (d : Nat)
    (F : List PPDirectory → Nat → Except Fault (Bool × List PPDirectory)) (fuel : Nat)
    (ih : ∀ s v, skeleton s = skeleton dirs0 → v < dirs0.length → Indexed s →
        computing s v = false → whites dirs0.length s < fuel →
        (∀ g, computing s g = true → Relation.ReflTransGen (depends_on dirs0) g v) →
        ∃ b s2, F s v = .ok (b, s2) ∧ Computed dirs0 s v b s2) :
    ∀ (l : List Nat) (s : List PPDirectory) (m : Int), skeleton s = skeleton dirs0 →
      (∀ v ∈ l, depends_on dirs0 d v ∧ v < dirs0.length) → Indexed s →
      whites dirs0.length s < fuel →
      (∀ g, computing s g = true → Relation.ReflTransGen (depends_on dirs0) g d) →
      ∃ r s2, compute_depends_index_loop F s l m = .ok (r, s2) ∧
        skeleton s2 = skeleton dirs0 ∧
        (∀ m2, r = some m2 → Indexed s2 ∧ Kept s s2 ∧ (∀ v ∈ l, index_of s2 v ≠ 0) ∧
          m2 = max_index s2 l m) ∧
        (r = none → cycle_reachable dirs0 d) := by
  intro l
  induction l with
  | nil =>
    intro s m hsk _ hI _ _
    refine ⟨some m, s, rfl, hsk, ?_, by simp⟩
    intro m2 hm2
    cases hm2
    exact ⟨hI, Kept.refl s, by simp, rfl⟩
  | cons di rest ihl =>
    intro s m hsk hl hI hw hgray
    obtain ⟨hdi, hdilt⟩ := hl di (by simp)
    have hlen := skeleton_length s dirs0 hsk
    obtain ⟨dep, hdep⟩ : ∃ dep, s[di]? = some dep :=
      ⟨s[di], List.getElem?_eq_getElem (by omega)⟩
    by_cases hc : dep._computing_depends_index = true
    · refine ⟨none, s, by simp [compute_depends_index_loop, hdep, hc], hsk, by simp, ?_⟩
      intro _
      have hg := hgray di (by rw [computing_getElem? s di dep hdep, hc])
      exact ⟨d, Relation.ReflTransGen.refl, Relation.TransGen.head' hdi hg⟩
    · have hcf : computing s di = false := by
        rw [computing_getElem? s di dep hdep]; simpa using hc
      obtain ⟨b, s1, hF, hsk1, ht, hf⟩ := ih s di hsk hdilt hI hcf hw
        (fun g hg => (hgray g hg).tail hdi)
      cases b with
      | false =>
        refine ⟨none, s1, by simp [compute_depends_index_loop, hdep, hc, hF], hsk1, by simp, ?_⟩
        intro _
        obtain ⟨c, hc1, hc2⟩ := hf rfl
        exact ⟨c, Relation.ReflTransGen.head hdi hc1, hc2⟩
      | true =>
        obtain ⟨hI1, hK1, hidx⟩ := ht rfl
        have hlen1 := skeleton_length s1 dirs0 hsk1
        obtain ⟨dep1, hdep1⟩ : ∃ dep1, s1[di]? = some dep1 :=
          ⟨s1[di], List.getElem?_eq_getElem (by omega)⟩
        have hw1 : whites dirs0.length s1 < fuel :=
          lt_of_le_of_lt (whites_le_of_kept _ s s1 hK1) hw
        obtain ⟨r, s2, hloop, hsk2, hsome, hnone⟩ :=
          ihl s1 (max m dep1._depends_index) hsk1 (fun v hv => hl v (by simp [hv])) hI1 hw1
            (fun g hg => hgray g (by rw [← hK1.1 g]; exact hg))
        refine ⟨r, s2, by simp [compute_depends_index_loop, hdep, hc, hF, hdep1, hloop],
          hsk2, ?_, hnone⟩
        intro m2 hr
        obtain ⟨hI2, hK2, hall, hm⟩ := hsome m2 hr
        have hdi2 : index_of s2 di = index_of s1 di := hK2.2 di (Or.inl hidx)
        refine ⟨hI2, hK1.trans hK2, ?_, ?_⟩
        · intro v hv
          rcases List.mem_cons.1 hv with rfl | hv
          · rw [hdi2]; exact hidx
          · exact hall v hv
        · simp only [max_index]
          rw [hdi2, index_of_getElem? s1 di dep1 hdep1]
          exact hm

theorem compute_depends_index_rec_spec (dirs0 : List PPDirectory)
    (hvalid : valid_dependencies dirs0) :
    ∀ (fuel : Nat) (s : List PPDirectory) (d : Nat), skeleton s = skeleton dirs0 →
      d < dirs0.length → Indexed s → computing s d = false →
      whites dirs0.length s < fuel →
      (∀ g, computing s g = true → Relation.ReflTransGen (depends_on dirs0) g d) →
      ∃ b s2, compute_depends_index_rec fuel s d = .ok (b, s2) ∧ Computed dirs0 s d b s2 := by
  intro fuel
  induction fuel with
  | zero => intro s d _ _ _ _ h; omega
  | succ fuel ih =>
    intro s d hsk hd hI hcd hw hgray
    have hlen := skeleton_length s dirs0 hsk
    obtain ⟨dir, hdir⟩ : ∃ dir, s[d]? = some dir :=
      ⟨s[d], List.getElem?_eq_getElem (by omega)⟩
    have hdlt : d < s.length := by omega
    have hcomp : dir._computing_depends_index = false := by
      rw [← computing_getElem? s d dir hdir]; exact hcd
    by_cases h0 : dir._depends_index = 0
    · by_cases hempty : dir._i_depend_on = []
      · -- a directory without dependencies
        refine ⟨true, s.set d { dir with _depends_index := 1 },
          by simp [compute_depends_index_rec, hdir, h0, hempty], ?_, ?_, by simp⟩
        · rw [skeleton_set s d dir _ hdir (by simp [erase_marks])]; exact hsk
        · intro _
          refine ⟨?_, ⟨?_, ?_⟩, ?_⟩
          · exact Indexed_set_black s d dir _ hdir hI h0 hcomp (by simp)
              (by simp [hempty]) (by simp [hempty, max_index])
          · intro u
            rw [computing_set s d u _ hdlt]
            by_cases hu : u = d
            · subst hu; simp [hcomp, hcd]
            · simp [hu]
          · intro u hu
            rw [index_of_set s d u _ hdlt]
            by_cases hud : u = d
            · subst hud
              rw [index_of_getElem? s u dir hdir, hcd] at hu
              simp [h0] at hu
            · simp [hud]
          · rw [index_of_set s d d _ hdlt]; simp
      · -- a directory with dependencies
        have hl : ∀ v ∈ dir._i_depend_on, depends_on dirs0 d v ∧ v < dirs0.length := by
          intro v hv
          have h1 : depends_on dirs0 d v :=
            (depends_on_skeleton s dirs0 hsk d v).1 ⟨dir, hdir, hv⟩
          exact ⟨h1, valid_dependencies_lt dirs0 hvalid d v h1⟩
        have hsk0 : skeleton (s.set d { dir with _computing_depends_index := true }) =
            skeleton dirs0 := by
          rw [skeleton_set s d dir _ hdir (by simp [erase_marks])]; exact hsk
        have hI0 : Indexed (s.set d { dir with _computing_depends_index := true }) :=
          Indexed_set_gray s d dir _ hdir hI h0 h0
        have hK0i : ∀ u, index_of (s.set d { dir with _computing_depends_index := true }) u =
            index_of s u := by
          intro u
          rw [index_of_set s d u _ hdlt]
          by_cases hu : u = d
          · subst hu; simp [index_of_getElem? s u dir hdir]
          · simp [hu]
        have hK0c : ∀ u, u ≠ d →
            computing (s.set d { dir with _computing_depends_index := true }) u =
              computing s u := by
          intro u hu
          rw [computing_set s d u _ hdlt, if_neg hu]
        have hd0c : computing (s.set d { dir with _computing_depends_index := true }) d =
            true := by
          rw [computing_set s d d _ hdlt]; simp
        have hw0 : whites dirs0.length (s.set d { dir with _computing_depends_index := true })
            < fuel := by
          have := whites_lt_of_marked dirs0.length s _ d hd
            ⟨by rw [index_of_getElem? s d dir hdir, h0], hcd⟩
            (fun h => by rw [hd0c] at h; simp at h)
            (fun u hu => ⟨hK0i u, hK0c u hu⟩)
          omega
        have hgray0 : ∀ g,
            computing (s.set d { dir with _computing_depends_index := true }) g = true →
              Relation.ReflTransGen (depends_on dirs0) g d := by
          intro g hg
          by_cases hgd : g = d
          · subst hgd; exact Relation.ReflTransGen.refl
          · rw [hK0c g hgd] at hg; exact hgray g hg
        obtain ⟨r, s1, hloop, hsk1, hsome, hnone⟩ :=
          compute_depends_index_loop_spec dirs0 d (compute_depends_index_rec fuel) fuel
            (fun s v a b c e f g => ih s v a b c e f g) dir._i_depend_on _ 0 hsk0 hl hI0 hw0
            hgray0
        cases r with
        | none =>
          refine ⟨false, s1, ?_, hsk1, by simp, fun _ => hnone rfl⟩
          simp only [compute_depends_index_rec, hdir]
          rw [if_neg (not_not.2 h0), if_neg (by simpa [List.isEmpty_iff] using hempty), hloop]
        | some m2 =>
          obtain ⟨hI1, hK1, hall, hm⟩ := hsome m2 rfl
          have hlen1 := skeleton_length s1 dirs0 hsk1
          obtain ⟨dir1, hdir1⟩ : ∃ dir1, s1[d]? = some dir1 :=
            ⟨s1[d], List.getElem?_eq_getElem (by omega)⟩
          have hd1lt : d < s1.length := by omega
          have hdeps1 : dir1._i_depend_on = dir._i_depend_on := by
            obtain ⟨b, hb, he⟩ := skeleton_getElem? s1 s (hsk1.trans hsk.symm) d dir1 hdir1
            rw [hdir] at hb
            cases hb
            exact (erase_marks_depends _ _ he).symm
          have hidx1 : index_of s1 d = 0 := by
            rw [hK1.2 d (Or.inr hd0c), hK0i d, index_of_getElem? s d dir hdir, h0]
          have hm0 : 0 ≤ m2 := by rw [hm]; exact (max_index_ge s1 _ 0).1
          refine ⟨true,
            s1.set d
              { dir1 with _computing_depends_index := false, _depends_index := m2 + 1 },
            ?_, ?_, ?_, by simp⟩
          · simp only [compute_depends_index_rec, hdir]
            rw [if_neg (not_not.2 h0), if_neg (by simpa [List.isEmpty_iff] using hempty),
              hloop]
            simp only [hdir1]
          · rw [skeleton_set s1 d dir1 _ hdir1 (by simp [erase_marks])]; exact hsk1
          · intro _
            refine ⟨?_, ⟨?_, ?_⟩, ?_⟩
            · apply Indexed_set_black s1 d dir1 _ hdir1 hI1
                (by rw [← index_of_getElem? s1 d dir1 hdir1]; exact hidx1) rfl
              · show 0 ≤ m2 + 1
                omega
              · show ∀ v ∈ dir1._i_depend_on, index_of s1 v ≠ 0
                rw [hdeps1]; exact hall
              · show m2 + 1 = max_index s1 dir1._i_depend_on 0 + 1
                rw [hdeps1, hm]
            · intro u
              rw [computing_set s1 d u _ hd1lt]
              by_cases hu : u = d
              · subst hu; simp [hcd]
              · rw [if_neg hu, hK1.1 u, hK0c u hu]
            · intro u hu
              have hud : u ≠ d := by
                rintro rfl
                rw [index_of_getElem? s u dir hdir, hcd] at hu
                simp [h0] at hu
              rw [index_of_set s1 d u _ hd1lt, if_neg hud]
              rw [hK1.2 u (by rw [hK0i u, hK0c u hud]; exact hu), hK0i u]
            · rw [index_of_set s1 d d _ hd1lt]
              simp only [if_true]
              omega
    · exact ⟨true, s, by simp [compute_depends_index_rec, hdir, h0], hsk, fun _ =>
        ⟨hI, Kept.refl s, by rw [index_of_getElem? s d dir hdir]; exact h0⟩, by simp⟩
theorem fresh_indexed (dirs : List PPDirectory) (h : fresh dirs) :
    Indexed dirs ∧ (∀ u, computing dirs u = false) ∧ ∀ u, index_of dirs u = 0 := by
  refine ⟨?_, ?_, ?_⟩
  · intro u dir hu
    have := (h dir (List.getElem?_mem hu)).1
    exact ⟨by rw [this], fun hne => absurd this hne⟩
  · intro u
    unfold computing
    rcases hu : dirs[u]? with _ | dir
    · rfl
    · exact (h dir (List.getElem?_mem hu)).2
  · intro u
    unfold index_of
    rcases hu : dirs[u]? with _ | dir
    · rfl
    · exact (h dir (List.getElem?_mem hu)).1

theorem whites_le (n : Nat) (s : List PPDirectory) : whites n s ≤ n := by
  unfold whites
  have := Finset.card_filter_le (Finset.range n)
    (fun u => index_of s u = 0 ∧ computing s u = false)
  simpa using this

theorem compute_depends_index_fresh (dirs : List PPDirectory) (d : Nat)
    (hvalid : valid_dependencies dirs) (hfresh : fresh dirs) (hd : d < dirs.length) :
    ∃ b s2, compute_depends_index dirs d = .ok (b, s2) ∧ Computed dirs dirs d b s2 := by
  obtain ⟨hI, hc, _⟩ := fresh_indexed dirs hfresh
  exact compute_depends_index_rec_spec dirs hvalid (dirs.length + 1) dirs d rfl hd hI (hc d)
    (by have := whites_le dirs.length dirs; omega)
    (fun g hg => by rw [hc g] at hg; cases hg)

theorem Indexed.edge (s : List PPDirectory) (hI : Indexed s) (u v : Nat)
    (hu : index_of s u ≠ 0) (huv : depends_on s u v) :
    index_of s v ≠ 0 ∧ index_of s v < index_of s u := by
  obtain ⟨dir, hdir, hv⟩ := huv
  rw [index_of_getElem? s u dir hdir] at hu ⊢
  obtain ⟨_, c2, c3⟩ := (hI u dir hdir).2 hu
  refine ⟨c2 v hv, ?_⟩
  have := (max_index_ge s dir._i_depend_on 0).2 v hv
  omega

theorem Indexed.reach (s : List PPDirectory) (hI : Indexed s) (u v : Nat)
    (hu : index_of s u ≠ 0) (huv : Relation.TransGen (depends_on s) u v) :
    index_of s v ≠ 0 ∧ index_of s v < index_of s u := by
  induction huv with
  | single h => exact hI.edge s u _ hu h
  | tail _ hbc ih =>
    obtain ⟨h1, h2⟩ := hI.edge s _ _ ih.1 hbc
    exact ⟨h1, lt_trans h2 ih.2⟩

theorem Indexed.no_cycle (s : List PPDirectory) (hI : Indexed s) (d : Nat)
    (hd : index_of s d ≠ 0) : ¬ cycle_reachable s d := by
  rintro ⟨c, hdc, hcc⟩
  have hc : index_of s c ≠ 0 := by
    rcases Relation.reflTransGen_iff_eq_or_transGen.1 hdc with h | h
    · rw [h]; exact hd
    · exact (hI.reach s d c hd h).1
  exact lt_irrefl _ (hI.reach s c c hc hcc).2

theorem cycle_reachable_skeleton (s t : List PPDirectory) (h : skeleton s = skeleton t)
    (d : Nat) : cycle_reachable s d ↔ cycle_reachable t d := by
  have : depends_on s = depends_on t := by
    funext a b
    exact propext (depends_on_skeleton s t h a b)
  unfold cycle_reachable
  rw [this]

/-- C18: from a fresh state, on every graph of directories whose dependency
sets hold addresses of directories, `compute_depends_index` returns, and it
returns `false` exactly when a dependency cycle can be reached from the
directory it is called on. -/
theorem compute_depends_index_detects_cycles (dirs : List PPDirectory) (d : Nat)
    (hvalid : valid_dependencies dirs) (hfresh : fresh dirs) (hd : d < dirs.length) :
    ∃ b dirs2, compute_depends_index dirs d = .ok (b, dirs2) ∧
      (b = false ↔ cycle_reachable dirs d) := by
  obtain ⟨b, s2, h1, hsk, ht, hf⟩ := compute_depends_index_fresh dirs d hvalid hfresh hd
  refine ⟨b, s2, h1, hf, fun hcyc => ?_⟩
  cases b with
  | false => rfl
  | true =>
    obtain ⟨hI, _, hidx⟩ := ht rfl
    exact absurd ((cycle_reachable_skeleton s2 dirs hsk d).2 hcyc) (hI.no_cycle s2 d hidx)

theorem compute_depends_index_detects_cycles_witness :
    valid_dependencies circular_dirs ∧ fresh circular_dirs ∧
    (∃ dirs2, compute_depends_index circular_dirs 0 = .ok (false, dirs2) ∧
      index_of dirs2 0 = 0 ∧ index_of dirs2 1 = 0 ∧ index_of dirs2 2 = 0) ∧
    (∃ b dirs2, compute_depends_index circular_dirs 0 = .ok (b, dirs2) ∧
      (b = false ↔ cycle_reachable circular_dirs 0)) :=
  ⟨by decide, by decide, ⟨_, rfl, by decide, by decide, by decide⟩,
   compute_depends_index_detects_cycles circular_dirs 0 (by decide) (by decide) (by decide)⟩

theorem acyclic_of_ranked (dirs : List PPDirectory) (rank : Nat → Nat)
    (h : ranked dirs rank) : ∀ c, ¬ Relation.TransGen (depends_on dirs) c c := by
  have hedge : ∀ a b, depends_on dirs a b → rank b < rank a := by
    rintro a b ⟨dir, hdir, hb⟩
    exact h a (getElem?_lt dirs a dir hdir) dir hdir b hb
  have hreach : ∀ a b, Relation.TransGen (depends_on dirs) a b → rank b < rank a := by
    intro a b hab
    induction hab with
    | single h1 => exact hedge _ _ h1
    | tail _ h2 ih => exact lt_trans (hedge _ _ h2) ih
  intro c hc
  exact lt_irrefl _ (hreach c c hc)

theorem Indexed.chain_le (s : List PPDirectory) (hI : Indexed s) :
    ∀ (path : List Nat) (u : Nat), index_of s u ≠ 0 → List.Chain (depends_on s) u path →
      (path.length : Int) + 1 ≤ index_of s u := by
  intro path
  induction path with
  | nil =>
    intro u hu _
    unfold index_of at hu ⊢
    rcases hdir : s[u]? with _ | dir
    · simp [hdir] at hu
    · simp only [hdir] at hu ⊢
      obtain ⟨h1, _⟩ := hI u dir hdir
      simp only [List.length_nil, Nat.cast_zero, zero_add]
      omega
  | cons v rest ih =>
    intro u hu hchain
    obtain ⟨huv, hrest⟩ := List.chain_cons.1 hchain
    obtain ⟨h1, h2⟩ := hI.edge s u v hu huv
    have := ih v h1 hrest
    simp only [List.length_cons, Nat.cast_add, Nat.cast_one]
    omega

theorem Indexed.chain_attained (s : List PPDirectory) (hI : Indexed s) :
    ∀ (k : Nat) (u : Nat), index_of s u ≠ 0 → index_of s u ≤ k →
      ∃ path, List.Chain (depends_on s) u path ∧ (path.length : Int) + 1 = index_of s u := by
  intro k
  induction k with
  | zero =>
    intro u hu hk
    rcases hdir : s[u]? with _ | dir
    · simp [index_of, hdir] at hu
    · have := (hI u dir hdir).1
      rw [index_of_getElem? s u dir hdir] at hu hk
      omega
  | succ k ih =>
    intro u hu hk
    rcases hdir : s[u]? with _ | dir
    · simp [index_of, hdir] at hu
    · have hu2 := hu
      rw [index_of_getElem? s u dir hdir] at hu2
      obtain ⟨_, c2, c3⟩ := (hI u dir hdir).2 hu2
      rcases max_index_attained s dir._i_depend_on 0 with h0 | ⟨v, hv, hmax⟩
      · refine ⟨[], List.Chain.nil, ?_⟩
        rw [index_of_getElem? s u dir hdir, c3, h0]
        simp
      · have hv0 := c2 v hv
        have hlt : index_of s v ≤ k := by
          rw [index_of_getElem? s u dir hdir] at hk
          omega
        obtain ⟨path, hchain, hlen⟩ := ih v hv0 hlt
        refine ⟨v :: path, List.Chain.cons ⟨dir, hdir, hv⟩ hchain, ?_⟩
        rw [index_of_getElem? s u dir hdir, c3, hmax]
        simp only [List.length_cons, Nat.cast_add, Nat.cast_one]
        omega

/-- C17: from a fresh state, on an acyclic graph of directories,
`compute_depends_index` returns `true`, and every directory `u` that can be
reached from the one it is called on (that one included) then has an index:
1 when `u` depends on no directory, and in general one more than the maximum
of the indices of the directories `u` depends on, which is one more than the
number of edges of the longest chain of dependencies that leaves `u`.  A
second call returns `true` and leaves the state as it is. -/
theorem compute_depends_index_longest_chain (dirs : List PPDirectory) (d : Nat)
    (hvalid : valid_dependencies dirs) (hfresh : fresh dirs) (hd : d < dirs.length)
    (hacyclic : ∀ c, ¬ Relation.TransGen (depends_on dirs) c c) :
    ∃ dirs2, compute_depends_index dirs d = .ok (true, dirs2) ∧
      (∀ u, Relation.ReflTransGen (depends_on dirs) d u →
        ∃ dir, dirs2[u]? = some dir ∧
          (dir._i_depend_on = [] → dir._depends_index = 1) ∧
          dir._depends_index = max_index dirs2 dir._i_depend_on 0 + 1 ∧
          (∀ path, List.Chain (depends_on dirs) u path →
            (path.length : Int) + 1 ≤ dir._depends_index) ∧
          (∃ path, List.Chain (depends_on dirs) u path ∧
            (path.length : Int) + 1 = dir._depends_index)) ∧
      compute_depends_index dirs2 d = .ok (true, dirs2) := by
  obtain ⟨b, s2, h1, hsk, ht, hf⟩ := compute_depends_index_fresh dirs d hvalid hfresh hd
  cases b with
  | false =>
    obtain ⟨c, _, hc⟩ := hf rfl
    exact absurd hc (hacyclic c)
  | true =>
    obtain ⟨hI, _, hidx⟩ := ht rfl
    have hdep : depends_on s2 = depends_on dirs := by
      funext a b
      exact propext (depends_on_skeleton s2 dirs hsk a b)
    have hlen := skeleton_length s2 dirs hsk
    refine ⟨s2, h1, ?_, ?_⟩
    · intro u hu
      have hu0 : index_of s2 u ≠ 0 := by
        rcases Relation.reflTransGen_iff_eq_or_transGen.1 hu with h | h
        · rw [h]; exact hidx
        · exact (hI.reach s2 d u hidx (hdep ▸ h)).1
      rcases hdir : s2[u]? with _ | dir
      · simp [index_of, hdir] at hu0
      · have hu1 := hu0
        rw [index_of_getElem? s2 u dir hdir] at hu1
        obtain ⟨_, _, c3⟩ := (hI u dir hdir).2 hu1
        refine ⟨dir, rfl, ?_, c3, ?_, ?_⟩
        · intro he
          rw [c3, he]
          rfl
        · intro path hpath
          have := hI.chain_le s2 path u hu0 (hdep ▸ hpath)
          rwa [index_of_getElem? s2 u dir hdir] at this
        · obtain ⟨path, hp1, hp2⟩ :=
            hI.chain_attained s2 (index_of s2 u).toNat u hu0 (Int.self_le_toNat _)
          exact ⟨path, hdep ▸ hp1, by rwa [index_of_getElem? s2 u dir hdir] at hp2⟩
    · rcases hdir : s2[d]? with _ | dir
      · simp [index_of, hdir] at hidx
      · rw [index_of_getElem? s2 d dir hdir] at hidx
        simp [compute_depends_index, compute_depends_index_rec, hdir, hidx]

theorem compute_depends_index_longest_chain_witness :
    valid_dependencies layered_dirs ∧ fresh layered_dirs ∧
    (∃ dirs2, compute_depends_index layered_dirs 3 = .ok (true, dirs2) ∧
      index_of dirs2 0 = 0 ∧ index_of dirs2 1 = 2 ∧ index_of dirs2 2 = 1 ∧
      index_of dirs2 3 = 3) ∧
    (∃ dirs2, compute_depends_index layered_dirs 3 = .ok (true, dirs2) ∧
      (∀ u, Relation.ReflTransGen (depends_on layered_dirs) 3 u →
        ∃ dir, dirs2[u]? = some dir ∧
          (dir._i_depend_on = [] → dir._depends_index = 1) ∧
          dir._depends_index = max_index dirs2 dir._i_depend_on 0 + 1 ∧
          (∀ path, List.Chain (depends_on layered_dirs) u path →
            (path.length : Int) + 1 ≤ dir._depends_index) ∧
          (∃ path, List.Chain (depends_on layered_dirs) u path ∧
            (path.length : Int) + 1 = dir._depends_index)) ∧
      compute_depends_index dirs2 3 = .ok (true, dirs2)) :=
  ⟨by decide, by decide, ⟨_, rfl, by decide, by decide, by decide, by decide⟩,
   compute_depends_index_longest_chain layered_dirs 3 (by decide) (by decide) (by decide)
     (acyclic_of_ranked layered_dirs (fun a => [2, 1, 0, 3].getD a 0) (by decide))⟩

/-! ### C16: the order of directories -/

theorem str_lt_irrefl : ∀ a : Str, str_lt a a = false := by
  intro a
  induction a with
  | nil => rfl
  | cons c cs ih => simp [str_lt, ih]

theorem str_lt_trans : ∀ a b c : Str, str_lt a b = true → str_lt b c = true →
    str_lt a c = true := by
  intro a
  induction a with
  | nil =>
    intro b c hab hbc
    cases b with
    | nil => simp [str_lt] at hab
    | cons y ys =>
      cases c with
      | nil => simp [str_lt] at hbc
      | cons z zs => rfl
  | cons x xs ih =>
    intro b c hab hbc
    cases b with
    | nil => simp [str_lt] at hab
    | cons y ys =>
      cases c with
      | nil => simp [str_lt] at hbc
      | cons z zs =>
        simp only [str_lt, Bool.or_eq_true, decide_eq_true_eq, Bool.and_eq_true, beq_iff_eq]
          at hab hbc ⊢
        rcases hab with h1 | ⟨h1, h2⟩
        · rcases hbc with h3 | ⟨h3, _⟩
          · left; omega
          · left; rw [← h3]; exact h1
        · rcases hbc with h3 | ⟨h3, h4⟩
          · left; rw [h1]; exact h3
          · right; exact ⟨h1.trans h3, ih ys zs h2 h4⟩

theorem str_lt_total : ∀ a b : Str, str_lt a b = true ∨ a = b ∨ str_lt b a = true := by
  intro a
  induction a with
  | nil =>
    intro b
    cases b with
    | nil => right; left; rfl
    | cons y ys => left; rfl
  | cons x xs ih =>
    intro b
    cases b with
    | nil => right; right; rfl
    | cons y ys =>
      simp only [str_lt, Bool.or_eq_true, decide_eq_true_eq, Bool.and_eq_true, beq_iff_eq,
        List.cons.injEq]
      rcases Nat.lt_trichotomy x.toNat y.toNat with h | h | h
      · left; left; exact h
      · have hxy : x = y := Char.ext (UInt32.ext (by simpa [Char.toNat] using h))
        rcases ih ys with h2 | h2 | h2
        · left; right; exact ⟨hxy, h2⟩
        · right; left; exact ⟨hxy, h2⟩
        · right; right; right; exact ⟨hxy.symm, h2⟩
      · right; right; left; exact h

theorem str_lt_asymm (a b : Str) (h : str_lt a b = true) : str_lt b a = false := by
  rcases hb : str_lt b a with _ | _
  · rfl
  · have := str_lt_trans a b a h hb
    rw [str_lt_irrefl] at this
    cases this

theorem str_le_trans (a b c : Str) (h1 : str_lt b a = false) (h2 : str_lt c b = false) :
    str_lt c a = false := by
  rcases hca : str_lt c a with _ | _
  · rfl
  · exfalso
    rcases str_lt_total a b with h | h | h
    · have := str_lt_trans c a b hca h
      rw [h2] at this; cases this
    · subst h; rw [h2] at hca; cases hca
    · rw [h1] at h; cases h

theorem key_le_trans (k1 k2 k3 : Int × Str) (h1 : key_le k1 k2) (h2 : key_le k2 k3) :
    key_le k1 k3 := by
  unfold key_le at *
  rcases h1 with h1 | ⟨h1, n1⟩
  · rcases h2 with h2 | ⟨h2, _⟩
    · left; omega
    · left; omega
  · rcases h2 with h2 | ⟨h2, n2⟩
    · left; omega
    · right; exact ⟨h1.trans h2, str_le_trans _ _ _ n1 n2⟩

theorem key_le_antisymm (k1 k2 : Int × Str) (h1 : key_le k1 k2) (h2 : key_le k2 k1) :
    k1 = k2 := by
  unfold key_le at *
  rcases h1 with h1 | ⟨h1, n1⟩
  · rcases h2 with h2 | ⟨h2, _⟩ <;> omega
  · rcases h2 with h2 | ⟨_, n2⟩
    · omega
    · rcases str_lt_total k1.2 k2.2 with h | h | h
      · rw [n2] at h; cases h
      · exact Prod.ext h1 h
      · rw [n1] at h; cases h

theorem key_of_getElem? (w : World) (a : Nat) (da : PPDirectory) (ha : w.dirs[a]? = some da) :
    key_of w a = (da._depends_index, da._dirname) := by
  simp [key_of, index_of, dirname_of, ha]

theorem directories_lt_false_iff (w : World) (a b : Nat) (ha : a < w.dirs.length)
    (hb : b < w.dirs.length) :
    directories_lt w b a = false ↔ dependency_order w a b := by
  have ha2 : w.dirs[a]? = some w.dirs[a] := List.getElem?_eq_getElem ha
  have hb2 : w.dirs[b]? = some w.dirs[b] := List.getElem?_eq_getElem hb
  unfold dependency_order key_le
  rw [key_of_getElem? w a _ ha2, key_of_getElem? w b _ hb2]
  simp only [directories_lt, ha2, hb2, sort_directories_lt]
  by_cases hne : w.dirs[b]._depends_index = w.dirs[a]._depends_index
  · simp [hne]
  · have hne2 : ¬ w.dirs[a]._depends_index = w.dirs[b]._depends_index := fun h => hne h.symm
    simp only [ne_eq, hne, not_false_eq_true, if_true, decide_eq_false_iff_not, hne2,
      false_and, or_false]
    omega

theorem std_sort_insert_perm {α : Type} (lt : α → α → Bool) (x : α) :
    ∀ l : List α, (std_sort_insert lt x l).Perm (x :: l) := by
  intro l
  induction l with
  | nil => exact List.Perm.refl _
  | cons y ys ih =>
    simp only [std_sort_insert]
    split
    · exact List.Perm.refl _
    · exact (List.Perm.cons y ih).trans (List.Perm.swap x y ys)

theorem std_sort_perm {α : Type} (lt : α → α → Bool) :
    ∀ l : List α, (std_sort lt l).Perm l := by
  intro l
  induction l with
  | nil => exact List.Perm.refl _
  | cons x xs ih =>
    exact (std_sort_insert_perm lt x _).trans (List.Perm.cons x ih)

theorem std_sort_insert_sorted {α : Type} (lt : α → α → Bool) (le : α → α → Prop)
    (P : α → Prop) (hle : ∀ a b, P a → P b → (lt b a = false ↔ le a b))
    (htotal : ∀ a b, P a → P b → lt a b = true → le a b)
    (htrans : ∀ a b c, P a → P b → P c → le a b → le b c → le a c) (x : α) (hx : P x) :
    ∀ l : List α, (∀ y ∈ l, P y) → l.Pairwise le → (std_sort_insert lt x l).Pairwise le := by
  intro l
  induction l with
  | nil => intro _ _; simp [std_sort_insert]
  | cons y ys ih =>
    intro hP hs
    have hy : P y := hP y (by simp)
    have hys : ∀ z ∈ ys, P z := fun z hz => hP z (by simp [hz])
    obtain ⟨h1, h2⟩ := List.pairwise_cons.1 hs
    simp only [std_sort_insert]
    split
    · rename_i hlt
      have hxy : le x y := htotal x y hx hy hlt
      refine List.pairwise_cons.2 ⟨?_, hs⟩
      intro z hz
      rcases List.mem_cons.1 hz with rfl | hz
      · exact hxy
      · exact htrans x y z hx hy (hys z hz) hxy (h1 z hz)
    · rename_i hlt
      have hyx : le y x := (hle y x hy hx).1 (by simpa using hlt)
      refine List.pairwise_cons.2 ⟨?_, ih hys h2⟩
      intro z hz
      rcases List.mem_cons.1 ((std_sort_insert_perm lt x ys).subset hz) with rfl | hz
      · exact hyx
      · exact h1 z hz

theorem std_sort_sorted {α : Type} (lt : α → α → Bool) (le : α → α → Prop)
    (P : α → Prop) (hle : ∀ a b, P a → P b → (lt b a = false ↔ le a b))
    (htotal : ∀ a b, P a → P b → lt a b = true → le a b)
    (htrans : ∀ a b c, P a → P b → P c → le a b → le b c → le a c) :
    ∀ l : List α, (∀ y ∈ l, P y) → (std_sort lt l).Pairwise le := by
  intro l
  induction l with
  | nil => intro _; simp [std_sort]
  | cons x xs ih =>
    intro hP
    have hxs : ∀ y ∈ xs, P y := fun y hy => hP y (by simp [hy])
    exact std_sort_insert_sorted lt le P hle htotal htrans x (hP x (by simp)) _
      (fun y hy => hxs y ((std_sort_perm lt xs).subset hy)) (ih hxs)

theorem directories_lt_le (w : World) (a b : Nat) (ha : a < w.dirs.length)
    (hb : b < w.dirs.length) (h : directories_lt w a b = true) : dependency_order w a b := by
  rw [← directories_lt_false_iff w a b ha hb]
  have ha2 : w.dirs[a]? = some w.dirs[a] := List.getElem?_eq_getElem ha
  have hb2 : w.dirs[b]? = some w.dirs[b] := List.getElem?_eq_getElem hb
  simp only [directories_lt, ha2, hb2, sort_directories_lt] at h ⊢
  by_cases hne : w.dirs[a]._depends_index = w.dirs[b]._depends_index
  · simp only [hne, ne_eq, not_true_eq_false, if_false] at h ⊢
    exact str_lt_asymm _ _ h
  · have hne2 : ¬ w.dirs[b]._depends_index = w.dirs[a]._depends_index := fun h => hne h.symm
    simp only [ne_eq, hne, not_false_eq_true, if_true, decide_eq_true_eq, hne2,
      decide_eq_false_iff_not] at h ⊢
    omega

theorem sorted_children_sorted (w : World) (children : List Nat)
    (hvalid : ∀ c ∈ children, c < w.dirs.length) :
    (std_sort (directories_lt w) children).Pairwise (dependency_order w) :=
  std_sort_sorted (directories_lt w) (dependency_order w) (fun a => a < w.dirs.length)
    (fun a b ha hb => directories_lt_false_iff w a b ha hb)
    (fun a b ha hb h => directories_lt_le w a b ha hb h)
    (fun _ _ _ _ _ _ h1 h2 => key_le_trans _ _ _ h1 h2) children hvalid

theorem sorted_keys_unique (w : World) (l1 l2 : List Nat) (hp : l1.Perm l2)
    (h1 : l1.Pairwise (dependency_order w)) (h2 : l2.Pairwise (dependency_order w)) :
    l1.map (key_of w) = l2.map (key_of w) := by
  have : IsAntisymm (Int × Str) key_le := ⟨key_le_antisymm⟩
  apply List.eq_of_perm_of_sorted (r := key_le) (hp.map _)
  · exact List.pairwise_map.2 h1
  · exact List.pairwise_map.2 h2

theorem dirnames_of_valid (w : World) :
    ∀ l : List Nat, (∀ c ∈ l, c < w.dirs.length) →
      dirnames_of w l = some (l.map (dirname_of w)) := by
  intro l
  induction l with
  | nil => intro _; rfl
  | cons c cs ih =>
    intro h
    have hlt : c < w.dirs.length := h c (by simp)
    have hc : w.dirs[c]? = some w.dirs[c] := List.getElem?_eq_getElem hlt
    have := ih (fun x hx => h x (by simp [hx]))
    simp [dirnames_of, hc, this, dirname_of]

theorem erase_marks_children (a b : PPDirectory) (h : erase_marks b = erase_marks a) :
    b._children = a._children := by
  have := congrArg PPDirectory._children h
  simpa [erase_marks] using this

theorem subdirectory_skeleton (s t : List PPDirectory) (h : skeleton s = skeleton t)
    (a b : Nat) : subdirectory s a b ↔ subdirectory t a b := by
  constructor
  · rintro ⟨dir, hdir, hb⟩
    obtain ⟨dir2, h2, he⟩ := skeleton_getElem? s t h a dir hdir
    exact ⟨dir2, h2, by rw [erase_marks_children _ _ he]; exact hb⟩
  · rintro ⟨dir, hdir, hb⟩
    obtain ⟨dir2, h2, he⟩ := skeleton_getElem? t s h.symm a dir hdir
    exact ⟨dir2, h2, by rw [erase_marks_children _ _ he]; exact hb⟩

theorem define_variable_dirs (w : World) (sid : Nat) (v t : Str) (w2 : World)
    (h : define_variable w sid v t = .ok w2) : w2.dirs = w.dirs := by
  unfold define_variable at h
  split at h
  · cases h
  · cases h; rfl

theorem resolve_dependencies_loop_spec (dirs0 : List PPDirectory)
    (R : World → Nat → Except Fault (Bool × World))
    (ih : ∀ w d w2, R w d = .ok (true, w2) → Settled dirs0 w →
      Settled dirs0 w2 ∧ (∀ u, index_of w.dirs u ≠ 0 → index_of w2.dirs u = index_of w.dirs u) ∧
        ∀ A, Relation.ReflTransGen (subdirectory dirs0) d A → index_of w2.dirs A ≠ 0) :
    ∀ (l : List Nat) (w w2 : World), resolve_dependencies_loop R w l = .ok (true, w2) →
      Settled dirs0 w →
      Settled dirs0 w2 ∧ (∀ u, index_of w.dirs u ≠ 0 → index_of w2.dirs u = index_of w.dirs u) ∧
        ∀ c ∈ l, ∀ A, Relation.ReflTransGen (subdirectory dirs0) c A →
          index_of w2.dirs A ≠ 0 := by
  intro l
  induction l with
  | nil =>
    intro w w2 h hS
    simp only [resolve_dependencies_loop, Except.ok.injEq, Prod.mk.injEq, true_and] at h
    subst h
    exact ⟨hS, fun _ _ => rfl, by simp⟩
  | cons c rest ihl =>
    intro w w2 h hS
    simp only [resolve_dependencies_loop] at h
    rcases hR : R w c with e | ⟨b, w1⟩
    · rw [hR] at h; cases h
    · rw [hR] at h
      cases b with
      | false => cases h
      | true =>
        simp only at h
        obtain ⟨hS1, hk1, hb1⟩ := ih w c w1 hR hS
        obtain ⟨hS2, hk2, hb2⟩ := ihl w1 w2 h hS1
        refine ⟨hS2, ?_, ?_⟩
        · intro u hu
          rw [hk2 u (by rw [hk1 u hu]; exact hu), hk1 u hu]
        · intro x hx A hA
          rcases List.mem_cons.1 hx with rfl | hx
          · have := hb1 A hA
            rw [hk2 A this]; exact this
          · exact hb2 x hx A hA

theorem resolve_dependencies_spec (dirs0 : List PPDirectory)
    (hvalid : valid_dependencies dirs0) :
    ∀ (fuel : Nat) (w : World) (d : Nat) (w2 : World),
      resolve_dependencies fuel w d = .ok (true, w2) → Settled dirs0 w →
      Settled dirs0 w2 ∧ (∀ u, index_of w.dirs u ≠ 0 → index_of w2.dirs u = index_of w.dirs u) ∧
        ∀ A, Relation.ReflTransGen (subdirectory dirs0) d A → index_of w2.dirs A ≠ 0 := by
  intro fuel
  induction fuel with
  | zero => intro w d w2 h; cases h
  | succ fuel ih =>
    intro w d w2 h hS
    obtain ⟨hsk, hI, hc⟩ := hS
    have hlen := skeleton_length w.dirs dirs0 hsk
    simp only [resolve_dependencies] at h
    by_cases hd : d < dirs0.length
    · obtain ⟨b, s1, hcomp, hsk1, ht, _⟩ :=
        compute_depends_index_rec_spec dirs0 hvalid (w.dirs.length + 1) w.dirs d hsk hd hI
          (hc d) (by have := whites_le dirs0.length w.dirs; omega)
          (fun g hg => by rw [hc g] at hg; cases hg)
      have hcomp2 : compute_depends_index w.dirs d = .ok (b, s1) := hcomp
      rw [hcomp2] at h
      cases b with
      | false => cases h
      | true =>
        simp only at h
        obtain ⟨hI1, hK1, hidx1⟩ := ht rfl
        have hlen1 := skeleton_length s1 dirs0 hsk1
        obtain ⟨dir, hdir⟩ : ∃ dir, s1[d]? = some dir :=
          ⟨s1[d], List.getElem?_eq_getElem (by omega)⟩
        rw [hdir] at h
        simp only at h
        have hS1 : Settled dirs0 { w with dirs := s1 } :=
          ⟨hsk1, hI1, fun u => by rw [hK1.1 u]; exact hc u⟩
        rcases hloop : resolve_dependencies_loop (resolve_dependencies fuel)
            { w with dirs := s1 } dir._children with e | ⟨b2, w3⟩
        · rw [hloop] at h; cases h
        · rw [hloop] at h
          cases b2 with
          | false => cases h
          | true =>
            simp only at h
            obtain ⟨hS3, hk3, hb3⟩ :=
              resolve_dependencies_loop_spec dirs0 (resolve_dependencies fuel)
                (fun w d w2 h1 h2 => ih w d w2 h1 h2) dir._children _ w3 hloop hS1
            have hdirs : w2.dirs = w3.dirs := by
              split at h
              · cases h
              · split at h
                · cases h; rfl
                · split at h
                  · cases h
                  · split at h
                    · cases h
                    · rename_i wa hwa
                      split at h
                      · cases h
                      · split at h
                        · cases h
                        · rename_i wb hwb
                          cases h
                          rw [define_variable_dirs _ _ _ _ _ hwb,
                            define_variable_dirs _ _ _ _ _ hwa]
            have hS2 : Settled dirs0 w2 := by
              unfold Settled
              rw [hdirs]
              exact hS3
            refine ⟨hS2, ?_, ?_⟩
            · intro u hu
              rw [hdirs]
              have e1 : index_of s1 u = index_of w.dirs u := hK1.2 u (Or.inl hu)
              have := hk3 u (by show index_of s1 u ≠ 0; rw [e1]; exact hu)
              rw [this]
              exact e1
            · intro A hA
              rw [hdirs]
              rcases Relation.ReflTransGen.cases_head hA with rfl | ⟨c, hdc, hcA⟩
              · have := hk3 d hidx1
                rw [this]; exact hidx1
              · obtain ⟨dir0, hdir0, hc0⟩ := hdc
                obtain ⟨dir2, hdir2, he⟩ :=
                  skeleton_getElem? dirs0 s1 hsk1.symm d dir0 hdir0
                rw [hdir] at hdir2
                cases hdir2
                exact hb3 c (by rw [erase_marks_children _ _ he]; exact hc0) A hcA
    · have : w.dirs[d]? = none := List.getElem?_eq_none (by omega)
      simp [compute_depends_index, compute_depends_index_rec, this] at h

theorem occurs_before {α : Type} (le : α → α → Prop) (A B : α) (hAB : ¬ le A B)
    (hne : B ≠ A) :
    ∀ l : List α, l.Pairwise le → A ∈ l → B ∈ l →
      ∃ l1 l2 l3, l = l1 ++ B :: (l2 ++ A :: l3) := by
  intro l hs hA hB
  obtain ⟨p, q, rfl⟩ := List.append_of_mem hA
  have hpw := List.pairwise_append.1 hs
  rcases List.mem_append.1 hB with h | h
  · obtain ⟨l1, l2, rfl⟩ := List.append_of_mem h
    exact ⟨l1, l2, q, by simp⟩
  · rcases List.mem_cons.1 h with h | h
    · exact absurd h hne
    · exact absurd ((List.pairwise_cons.1 hpw.2.1).1 B h) hAB

theorem lookup_map_insert_self (varname definition : Str) :
    ∀ l : List (Str × Str), (map_insert varname definition l).lookup varname =
      some definition := by
  intro l
  induction l with
  | nil => simp [map_insert, List.lookup]
  | cons kv rest ih =>
    obtain ⟨k, v⟩ := kv
    by_cases hk : k = varname
    · subst hk
      simp [map_insert, List.lookup]
    · have hk2 : (varname == k) = false := by simpa using Ne.symm hk
      simp [map_insert, hk, List.lookup, hk2, ih]

theorem lookup_map_insert_other (varname definition n : Str) (hn : n ≠ varname) :
    ∀ l : List (Str × Str), (map_insert varname definition l).lookup n = l.lookup n := by
  intro l
  induction l with
  | nil =>
    have : (n == varname) = false := by simpa using hn
    simp [map_insert, List.lookup, this]
  | cons kv rest ih =>
    obtain ⟨k, v⟩ := kv
    by_cases hk : k = varname
    · subst hk
      have : (n == k) = false := by simpa using hn
      simp [map_insert, List.lookup, this]
    · simp only [map_insert, hk, if_false, List.lookup, ih]

theorem local_binding_define_self (w : World) (sid : Nat) (v t : Str) (w2 : World)
    (h : define_variable w sid v t = .ok w2) : local_binding w2 v sid = some t := by
  unfold define_variable at h
  cases hsc : w.scopes[sid]? with
  | none => simp [hsc] at h
  | some sc =>
    have hlt : sid < w.scopes.length := by
      rcases Nat.lt_or_ge sid w.scopes.length with h1 | h1
      · exact h1
      · simp [List.getElem?_eq_none h1] at hsc
    simp only [hsc, Except.ok.injEq] at h
    subst h
    simp [local_binding, World.put_scope, List.getElem?_set, hlt, lookup_map_insert_self]

theorem local_binding_define_other (w : World) (sid : Nat) (v t : Str) (w2 : World)
    (h : define_variable w sid v t = .ok w2) (s : Nat) (n : Str) (hne : s ≠ sid ∨ n ≠ v) :
    local_binding w2 n s = local_binding w n s := by
  unfold define_variable at h
  cases hsc : w.scopes[sid]? with
  | none => simp [hsc] at h
  | some sc =>
    have hlt : sid < w.scopes.length := by
      rcases Nat.lt_or_ge sid w.scopes.length with h1 | h1
      · exact h1
      · simp [List.getElem?_eq_none h1] at hsc
    simp only [hsc, Except.ok.injEq] at h
    subst h
    by_cases hs : s = sid
    · subst hs
      have hn : n ≠ v := by
        rcases hne with h1 | h1
        · exact absurd rfl h1
        · exact h1
      simp [local_binding, World.put_scope, List.getElem?_set, hlt, hsc,
        lookup_map_insert_other v t n hn]
    · have hs2 : ¬ sid = s := fun e => hs e.symm
      simp [local_binding, World.put_scope, List.getElem?_set, hs2]

theorem erase_marks_dirname (a b : PPDirectory) (h : erase_marks b = erase_marks a) :
    b._dirname = a._dirname := by
  have := congrArg PPDirectory._dirname h
  simpa [erase_marks] using this

theorem erase_marks_scope (a b : PPDirectory) (h : erase_marks b = erase_marks a) :
    b._scope = a._scope := by
  have := congrArg PPDirectory._scope h
  simpa [erase_marks] using this

theorem skeleton_getElem?_none (s t : List PPDirectory) (h : skeleton s = skeleton t) (u : Nat)
    (hu : s[u]? = none) : t[u]? = none := by
  have hl := skeleton_length s t h
  rw [List.getElem?_eq_none_iff] at hu ⊢
  omega

theorem directories_lt_congr (w w2 : World) (hsk : skeleton w2.dirs = skeleton w.dirs)
    (a b : Nat) (ha : index_of w2.dirs a = index_of w.dirs a)
    (hb : index_of w2.dirs b = index_of w.dirs b) :
    directories_lt w2 a b = directories_lt w a b := by
  unfold directories_lt
  cases h1 : w.dirs[a]? with
  | none => simp [skeleton_getElem?_none _ _ hsk.symm a h1]
  | some da =>
    obtain ⟨da2, h12, he1⟩ := skeleton_getElem? _ _ hsk.symm a da h1
    cases h2 : w.dirs[b]? with
    | none => simp [skeleton_getElem?_none _ _ hsk.symm b h2]
    | some db =>
      obtain ⟨db2, h22, he2⟩ := skeleton_getElem? _ _ hsk.symm b db h2
      rw [index_of_getElem? _ _ _ h12, index_of_getElem? _ _ _ h1] at ha
      rw [index_of_getElem? _ _ _ h22, index_of_getElem? _ _ _ h2] at hb
      simp only [h12, h22, sort_directories_lt, ha, hb, erase_marks_dirname _ _ he1,
        erase_marks_dirname _ _ he2]

theorem dirnames_of_congr (w w2 : World) (hsk : skeleton w2.dirs = skeleton w.dirs) :
    ∀ l : List Nat, dirnames_of w2 l = dirnames_of w l := by
  intro l
  induction l with
  | nil => rfl
  | cons c cs ih =>
    cases h1 : w.dirs[c]? with
    | none => simp [dirnames_of, h1, skeleton_getElem?_none _ _ hsk.symm c h1]
    | some dc =>
      obtain ⟨dc2, h12, he1⟩ := skeleton_getElem? _ _ hsk.symm c dc h1
      simp only [dirnames_of, h1, h12, ih]
      cases dirnames_of w cs with
      | none => rfl
      | some names => simp only [erase_marks_dirname _ _ he1]

theorem std_sort_insert_congr {α : Type} (lt lt2 : α → α → Bool) (x : α) :
    ∀ ys : List α, (∀ y ∈ ys, lt x y = lt2 x y) →
      std_sort_insert lt x ys = std_sort_insert lt2 x ys := by
  intro ys
  induction ys with
  | nil => intro _; rfl
  | cons y ys ih =>
    intro h
    simp only [std_sort_insert, h y (by simp), ih (fun z hz => h z (by simp [hz]))]

theorem std_sort_congr {α : Type} (lt lt2 : α → α → Bool) :
    ∀ l : List α, (∀ a ∈ l, ∀ b ∈ l, lt a b = lt2 a b) → std_sort lt l = std_sort lt2 l := by
  intro l
  induction l with
  | nil => intro _; rfl
  | cons a l ih =>
    intro h
    have h1 := ih (fun x hx y hy => h x (by simp [hx]) y (by simp [hy]))
    have hstep : std_sort lt (a :: l) = std_sort_insert lt a (std_sort lt l) := rfl
    have hstep2 : std_sort lt2 (a :: l) = std_sort_insert lt2 a (std_sort lt2 l) := rfl
    rw [hstep, hstep2, h1]
    exact std_sort_insert_congr lt lt2 a _
      (fun y hy => h a (by simp) y (by simp [(std_sort_perm lt2 l).subset hy]))

theorem get_child_dirnames_congr (w w2 : World) (A : Nat)
    (hsk : skeleton w2.dirs = skeleton w.dirs)
    (hidx : ∀ dir, w.dirs[A]? = some dir → ∀ c ∈ dir._children,
      index_of w2.dirs c = index_of w.dirs c) :
    get_child_dirnames w2 A = get_child_dirnames w A := by
  unfold get_child_dirnames
  cases h1 : w.dirs[A]? with
  | none => simp [skeleton_getElem?_none _ _ hsk.symm A h1]
  | some dir =>
    obtain ⟨dir2, h12, he⟩ := skeleton_getElem? _ _ hsk.symm A dir h1
    have hch := erase_marks_children _ _ he
    have hsort : sorted_children w2 dir2 = sorted_children w dir := by
      unfold sorted_children
      rw [hch]
      exact std_sort_congr _ _ _ (fun a ha b hb =>
        directories_lt_congr w w2 hsk a b (hidx dir h1 a ha) (hidx dir h1 b hb))
    simp only [h12, hsort, dirnames_of_congr w w2 hsk]

theorem SubdirsListed.dirs_step (w w2 : World) (A : Nat) (hsc : w2.scopes = w.scopes)
    (hsk : skeleton w2.dirs = skeleton w.dirs)
    (hk : ∀ u, index_of w.dirs u ≠ 0 → index_of w2.dirs u = index_of w.dirs u)
    (h : SubdirsListed w A) : SubdirsListed w2 A := by
  have hidx : ∀ dir, w.dirs[A]? = some dir → ∀ c ∈ dir._children,
      index_of w2.dirs c = index_of w.dirs c := fun dir hdir c hc => hk c (h.1 dir hdir c hc)
  refine ⟨?_, ?_⟩
  · intro dir2 hdir2 c hc
    obtain ⟨dir, hdir, he⟩ := skeleton_getElem? _ _ hsk A dir2 hdir2
    have hc2 : c ∈ dir._children := by rw [erase_marks_children _ _ he]; exact hc
    rw [hidx dir hdir c hc2]
    exact h.1 dir hdir c hc2
  · intro dir2 sc hdir2 hscope
    obtain ⟨dir, hdir, he⟩ := skeleton_getElem? _ _ hsk A dir2 hdir2
    obtain ⟨names, hn1, hn2⟩ := h.2 dir sc hdir (by rw [erase_marks_scope _ _ he]; exact hscope)
    refine ⟨names, ?_, ?_⟩
    · rw [get_child_dirnames_congr w w2 A hsk hidx]; exact hn1
    · simpa [local_binding, hsc] using hn2

theorem SubdirsListed.define_step (w w2 : World) (A sid : Nat) (v t : Str)
    (hdef : define_variable w sid v t = .ok w2)
    (hne : ∀ dir sc, w.dirs[A]? = some dir → dir._scope = some sc →
      sc ≠ sid ∨ "SUBDIRS".toList ≠ v)
    (h : SubdirsListed w A) : SubdirsListed w2 A := by
  have hd := define_variable_dirs w sid v t w2 hdef
  refine ⟨?_, ?_⟩
  · intro dir hdir c hc
    rw [hd] at hdir ⊢
    exact h.1 dir hdir c hc
  · intro dir sc hdir hscope
    rw [hd] at hdir
    obtain ⟨names, hn1, hn2⟩ := h.2 dir sc hdir hscope
    refine ⟨names, ?_, ?_⟩
    · rw [get_child_dirnames_congr w w2 A (by rw [hd]) (fun _ _ _ _ => by rw [hd])]
      exact hn1
    · rw [local_binding_define_other w sid v t w2 hdef sc _ (hne dir sc hdir hscope)]
      exact hn2

theorem resolve_dependencies_loop_lists (dirs0 : List PPDirectory)
    (R : World → Nat → Except Fault (Bool × World))
    (ihS : ∀ w d w2, R w d = .ok (true, w2) → Settled dirs0 w → Settled dirs0 w2)
    (ihL : ∀ w d w2, R w d = .ok (true, w2) → Settled dirs0 w →
      (∀ A, SubdirsListed w A → SubdirsListed w2 A) ∧
        ∀ A, Relation.ReflTransGen (subdirectory dirs0) d A → SubdirsListed w2 A) :
    ∀ (l : List Nat) (w w2 : World), resolve_dependencies_loop R w l = .ok (true, w2) →
      Settled dirs0 w →
      (∀ A, SubdirsListed w A → SubdirsListed w2 A) ∧
        ∀ c ∈ l, ∀ A, Relation.ReflTransGen (subdirectory dirs0) c A →
          SubdirsListed w2 A := by
  intro l
  induction l with
  | nil =>
    intro w w2 h _
    simp only [resolve_dependencies_loop, Except.ok.injEq, Prod.mk.injEq, true_and] at h
    subst h
    exact ⟨fun _ hA => hA, by simp⟩
  | cons c rest ihl =>
    intro w w2 h hS
    simp only [resolve_dependencies_loop] at h
    rcases hR : R w c with e | ⟨b, w1⟩
    · rw [hR] at h; cases h
    · rw [hR] at h
      cases b with
      | false => cases h
      | true =>
        simp only at h
        obtain ⟨hp1, hb1⟩ := ihL w c w1 hR hS
        obtain ⟨hp2, hb2⟩ := ihl w1 w2 h (ihS w c w1 hR hS)
        refine ⟨fun A hA => hp2 A (hp1 A hA), ?_⟩
        intro x hx A hA
        rcases List.mem_cons.1 hx with rfl | hx
        · exact hp2 A (hb1 A hA)
        · exact hb2 x hx A hA

theorem resolve_dependencies_lists (dirs0 : List PPDirectory)
    (hvalid : valid_dependencies dirs0) (hdist : distinct_scopes dirs0) :
    ∀ (fuel : Nat) (w : World) (d : Nat) (w2 : World),
      resolve_dependencies fuel w d = .ok (true, w2) → Settled dirs0 w →
      (∀ A, SubdirsListed w A → SubdirsListed w2 A) ∧
        ∀ A, Relation.ReflTransGen (subdirectory dirs0) d A → SubdirsListed w2 A := by
  intro fuel
  induction fuel with
  | zero => intro w d w2 h; cases h
  | succ fuel ih =>
    intro w d w2 h hS
    obtain ⟨hsk, hI, hc⟩ := hS
    have hlen := skeleton_length w.dirs dirs0 hsk
    simp only [resolve_dependencies] at h
    by_cases hd : d < dirs0.length
    · obtain ⟨b, s1, hcomp, hsk1, ht, _⟩ :=
        compute_depends_index_rec_spec dirs0 hvalid (w.dirs.length + 1) w.dirs d hsk hd hI
          (hc d) (by have := whites_le dirs0.length w.dirs; omega)
          (fun g hg => by rw [hc g] at hg; cases hg)
      have hcomp2 : compute_depends_index w.dirs d = .ok (b, s1) := hcomp
      rw [hcomp2] at h
      cases b with
      | false => cases h
      | true =>
        simp only at h
        obtain ⟨hI1, hK1, hidx1⟩ := ht rfl
        have hlen1 := skeleton_length s1 dirs0 hsk1
        obtain ⟨dir, hdir⟩ : ∃ dir, s1[d]? = some dir :=
          ⟨s1[d], List.getElem?_eq_getElem (by omega)⟩
        rw [hdir] at h
        simp only at h
        have hS1 : Settled dirs0 { w with dirs := s1 } :=
          ⟨hsk1, hI1, fun u => by rw [hK1.1 u]; exact hc u⟩
        have hstep1 : ∀ A, SubdirsListed w A → SubdirsListed { w with dirs := s1 } A :=
          fun A hA => SubdirsListed.dirs_step w { w with dirs := s1 } A rfl
            (hsk1.trans hsk.symm) (fun u hu => hK1.2 u (Or.inl hu)) hA
        rcases hloop : resolve_dependencies_loop (resolve_dependencies fuel)
            { w with dirs := s1 } dir._children with e | ⟨b2, w3⟩
        · rw [hloop] at h; cases h
        · rw [hloop] at h
          cases b2 with
          | false => cases h
          | true =>
            simp only at h
            obtain ⟨hS3, hk3, hb3⟩ :=
              resolve_dependencies_loop_spec dirs0 (resolve_dependencies fuel)
                (fun w d w2 h1 h2 => resolve_dependencies_spec dirs0 hvalid fuel w d w2 h1 h2)
                dir._children _ w3 hloop hS1
            obtain ⟨hp3, hl3⟩ :=
              resolve_dependencies_loop_lists dirs0 (resolve_dependencies fuel)
                (fun w d w2 h1 h2 =>
                  (resolve_dependencies_spec dirs0 hvalid fuel w d w2 h1 h2).1)
                (fun w d w2 h1 h2 => ih w d w2 h1 h2) dir._children _ w3 hloop hS1
            have hlen3 := skeleton_length w3.dirs dirs0 hS3.1
            obtain ⟨dir3, hdir3⟩ : ∃ dir3, w3.dirs[d]? = some dir3 :=
              ⟨w3.dirs[d], List.getElem?_eq_getElem (by omega)⟩
            have hch3 : dir3._children = dir._children := by
              obtain ⟨x, hx, he⟩ := skeleton_getElem? _ _ (hS3.1.trans hsk1.symm) d dir3 hdir3
              rw [hdir] at hx
              cases hx
              exact (erase_marks_children _ _ he).symm
            have hkids : ∀ c ∈ dir3._children, index_of w3.dirs c ≠ 0 := by
              intro c hc
              rw [hch3] at hc
              exact hb3 c hc c Relation.ReflTransGen.refl
            -- the directory itself, and the directories listed before
            have hfinal : SubdirsListed w2 d ∧ ∀ A, SubdirsListed w3 A → SubdirsListed w2 A := by
              rw [hdir3] at h
              simp only at h
              cases hscope : dir3._scope with
              | none =>
                rw [hscope] at h
                simp only [Except.ok.injEq, Prod.mk.injEq, true_and] at h
                subst h
                refine ⟨⟨?_, ?_⟩, fun A hA => hA⟩
                · intro x hx c hc
                  rw [hdir3] at hx; cases hx
                  exact hkids c hc
                · intro x sc hx hxs
                  rw [hdir3] at hx; cases hx
                  rw [hscope] at hxs; cases hxs
              | some scope =>
                rw [hscope] at h
                simp only at h
                rcases hnames : get_child_dirnames w3 d with e | subdirs
                · rw [hnames] at h; cases h
                · rw [hnames] at h
                  simp only at h
                  rcases hwa : define_variable w3 scope "SUBDIRS".toList subdirs with e | wa
                  · rw [hwa] at h; cases h
                  · rw [hwa] at h
                    simp only at h
                    rcases hsub : get_complete_subtree wa (wa.dirs.length + 1) d with
                      e | subtree
                    · rw [hsub] at h; cases h
                    · rw [hsub] at h
                      simp only at h
                      rcases hwb : define_variable wa scope "SUBTREE".toList subtree with
                        e | wb
                      · rw [hwb] at h; cases h
                      · rw [hwb] at h
                        simp only [Except.ok.injEq, Prod.mk.injEq, true_and] at h
                        subst h
                        have hda := define_variable_dirs _ _ _ _ _ hwa
                        have hdb := define_variable_dirs _ _ _ _ _ hwb
                        have hself : SubdirsListed wa d := by
                          refine ⟨?_, ?_⟩
                          · intro x hx c hc
                            rw [hda] at hx ⊢
                            rw [hdir3] at hx; cases hx
                            exact hkids c hc
                          · intro x sc hx hxs
                            rw [hda, hdir3] at hx; cases hx
                            rw [hscope] at hxs; cases hxs
                            refine ⟨subdirs, ?_, local_binding_define_self _ _ _ _ _ hwa⟩
                            rw [get_child_dirnames_congr w3 wa d (by rw [hda])
                              (fun _ _ _ _ => by rw [hda])]
                            exact hnames
                        have hsecond : ∀ A, SubdirsListed wa A → SubdirsListed wb A :=
                          fun A hA => SubdirsListed.define_step wa wb A scope _ _ hwb
                            (fun _ _ _ _ => Or.inr (by decide)) hA
                        refine ⟨hsecond d hself, ?_⟩
                        intro A hA
                        by_cases hAd : A = d
                        · subst hAd
                          exact hsecond A hself
                        · apply hsecond A
                          apply SubdirsListed.define_step w3 wa A scope _ _ hwa ?_ hA
                          intro x sc hx hxs
                          refine Or.inl ?_
                          rintro rfl
                          obtain ⟨x0, hx0, hex⟩ := skeleton_getElem? _ _ hS3.1 A x hx
                          obtain ⟨d0, hd0, hed⟩ := skeleton_getElem? _ _ hS3.1 d dir3 hdir3
                          exact hAd (hdist A d x0 d0 sc hx0 hd0
                            (by rw [erase_marks_scope _ _ hex]; exact hxs)
                            (by rw [erase_marks_scope _ _ hed]; exact hscope))
            refine ⟨fun A hA => hfinal.2 A (hp3 A (hstep1 A hA)), ?_⟩
            intro A hA
            rcases Relation.ReflTransGen.cases_head hA with rfl | ⟨c, hdc, hcA⟩
            · exact hfinal.1
            · obtain ⟨dir0, hdir0, hc0⟩ := hdc
              obtain ⟨dir2, hdir2, he⟩ :=
                skeleton_getElem? dirs0 s1 hsk1.symm d dir0 hdir0
              rw [hdir] at hdir2
              cases hdir2
              exact hfinal.2 A
                (hl3 c (by rw [erase_marks_children _ _ he]; exact hc0) A hcA)
    · have : w.dirs[d]? = none := List.getElem?_eq_none (by omega)
      simp [compute_depends_index, compute_depends_index_rec, this] at h

/-- C19: when `resolve_dependencies`, called in a fresh state on the root
of a tree of directories, returns `true`, every directory `A` of the tree
that depends on a directory `B` has a depends-index strictly greater than
that of `B`; for every directory `P` of the tree, `get_child_dirnames` lists
the names of the children of `P` in an order in which a child `A` stands
after every other child `B` that it depends on, directly or through other
directories; and, when distinct directories have distinct scopes, this
listing is the value of `SUBDIRS` in the scope of `P`. -/
theorem resolve_dependencies_orders (fuel : Nat) (w : World) (root : Nat) (w2 : World)
    (hvalid : valid_dependencies w.dirs) (hfresh : fresh w.dirs)
    (h : resolve_dependencies fuel w root = .ok (true, w2)) :
    (∀ A B, Relation.ReflTransGen (subdirectory w.dirs) root A → depends_on w.dirs A B →
      index_of w2.dirs B < index_of w2.dirs A) ∧
    (∀ P, Relation.ReflTransGen (subdirectory w.dirs) root P →
      ∃ dir listed, w2.dirs[P]? = some dir ∧ listed.Perm dir._children ∧
        get_child_dirnames w2 P = .ok (repaste (listed.map (dirname_of w2)) " ".toList) ∧
        ∀ A B, A ∈ dir._children → B ∈ dir._children →
          Relation.TransGen (depends_on w.dirs) A B →
          ∃ l1 l2 l3, listed = l1 ++ B :: (l2 ++ A :: l3)) ∧
    (distinct_scopes w.dirs → ∀ P, Relation.ReflTransGen (subdirectory w.dirs) root P →
      ∀ dir sc, w2.dirs[P]? = some dir → dir._scope = some sc →
        ∃ names, get_child_dirnames w2 P = .ok names ∧
          local_binding w2 "SUBDIRS".toList sc = some names) := by
  obtain ⟨hI0, hc0, _⟩ := fresh_indexed w.dirs hfresh
  obtain ⟨⟨hsk, hI, _⟩, _, hblack⟩ :=
    resolve_dependencies_spec w.dirs hvalid fuel w root w2 h ⟨rfl, hI0, hc0⟩
  have hdep : depends_on w2.dirs = depends_on w.dirs := by
    funext a b
    exact propext (depends_on_skeleton w2.dirs w.dirs hsk a b)
  have hvalid_of_black : ∀ u, index_of w2.dirs u ≠ 0 → u < w2.dirs.length := by
    intro u hu
    rcases Nat.lt_or_ge u w2.dirs.length with h1 | h1
    · exact h1
    · simp [index_of, List.getElem?_eq_none h1] at hu
  refine ⟨?_, ?_, ?_⟩
  · intro A B hA hAB
    exact (hI.edge w2.dirs A B (hblack A hA) (hdep ▸ hAB)).2
  · intro P hP
    have hPlt := hvalid_of_black P (hblack P hP)
    have hdir : w2.dirs[P]? = some w2.dirs[P] := List.getElem?_eq_getElem hPlt
    have hchild : ∀ c ∈ (w2.dirs[P])._children, index_of w2.dirs c ≠ 0 := by
      intro c hc
      apply hblack c
      refine hP.tail ?_
      exact (subdirectory_skeleton w2.dirs w.dirs hsk P c).1 ⟨_, hdir, hc⟩
    have hcv : ∀ c ∈ (w2.dirs[P])._children, c < w2.dirs.length :=
      fun c hc => hvalid_of_black c (hchild c hc)
    have hperm := std_sort_perm (directories_lt w2) (w2.dirs[P])._children
    have hsorted := sorted_children_sorted w2 _ hcv
    refine ⟨w2.dirs[P], sorted_children w2 w2.dirs[P], hdir, hperm, ?_, ?_⟩
    · have hnames := dirnames_of_valid w2 (sorted_children w2 w2.dirs[P])
        (fun c hc => hcv c (hperm.subset hc))
      simp only [get_child_dirnames, hdir, hnames]
    · intro A B hA hB hAB
      have hlt := (hI.reach w2.dirs A B (hchild A hA) (hdep ▸ hAB)).2
      apply occurs_before (dependency_order w2) A B ?_ ?_ _ hsorted
        (hperm.symm.subset hA) (hperm.symm.subset hB)
      · unfold dependency_order key_le key_of
        simp only
        omega
      · rintro rfl
        exact lt_irrefl _ hlt
  · intro hdist P hP dir sc hdir hscope
    exact ((resolve_dependencies_lists w.dirs hvalid hdist fuel w root w2 h
      ⟨rfl, hI0, hc0⟩).2 P hP).2 dir sc hdir hscope

theorem project_tree_distinct_scopes : distinct_scopes project_tree.dirs := by
  intro a b da db sc ha hb hsa hsb
  have hla := getElem?_lt _ _ _ ha
  have hlb := getElem?_lt _ _ _ hb
  have h4 : project_tree.dirs.length = 4 := rfl
  rw [h4] at hla hlb
  interval_cases a <;> interval_cases b <;>
    simp [project_tree, world_of] at ha hb <;> subst ha hb <;> simp at hsa hsb <;> omega

theorem resolve_dependencies_orders_witness :
    valid_dependencies project_tree.dirs ∧ fresh project_tree.dirs ∧
    (∃ w2, resolve_dependencies 3 project_tree 0 = .ok (true, w2) ∧
      get_child_dirnames w2 0 = .ok "core net gui".toList ∧
      local_binding w2 "SUBDIRS".toList 0 = some "core net gui".toList ∧
      (∀ A B, Relation.ReflTransGen (subdirectory project_tree.dirs) 0 A →
        depends_on project_tree.dirs A B → index_of w2.dirs B < index_of w2.dirs A) ∧
      (∀ P, Relation.ReflTransGen (subdirectory project_tree.dirs) 0 P →
        ∀ dir sc, w2.dirs[P]? = some dir → dir._scope = some sc →
          ∃ names, get_child_dirnames w2 P = .ok names ∧
            local_binding w2 "SUBDIRS".toList sc = some names)) :=
  ⟨by decide, by decide, _, rfl, by decide, by decide,
   (resolve_dependencies_orders 3 project_tree 0 _ (by decide) (by decide) rfl).1,
   (resolve_dependencies_orders 3 project_tree 0 _ (by decide) (by decide) rfl).2.2
     project_tree_distinct_scopes⟩

/-! ### C13, C14: misplaced and unclosed frames -/

/-- C13: in a frame whose `#if` branch was taken, the `#else` leaves the
state `IS_done` and not `IS_else`, so the second `#else` and the `#elif`
that follow it are accepted: every line of `#if 1`, `#else`, `#else`,
`#elif 1`, `#endif` is read with success.  When no branch was taken the
second `#else` is rejected, and so are `#elif`, `#else` and `#endif`
without an open frame. -/
theorem else_after_taken_branch_accepted :
    read_lines (example_reader 30 1)
        ["#if 1".toList, "#else".toList, "#else".toList, "#elif 1".toList, "#endif".toList]
        (new_command_file 0) (world_of [empty_scope]) =
      .ok (true, { new_command_file 0 with _command := "endif".toList },
        world_of [empty_scope]) ∧
    (read_lines (example_reader 30 1) ["#if".toList, "#else".toList, "#else".toList]
        (new_command_file 0) (world_of [empty_scope])).map (fun r => r.1) = .ok false ∧
    (example_reader 30 1 (new_command_file 0) (world_of [empty_scope])
        "#elif 1".toList).map (fun r => r.1) = .ok false ∧
    (example_reader 30 1 (new_command_file 0) (world_of [empty_scope])
        "#else".toList).map (fun r => r.1) = .ok false ∧
    (example_reader 30 1 (new_command_file 0) (world_of [empty_scope])
        "#endif".toList).map (fun r => r.1) = .ok false := by
  refine ⟨?_, ?_, ?_, ?_, ?_⟩ <;> decide!

theorem end_read_report_of_head (cf : PPCommandFile) (nest : BlockNesting)
    (rest : List BlockNesting) (kind : Str) (h : cf._block_nesting = nest :: rest)
    (hk : unclosed_kind nest._state = kind) :
    (end_read cf).2.2 =
      (if cf._if_nesting ≠ [] then "Unclosed if\n".toList else []) ++
        ("Unclosed ".toList ++ kind ++ " ".toList ++ nest._name ++ "\n".toList) := by
  subst hk
  simp only [end_read, h]

theorem end_read_report_of_capture (nest : BlockNesting) (cf : PPCommandFile) (kind : Str)
    (hk : unclosed_kind nest._state = kind) :
    (end_read (begin_capture nest cf)).2.2 =
      (if (begin_capture nest cf)._if_nesting ≠ [] then "Unclosed if\n".toList else []) ++
        ("Unclosed ".toList ++ kind ++ " ".toList ++ nest._name ++ "\n".toList) := by
  refine end_read_report_of_head _ nest cf._block_nesting kind ?_ hk
  unfold begin_capture
  split <;> rfl

/-- C14: `end_read` returns `false` exactly when the if-stack or the stack
of blocks is not empty; it leaves both stacks empty; and when a block is
open, its report ends with the kind and the name of the innermost block,
after the report of an unclosed `#if` if there is one.  The kinds are those
of the commands: a block opened by `#begin`, `#forscopes`, `#foreach`,
`#formap`, `#defsub` or `#defun` is reported under this word, for every state
in which the command succeeds, and a block opened by `#output` as `output`.
After the line `#begin foo` the report is `Unclosed begin foo`. -/
theorem end_read_reports_unclosed (cf : PPCommandFile) :
    ((end_read cf).1 = false ↔ (cf._if_nesting ≠ [] ∨ cf._block_nesting ≠ [])) ∧
    (end_read cf).2.1._if_nesting = [] ∧ (end_read cf).2.1._block_nesting = [] ∧
    (end_read cf).2.2 =
      (if cf._if_nesting ≠ [] then "Unclosed if\n".toList else []) ++
        (match cf._block_nesting with
         | [] => []
         | nest :: _ =>
           "Unclosed ".toList ++
             (match nest._state with
              | .BS_begin => "begin".toList
              | .BS_forscopes => "forscopes".toList
              | .BS_nested_forscopes => "forscopes".toList
              | .BS_foreach => "foreach".toList
              | .BS_nested_foreach => "foreach".toList
              | .BS_formap => "formap".toList
              | .BS_nested_formap => "formap".toList
              | .BS_defsub => "defsub".toList
              | .BS_defun => "defun".toList
              | .BS_output => "output".toList) ++ " ".toList ++ nest._name ++ "\n".toList) ∧
    (∀ (X : External) (fuel : Nat) (w : World),
      (match handle_begin_command X fuel cf w with
       | .ok (true, cf2, _) =>
         ∃ name, (end_read cf2).2.2 =
           (if cf2._if_nesting ≠ [] then "Unclosed if\n".toList else []) ++
             ("Unclosed begin ".toList ++ name ++ "\n".toList)
       | _ => True) ∧
      (match handle_forscopes_command X fuel cf w with
       | .ok (true, cf2, _) =>
         ∃ name, (end_read cf2).2.2 =
           (if cf2._if_nesting ≠ [] then "Unclosed if\n".toList else []) ++
             ("Unclosed forscopes ".toList ++ name ++ "\n".toList)
       | _ => True) ∧
      (match handle_foreach_command X fuel cf w with
       | .ok (true, cf2, _) =>
         ∃ name, (end_read cf2).2.2 =
           (if cf2._if_nesting ≠ [] then "Unclosed if\n".toList else []) ++
             ("Unclosed foreach ".toList ++ name ++ "\n".toList)
       | _ => True) ∧
      (match handle_formap_command X fuel cf w with
       | .ok (true, cf2, _) =>
         ∃ name, (end_read cf2).2.2 =
           (if cf2._if_nesting ≠ [] then "Unclosed if\n".toList else []) ++
             ("Unclosed formap ".toList ++ name ++ "\n".toList)
       | _ => True) ∧
      (match handle_defsub_command X fuel true cf w with
       | .ok (true, cf2, _) =>
         ∃ name, (end_read cf2).2.2 =
           (if cf2._if_nesting ≠ [] then "Unclosed if\n".toList else []) ++
             ("Unclosed defsub ".toList ++ name ++ "\n".toList)
       | _ => True) ∧
      (match handle_defsub_command X fuel false cf w with
       | .ok (true, cf2, _) =>
         ∃ name, (end_read cf2).2.2 =
           (if cf2._if_nesting ≠ [] then "Unclosed if\n".toList else []) ++
             ("Unclosed defun ".toList ++ name ++ "\n".toList)
       | _ => True)) ∧
    (read_lines (full_reader 60 3 2) ["#begin foo".toList] (new_command_file 0)
        registry_world).map (fun r => (r.1, (end_read r.2.1).1, (end_read r.2.1).2.2)) =
      .ok (true, false, "Unclosed begin foo\n".toList) ∧
    (read_lines (full_reader 60 3 2) ["#forscopes foo bar".toList] (new_command_file 0)
        registry_world).map (fun r => (end_read r.2.1).2.2) =
      .ok "Unclosed forscopes foo bar\n".toList ∧
    (read_lines (full_reader 60 3 2) ["#foreach i a b".toList] (new_command_file 0)
        registry_world).map (fun r => (end_read r.2.1).2.2) =
      .ok "Unclosed foreach i\n".toList ∧
    (read_lines (full_reader 60 3 2) ["#formap k M".toList] (new_command_file 0)
        registry_world).map (fun r => (end_read r.2.1).2.2) =
      .ok "Unclosed formap k\n".toList ∧
    (read_lines (full_reader 60 3 2) ["#defsub f x, y".toList] (new_command_file 0)
        registry_world).map (fun r => (end_read r.2.1).2.2) =
      .ok "Unclosed defsub f\n".toList ∧
    (read_lines (full_reader 60 3 2) ["#defun g x".toList] (new_command_file 0)
        registry_world).map (fun r => (end_read r.2.1).2.2) =
      .ok "Unclosed defun g\n".toList ∧
    (read_lines (full_reader 60 3 2) ["#if 1".toList, "#begin foo".toList]
        (new_command_file 0) registry_world).map (fun r => (end_read r.2.1).2.2) =
      .ok "Unclosed if\nUnclosed begin foo\n".toList ∧
    (read_lines (full_reader 60 3 2) ["#begin a".toList, "#foreach i x".toList]
        (new_command_file 0) registry_world).map (fun r => (end_read r.2.1).2.2) =
      .ok "Unclosed foreach i\n".toList ∧
    (read_lines (full_reader 60 3 2) ["#begin a".toList, "#end a".toList]
        (new_command_file 0) registry_world).map
        (fun r => ((end_read r.2.1).1, (end_read r.2.1).2.2)) = .ok (true, []) := by
  refine ⟨?_, rfl, rfl, ?_, ?_, by decide!, by decide!, by decide!, by decide!, by decide!,
    by decide!, by decide!, by decide!, by decide!⟩
  · simp only [end_read, decide_eq_false_iff_not, not_and_or]
  · rcases hb : cf._block_nesting with _ | ⟨nest, rest⟩
    · simp [end_read, hb]
    · rw [end_read_report_of_head cf nest rest _ hb rfl]
      dsimp only
      generalize nest._state = st
      cases st <;> rfl
  · intro X fuel w
    refine ⟨?_, ?_, ?_, ?_, ?_, ?_⟩
    · split
      · rename_i cf2 w2 h
        simp only [handle_begin_command] at h
        repeat' split at h
        all_goals first
          | (cases h; done)
          | (cases h
             exact ⟨_, end_read_report_of_head _ _ _ _ rfl rfl⟩)
      · trivial
    · split
      · rename_i cf2 w2 h
        simp only [handle_forscopes_command] at h
        repeat' split at h
        all_goals first
          | (cases h; done)
          | (cases h
             exact ⟨_, end_read_report_of_capture _ _ "forscopes".toList
               rfl⟩)
      · trivial
    · split
      · rename_i cf2 w2 h
        simp only [handle_foreach_command] at h
        repeat' split at h
        all_goals first
          | (cases h; done)
          | (cases h
             exact ⟨_, end_read_report_of_capture _ _ "foreach".toList
               rfl⟩)
      · trivial
    · split
      · rename_i cf2 w2 h
        simp only [handle_formap_command] at h
        repeat' split at h
        all_goals first
          | (cases h; done)
          | (cases h
             exact ⟨_, end_read_report_of_capture _ _ "formap".toList
               rfl⟩)
      · trivial
    · split
      · rename_i cf2 w2 h
        simp only [handle_defsub_command] at h
        repeat' split at h
        all_goals first
          | (cases h; done)
          | (cases h
             exact ⟨_, end_read_report_of_capture _ _ "defsub".toList rfl⟩)
          | contradiction
      · trivial
    · split
      · rename_i cf2 w2 h
        simp only [handle_defsub_command] at h
        repeat' split at h
        all_goals first
          | (cases h; done)
          | (cases h
             exact ⟨_, end_read_report_of_capture _ _ "defun".toList rfl⟩)
          | contradiction
      · trivial

theorem directories_lt_set_children (w : World) (d : Nat) (dir : PPDirectory)
    (hd : w.dirs[d]? = some dir) (created : List Nat) (a b : Nat) :
    directories_lt { w with dirs := w.dirs.set d { dir with _children := created } } a b =
      directories_lt w a b := by
  have hlt := getElem?_lt w.dirs d dir hd
  have h : ∀ u,
      ({ w with dirs := w.dirs.set d { dir with _children := created } } : World).dirs[u]? =
        (w.dirs[u]?).map (fun x => if u = d then { x with _children := created } else x) := by
    intro u
    by_cases hu : d = u
    · subst hu
      simp [List.getElem?_set, hlt, hd]
    · have hu2 : ¬ u = d := fun e => hu e.symm
      simp only [List.getElem?_set, hu, if_false, hu2]
      rcases w.dirs[u]? with _ | x <;> rfl
  unfold directories_lt
  rw [h a, h b]
  rcases w.dirs[a]? with _ | x
  · rfl
  · rcases w.dirs[b]? with _ | y
    · rfl
    · simp only [Option.map_some']
      by_cases ha : a = d <;> by_cases hb : b = d <;> simp [ha, hb, sort_directories_lt]

theorem dirname_of_set_children (w : World) (d : Nat) (dir : PPDirectory)
    (hd : w.dirs[d]? = some dir) (created : List Nat) (u : Nat) :
    dirname_of { w with dirs := w.dirs.set d { dir with _children := created } } u =
      dirname_of w u := by
  have hlt := getElem?_lt w.dirs d dir hd
  unfold dirname_of
  by_cases hu : d = u
  · subst hu
    simp [List.getElem?_set, hlt, hd]
  · simp [List.getElem?_set, hu]

theorem sorted_names_unique (w : World) (l1 l2 : List Nat) (hp : l1.Perm l2)
    (h1 : ∀ c ∈ l1, c < w.dirs.length) :
    (std_sort (directories_lt w) l1).map (dirname_of w) =
      (std_sort (directories_lt w) l2).map (dirname_of w) := by
  have h2 : ∀ c ∈ l2, c < w.dirs.length := fun c hc => h1 c (hp.symm.subset hc)
  have hperm : (std_sort (directories_lt w) l1).Perm (std_sort (directories_lt w) l2) :=
    (std_sort_perm _ l1).trans (hp.trans (std_sort_perm _ l2).symm)
  have := sorted_keys_unique w _ _ hperm (sorted_children_sorted w l1 h1)
    (sorted_children_sorted w l2 h2)
  have := congrArg (List.map Prod.snd) this
  simpa [List.map_map, Function.comp_def, key_of] using this

theorem sort_by_dependency_insert_perm (w : World) (x : Nat) :
    ∀ l : List Nat, (sort_by_dependency_insert w x l).Perm (x :: l) := by
  intro l
  induction l with
  | nil => exact List.Perm.refl _
  | cons y ys ih =>
    simp only [sort_by_dependency_insert]
    split
    · exact (List.Perm.cons y ih).trans (List.Perm.swap x y ys)
    · exact List.Perm.refl _

theorem sort_by_dependency_perm (w : World) :
    ∀ l : List Nat, (sort_by_dependency w l).Perm l := by
  intro l
  induction l with
  | nil => exact List.Perm.refl _
  | cons x xs ih =>
    exact (sort_by_dependency_insert_perm w x _).trans (List.Perm.cons x ih)

theorem scopes_lt_false_iff (w : World) (a b : Nat) (ha : has_directory w a)
    (hb : has_directory w b) :
    scopes_lt w b a = false ↔ key_le (scope_key w a) (scope_key w b) := by
  obtain ⟨da, ha1, ha2⟩ := ha
  obtain ⟨db, hb1, hb2⟩ := hb
  simp only [scopes_lt, scope_key, ha1, hb1]
  exact directories_lt_false_iff w da db ha2 hb2

theorem scopes_lt_le (w : World) (a b : Nat) (ha : has_directory w a)
    (hb : has_directory w b) (h : scopes_lt w a b = true) :
    key_le (scope_key w a) (scope_key w b) := by
  obtain ⟨da, ha1, ha2⟩ := ha
  obtain ⟨db, hb1, hb2⟩ := hb
  simp only [scopes_lt, scope_key, ha1, hb1] at h ⊢
  exact directories_lt_le w da db ha2 hb2 h

theorem scopes_lt_key_ne (w : World) (a b : Nat) (ha : has_directory w a)
    (hb : has_directory w b) (h : scopes_lt w a b = true) :
    scope_key w a ≠ scope_key w b := by
  intro e
  have h1 : key_le (scope_key w b) (scope_key w a) := by
    rw [e]
    unfold key_le
    exact Or.inr ⟨rfl, str_lt_irrefl _⟩
  rw [← scopes_lt_false_iff w b a hb ha] at h1
  rw [h1] at h
  cases h

theorem sort_by_dependency_insert_sorted (w : World) (x : Nat) (hx : has_directory w x) :
    ∀ l : List Nat, (∀ y ∈ l, has_directory w y) →
      l.Pairwise (fun a b => key_le (scope_key w a) (scope_key w b)) →
      (sort_by_dependency_insert w x l).Pairwise
        (fun a b => key_le (scope_key w a) (scope_key w b)) := by
  intro l
  induction l with
  | nil => intro _ _; simp [sort_by_dependency_insert]
  | cons y ys ih =>
    intro hP hs
    have hy : has_directory w y := hP y (by simp)
    have hys : ∀ z ∈ ys, has_directory w z := fun z hz => hP z (by simp [hz])
    obtain ⟨h1, h2⟩ := List.pairwise_cons.1 hs
    simp only [sort_by_dependency_insert]
    split
    · rename_i hlt
      have hyx := scopes_lt_le w y x hy hx hlt
      refine List.pairwise_cons.2 ⟨?_, ih hys h2⟩
      intro z hz
      rcases List.mem_cons.1 ((sort_by_dependency_insert_perm w x ys).subset hz) with rfl | hz
      · exact hyx
      · exact h1 z hz
    · rename_i hlt
      have hxy : key_le (scope_key w x) (scope_key w y) :=
        (scopes_lt_false_iff w x y hx hy).1 (by simpa using hlt)
      refine List.pairwise_cons.2 ⟨?_, hs⟩
      intro z hz
      rcases List.mem_cons.1 hz with rfl | hz
      · exact hxy
      · exact key_le_trans _ _ _ hxy (h1 z hz)

theorem sort_by_dependency_sorted (w : World) :
    ∀ l : List Nat, (∀ y ∈ l, has_directory w y) →
      (sort_by_dependency w l).Pairwise
        (fun a b => key_le (scope_key w a) (scope_key w b)) := by
  intro l
  induction l with
  | nil => intro _; simp [sort_by_dependency]
  | cons x xs ih =>
    intro hP
    have hxs : ∀ y ∈ xs, has_directory w y := fun y hy => hP y (by simp [hy])
    exact sort_by_dependency_insert_sorted w x (hP x (by simp)) _
      (fun y hy => hxs y ((sort_by_dependency_perm w xs).subset hy)) (ih hxs)

theorem sort_by_dependency_insert_filter (w : World) (x : Nat) (p : Nat → Bool) :
    ∀ l : List Nat, (∀ y ∈ l, scopes_lt w y x = true → ¬ (p x = true ∧ p y = true)) →
      (sort_by_dependency_insert w x l).filter p = (x :: l).filter p := by
  intro l
  induction l with
  | nil => intro _; rfl
  | cons y ys ih =>
    intro h
    simp only [sort_by_dependency_insert]
    split
    · rename_i hlt
      have hno := h y (by simp) hlt
      have ih2 := ih (fun z hz => h z (by simp [hz]))
      rw [List.filter_cons, ih2]
      cases hpx : p x <;> cases hpy : p y <;> simp [List.filter_cons, hpx, hpy] at hno ⊢
    · rfl

theorem sort_by_dependency_stable (w : World) (k : Int × Str) :
    ∀ l : List Nat, (∀ y ∈ l, has_directory w y) →
      (sort_by_dependency w l).filter (fun s => decide (scope_key w s = k)) =
        l.filter (fun s => decide (scope_key w s = k)) := by
  intro l
  induction l with
  | nil => intro _; rfl
  | cons x xs ih =>
    intro hP
    have hxs : ∀ y ∈ xs, has_directory w y := fun y hy => hP y (by simp [hy])
    have hstep : sort_by_dependency w (x :: xs) =
        sort_by_dependency_insert w x (sort_by_dependency w xs) := rfl
    rw [hstep, sort_by_dependency_insert_filter, List.filter_cons, List.filter_cons, ih hxs]
    intro y hy hlt hboth
    have hy2 := hxs y ((sort_by_dependency_perm w xs).subset hy)
    have hne := scopes_lt_key_ne w y x hy2 (hP x (by simp)) hlt
    simp only [decide_eq_true_eq] at hboth
    exact hne (hboth.2.trans hboth.1.symm)

theorem sort_by_dependency_keys (w : World) (l1 l2 : List Nat) (hp : l1.Perm l2)
    (h1 : ∀ y ∈ l1, has_directory w y) :
    (sort_by_dependency w l1).map (scope_key w) = (sort_by_dependency w l2).map (scope_key w) := by
  have h2 : ∀ y ∈ l2, has_directory w y := fun y hy => h1 y (hp.symm.subset hy)
  have hperm : (sort_by_dependency w l1).Perm (sort_by_dependency w l2) :=
    (sort_by_dependency_perm w l1).trans (hp.trans (sort_by_dependency_perm w l2).symm)
  have : IsAntisymm (Int × Str) key_le := ⟨key_le_antisymm⟩
  apply List.eq_of_perm_of_sorted (r := key_le) (hperm.map _)
  · exact List.pairwise_map.2 (sort_by_dependency_sorted w l1 h1)
  · exact List.pairwise_map.2 (sort_by_dependency_sorted w l2 h2)

theorem replay_forscopes_loop_records (h : Nat → List Str → List Str) (line : Str) :
    ∀ (scopes : List Nat) (cf : PPCommandFile) (w : World),
      replay_forscopes_loop (recording_reader h) [line] scopes true cf w =
        .ok (true, cf, { w with streams := scopes.foldl (fun st s => h s st) w.streams }) := by
  intro scopes
  induction scopes with
  | nil => intro cf w; rfl
  | cons s rest ih =>
    intro cf w
    have hpop : pop_scope
        { push_scope w cf._scope with streams := h s (push_scope w cf._scope).streams } =
        .ok (cf._scope, { w with streams := h s w.streams }) := by
      simp [pop_scope, push_scope]
    simp only [replay_forscopes_loop, replay_lines, recording_reader, if_true, hpop]
    exact ih cf { w with streams := h s w.streams }


/-- C16: `get_child_dirnames` returns the names of a permutation of the
children in which every directory and the one listed after it are in the
order of ascending depends-index, ties broken by the directory name, and
the result does not depend on the order in which the children stand in
`_children`, the order of their creation.  The replay of `#forscopes` visits
the scopes of the directories with the indices 3, 1, 2 in the order 1, 2,
3.  In general, for scopes that have directories, the vector that
`sort_by_dependency` makes is a permutation of the scopes in which every
scope stands before every later one in the order of ascending depends-index,
ties broken by the directory name; scopes of equal index and name keep their
order, and the sequence of the keys is the same for every order of
declaration.  `replay_forscopes` replays the saved lines for the scopes of
this vector, one after the other: a reader that records the scope in which
it is called records them in this order.  Scopes declared under the
directories `b`, `a`, `c`, `a` with the indices 1, 1, 0, 1 are replayed in
the order `c`, `a`, `a`, `b`. -/
theorem directories_sorted_by_dependency (w : World) (d : Nat) (dir : PPDirectory)
    (hd : w.dirs[d]? = some dir) (hvalid : ∀ c ∈ dir._children, c < w.dirs.length) :
    (∃ listed : List Nat, listed.Perm dir._children ∧
      List.Chain' (dependency_order w) listed ∧
      get_child_dirnames w d = .ok (repaste (listed.map (dirname_of w)) " ".toList)) ∧
    (∀ created : List Nat, created.Perm dir._children →
      get_child_dirnames { w with dirs := w.dirs.set d { dir with _children := created } } d =
        get_child_dirnames w d) ∧
    (read_lines (example_reader 30 2)
        ["#forscopes lib".toList, "$[DEPENDS_INDEX]".toList, "#end lib".toList]
        (new_command_file 0) indexed_scopes).map (fun r => (r.1, r.2.2.streams)) =
      .ok (true, ["1\n2\n3\n".toList]) ∧
    (∀ (v : World) (scopes : List Nat), (∀ s ∈ scopes, has_directory v s) →
      (sort_by_dependency v scopes).Perm scopes ∧
      (sort_by_dependency v scopes).Pairwise
        (fun a b => key_le (scope_key v a) (scope_key v b)) ∧
      (∀ k : Int × Str,
        (sort_by_dependency v scopes).filter (fun s => decide (scope_key v s = k)) =
          scopes.filter (fun s => decide (scope_key v s = k))) ∧
      (∀ declared : List Nat, declared.Perm scopes →
        (sort_by_dependency v declared).map (scope_key v) =
          (sort_by_dependency v scopes).map (scope_key v))) ∧
    (∀ (reader : Reader) (cf : PPCommandFile) (v : World) (name : Str) (sc : PPScope),
      cf._saved_lines ≠ [] → v.scopes[cf._scope]? = some sc → sc._named_scopes = true →
      replay_forscopes reader cf v name =
        replay_forscopes_loop reader cf._saved_lines.dropLast
          (sort_by_dependency v ((tokenize_whitespace name).map (get_scopes v)).flatten) true
          { cf with _saved_lines := [] } v) ∧
    (∀ (h : Nat → List Str → List Str) (line : Str) (scopes : List Nat) (cf : PPCommandFile)
        (v : World),
      replay_forscopes_loop (recording_reader h) [line] scopes true cf v =
        .ok (true, cf, { v with streams := scopes.foldl (fun st s => h s st) v.streams })) ∧
    (read_lines (example_reader 30 2)
        ["#forscopes lib".toList, "$[ID]".toList, "#end lib".toList]
        (new_command_file 0) tied_scopes).map (fun r => (r.1, r.2.2.streams)) =
      .ok (true, ["c0\na1-first\na1-second\nb1\n".toList]) ∧
    sort_by_dependency tied_scopes [1, 2, 3, 4] = [3, 2, 4, 1] := by
  have hperm := std_sort_perm (directories_lt w) dir._children
  have hnames : get_child_dirnames w d =
      .ok (repaste ((std_sort (directories_lt w) dir._children).map (dirname_of w))
        " ".toList) := by
    have := dirnames_of_valid w (sorted_children w dir) (fun c hc => hvalid c (hperm.subset hc))
    simp only [get_child_dirnames, hd, this]
    rfl
  refine ⟨⟨sorted_children w dir, hperm, (sorted_children_sorted w _ hvalid).chain',
    hnames⟩, ?_, by decide!, ?_, ?_, ?_, by decide!, by decide⟩
  rotate_left
  · intro v scopes hdir
    exact ⟨sort_by_dependency_perm v scopes, sort_by_dependency_sorted v scopes hdir,
      fun k => sort_by_dependency_stable v k scopes hdir,
      fun declared hp => sort_by_dependency_keys v declared scopes hp
        (fun y hy => hdir y (hp.subset hy))⟩
  · intro reader cf v name sc hsaved hsc hnamed
    have he : cf._saved_lines.isEmpty = false := by
      cases hl : cf._saved_lines with
      | nil => exact absurd hl hsaved
      | cons _ _ => rfl
    simp only [replay_forscopes, he, Bool.false_eq_true, if_false, hsc, hnamed,
      not_true_eq_false, false_and]
  · intro h line scopes cf v
    exact replay_forscopes_loop_records h line scopes cf v
  intro created hcreated
  have hlt := getElem?_lt w.dirs d dir hd
  have hc2 : ∀ c ∈ created, c < w.dirs.length := fun c hc => hvalid c (hcreated.subset hc)
  rw [hnames]
  have hd2 :
      ({ w with dirs := w.dirs.set d { dir with _children := created } } : World).dirs[d]? =
        some { dir with _children := created } := by
    simp [List.getElem?_set, hlt]
  have hfun :
      directories_lt { w with dirs := w.dirs.set d { dir with _children := created } } =
        directories_lt w := by
    funext a b
    exact directories_lt_set_children w d dir hd created a b
  have hsort :
      sorted_children { w with dirs := w.dirs.set d { dir with _children := created } }
        { dir with _children := created } = std_sort (directories_lt w) created := by
    simp only [sorted_children, hfun]
  have hval2 : ∀ c ∈ std_sort (directories_lt w) created, c <
      ({ w with dirs := w.dirs.set d { dir with _children := created } } : World).dirs.length := by
    intro c hc
    simpa using hc2 c ((std_sort_perm _ created).subset hc)
  have hn := dirnames_of_valid _ _ hval2
  simp only [get_child_dirnames, hd2, hsort, hn]
  have hmap : (std_sort (directories_lt w) created).map
      (dirname_of { w with dirs := w.dirs.set d { dir with _children := created } }) =
      (std_sort (directories_lt w) created).map (dirname_of w) :=
    List.map_congr_left (fun u _ => dirname_of_set_children w d dir hd created u)
  rw [hmap, sorted_names_unique w created dir._children hcreated hc2]


theorem indexed_scopes_directories : ∀ s ∈ [1, 2, 3], has_directory indexed_scopes s := by
  intro s hs
  simp only [List.mem_cons, List.mem_singleton, List.not_mem_nil, or_false] at hs
  rcases hs with rfl | rfl | rfl
  · exact ⟨0, by decide, by decide⟩
  · exact ⟨1, by decide, by decide⟩
  · exact ⟨2, by decide, by decide⟩

theorem directories_sorted_by_dependency_witness :
    get_child_dirnames listed_dirs 0 = .ok "c a b d".toList ∧
    (∃ listed : List Nat, listed.Perm [1, 2, 3, 4] ∧
      List.Chain' (dependency_order listed_dirs) listed ∧
      get_child_dirnames listed_dirs 0 =
        .ok (repaste (listed.map (dirname_of listed_dirs)) " ".toList)) ∧
    sort_by_dependency indexed_scopes [1, 2, 3] = [2, 3, 1] ∧
    ((sort_by_dependency indexed_scopes [1, 2, 3]).Perm [1, 2, 3] ∧
      (sort_by_dependency indexed_scopes [1, 2, 3]).Pairwise
        (fun a b => key_le (scope_key indexed_scopes a) (scope_key indexed_scopes b))) :=
  ⟨by decide!,
   (directories_sorted_by_dependency listed_dirs 0
     { _dirname := "top".toList, _parent := none, _depth := 0, _depends_index := 4,
       _children := [1, 2, 3, 4] } rfl (by decide)).1,
   by decide,
   ⟨((directories_sorted_by_dependency listed_dirs 0
     { _dirname := "top".toList, _parent := none, _depth := 0, _depends_index := 4,
       _children := [1, 2, 3, 4] } rfl (by decide)).2.2.2.1 indexed_scopes [1, 2, 3]
       indexed_scopes_directories).1,
    ((directories_sorted_by_dependency listed_dirs 0
     { _dirname := "top".toList, _parent := none, _depth := 0, _depends_index := 4,
       _children := [1, 2, 3, 4] } rfl (by decide)).2.2.2.1 indexed_scopes [1, 2, 3]
       indexed_scopes_directories).2.1⟩⟩

/-! ### C12, C15: lines of plain text, chains of conditions and `#foreach` blocks -/

theorem stream_result_cases (r : Except Fault World) (ws2 : WriteState) :
    (∃ e, (match r with
      | .error e => .error e
      | .ok w => .ok (true, ws2, w) : Except Fault (Bool × WriteState × World)) = .error e) ∨
      ∃ ws3 w2, (match r with
        | .error e => .error e
        | .ok w => .ok (true, ws2, w) : Except Fault (Bool × WriteState × World)) =
          .ok (true, ws3, w2) := by
  cases r with
  | error e => exact Or.inl ⟨e, rfl⟩
  | ok w => exact Or.inr ⟨ws2, w, rfl⟩

theorem write_collapse_line_cases (ws : WriteState) (w : World) (text : Str) :
    (∃ e, write_collapse_line ws w text = .error e) ∨
      ∃ ws2 w2, write_collapse_line ws w text = .ok (true, ws2, w2) := by
  unfold write_collapse_line
  split_ifs <;> first | exact stream_result_cases _ _ | exact Or.inr ⟨_, _, rfl⟩

theorem write_line_cases (ws : WriteState) (w : World) (text : Str) :
    (∃ e, write_line ws w text = .error e) ∨
      ∃ ws2 w2, write_line ws w text = .ok (true, ws2, w2) := by
  unfold write_line
  rcases ws._format with _ | _ | _
  · exact stream_result_cases _ _
  · exact write_collapse_line_cases ws w text
  · simp only
    unfold write_makefile_line
    split_ifs
    · exact write_collapse_line_cases ws w text
    · exact stream_result_cases _ _

theorem dropWhile_isEmpty_eq_all (line : Str) :
    (line.dropWhile isspace).isEmpty = line.all isspace := by
  induction line with
  | nil => rfl
  | cons c cs ih =>
    by_cases hc : isspace c = true
    · simp [List.dropWhile_cons, hc, ih]
    · simp [List.dropWhile_cons, hc]

theorem read_line_plain_text (X : External) (H : Handlers) (stray : Char) (fuel : Nat)
    (cf : PPCommandFile) (w : World) (line : Str) (hgot : cf._got_command = false)
    (hline : plain_text line) :
    read_line X H stray fuel cf w line =
      if cf._in_for = true then
        .ok (true, { cf with _saved_lines := cf._saved_lines ++ [line] }, w)
      else if failed_if cf = true then .ok (true, cf, w)
      else
        match emit_line X fuel cf._scope cf._write_state w line with
        | .error e => .error e
        | .ok (ws, w2) => .ok (true, { cf with _write_state := ws }, w2) := by
  obtain ⟨hcomment, hcmd⟩ := hline
  unfold is_command_line at hcmd
  have hempty := dropWhile_isEmpty_eq_all line
  simp only [read_line, find_comment_none _ hcomment, emit_line, ← hempty]
  have key : ∀ b : Bool, b = false → ∀ body : Str,
      (if (none : Option Nat) ≠ some 0 then
        if (if cf._in_for = true then
            { cf with _saved_lines := cf._saved_lines ++ [line] } else cf)._got_command = true
        then handle_command X H stray fuel (if cf._in_for = true then
            { cf with _saved_lines := cf._saved_lines ++ [line] } else cf) w line
        else
          if b = true then handle_command X H stray fuel (if cf._in_for = true then
            { cf with _saved_lines := cf._saved_lines ++ [line] } else cf) w (body.drop 1)
          else
            if ¬ (if cf._in_for = true then
                { cf with _saved_lines := cf._saved_lines ++ [line] } else cf)._in_for = true ∧
                ¬ failed_if (if cf._in_for = true then
                { cf with _saved_lines := cf._saved_lines ++ [line] } else cf) = true then
              match expand_string X fuel w (if cf._in_for = true then
                  { cf with _saved_lines := cf._saved_lines ++ [line] } else cf)._scope
                  (if body.isEmpty = true then [] else line) with
              | .error e => .error e
              | .ok (text, w) =>
                match write_line (if cf._in_for = true then
                  { cf with _saved_lines := cf._saved_lines ++ [line] } else cf)._write_state
                    w text with
                | .error e => .error e
                | .ok (ok, ws, w) => .ok (ok, { (if cf._in_for = true then
                  { cf with _saved_lines := cf._saved_lines ++ [line] } else cf) with
                    _write_state := ws }, w)
            else .ok (true, (if cf._in_for = true then
                { cf with _saved_lines := cf._saved_lines ++ [line] } else cf), w)
      else .ok (true, cf, w)) =
      if cf._in_for = true then
        .ok (true, { cf with _saved_lines := cf._saved_lines ++ [line] }, w)
      else if failed_if cf = true then .ok (true, cf, w)
      else
        match
          (match expand_string X fuel w cf._scope (if body.isEmpty = true then [] else line) with
          | .error e => .error e
          | .ok (text, w) =>
            match write_line cf._write_state w text with
            | .error e => .error e
            | .ok (_, ws, w) => .ok (ws, w) : Except Fault (WriteState × World)) with
        | .error e => .error e
        | .ok (ws, w2) => .ok (true, { cf with _write_state := ws }, w2) := by
    intro b hb body
    subst hb
    by_cases hfor : cf._in_for = true
    · simp [hfor, hgot, failed_if]
    · have hfor2 : cf._in_for = false := by simpa using hfor
      by_cases hif : failed_if cf = true
      · simp [hfor2, hgot, hif]
      · have hif2 : failed_if cf = false := by simpa using hif
        simp only [hfor2, hgot, hif2, Bool.false_eq_true, if_false, ne_eq, reduceCtorEq,
          not_false_eq_true, if_true, and_self]
        rcases expand_string X fuel w cf._scope (if body.isEmpty = true then [] else line)
          with e | ⟨text, w1⟩
        · rfl
        · simp only
          rcases write_line_cases cf._write_state w1 text with ⟨e, hw⟩ | ⟨ws, w2, hw⟩
          · rw [hw]
          · rw [hw]
  rcases hb : line.dropWhile isspace with _ | ⟨c, _ | ⟨d, r⟩⟩
  · exact key false rfl []
  · exact key false rfl [c]
  · rw [hb] at hcmd
    have := key (c == COMMAND_PREFIX && isalpha d) hcmd (c :: d :: r)
    simpa using this

theorem read_lines_plain_skip (X : External) (H : Handlers) (stray : Char) (fuel : Nat)
    (cf : PPCommandFile) (w : World) (hgot : cf._got_command = false)
    (hfor : cf._in_for = false) (hif : failed_if cf = true) :
    ∀ lines : List Str, (∀ l ∈ lines, plain_text l) →
      read_lines (read_line X H stray fuel) lines cf w = .ok (true, cf, w) := by
  intro lines
  induction lines with
  | nil => intro _; rfl
  | cons l rest ih =>
    intro h
    have h1 := read_line_plain_text X H stray fuel cf w l hgot (h l (by simp))
    simp only [hfor, hif, Bool.false_eq_true, if_false, if_true] at h1
    simp only [read_lines, h1]
    exact ih (fun x hx => h x (by simp [hx]))

theorem read_lines_plain_capture (X : External) (H : Handlers) (stray : Char) (fuel : Nat)
    (w : World) :
    ∀ (lines : List Str) (cf : PPCommandFile), cf._got_command = false → cf._in_for = true →
      (∀ l ∈ lines, plain_text l) →
      read_lines (read_line X H stray fuel) lines cf w =
        .ok (true, { cf with _saved_lines := cf._saved_lines ++ lines }, w) := by
  intro lines
  induction lines with
  | nil => intro cf _ _ _; simp [read_lines]
  | cons l rest ih =>
    intro cf hgot hfor h
    obtain ⟨ns, sc, got, infor, ifn, bn, cmd, prm, ws0, sl⟩ := cf
    simp only at hgot hfor
    subst hgot hfor
    have h1 := read_line_plain_text X H stray fuel ⟨ns, sc, false, true, ifn, bn, cmd, prm, ws0, sl⟩
      w l rfl (h l (by simp))
    simp only [if_true] at h1
    simp only [read_lines, h1]
    rw [ih _ rfl rfl (fun x hx => h x (by simp [hx]))]
    simp

theorem read_lines_plain_emit (X : External) (H : Handlers) (stray : Char) (fuel : Nat) :
    ∀ (lines : List Str) (cf : PPCommandFile) (w : World), cf._got_command = false →
      cf._in_for = false → failed_if cf = false → (∀ l ∈ lines, plain_text l) →
      read_lines (read_line X H stray fuel) lines cf w =
        match emit_lines X fuel cf._scope lines cf._write_state w with
        | .error e => .error e
        | .ok (ws, w2) => .ok (true, { cf with _write_state := ws }, w2) := by
  intro lines
  induction lines with
  | nil => intro cf w _ _ _ _; simp [read_lines, emit_lines]
  | cons l rest ih =>
    intro cf w hgot hfor hif h
    obtain ⟨ns, sc, got, infor, ifn, bn, cmd, prm, ws0, sl⟩ := cf
    simp only at hgot hfor
    subst hgot hfor
    have h1 := read_line_plain_text X H stray fuel
      ⟨ns, sc, false, false, ifn, bn, cmd, prm, ws0, sl⟩ w l rfl (h l (by simp))
    simp only [hif, Bool.false_eq_true, if_false] at h1
    simp only [read_lines, h1, emit_lines]
    rcases emit_line X fuel sc ws0 w l with e | ⟨ws, w2⟩
    · rfl
    · simp only
      rw [ih ⟨ns, sc, false, false, ifn, bn, cmd, prm, ws, sl⟩ w2 rfl rfl
        (by simpa [failed_if] using hif) (fun x hx => h x (by simp [hx]))]

theorem replay_lines_plain_emit (X : External) (H : Handlers) (stray : Char) (fuel : Nat) :
    ∀ (lines : List Str) (cf : PPCommandFile) (w : World), cf._got_command = false →
      cf._in_for = false → failed_if cf = false → (∀ l ∈ lines, plain_text l) →
      replay_lines (read_line X H stray fuel) lines true cf w =
        match emit_lines X fuel cf._scope lines cf._write_state w with
        | .error e => .error e
        | .ok (ws, w2) => .ok (true, { cf with _write_state := ws }, w2) := by
  intro lines
  induction lines with
  | nil => intro cf w _ _ _ _; simp [replay_lines, emit_lines]
  | cons l rest ih =>
    intro cf w hgot hfor hif h
    obtain ⟨ns, sc, got, infor, ifn, bn, cmd, prm, ws0, sl⟩ := cf
    simp only at hgot hfor
    subst hgot hfor
    have h1 := read_line_plain_text X H stray fuel
      ⟨ns, sc, false, false, ifn, bn, cmd, prm, ws0, sl⟩ w l rfl (h l (by simp))
    simp only [hif, Bool.false_eq_true, if_false] at h1
    simp only [replay_lines, h1, emit_lines, if_true]
    rcases emit_line X fuel sc ws0 w l with e | ⟨ws, w2⟩
    · rfl
    · simp only
      rw [ih ⟨ns, sc, false, false, ifn, bn, cmd, prm, ws, sl⟩ w2 rfl rfl
        (by simpa [failed_if] using hif) (fun x hx => h x (by simp [hx]))]

theorem takeWhile_all_word (word : Str) (hw : ∀ c ∈ word, isspace c = false) :
    word.takeWhile (fun c => !isspace c) = word ∧ word.dropWhile (fun c => !isspace c) = [] := by
  induction word with
  | nil => simp
  | cons c cs ih =>
    have hc := hw c (by simp)
    have := ih (fun d hd => hw d (by simp [hd]))
    simp [List.takeWhile_cons, List.dropWhile_cons, hc, this]

theorem read_line_dispatch (X : External) (H : Handlers) (stray : Char) (fuel : Nat)
    (cf : PPCommandFile) (w : World) (text : Str) (d : Char) (rest : Str)
    (hgot : cf._got_command = false) (hcomment : ¬ BEGIN_COMMENT <:+: text)
    (hbody : text.dropWhile isspace = COMMAND_PREFIX :: d :: rest) (hd : isalpha d = true) :
    read_line X H stray fuel cf w text =
      handle_command X H stray fuel
        (if cf._in_for = true then { cf with _saved_lines := cf._saved_lines ++ [text] } else cf)
        w (d :: rest) := by
  simp only [read_line, find_comment_none _ hcomment]
  by_cases hfor : cf._in_for = true
  · simp [hfor, hgot, hbody, hd]
  · simp [hfor, hgot, hbody, hd]

theorem handle_command_parse (X : External) (H : Handlers) (stray : Char) (fuel : Nat)
    (cf : PPCommandFile) (w : World) (cmd c : Str) (hgot : cf._got_command = false)
    (hcmd : ∀ x ∈ cmd, isspace x = false) :
    handle_command X H stray fuel cf w (cmd ++ ' ' :: c) =
      handle_command X H stray fuel
        { cf with _command := cmd, _params := c.dropWhile isspace, _got_command := true }
        w [] := by
  have hsp : isspace ' ' = true := by decide
  simp only [handle_command, hgot, takeWhile_word cmd c hcmd, dropWhile_word cmd c hcmd,
    List.dropWhile_cons, hsp, if_true, Bool.false_eq_true, if_false, List.append_nil]

theorem handle_command_parse_bare (X : External) (H : Handlers) (stray : Char) (fuel : Nat)
    (cf : PPCommandFile) (w : World) (cmd : Str) (hgot : cf._got_command = false)
    (hcmd : ∀ x ∈ cmd, isspace x = false) :
    handle_command X H stray fuel cf w cmd =
      handle_command X H stray fuel
        { cf with _command := cmd, _params := [], _got_command := true } w [] := by
  obtain ⟨h1, h2⟩ := takeWhile_all_word cmd hcmd
  simp only [handle_command, hgot, h1, h2, List.dropWhile_nil, if_true, Bool.false_eq_true,
    if_false, List.append_nil]

theorem getLast?_getD_ne (p : Str) (stray : Char) (hstray : stray ≠ '\\')
    (hlast : p.getLast? ≠ some '\\') : ¬ (p.getLast?.getD stray = '\\') := by
  rcases hg : p.getLast? with _ | c
  · simpa using hstray
  · rw [hg] at hlast
    simpa using hlast

theorem handle_command_if (X : External) (H : Handlers) (stray : Char) (fuel : Nat)
    (cf : PPCommandFile) (w : World) (p : Str) (hlast : ¬ (p.getLast?.getD stray = '\\')) :
    handle_command X H stray fuel
        { cf with _command := "if".toList, _params := p, _got_command := true } w [] =
      handle_if_command X fuel
        { cf with _command := "if".toList, _params := p, _got_command := false } w := by
  simp [handle_command, hlast]

theorem handle_command_elif (X : External) (H : Handlers) (stray : Char) (fuel : Nat)
    (cf : PPCommandFile) (w : World) (p : Str) (hlast : ¬ (p.getLast?.getD stray = '\\')) :
    handle_command X H stray fuel
        { cf with _command := "elif".toList, _params := p, _got_command := true } w [] =
      handle_elif_command X fuel
        { cf with _command := "elif".toList, _params := p, _got_command := false } w := by
  simp [handle_command, hlast]

theorem handle_command_else (X : External) (H : Handlers) (stray : Char) (fuel : Nat)
    (cf : PPCommandFile) (w : World) (p : Str) (hlast : ¬ (p.getLast?.getD stray = '\\')) :
    handle_command X H stray fuel
        { cf with _command := "else".toList, _params := p, _got_command := true } w [] =
      handle_else_command
        { cf with _command := "else".toList, _params := p, _got_command := false } w := by
  simp [handle_command, hlast]

theorem handle_command_endif (X : External) (H : Handlers) (stray : Char) (fuel : Nat)
    (cf : PPCommandFile) (w : World) (p : Str) (hlast : ¬ (p.getLast?.getD stray = '\\')) :
    handle_command X H stray fuel
        { cf with _command := "endif".toList, _params := p, _got_command := true } w [] =
      handle_endif_command
        { cf with _command := "endif".toList, _params := p, _got_command := false } w := by
  simp [handle_command, hlast]

theorem handle_command_foreach (X : External) (H : Handlers) (stray : Char) (fuel : Nat)
    (cf : PPCommandFile) (w : World) (p : Str) (hlast : ¬ (p.getLast?.getD stray = '\\'))
    (hif : failed_if cf = false) :
    handle_command X H stray fuel
        { cf with _command := "foreach".toList, _params := p, _got_command := true } w [] =
      H.handle_foreach_command
        { cf with _command := "foreach".toList, _params := p, _got_command := false } w := by
  simp only [failed_if] at hif
  simp [handle_command, hlast, failed_if, hif]

theorem handle_command_end (X : External) (H : Handlers) (stray : Char) (fuel : Nat)
    (cf : PPCommandFile) (w : World) (p : Str) (hlast : ¬ (p.getLast?.getD stray = '\\'))
    (hif : failed_if cf = false) :
    handle_command X H stray fuel
        { cf with _command := "end".toList, _params := p, _got_command := true } w [] =
      H.handle_end_command
        { cf with _command := "end".toList, _params := p, _got_command := false } w := by
  simp only [failed_if] at hif
  simp [handle_command, hlast, failed_if, hif]

theorem not_comment_append (p c : Str) (hp : ∀ x ∈ p, x ≠ '/')
    (hc : ¬ BEGIN_COMMENT <:+: c) : ¬ BEGIN_COMMENT <:+: p ++ c := by
  induction p with
  | nil => simpa using hc
  | cons a l ih =>
    intro h
    rcases List.infix_cons_iff.1 h with h1 | h1
    · have : a = '/' := by
        obtain ⟨t, ht⟩ := h1
        simp only [BEGIN_COMMENT, List.cons_append, List.cons.injEq] at ht
        exact ht.1.symm
      exact hp a (by simp) this
    · exact ih (fun x hx => hp x (by simp [hx])) h1

theorem read_lines_append (reader : Reader) :
    ∀ (l1 l2 : List Str) (cf : PPCommandFile) (w : World),
      read_lines reader (l1 ++ l2) cf w =
        match read_lines reader l1 cf w with
        | .error e => .error e
        | .ok (false, cf, w) => .ok (false, cf, w)
        | .ok (true, cf, w) => read_lines reader l2 cf w := by
  intro l1
  induction l1 with
  | nil => intro l2 cf w; rfl
  | cons l rest ih =>
    intro l2 cf w
    simp only [List.cons_append, read_lines]
    rcases reader cf w l with e | ⟨b, cf2, w2⟩
    · rfl
    · cases b with
      | false => rfl
      | true => exact ih l2 cf2 w2

theorem read_line_with_params (X : External) (H : Handlers) (stray : Char) (fuel : Nat)
    (cf : PPCommandFile) (w : World) (d : Char) (cmd c : Str)
    (hgot : cf._got_command = false) (hd : isalpha d = true)
    (hcmd : ∀ x ∈ d :: cmd, isspace x = false ∧ x ≠ '/') (hc : ¬ BEGIN_COMMENT <:+: c) :
    read_line X H stray fuel cf w (COMMAND_PREFIX :: (d :: cmd) ++ ' ' :: c) =
      handle_command X H stray fuel
        { (if cf._in_for = true then { cf with _saved_lines := cf._saved_lines ++
              [COMMAND_PREFIX :: (d :: cmd) ++ ' ' :: c] } else cf) with
          _command := d :: cmd, _params := c.dropWhile isspace, _got_command := true }
        w [] := by
  have hsharp : isspace COMMAND_PREFIX = false := by decide
  have hcomment : ¬ BEGIN_COMMENT <:+: COMMAND_PREFIX :: (d :: cmd) ++ ' ' :: c := by
    have := not_comment_append (COMMAND_PREFIX :: (d :: cmd) ++ [' ']) c
      (by
        intro x hx
        have hx2 : x = COMMAND_PREFIX ∨ x ∈ d :: cmd ∨ x = ' ' := by
          simpa [or_assoc] using hx
        rcases hx2 with rfl | hx2 | rfl
        · decide
        · exact (hcmd x hx2).2
        · decide) hc
    simpa using this
  rw [read_line_dispatch X H stray fuel cf w _ d (cmd ++ ' ' :: c) hgot hcomment
    (by simp [List.dropWhile_cons, hsharp]) hd]
  have hgot2 : (if cf._in_for = true then { cf with _saved_lines := cf._saved_lines ++
      [COMMAND_PREFIX :: (d :: cmd) ++ ' ' :: c] } else cf)._got_command = false := by
    split <;> exact hgot
  have := handle_command_parse X H stray fuel _ w (d :: cmd) c hgot2 (fun x hx => (hcmd x hx).1)
  simpa using this

theorem read_line_bare (X : External) (H : Handlers) (stray : Char) (fuel : Nat)
    (cf : PPCommandFile) (w : World) (d : Char) (cmd : Str)
    (hgot : cf._got_command = false) (hd : isalpha d = true)
    (hcmd : ∀ x ∈ d :: cmd, isspace x = false ∧ x ≠ '/') :
    read_line X H stray fuel cf w (COMMAND_PREFIX :: d :: cmd) =
      handle_command X H stray fuel
        { (if cf._in_for = true then { cf with _saved_lines := cf._saved_lines ++
              [COMMAND_PREFIX :: d :: cmd] } else cf) with
          _command := d :: cmd, _params := [], _got_command := true }
        w [] := by
  have hsharp : isspace COMMAND_PREFIX = false := by decide
  have hcomment : ¬ BEGIN_COMMENT <:+: COMMAND_PREFIX :: d :: cmd := by
    have := not_comment_append (COMMAND_PREFIX :: d :: cmd) []
      (by
        intro x hx
        simp only [List.mem_cons] at hx
        rcases hx with rfl | rfl | hx
        · decide
        · exact (hcmd _ (by simp)).2
        · exact (hcmd x (by simp [hx])).2) (by decide)
    simpa using this
  rw [read_line_dispatch X H stray fuel cf w _ d cmd hgot hcomment
    (by simp [List.dropWhile_cons, hsharp]) hd]
  have hgot2 : (if cf._in_for = true then { cf with _saved_lines := cf._saved_lines ++
      [COMMAND_PREFIX :: d :: cmd] } else cf)._got_command = false := by
    split <;> exact hgot
  exact handle_command_parse_bare X H stray fuel _ w (d :: cmd) hgot2 (fun x hx => (hcmd x hx).1)

theorem read_line_if_line (X : External) (H : Handlers) (stray : Char) (fuel : Nat)
    (cf : PPCommandFile) (w : World) (c : Str) (hstray : stray ≠ '\\')
    (hgot : cf._got_command = false) (hfor : cf._in_for = false) (hc : parameter_text c) :
    read_line X H stray fuel cf w ("#if ".toList ++ c) =
      handle_if_command X fuel
        { cf with _command := "if".toList, _params := c.dropWhile isspace } w := by
  obtain ⟨ns, sc, got, infor, ifn, bn, cmd, prm, ws0, sl⟩ := cf
  simp only at hgot hfor
  subst hgot hfor
  have h1 := read_line_with_params X H stray fuel ⟨ns, sc, false, false, ifn, bn, cmd, prm, ws0, sl⟩
    w 'i' "f".toList c rfl (by decide) (by decide) hc.1
  have h2 := handle_command_if X H stray fuel ⟨ns, sc, false, false, ifn, bn, cmd, prm, ws0, sl⟩
    w (c.dropWhile isspace) (getLast?_getD_ne _ stray hstray hc.2)
  simp only [Bool.false_eq_true, if_false] at h1
  exact h1.trans h2

theorem read_line_elif_line (X : External) (H : Handlers) (stray : Char) (fuel : Nat)
    (cf : PPCommandFile) (w : World) (c : Str) (hstray : stray ≠ '\\')
    (hgot : cf._got_command = false) (hfor : cf._in_for = false) (hc : parameter_text c) :
    read_line X H stray fuel cf w ("#elif ".toList ++ c) =
      handle_elif_command X fuel
        { cf with _command := "elif".toList, _params := c.dropWhile isspace } w := by
  obtain ⟨ns, sc, got, infor, ifn, bn, cmd, prm, ws0, sl⟩ := cf
  simp only at hgot hfor
  subst hgot hfor
  have h1 := read_line_with_params X H stray fuel ⟨ns, sc, false, false, ifn, bn, cmd, prm, ws0, sl⟩
    w 'e' "lif".toList c rfl (by decide) (by decide) hc.1
  have h2 := handle_command_elif X H stray fuel ⟨ns, sc, false, false, ifn, bn, cmd, prm, ws0, sl⟩
    w (c.dropWhile isspace) (getLast?_getD_ne _ stray hstray hc.2)
  simp only [Bool.false_eq_true, if_false] at h1
  exact h1.trans h2

theorem read_line_else_line (X : External) (H : Handlers) (stray : Char) (fuel : Nat)
    (cf : PPCommandFile) (w : World) (hstray : stray ≠ '\\')
    (hgot : cf._got_command = false) (hfor : cf._in_for = false) :
    read_line X H stray fuel cf w "#else".toList =
      handle_else_command { cf with _command := "else".toList, _params := [] } w := by
  obtain ⟨ns, sc, got, infor, ifn, bn, cmd, prm, ws0, sl⟩ := cf
  simp only at hgot hfor
  subst hgot hfor
  have h1 := read_line_bare X H stray fuel ⟨ns, sc, false, false, ifn, bn, cmd, prm, ws0, sl⟩
    w 'e' "lse".toList rfl (by decide) (by decide)
  have h2 := handle_command_else X H stray fuel ⟨ns, sc, false, false, ifn, bn, cmd, prm, ws0, sl⟩
    w [] (by simpa using hstray)
  simp only [Bool.false_eq_true, if_false] at h1
  exact h1.trans h2

theorem read_line_endif_line (X : External) (H : Handlers) (stray : Char) (fuel : Nat)
    (cf : PPCommandFile) (w : World) (hstray : stray ≠ '\\')
    (hgot : cf._got_command = false) (hfor : cf._in_for = false) :
    read_line X H stray fuel cf w "#endif".toList =
      handle_endif_command { cf with _command := "endif".toList, _params := [] } w := by
  obtain ⟨ns, sc, got, infor, ifn, bn, cmd, prm, ws0, sl⟩ := cf
  simp only at hgot hfor
  subst hgot hfor
  have h1 := read_line_bare X H stray fuel ⟨ns, sc, false, false, ifn, bn, cmd, prm, ws0, sl⟩
    w 'e' "ndif".toList rfl (by decide) (by decide)
  have h2 := handle_command_endif X H stray fuel ⟨ns, sc, false, false, ifn, bn, cmd, prm, ws0, sl⟩
    w [] (by simpa using hstray)
  simp only [Bool.false_eq_true, if_false] at h1
  exact h1.trans h2

theorem elif_lines_cons (c : Str) (body : List Str) (rest : List (Str × List Str)) :
    elif_lines ((c, body) :: rest) = ("#elif ".toList ++ c) :: (body ++ elif_lines rest) := by
  simp [elif_lines]

theorem read_lines_cons_ok (reader : Reader) (l : Str) (rest : List Str)
    (cf cf2 : PPCommandFile) (w w2 : World) (h : reader cf w l = .ok (true, cf2, w2)) :
    read_lines reader (l :: rest) cf w = read_lines reader rest cf2 w2 := by
  simp only [read_lines, h]

theorem read_lines_append_ok (reader : Reader) (l1 l2 : List Str)
    (cf cf2 : PPCommandFile) (w w2 : World) (h : read_lines reader l1 cf w = .ok (true, cf2, w2)) :
    read_lines reader (l1 ++ l2) cf w = read_lines reader l2 cf2 w2 := by
  rw [read_lines_append, h]

theorem else_lines_done (X : External) (H : Handlers) (stray : Char) (fuel : Nat)
    (hstray : stray ≠ '\\') (otherwise : Option (List Str))
    (hother : ∀ body, otherwise = some body → ∀ l ∈ body, plain_text l)
    (cf : PPCommandFile) (w : World) (st : IfState) (base : List IfState)
    (hgot : cf._got_command = false) (hfor : cf._in_for = false)
    (hif : cf._if_nesting = st :: base) (hst : st = .IS_on ∨ st = .IS_done) :
    read_lines (read_line X H stray fuel) (else_lines otherwise) cf w =
      .ok (true, { cf with _if_nesting := base, _command := "endif".toList, _params := [] },
        w) := by
  obtain ⟨ns, sc, got, infor, ifn, bn, cmd, prm, ws0, sl⟩ := cf
  simp only at hgot hfor hif
  subst hgot hfor hif
  cases otherwise with
  | none =>
    have h1 := read_line_endif_line X H stray fuel
      ⟨ns, sc, false, false, st :: base, bn, cmd, prm, ws0, sl⟩ w hstray rfl rfl
    simp only [handle_endif_command] at h1
    simp only [else_lines, List.nil_append]
    rw [read_lines_cons_ok _ _ _ _ _ _ _ h1]
    rfl
  | some body =>
    have h1 := read_line_else_line X H stray fuel
      ⟨ns, sc, false, false, st :: base, bn, cmd, prm, ws0, sl⟩ w hstray rfl rfl
    have hne : ¬ st = .IS_else := by rcases hst with rfl | rfl <;> decide
    simp only [handle_else_command, hne, hst, if_false, if_true] at h1
    simp only [else_lines, List.cons_append]
    rw [read_lines_cons_ok _ _ _ _ _ _ _ h1]
    have h2 := read_lines_plain_skip X H stray fuel
      ⟨ns, sc, false, false, .IS_done :: base, bn, "else".toList, [], ws0, sl⟩ w rfl rfl
      (by simp [failed_if]) body (hother body rfl)
    rw [read_lines_append_ok _ _ _ _ _ _ _ h2]
    have h3 := read_line_endif_line X H stray fuel
      ⟨ns, sc, false, false, .IS_done :: base, bn, "else".toList, [], ws0, sl⟩ w hstray rfl rfl
    simp only [handle_endif_command] at h3
    rw [read_lines_cons_ok _ _ _ _ _ _ _ h3]
    rfl

theorem chain_tail_done (X : External) (H : Handlers) (stray : Char) (fuel : Nat)
    (hstray : stray ≠ '\\') (otherwise : Option (List Str))
    (hother : ∀ body, otherwise = some body → ∀ l ∈ body, plain_text l) :
    ∀ (branches : List (Str × List Str)) (cf : PPCommandFile) (w : World) (st : IfState)
      (base : List IfState), cf._got_command = false → cf._in_for = false →
      cf._if_nesting = st :: base → (st = .IS_on ∨ st = .IS_done) →
      (∀ b ∈ branches, parameter_text b.1 ∧ ∀ l ∈ b.2, plain_text l) →
      read_lines (read_line X H stray fuel) (elif_lines branches ++ else_lines otherwise) cf w =
        .ok (true, { cf with _if_nesting := base, _command := "endif".toList, _params := [] },
          w) := by
  intro branches
  induction branches with
  | nil =>
    intro cf w st base hgot hfor hif hst _
    simpa [elif_lines] using
      else_lines_done X H stray fuel hstray otherwise hother cf w st base hgot hfor hif hst
  | cons b rest ih =>
    intro cf w st base hgot hfor hif hst hb
    obtain ⟨c, body⟩ := b
    obtain ⟨ns, sc, got, infor, ifn, bn, cmd, prm, ws0, sl⟩ := cf
    simp only at hgot hfor hif
    subst hgot hfor hif
    have hc := hb (c, body) (by simp)
    have h1 := read_line_elif_line X H stray fuel
      ⟨ns, sc, false, false, st :: base, bn, cmd, prm, ws0, sl⟩ w c hstray rfl rfl hc.1
    have hne : ¬ st = .IS_else := by rcases hst with rfl | rfl <;> decide
    simp only [handle_elif_command, hne, hst, if_false, if_true] at h1
    rw [elif_lines_cons, List.cons_append, read_lines_cons_ok _ _ _ _ _ _ _ h1, List.append_assoc]
    have h2 := read_lines_plain_skip X H stray fuel
      ⟨ns, sc, false, false, .IS_done :: base, bn, "elif".toList, c.dropWhile isspace, ws0, sl⟩
      w rfl rfl (by simp [failed_if]) body hc.2
    rw [read_lines_append_ok _ _ _ _ _ _ _ h2]
    exact ih ⟨ns, sc, false, false, .IS_done :: base, bn, "elif".toList, c.dropWhile isspace,
      ws0, sl⟩ w .IS_done base rfl rfl rfl (Or.inr rfl) (fun x hx => hb x (by simp [hx]))

theorem else_lines_search (X : External) (H : Handlers) (stray : Char) (fuel : Nat)
    (hstray : stray ≠ '\\') (otherwise : Option (List Str))
    (hother : ∀ body, otherwise = some body → ∀ l ∈ body, plain_text l)
    (cf : PPCommandFile) (w : World) (base : List IfState)
    (hgot : cf._got_command = false) (hfor : cf._in_for = false)
    (hif : cf._if_nesting = .IS_off :: base) :
    read_lines (read_line X H stray fuel) (else_lines otherwise) cf w =
      match emit_lines X fuel cf._scope (otherwise.getD []) cf._write_state w with
      | .error e => .error e
      | .ok (ws, w2) =>
        .ok (true, { cf with _if_nesting := base, _command := "endif".toList, _params := [],
                             _write_state := ws }, w2) := by
  obtain ⟨ns, sc, got, infor, ifn, bn, cmd, prm, ws0, sl⟩ := cf
  simp only at hgot hfor hif
  subst hgot hfor hif
  cases otherwise with
  | none =>
    have h1 := read_line_endif_line X H stray fuel
      ⟨ns, sc, false, false, .IS_off :: base, bn, cmd, prm, ws0, sl⟩ w hstray rfl rfl
    simp only [handle_endif_command] at h1
    simp only [else_lines, List.nil_append, Option.getD_none, emit_lines]
    rw [read_lines_cons_ok _ _ _ _ _ _ _ h1]
    rfl
  | some body =>
    have h1 := read_line_else_line X H stray fuel
      ⟨ns, sc, false, false, .IS_off :: base, bn, cmd, prm, ws0, sl⟩ w hstray rfl rfl
    simp only [handle_else_command] at h1
    simp only [else_lines, List.cons_append, Option.getD_some]
    rw [read_lines_cons_ok _ _ _ _ _ _ _ (h1.trans rfl)]
    have h2 := read_lines_plain_emit X H stray fuel body
      ⟨ns, sc, false, false, .IS_else :: base, bn, "else".toList, [], ws0, sl⟩ w rfl rfl
      (by simp [failed_if]) (hother body rfl)
    rw [read_lines_append, h2]
    rcases emit_lines X fuel sc body ws0 w with e | ⟨ws, w2⟩
    · rfl
    · have h3 := read_line_endif_line X H stray fuel
        ⟨ns, sc, false, false, .IS_else :: base, bn, "else".toList, [], ws, sl⟩ w2 hstray rfl rfl
      simp only [handle_endif_command] at h3
      simp only
      rw [read_lines_cons_ok _ _ _ _ _ _ _ h3]
      rfl

theorem chain_tail_search (X : External) (H : Handlers) (stray : Char) (fuel : Nat)
    (hstray : stray ≠ '\\') (otherwise : Option (List Str))
    (hother : ∀ body, otherwise = some body → ∀ l ∈ body, plain_text l) :
    ∀ (branches : List (Str × List Str)) (cf : PPCommandFile) (w : World)
      (base : List IfState), cf._got_command = false → cf._in_for = false →
      cf._if_nesting = .IS_off :: base →
      (∀ b ∈ branches, parameter_text b.1 ∧ ∀ l ∈ b.2, plain_text l) →
      read_lines (read_line X H stray fuel) (elif_lines branches ++ else_lines otherwise) cf w =
        match select_body X fuel cf._scope w branches otherwise with
        | .error e => .error e
        | .ok (chosen, w1) =>
          match emit_lines X fuel cf._scope chosen cf._write_state w1 with
          | .error e => .error e
          | .ok (ws, w2) =>
            .ok (true, { cf with _if_nesting := base, _command := "endif".toList,
                                 _params := [], _write_state := ws }, w2) := by
  intro branches
  induction branches with
  | nil =>
    intro cf w base hgot hfor hif _
    simpa [elif_lines, select_body] using
      else_lines_search X H stray fuel hstray otherwise hother cf w base hgot hfor hif
  | cons b rest ih =>
    intro cf w base hgot hfor hif hb
    obtain ⟨c, body⟩ := b
    obtain ⟨ns, sc, got, infor, ifn, bn, cmd, prm, ws0, sl⟩ := cf
    simp only at hgot hfor hif
    subst hgot hfor hif
    have hc := hb (c, body) (by simp)
    have h1 := read_line_elif_line X H stray fuel
      ⟨ns, sc, false, false, .IS_off :: base, bn, cmd, prm, ws0, sl⟩ w c hstray rfl rfl hc.1
    simp only [handle_elif_command, reduceCtorEq, if_false, or_self, Bool.false_eq_true,
      not_false_eq_true, if_true] at h1
    rw [elif_lines_cons, List.cons_append, List.append_assoc]
    simp only [select_body]
    rcases hexp : expand_string X fuel w sc (c.dropWhile isspace) with e | ⟨text, w1⟩
    · rw [hexp] at h1
      simp only [read_lines, h1]
    · rw [hexp] at h1
      simp only at h1
      cases hempty : text.all isspace with
      | true =>
        simp only [is_empty_params, hempty, if_true] at h1
        rw [read_lines_cons_ok _ _ _ _ _ _ _ h1]
        have h2 := read_lines_plain_skip X H stray fuel
          ⟨ns, sc, false, false, .IS_off :: base, bn, "elif".toList, text, ws0, sl⟩
          w1 rfl rfl (by simp [failed_if]) body hc.2
        rw [read_lines_append_ok _ _ _ _ _ _ _ h2]
        simp only [hempty, if_true]
        have h3 := ih ⟨ns, sc, false, false, .IS_off :: base, bn, "elif".toList, text, ws0, sl⟩
          w1 base rfl rfl rfl (fun x hx => hb x (by simp [hx]))
        simp only at h3
        exact h3
      | false =>
        simp only [is_empty_params, hempty, Bool.false_eq_true, if_false] at h1
        rw [read_lines_cons_ok _ _ _ _ _ _ _ h1]
        have h2 := read_lines_plain_emit X H stray fuel body
          ⟨ns, sc, false, false, .IS_on :: base, bn, "elif".toList, text, ws0, sl⟩ w1 rfl rfl
          (by simp [failed_if]) hc.2
        rw [read_lines_append, h2]
        simp only [hempty, Bool.false_eq_true, if_false]
        rcases emit_lines X fuel sc body ws0 w1 with e | ⟨ws, w2⟩
        · rfl
        · exact chain_tail_done X H stray fuel hstray otherwise hother rest
            ⟨ns, sc, false, false, .IS_on :: base, bn, "elif".toList, text, ws, sl⟩ w2 .IS_on
            base rfl rfl rfl (Or.inl rfl) (fun x hx => hb x (by simp [hx]))

/-- C12 (amended): outside capture mode and outside a failing if-branch,
reading the chain `#if c` body, `#elif c2` body2, ..., `#else` bodyN,
`#endif` with bodies of plain text does what emitting the lines of the one
selected body does, and nothing else: the conditions are expanded in order
until one holds a character that is not whitespace, its body (or else the
`#else` body, or no line) is expanded and written, and the frame is closed.
With a condition of whitespace and an `#else`, only the `#else` body is
emitted. -/
theorem if_chain_emits_selected_body (X : External) (H : Handlers) (stray : Char)
    (fuel : Nat) (cf : PPCommandFile) (w : World) (c : Str) (body : List Str)
    (branches : List (Str × List Str)) (otherwise : Option (List Str))
    (hstray : stray ≠ '\\') (hgot : cf._got_command = false) (hfor : cf._in_for = false)
    (hif : failed_if cf = false)
    (hconds : ∀ b ∈ (c, body) :: branches, parameter_text b.1 ∧ ∀ l ∈ b.2, plain_text l)
    (hother : ∀ lines, otherwise = some lines → ∀ l ∈ lines, plain_text l) :
    (read_lines (read_line X H stray fuel) (chain_lines (c, body) branches otherwise) cf w =
      match select_body X fuel cf._scope w ((c, body) :: branches) otherwise with
      | .error e => .error e
      | .ok (chosen, w1) =>
        match emit_lines X fuel cf._scope chosen cf._write_state w1 with
        | .error e => .error e
        | .ok (ws, w2) =>
          .ok (true, { cf with _command := "endif".toList, _params := [],
                               _write_state := ws }, w2)) ∧
    (∀ text w1, expand_string X fuel w cf._scope (c.dropWhile isspace) = .ok (text, w1) →
      text.all isspace = true → branches = [] →
      select_body X fuel cf._scope w ((c, body) :: branches) otherwise =
        .ok (otherwise.getD [], w1)) := by
  refine ⟨?_, ?_⟩
  · obtain ⟨ns, sc, got, infor, ifn, bn, cmd, prm, ws0, sl⟩ := cf
    simp only at hgot hfor
    subst hgot hfor
    have hc := hconds (c, body) (by simp)
    have hrest : ∀ b ∈ branches, parameter_text b.1 ∧ ∀ l ∈ b.2, plain_text l :=
      fun x hx => hconds x (by simp [hx])
    have h1 := read_line_if_line X H stray fuel
      ⟨ns, sc, false, false, ifn, bn, cmd, prm, ws0, sl⟩ w c hstray rfl rfl hc.1
    have hif2 : failed_if ⟨ns, sc, false, false, ifn, bn, "if".toList, c.dropWhile isspace,
        ws0, sl⟩ = false := hif
    simp only [handle_if_command, hif2, Bool.false_eq_true, if_false, not_false_eq_true,
      if_true] at h1
    simp only [chain_lines, List.cons_append, select_body]
    rcases hexp : expand_string X fuel w sc (c.dropWhile isspace) with e | ⟨text, w1⟩
    · rw [hexp] at h1
      simp only [read_lines, h1]
    · rw [hexp] at h1
      simp only at h1
      cases hempty : text.all isspace with
      | true =>
        simp only [is_empty_params, hempty, if_true] at h1
        rw [read_lines_cons_ok _ _ _ _ _ _ _ h1]
        have h2 := read_lines_plain_skip X H stray fuel
          ⟨ns, sc, false, false, .IS_off :: ifn, bn, "if".toList, text, ws0, sl⟩
          w1 rfl rfl (by simp [failed_if]) body hc.2
        rw [read_lines_append_ok _ _ _ _ _ _ _ h2]
        simp only [hempty, if_true]
        have h3 := chain_tail_search X H stray fuel hstray otherwise hother branches
          ⟨ns, sc, false, false, .IS_off :: ifn, bn, "if".toList, text, ws0, sl⟩
          w1 ifn rfl rfl rfl hrest
        simp only at h3
        exact h3
      | false =>
        simp only [is_empty_params, hempty, Bool.false_eq_true, if_false] at h1
        rw [read_lines_cons_ok _ _ _ _ _ _ _ h1]
        have h2 := read_lines_plain_emit X H stray fuel body
          ⟨ns, sc, false, false, .IS_on :: ifn, bn, "if".toList, text, ws0, sl⟩ w1 rfl rfl
          (by simp [failed_if]) hc.2
        rw [read_lines_append, h2]
        simp only [hempty, Bool.false_eq_true, if_false]
        rcases emit_lines X fuel sc body ws0 w1 with e | ⟨ws, w2⟩
        · rfl
        · exact chain_tail_done X H stray fuel hstray otherwise hother branches
            ⟨ns, sc, false, false, .IS_on :: ifn, bn, "if".toList, text, ws, sl⟩ w2 .IS_on
            ifn rfl rfl rfl (Or.inl rfl) hrest
  · intro text w1 hexp hempty hb
    subst hb
    simp only [select_body, hexp, hempty, if_true]

theorem if_chain_emits_selected_body_witness :
    ((' ' : Char) ≠ '\\' ∧ (new_command_file 0)._got_command = false ∧
      (new_command_file 0)._in_for = false ∧ failed_if (new_command_file 0) = false) ∧
    (read_lines (read_line quiet idle_handlers ' ' 30) (yes_no_chain "  ".toList)
        (new_command_file 0) (world_of [empty_scope])).map (fun r => (r.1, r.2.2.streams)) =
      .ok (true, ["no\n".toList]) ∧
    read_lines (read_line quiet idle_handlers ' ' 30)
        (chain_lines ("  ".toList, ["yes".toList]) [] (some ["no".toList]))
        (new_command_file 0) (world_of [empty_scope]) =
      match select_body quiet 30 0 (world_of [empty_scope]) [("  ".toList, ["yes".toList])]
          (some ["no".toList]) with
      | .error e => .error e
      | .ok (chosen, w1) =>
        match emit_lines quiet 30 0 chosen (new_command_file 0)._write_state w1 with
        | .error e => .error e
        | .ok (ws, w2) =>
          .ok (true, { new_command_file 0 with _command := "endif".toList, _params := [],
                                               _write_state := ws }, w2) :=
  ⟨⟨by decide, rfl, rfl, rfl⟩, by decide!,
   (if_chain_emits_selected_body quiet idle_handlers ' ' 30 (new_command_file 0)
      (world_of [empty_scope]) "  ".toList ["yes".toList] [] (some ["no".toList])
      (by decide) rfl rfl rfl (by decide) (by decide)).1⟩

/-- C12, as stated, fails for a chain that stands in a failing if-branch:
after the line `#if` with an empty condition, the chain `#if 1`, `yes`,
`#else`, `no`, `#endif` is read outside capture mode, its first condition
expands to `1` and its body would be written as `yes`, but no line is
emitted. -/
theorem chain_in_failing_branch_emits_nothing :
    read_lines (example_reader 30 1) ["#if".toList] (new_command_file 0)
        (world_of [empty_scope]) =
      .ok (true, in_failing_branch, world_of [empty_scope]) ∧
    in_failing_branch._in_for = false ∧
    select_body quiet 30 0 (world_of [empty_scope]) [("1".toList, ["yes".toList])]
        (some ["no".toList]) = .ok (["yes".toList], world_of [empty_scope]) ∧
    (emit_lines quiet 30 0 ["yes".toList] in_failing_branch._write_state
        (world_of [empty_scope])).map (fun r => r.2.streams) = .ok ["yes\n".toList] ∧
    (read_lines (example_reader 30 1) (yes_no_chain "1".toList) in_failing_branch
        (world_of [empty_scope])).map (fun r => (r.1, r.2.2.streams)) = .ok (true, [[]]) := by
  refine ⟨?_, rfl, ?_, ?_, ?_⟩ <;> decide!

/-! ### C15: the replay of a `#foreach` block -/

theorem tokenize_whitespace_loop_token :
    ∀ (s cur : Str), (∀ c ∈ cur, isspace c = false) →
      ∀ t ∈ tokenize_whitespace_loop cur s, t ≠ [] ∧ ∀ c ∈ t, isspace c = false := by
  intro s
  induction s with
  | nil =>
    intro cur hcur t ht
    cases cur with
    | nil => simp [tokenize_whitespace_loop] at ht
    | cons a l =>
      simp only [tokenize_whitespace_loop, List.isEmpty_cons, Bool.false_eq_true, if_false,
        List.mem_singleton] at ht
      subst ht
      exact ⟨by simp, hcur⟩
  | cons a s ih =>
    intro cur hcur t ht
    simp only [tokenize_whitespace_loop] at ht
    cases ha : isspace a with
    | true =>
      simp only [ha, if_true] at ht
      cases cur with
      | nil =>
        simp only [List.isEmpty_nil, if_true] at ht
        exact ih [] (by simp) t ht
      | cons b l =>
        simp only [List.isEmpty_cons, Bool.false_eq_true, if_false, List.mem_cons] at ht
        rcases ht with rfl | ht
        · exact ⟨by simp, hcur⟩
        · exact ih [] (by simp) t ht
    | false =>
      simp only [ha, Bool.false_eq_true, if_false] at ht
      refine ih (cur ++ [a]) ?_ t ht
      intro c hc
      rcases List.mem_append.1 hc with h | h
      · exact hcur c h
      · simp only [List.mem_singleton] at h
        subst h
        exact ha

theorem tokenize_whitespace_token (s t : Str) (ht : t ∈ tokenize_whitespace s) :
    t ≠ [] ∧ ∀ c ∈ t, isspace c = false :=
  tokenize_whitespace_loop_token s [] (by simp) t ht

theorem dropWhile_isspace_word (x : Str) (hx : ∀ c ∈ x, isspace c = false) :
    x.dropWhile isspace = x := by
  cases x with
  | nil => rfl
  | cons a l => simp [List.dropWhile_cons, hx a (by simp)]

theorem trim_blanks_word (x : Str) (hx : ∀ c ∈ x, isspace c = false) : trim_blanks x = x := by
  have h1 : x.reverse.dropWhile isspace = x.reverse :=
    dropWhile_isspace_word _ (fun c hc => hx c (List.mem_reverse.1 hc))
  simp [trim_blanks, strip_trailing, dropWhile_isspace_word x hx, h1]

theorem plain_name_not_reference (x : Str) (hx : plain_name x) : ¬ reference_open <:+: x := by
  intro h
  have : VARIABLE_OPEN_BRACE ∈ x := h.subset (by simp [reference_open])
  exact (hx _ this).2.1 rfl

theorem read_line_foreach_line (X : External) (H : Handlers) (stray : Char) (fuel : Nat)
    (cf : PPCommandFile) (w : World) (params : Str) (hstray : stray ≠ '\\')
    (hgot : cf._got_command = false) (hfor : cf._in_for = false) (hif : failed_if cf = false)
    (hp : parameter_text params) :
    read_line X H stray fuel cf w ("#foreach ".toList ++ params) =
      H.handle_foreach_command
        { cf with _command := "foreach".toList, _params := params.dropWhile isspace } w := by
  obtain ⟨ns, sc, got, infor, ifn, bn, cmd, prm, ws0, sl⟩ := cf
  simp only at hgot hfor
  subst hgot hfor
  have h1 := read_line_with_params X H stray fuel
    ⟨ns, sc, false, false, ifn, bn, cmd, prm, ws0, sl⟩
    w 'f' "oreach".toList params rfl (by decide) (by decide) hp.1
  have h2 := handle_command_foreach X H stray fuel
    ⟨ns, sc, false, false, ifn, bn, cmd, prm, ws0, sl⟩
    w (params.dropWhile isspace) (getLast?_getD_ne _ stray hstray hp.2) hif
  simp only [Bool.false_eq_true, if_false] at h1
  exact h1.trans h2

theorem read_line_end_line (X : External) (H : Handlers) (stray : Char) (fuel : Nat)
    (cf : PPCommandFile) (w : World) (x : Str) (hstray : stray ≠ '\\')
    (hgot : cf._got_command = false) (hfor : cf._in_for = true) (hif : failed_if cf = false)
    (hp : parameter_text x) :
    read_line X H stray fuel cf w ("#end ".toList ++ x) =
      H.handle_end_command
        { cf with _saved_lines := cf._saved_lines ++ ["#end ".toList ++ x],
                  _command := "end".toList, _params := x.dropWhile isspace } w := by
  obtain ⟨ns, sc, got, infor, ifn, bn, cmd, prm, ws0, sl⟩ := cf
  simp only at hgot hfor
  subst hgot hfor
  have h1 := read_line_with_params X H stray fuel
    ⟨ns, sc, false, true, ifn, bn, cmd, prm, ws0, sl⟩
    w 'e' "nd".toList x rfl (by decide) (by decide) hp.1
  have h2 := handle_command_end X H stray fuel
    ⟨ns, sc, false, true, ifn, bn, cmd, prm, ws0, sl ++ ["#end ".toList ++ x]⟩
    w (x.dropWhile isspace) (getLast?_getD_ne _ stray hstray hp.2) hif
  simp only [if_true] at h1
  exact h1.trans h2

theorem replay_foreach_loop_plain (X : External) (H : Handlers) (stray : Char) (fuel : Nat)
    (x : Str) (body : List Str) (hbody : ∀ l ∈ body, plain_text l) :
    ∀ (words : List Str) (cf : PPCommandFile) (w : World), cf._got_command = false →
      cf._in_for = false → failed_if cf = false →
      replay_foreach_loop (read_line X H stray fuel) x body words true cf w =
        match replay_words X fuel cf._scope x body words cf._write_state w with
        | .error e => .error e
        | .ok (ws, w2) => .ok (true, { cf with _write_state := ws }, w2) := by
  intro words
  induction words with
  | nil => intro cf w _ _ _; simp [replay_foreach_loop, replay_words]
  | cons word rest ih =>
    intro cf w hgot hfor hif
    obtain ⟨ns, sc, got, infor, ifn, bn, cmd, prm, ws0, sl⟩ := cf
    simp only at hgot hfor
    subst hgot hfor
    simp only [replay_foreach_loop, replay_words]
    rcases define_variable w sc x word with e | w1
    · rfl
    · simp only
      rw [replay_lines_plain_emit X H stray fuel body
        ⟨ns, sc, false, false, ifn, bn, cmd, prm, ws0, sl⟩ w1 rfl rfl hif hbody]
      simp only
      rcases emit_lines X fuel sc body ws0 w1 with e | ⟨ws, w2⟩
      · rfl
      · exact ih ⟨ns, sc, false, false, ifn, bn, cmd, prm, ws, sl⟩ w2 rfl rfl hif

theorem read_lines_singleton (reader : Reader) (l : Str) (cf : PPCommandFile) (w : World) :
    read_lines reader [l] cf w = reader cf w l := by
  simp only [read_lines]
  rcases reader cf w l with e | ⟨b, cf2, w2⟩
  · rfl
  · cases b <;> rfl

theorem foreach_block_replays (X : External) (B : Reader → Handlers) (stray : Char)
    (fuel depth : Nat) (cf : PPCommandFile) (w w1 w2 : World) (params text x cmd prm : Str)
    (words body saved : List Str) (hstray : stray ≠ '\\') (hgot : cf._got_command = false)
    (hfor : cf._in_for = false) (hif : failed_if cf = false)
    (hparams : parameter_text params)
    (hexp : expand_string X fuel w cf._scope (params.dropWhile isspace) = .ok (text, w1))
    (htok : tokenize_whitespace text = x :: words)
    (hname : plain_name x) (hx : parameter_text x) (hfuel : x.length < fuel)
    (hcap : read_lines (read_line_rec X B stray fuel (depth + 1)) body
        { cf with
          _in_for := true,
          _block_nesting :=
            open_block .BS_foreach x words
              { cf with _command := "foreach".toList, _params := params.dropWhile isspace } ::
              cf._block_nesting,
          _command := "foreach".toList,
          _params := params.dropWhile isspace,
          _saved_lines := [] } w1 =
      .ok (true,
        { cf with
          _in_for := true,
          _block_nesting :=
            open_block .BS_foreach x words
              { cf with _command := "foreach".toList, _params := params.dropWhile isspace } ::
              cf._block_nesting,
          _command := cmd,
          _params := prm,
          _saved_lines := saved }, w2)) :
    read_lines (read_line_rec X B stray fuel (depth + 1))
        (("#foreach ".toList ++ params) :: body ++ ["#end ".toList ++ x]) cf w =
      replay_foreach_loop (read_line_rec X B stray fuel depth) x saved words true
        { cf with _command := "end".toList, _params := x, _saved_lines := [] } w2 := by
  obtain ⟨ns, sc, got, infor, ifn, bn, cmd0, prm0, ws0, sl⟩ := cf
  simp only at hgot hfor hexp hcap
  subst hgot hfor
  have hxw := (tokenize_whitespace_token text x (by simp [htok])).2
  have hxd : x.dropWhile isspace = x := dropWhile_isspace_word x hxw
  have hr : read_line_rec X B stray fuel (depth + 1) =
      read_line X (interpreter_handlers X B fuel (read_line_rec X B stray fuel depth))
        stray fuel := rfl
  have h1 := read_line_foreach_line X
    (interpreter_handlers X B fuel (read_line_rec X B stray fuel depth)) stray fuel
    ⟨ns, sc, false, false, ifn, bn, cmd0, prm0, ws0, sl⟩ w params hstray rfl rfl hif hparams
  have h1b : read_line_rec X B stray fuel (depth + 1)
      ⟨ns, sc, false, false, ifn, bn, cmd0, prm0, ws0, sl⟩ w ("#foreach ".toList ++ params) =
      .ok (true, ⟨ns, sc, false, true, ifn,
        open_block .BS_foreach x words
          ⟨ns, sc, false, false, ifn, bn, "foreach".toList, params.dropWhile isspace, ws0, sl⟩
          :: bn,
        "foreach".toList, params.dropWhile isspace, ws0, []⟩, w1) := by
    rw [hr, h1]
    simp only [interpreter_handlers, handle_foreach_command, hexp, htok, begin_capture,
      Bool.false_eq_true, if_false]
  rw [List.cons_append, read_lines_cons_ok _ _ _ _ _ _ _ h1b,
    read_lines_append_ok _ _ _ _ _ _ _ hcap, read_lines_singleton, hr]
  have h3 := read_line_end_line X
    (interpreter_handlers X B fuel (read_line_rec X B stray fuel depth)) stray fuel
    ⟨ns, sc, false, true, ifn,
        open_block .BS_foreach x words
          ⟨ns, sc, false, false, ifn, bn, "foreach".toList, params.dropWhile isspace, ws0, sl⟩
          :: bn,
        cmd, prm, ws0, saved⟩ w2 x hstray rfl rfl hif hx
  have hexpx : expand_string X fuel w2 sc x = .ok (x, w2) :=
    r_expand_string_plain X w2 sc [] x fuel (plain_name_not_reference x hname) hfuel
  have hempty : (saved ++ ["#end ".toList ++ x]).isEmpty = false := by
    cases saved <;> rfl
  rw [h3]
  simp only [interpreter_handlers, handle_end_command, hxd, hexpx, trim_blanks_word x hxw,
    open_block, ne_eq, not_true_eq_false, if_false, replay_foreach, hempty,
    List.dropLast_concat, Bool.false_eq_true]

/-- C15: outside capture mode and outside a failing if-branch, reading the
block `#foreach` with parameters that expand to the words `x w1 ... wn`, a
body and `#end x` is the loop of `replay_foreach` over the captured body:
for every word, in order, `x` is defined as the word in the current scope
and the lines of the body are read again; with no word nothing is read.  For
a body of plain text this is what the spec says: per word, `x` is defined
and the lines of the body are emitted, n times in all.  The block
`#foreach x a b`, `#foreach y 1 2`, `$[x]$[y]`, `#end y`, `#end x` emits
`a1`, `a2`, `b1`, `b2` in that order. -/
theorem foreach_replays_body_per_word (X : External) (B : Reader → Handlers) (stray : Char)
    (fuel depth : Nat) (cf : PPCommandFile) (w w1 : World) (params text x : Str)
    (words body : List Str) (hstray : stray ≠ '\\') (hgot : cf._got_command = false)
    (hfor : cf._in_for = false) (hif : failed_if cf = false)
    (hparams : parameter_text params)
    (hexp : expand_string X fuel w cf._scope (params.dropWhile isspace) = .ok (text, w1))
    (htok : tokenize_whitespace text = x :: words)
    (hname : plain_name x) (hx : parameter_text x) (hfuel : x.length < fuel) :
    (∀ (saved : List Str) (cmd prm : Str) (w2 : World),
      read_lines (read_line_rec X B stray fuel (depth + 1)) body
          { cf with
            _in_for := true,
            _block_nesting :=
              open_block .BS_foreach x words
                { cf with _command := "foreach".toList,
                          _params := params.dropWhile isspace } :: cf._block_nesting,
            _command := "foreach".toList,
            _params := params.dropWhile isspace,
            _saved_lines := [] } w1 =
        .ok (true,
          { cf with
            _in_for := true,
            _block_nesting :=
              open_block .BS_foreach x words
                { cf with _command := "foreach".toList,
                          _params := params.dropWhile isspace } :: cf._block_nesting,
            _command := cmd,
            _params := prm,
            _saved_lines := saved }, w2) →
      read_lines (read_line_rec X B stray fuel (depth + 1))
          (("#foreach ".toList ++ params) :: body ++ ["#end ".toList ++ x]) cf w =
        replay_foreach_loop (read_line_rec X B stray fuel depth) x saved words true
          { cf with _command := "end".toList, _params := x, _saved_lines := [] } w2) ∧
    ((∀ l ∈ body, plain_text l) →
      read_lines (read_line_rec X B stray fuel (depth + 2))
          (("#foreach ".toList ++ params) :: body ++ ["#end ".toList ++ x]) cf w =
        match replay_words X fuel cf._scope x body words cf._write_state w1 with
        | .error e => .error e
        | .ok (ws, w2) =>
          .ok (true, { cf with _command := "end".toList, _params := x, _write_state := ws,
                               _saved_lines := [] }, w2)) ∧
    (words = [] → ∀ (reader : Reader) (saved : List Str) (cf2 : PPCommandFile) (w2 : World),
      replay_foreach_loop reader x saved words true cf2 w2 = .ok (true, cf2, w2)) ∧
    (read_lines (example_reader 30 3)
        ["#foreach x a b".toList, "#foreach y 1 2".toList, "$[x]$[y]".toList,
         "#end y".toList, "#end x".toList]
        (new_command_file 0) (world_of [empty_scope])).map (fun r => (r.1, r.2.2.streams)) =
      .ok (true, ["a1\na2\nb1\nb2\n".toList]) := by
  refine ⟨?_, ?_, ?_, by decide!⟩
  · intro saved cmd prm w2 hcap
    exact foreach_block_replays X B stray fuel depth cf w w1 w2 params text x cmd prm words
      body saved hstray hgot hfor hif hparams hexp htok hname hx hfuel hcap
  · intro hbody
    obtain ⟨ns, sc, got, infor, ifn, bn, cmd, prm, ws0, sl⟩ := cf
    simp only at hgot hfor hexp
    subst hgot hfor
    have h2 := read_lines_plain_capture X
      (interpreter_handlers X B fuel (read_line_rec X B stray fuel (depth + 1))) stray fuel w1
      body ⟨ns, sc, false, true, ifn,
          open_block .BS_foreach x words
            ⟨ns, sc, false, false, ifn, bn, "foreach".toList, params.dropWhile isspace, ws0, sl⟩
            :: bn,
          "foreach".toList, params.dropWhile isspace, ws0, []⟩ rfl rfl hbody
    simp only [List.nil_append] at h2
    have h3 := foreach_block_replays X B stray fuel (depth + 1)
      ⟨ns, sc, false, false, ifn, bn, cmd, prm, ws0, sl⟩ w w1 w1 params text x
      "foreach".toList (params.dropWhile isspace) words body body hstray rfl rfl hif hparams
      hexp htok hname hx hfuel h2
    have h4 := replay_foreach_loop_plain X
      (interpreter_handlers X B fuel (read_line_rec X B stray fuel depth)) stray fuel x body
      hbody words ⟨ns, sc, false, false, ifn, bn, "end".toList, x, ws0, []⟩ w1 rfl rfl hif
    have hr : read_line_rec X B stray fuel (depth + 1) =
        read_line X (interpreter_handlers X B fuel (read_line_rec X B stray fuel depth))
          stray fuel := rfl
    rw [h3, hr]
    exact h4
  · intro h reader saved cf2 w2
    subst h
    rfl

theorem foreach_replays_body_per_word_witness :
    (expand_string quiet 30 (world_of [empty_scope]) (new_command_file 0)._scope
        ("x a b".toList.dropWhile isspace) = .ok ("x a b".toList, world_of [empty_scope]) ∧
      tokenize_whitespace "x a b".toList = "x".toList :: ["a".toList, "b".toList] ∧
      plain_name "x".toList ∧ parameter_text "x".toList ∧ plain_text "<$[x]>".toList) ∧
    (replay_words quiet 30 0 "x".toList ["<$[x]>".toList] ["a".toList, "b".toList]
        (new_command_file 0)._write_state (world_of [empty_scope])).map
        (fun r => r.2.streams) = .ok ["<a>\n<b>\n".toList] ∧
    read_lines (read_line_rec quiet (fun _ => idle_handlers) ' ' 30 (0 + 2))
        (("#foreach ".toList ++ "x a b".toList) :: ["<$[x]>".toList] ++
          ["#end ".toList ++ "x".toList])
        (new_command_file 0) (world_of [empty_scope]) =
      match replay_words quiet 30 (new_command_file 0)._scope "x".toList ["<$[x]>".toList]
          ["a".toList, "b".toList] (new_command_file 0)._write_state
          (world_of [empty_scope]) with
      | .error e => .error e
      | .ok (ws, w2) =>
        .ok (true, { new_command_file 0 with _command := "end".toList, _params := "x".toList,
                                             _write_state := ws, _saved_lines := [] }, w2) :=
  ⟨⟨by decide!, by decide!, by decide, by decide, by decide⟩, by decide!,
   (foreach_replays_body_per_word quiet (fun _ => idle_handlers) ' ' 30 0 (new_command_file 0)
      (world_of [empty_scope]) (world_of [empty_scope]) "x a b".toList "x a b".toList
      "x".toList ["a".toList, "b".toList] ["<$[x]>".toList] (by decide) rfl rfl rfl
      (by decide) (by decide!) (by decide!) (by decide) (by decide)
      (by decide)).2.1 (by decide)⟩

/-! ### C11: `expand_self_reference` -/

theorem reference_getElem?_zero (v T : Str) : (reference v ++ T)[0]? = some '$' := rfl

theorem reference_getElem?_one (v T : Str) : (reference v ++ T)[1]? = some '[' := by
  simp [reference, VARIABLE_OPEN_BRACE]

theorem reference_length (v : Str) : (reference v).length = v.length + 3 := by
  simp [reference]

theorem reference_getElem?_tail (v : Str) (hv : ∀ c ∈ v, c ≠ '[') (i : Nat) :
    (reference v)[i + 2]? ≠ some '[' := by
  intro h
  have h1 : (v ++ [']'])[i]? = some '[' := by simpa [reference] using h
  have h2 := List.getElem?_mem h1
  rcases List.mem_append.1 h2 with h3 | h3
  · exact hv _ h3 rfl
  · simp at h3

theorem reference_getElem?_last (v : Str) : (reference v)[v.length + 2]? = some ']' := by
  simp [reference, VARIABLE_CLOSE_BRACE]

theorem reference_no_straddle (v A T : Str) (hv : ∀ c ∈ v, c ≠ '[') (hA : A ≠ [])
    (hinf : ¬ reference v <:+: A) : ¬ reference v <+: A ++ (reference v ++ T) := by
  intro h
  have hlen := reference_length v
  have hk : 1 ≤ A.length := by
    cases A with
    | nil => exact absurd rfl hA
    | cons a l => simp
  by_cases hle : (reference v).length ≤ A.length
  · exact hinf
      (List.prefix_of_prefix_length_le h (List.prefix_append A _) hle).isInfix
  · have hget : ∀ i, i < (reference v).length →
        (A ++ (reference v ++ T))[i]? = (reference v)[i]? := by
      intro i hi
      rw [List.isPrefix_iff] at h
      rw [h i hi, List.getElem?_eq_getElem hi]
    have h0 := hget A.length (by omega)
    rw [List.getElem?_append_right (Nat.le_refl _), Nat.sub_self,
      reference_getElem?_zero] at h0
    by_cases hlast : A.length + 1 < (reference v).length
    · have h1 := hget (A.length + 1) hlast
      rw [List.getElem?_append_right (Nat.le_succ _),
        (by omega : A.length + 1 - A.length = 1), reference_getElem?_one] at h1
      obtain ⟨j, hj⟩ : ∃ j, A.length + 1 = j + 2 := ⟨A.length - 1, by omega⟩
      rw [hj] at h1
      exact reference_getElem?_tail v hv j h1.symm
    · have hAl : A.length = v.length + 2 := by omega
      rw [hAl, reference_getElem?_last] at h0
      exact absurd h0 (by decide)

theorem str_find_reference (v T : Str) (hv : ∀ c ∈ v, c ≠ '[') :
    ∀ A : Str, ¬ reference v <:+: A →
      str_find (reference v) (A ++ (reference v ++ T)) = some A.length := by
  intro A
  induction A with
  | nil =>
    intro _
    have : starts_with (reference v) (reference v ++ T) = true := by
      simp [starts_with]
    have hcons : reference v ++ T =
        VARIABLE_PREFIX :: (VARIABLE_OPEN_BRACE :: (v ++ [VARIABLE_CLOSE_BRACE]) ++ T) := rfl
    rw [List.nil_append]
    rw [hcons] at this ⊢
    simp only [str_find, this, if_true, List.length_nil]
  | cons c cs ih =>
    intro h
    have h1 : starts_with (reference v) (c :: cs ++ (reference v ++ T)) = false := by
      rcases hb : starts_with (reference v) (c :: cs ++ (reference v ++ T)) with _ | _
      · rfl
      · have hp : reference v <+: c :: cs ++ (reference v ++ T) := by
          simpa [starts_with] using hb
        exact absurd hp (reference_no_straddle v (c :: cs) T hv (by simp) h)
    have h2 := ih (fun hs => h (hs.trans (List.suffix_cons c cs).isInfix))
    rw [List.cons_append] at h1 ⊢
    simp only [str_find, h1, h2, Bool.false_eq_true, if_false, Option.map_some',
      List.length_cons]

theorem intercalate_singleton (sep a : Str) : sep.intercalate [a] = a := by
  simp [List.intercalate]

theorem intercalate_append_head (sep x y : Str) (rest : List Str) :
    sep.intercalate ((x ++ y) :: rest) = x ++ sep.intercalate (y :: rest) := by
  cases rest with
  | nil => simp [intercalate_singleton]
  | cons b l => simp [intercalate_cons_cons]

theorem reference_ne_nil (v : Str) : reference v ≠ [] := by simp [reference]

theorem pieces_exist (v : Str) :
    ∀ str : Str, ∃ piece rest, str = (reference v).intercalate (piece :: rest) ∧
      ∀ p ∈ piece :: rest, ¬ reference v <:+: p := by
  intro str
  induction str with
  | nil =>
    refine ⟨[], [], by simp [intercalate_singleton], ?_⟩
    intro p hp h
    simp only [List.mem_singleton] at hp
    subst hp
    exact reference_ne_nil v (List.infix_nil.1 h)
  | cons c cs ih =>
    obtain ⟨p, rest, hcs, hall⟩ := ih
    by_cases h : reference v <:+: c :: p
    · rcases List.infix_cons_iff.1 h with hpre | hinf
      · obtain ⟨t, ht⟩ := hpre
        have hsuf : t <:+ p := by
          refine ⟨(v ++ [VARIABLE_CLOSE_BRACE]).drop 0 |>.cons VARIABLE_OPEN_BRACE, ?_⟩
          have := congrArg List.tail ht
          simpa [reference] using this
        refine ⟨[], t :: rest, ?_, ?_⟩
        · have h1 := intercalate_append_head (reference v) [c] p rest
          have h2 := intercalate_append_head (reference v) (reference v) t rest
          rw [intercalate_cons_cons, List.nil_append, ← h2, ht, hcs]
          simpa using h1.symm
        · intro q hq
          simp only [List.mem_cons] at hq
          rcases hq with rfl | rfl | hq
          · exact fun hh => reference_ne_nil v (List.infix_nil.1 hh)
          · exact fun hh => hall p (by simp) (hh.trans hsuf.isInfix)
          · exact hall q (by simp [hq])
      · exact absurd hinf (hall p (by simp))
    · refine ⟨c :: p, rest, ?_, ?_⟩
      · have h1 := intercalate_append_head (reference v) [c] p rest
        rw [hcs]
        simpa using h1.symm
      · intro q hq
        simp only [List.mem_cons] at hq
        rcases hq with rfl | hq
        · exact h
        · exact hall q (by simp [hq])

theorem r_expand_variable_reference (X : External) (w : World) (sid : Nat) (v T : Str)
    (n : Nat) (hp : plain_name v) (hn : v.length < n) :
    r_expand_variable X (n + 1) w sid [] (reference v ++ T) =
      match expand_reference X (n + 1) w sid v with
      | .error e => .error e
      | .ok (text, w) => .ok ((text, T), w) := by
  have h1 := r_expand_variable_plain X w sid [] v T n hp hn
  have h2 := r_expand_variable_plain X w sid [] v [] n hp hn
  rw [List.append_nil] at h2
  rw [h1, expand_reference, h2]
  simp only [List.not_mem_nil, if_false]
  rcases get_variable X n w sid v with e | ⟨expansion, w1⟩
  · rfl
  · simp only
    rcases r_expand_string X n w1 sid [v] expansion with e | ⟨result, w2⟩ <;> rfl

theorem expand_self_reference_loop_pieces (X : External) (sid : Nat) (v : Str) (n : Nat)
    (hp : plain_name v) (hn : v.length < n) :
    ∀ (rest : List Str) (piece : Str) (steps : Nat) (w : World),
      (∀ p ∈ piece :: rest, ¬ reference v <:+: p) →
      ((reference v).intercalate (piece :: rest)).length < steps →
      expand_self_reference_loop X (n + 1) sid (reference v) steps w
          ((reference v).intercalate (piece :: rest)) =
        replace_self_references X (n + 1) sid v w piece rest := by
  intro rest
  induction rest with
  | nil =>
    intro piece steps w hall hsteps
    obtain ⟨s, rfl⟩ : ∃ s, steps = s + 1 := ⟨steps - 1, by omega⟩
    rw [intercalate_singleton]
    simp only [expand_self_reference_loop, replace_self_references,
      str_find_none_of_not_infix _ piece (hall piece (by simp))]
  | cons next more ih =>
    intro piece steps w hall hsteps
    obtain ⟨s, rfl⟩ : ∃ s, steps = s + 1 := ⟨steps - 1, by omega⟩
    rw [intercalate_cons_cons] at hsteps ⊢
    have hfind := str_find_reference v ((reference v).intercalate (next :: more))
      (fun c hc => (hp c hc).2.1) piece (hall piece (by simp))
    have hlen := reference_length v
    simp only [List.length_append] at hsteps
    simp only [expand_self_reference_loop, replace_self_references, hfind,
      List.drop_left, List.take_left, r_expand_variable_reference X w sid v _ n hp hn]
    rcases expand_reference X (n + 1) w sid v with e | ⟨text, w1⟩
    · rfl
    · simp only
      have hrec := ih next s w1 (fun p hp2 => hall p (by simp at hp2 ⊢; tauto)) (by omega)
      simp only [hrec]

theorem replace_self_references_constant (X : External) (fuel : Nat) (sid : Nat) (v : Str)
    (w : World) (text : Str) (h : expand_reference X fuel w sid v = .ok (text, w)) :
    ∀ (rest : List Str) (piece : Str),
      replace_self_references X fuel sid v w piece rest =
        .ok (text.intercalate (piece :: rest), w) := by
  intro rest
  induction rest with
  | nil => intro piece; simp [replace_self_references, intercalate_singleton]
  | cons next more ih =>
    intro piece
    simp only [replace_self_references, h, ih next, intercalate_cons_cons, List.append_assoc]

theorem expand_string_reference (X : External) (w : World) (sid : Nat) (v : Str) (n : Nat)
    (hp : plain_name v) (hn : v.length < n) :
    expand_string X (n + 2) w sid (reference v) = expand_reference X (n + 1) w sid v := by
  have h2 := r_expand_variable_plain X w sid [] v [] n hp hn
  rw [List.append_nil] at h2
  have hat : at_reference (VARIABLE_PREFIX :: VARIABLE_OPEN_BRACE ::
      (v ++ [VARIABLE_CLOSE_BRACE])) = true := by simp [at_reference]
  have hcons : reference v =
      VARIABLE_PREFIX :: VARIABLE_OPEN_BRACE :: (v ++ [VARIABLE_CLOSE_BRACE]) := rfl
  rw [hcons] at h2
  rw [expand_string, expand_reference, hcons]
  simp only [r_expand_string, hat, if_true, h2, List.not_mem_nil, if_false]
  rcases get_variable X n w sid v with e | ⟨expansion, w1⟩
  · rfl
  · simp only
    rcases r_expand_string X n w1 sid [v] expansion with e | ⟨result, w2⟩
    · rfl
    · simp [r_expand_string]

/-- C11: for a plain name `v`, every string is made of pieces that do not
hold the text `$[v]`, joined by `$[v]`; `expand_self_reference` returns the
pieces unchanged, whatever other references they hold, with every `$[v]`
between them replaced, from left to right, by the expansion of `$[v]`, which
is what `expand_string` makes of the text `$[v]`; and it returns the string
itself when `$[v]` does not occur in it. -/
theorem expand_self_reference_replaces (X : External) (w : World) (sid : Nat) (v : Str)
    (fuel : Nat) (hp : plain_name v) (hfuel : v.length + 1 < fuel) :
    (∀ str : Str, ∃ piece rest, str = (reference v).intercalate (piece :: rest) ∧
      ∀ p ∈ piece :: rest, ¬ reference v <:+: p) ∧
    (∀ (piece : Str) (rest : List Str), (∀ p ∈ piece :: rest, ¬ reference v <:+: p) →
      expand_self_reference X fuel w sid ((reference v).intercalate (piece :: rest)) v =
        replace_self_references X fuel sid v w piece rest) ∧
    (∀ (piece : Str) (rest : List Str) (text : Str),
      (∀ p ∈ piece :: rest, ¬ reference v <:+: p) →
      expand_reference X fuel w sid v = .ok (text, w) →
      expand_self_reference X fuel w sid ((reference v).intercalate (piece :: rest)) v =
        .ok (text.intercalate (piece :: rest), w)) ∧
    (∀ str : Str, ¬ reference v <:+: str →
      expand_self_reference X fuel w sid str v = .ok (str, w)) ∧
    expand_string X (fuel + 1) w sid (reference v) = expand_reference X fuel w sid v := by
  obtain ⟨n, rfl⟩ : ∃ n, fuel = n + 1 := ⟨fuel - 1, by omega⟩
  have hn : v.length < n := by omega
  have hpieces : ∀ (piece : Str) (rest : List Str),
      (∀ p ∈ piece :: rest, ¬ reference v <:+: p) →
      expand_self_reference X (n + 1) w sid ((reference v).intercalate (piece :: rest)) v =
        replace_self_references X (n + 1) sid v w piece rest := fun piece rest hall =>
    expand_self_reference_loop_pieces X sid v n hp hn rest piece _ w hall (Nat.lt_succ_self _)
  refine ⟨pieces_exist v, hpieces, ?_, ?_, expand_string_reference X w sid v n hp hn⟩
  · intro piece rest text hall hexp
    rw [hpieces piece rest hall]
    exact replace_self_references_constant X (n + 1) sid v w text hexp rest piece
  · intro str hstr
    have := hpieces str [] (by simpa using hstr)
    simpa [intercalate_singleton, replace_self_references] using this

theorem expand_self_reference_replaces_witness :
    (plain_name "v".toList ∧ "v".toList.length + 1 < 30) ∧
    "a$[v]b$[w]$[v]".toList =
      (reference "v".toList).intercalate ["a".toList, "b$[w]".toList, []] ∧
    expand_self_reference quiet 30 old_value 0
        ((reference "v".toList).intercalate ["a".toList, "b$[w]".toList, []]) "v".toList =
      .ok ("old".toList.intercalate ["a".toList, "b$[w]".toList, []], old_value) ∧
    "old".toList.intercalate ["a".toList, "b$[w]".toList, []] = "aoldb$[w]old".toList ∧
    (read_lines (example_reader 30 1) ["#defer v $[v] $[w]".toList] (new_command_file 0)
        old_value).map (fun r => (r.1, p_get_variable r.2.2 0 "v".toList)) =
      .ok (true, .ok (some "old $[w]".toList)) :=
  ⟨⟨by decide, by decide⟩, by decide,
   (expand_self_reference_replaces quiet old_value 0 "v".toList 30 (by decide)
      (by decide)).2.2.1 "a".toList ["b$[w]".toList, []] "old".toList (by decide)
      (by decide!),
   by decide, by decide!⟩

/-! ### C28: comments -/

theorem comment_start_from_none (suf : Str) (h : str_find BEGIN_COMMENT suf = none) :
    ∀ at_start, comment_start_from at_start suf = none := by
  induction suf with
  | nil => intro _; rfl
  | cons c cs ih =>
    intro at_start
    simp only [str_find] at h
    split at h
    · cases h
    · rename_i hs
      have hcs : str_find BEGIN_COMMENT cs = none := by
        cases hf : str_find BEGIN_COMMENT cs with
        | none => rfl
        | some x => simp [hf] at h
      simp [comment_start_from, hs, ih hcs]

theorem comment_start_from_marker (suf : Str) :
    ∀ (at_start : Bool) (i : Nat), str_find BEGIN_COMMENT suf = some i →
      comment_start_from at_start suf =
        if marker_qualifies at_start suf i then some i
        else (comment_start_from false (suf.drop (i + 2))).map (· + (i + 2)) := by
  induction suf with
  | nil => intro at_start i h; simp [str_find] at h
  | cons c cs ih =>
    intro at_start i h
    simp only [str_find] at h
    by_cases hs : starts_with BEGIN_COMMENT (c :: cs) = true
    · simp only [hs, if_true, Option.some.injEq] at h
      subst h
      have hp : BEGIN_COMMENT <+: c :: cs := by simpa [starts_with] using hs
      obtain ⟨t, ht⟩ := hp
      simp only [BEGIN_COMMENT, List.cons_append, List.nil_append, List.cons.injEq] at ht
      obtain ⟨rfl, rfl⟩ := ht
      have hslash : isspace '/' = false := by decide
      cases at_start with
      | true => simp [comment_start_from, marker_qualifies, hs]
      | false =>
        simp only [comment_start_from, marker_qualifies, Bool.false_and, Bool.false_eq_true,
          if_false, hslash, if_true, List.drop_succ_cons, List.drop_zero, Option.map_map]
        congr 1
    · have hs2 : starts_with BEGIN_COMMENT (c :: cs) = false := by
        simpa using hs
      simp only [hs2, Bool.false_eq_true, if_false] at h
      obtain ⟨j, hj, rfl⟩ : ∃ j, str_find BEGIN_COMMENT cs = some j ∧ i = j + 1 := by
        cases hf : str_find BEGIN_COMMENT cs with
        | none => simp [hf] at h
        | some x => exact ⟨x, rfl, by simpa [hf] using h.symm⟩
      have hrec := ih (isspace c) j hj
      have hq : marker_qualifies at_start (c :: cs) (j + 1) =
          marker_qualifies (isspace c) cs j := by
        cases j with
        | zero => simp [marker_qualifies]
        | succ k => simp [marker_qualifies]
      simp only [comment_start_from, hs2, Bool.and_false, Bool.false_eq_true, if_false, hrec,
        hq, List.drop_succ_cons]
      split
      · rfl
      · simp only [Option.map_map]
        congr 1


theorem str_find_some_split (pat : Str) :
    ∀ (s : Str) (i : Nat), str_find pat s = some i →
      s = s.take i ++ (pat ++ s.drop (i + pat.length)) := by
  intro s
  induction s with
  | nil =>
    intro i h
    simp only [str_find] at h
    split at h
    · rename_i hp
      cases h
      have : pat = [] := by simpa using hp
      simp [this]
    · cases h
  | cons c cs ih =>
    intro i h
    simp only [str_find] at h
    by_cases hs : starts_with pat (c :: cs) = true
    · simp only [hs, if_true, Option.some.injEq] at h
      subst h
      have hp : pat <+: c :: cs := by simpa [starts_with] using hs
      obtain ⟨t, ht⟩ := hp
      rw [← ht]
      simp
    · have hs2 : starts_with pat (c :: cs) = false := by simpa using hs
      simp only [hs2, Bool.false_eq_true, if_false] at h
      obtain ⟨j, hj, rfl⟩ : ∃ j, str_find pat cs = some j ∧ i = j + 1 := by
        cases hf : str_find pat cs with
        | none => simp [hf] at h
        | some x => exact ⟨x, rfl, by simpa [hf] using h.symm⟩
      have := ih j hj
      have e : j + 1 + pat.length = (j + pat.length) + 1 := by omega
      rw [e]
      simp only [List.take_succ_cons, List.drop_succ_cons, List.cons_append, List.cons.injEq,
        true_and]
      exact this

theorem find_comment_loop_spec (text : Str) :
    ∀ (fuel : Nat) (pre suf : Str) (at_start : Bool), text = pre ++ suf → suf.length < fuel →
      (at_start = true → pre = []) →
      (at_start = false → ∃ p x, pre = p ++ [x] ∧ isspace x = false) →
      find_comment_loop text fuel ((str_find BEGIN_COMMENT suf).map (· + pre.length)) =
        .ok ((comment_start_from at_start suf).map (· + pre.length)) := by
  intro fuel
  induction fuel with
  | zero => intro pre suf at_start _ h; omega
  | succ fuel ih =>
    intro pre suf at_start htext hfuel htrue hfalse
    cases hfind : str_find BEGIN_COMMENT suf with
    | none =>
      simp [find_comment_loop, comment_start_from_none suf hfind]
    | some i =>
      have hsplit := str_find_some_split BEGIN_COMMENT suf i hfind
      have hlen : i + 2 ≤ suf.length := by
        have := congrArg List.length hsplit
        simp only [List.length_append, List.length_take, List.length_drop, BEGIN_COMMENT,
          List.length_cons, List.length_nil] at this
        omega
      have htest : (i + pre.length = 0 ∨
          (text[i + pre.length - 1]?.map isspace) = some true) ↔
          marker_qualifies at_start suf i = true := by
        cases i with
        | zero =>
          cases at_start with
          | true =>
            have := htrue rfl
            subst this
            simp [marker_qualifies]
          | false =>
            obtain ⟨p, x, hp, hx⟩ := hfalse rfl
            subst hp
            subst htext
            have hget : (p ++ [x] ++ suf)[(p ++ [x]).length - 1]? = some x := by
              have e : (p ++ [x]).length - 1 = p.length := by simp
              rw [e, List.append_assoc, List.getElem?_append_right (Nat.le_refl _)]
              simp
            simp only [Nat.zero_add, hget, marker_qualifies, if_true, Option.map_some', hx]
            simp
        | succ k =>
          subst htext
          have e : k + 1 + pre.length - 1 = pre.length + k := by omega
          simp only [marker_qualifies, e, Nat.add_one_ne_zero, if_false, Nat.add_sub_cancel,
            decide_eq_true_eq]
          rw [List.getElem?_append_right (by omega)]
          simp
      simp only [Option.map_some', find_comment_loop]
      rw [comment_start_from_marker suf at_start i hfind]
      by_cases hq : marker_qualifies at_start suf i = true
      · rw [if_pos (htest.2 hq), if_pos hq]
        rfl
      · rw [if_neg (fun h => hq (htest.1 h)), if_neg hq]
        have hdrop : text.drop (i + pre.length + BEGIN_COMMENT.length) = suf.drop (i + 2) := by
          subst htext
          have e : i + pre.length + BEGIN_COMMENT.length = pre.length + (i + 2) := by
            simp [BEGIN_COMMENT]; omega
          rw [e, List.drop_append]
        have hpre : text = (pre ++ (suf.take i ++ BEGIN_COMMENT)) ++ suf.drop (i + 2) := by
          rw [htext]
          conv_lhs => rw [hsplit]
          simp [BEGIN_COMMENT]
        have hplen : (pre ++ (suf.take i ++ BEGIN_COMMENT)).length = i + pre.length + 2 := by
          simp [BEGIN_COMMENT, List.length_take]
          omega
        have := ih (pre ++ (suf.take i ++ BEGIN_COMMENT)) (suf.drop (i + 2)) false hpre
          (by simp only [List.length_drop]; omega) (fun h => by cases h)
          (fun _ => ⟨pre ++ (suf.take i ++ ['/']), '/', by simp [BEGIN_COMMENT], by decide⟩)
        rw [hplen] at this
        simp only [find_from, hdrop]
        have e2 : i + pre.length + BEGIN_COMMENT.length = i + pre.length + 2 := by
          simp [BEGIN_COMMENT]
        rw [e2, this]
        congr 1
        rcases comment_start_from false (suf.drop (i + 2)) with _ | x
        · rfl
        · simp only [Option.map_some', Option.some.injEq]
          omega

theorem find_comment_eq (line : Str) : find_comment line = .ok (comment_start line) := by
  have := find_comment_loop_spec line (line.length + 1) [] line true rfl (Nat.lt_succ_self _)
    (fun _ => rfl) (fun h => by cases h)
  simpa [find_comment, find_from, comment_start] using this

theorem opens_comment_succ (at_start : Bool) (c : Char) (cs : Str) (p : Nat) :
    opens_comment at_start (c :: cs) (p + 1) ↔ opens_comment (isspace c) cs p := by
  cases p with
  | zero => simp [opens_comment]
  | succ k => simp [opens_comment]

theorem comment_start_from_first (s : Str) :
    ∀ at_start : Bool,
      (∀ q, comment_start_from at_start s = some q →
        opens_comment at_start s q ∧ ∀ p, p < q → ¬ opens_comment at_start s p) ∧
      (comment_start_from at_start s = none → ∀ p, ¬ opens_comment at_start s p) := by
  induction s with
  | nil =>
    intro at_start
    refine ⟨fun q h => by simp [comment_start_from] at h, fun _ p h => ?_⟩
    simp [opens_comment, starts_with, BEGIN_COMMENT] at h
  | cons c cs ih =>
    intro at_start
    by_cases h0 : (at_start && starts_with BEGIN_COMMENT (c :: cs)) = true
    · simp only [comment_start_from, h0, if_true, Option.some.injEq]
      refine ⟨?_, fun h => by cases h⟩
      rintro q rfl
      simp only [Bool.and_eq_true] at h0
      exact ⟨by simp [opens_comment, h0.1, h0.2], fun p hp => by omega⟩
    · have hzero : ¬ opens_comment at_start (c :: cs) 0 := by
        intro h
        apply h0
        simp only [opens_comment, List.drop_zero, if_true] at h
        simp [h.1, h.2]
      simp only [comment_start_from, h0, if_false]
      obtain ⟨ih1, ih2⟩ := ih (isspace c)
      refine ⟨?_, ?_⟩
      · intro q hq
        obtain ⟨j, hj, rfl⟩ : ∃ j, comment_start_from (isspace c) cs = some j ∧ q = j + 1 := by
          cases hf : comment_start_from (isspace c) cs with
          | none => simp [hf] at hq
          | some x => exact ⟨x, rfl, by simpa [hf] using hq.symm⟩
        obtain ⟨hopen, hfirst⟩ := ih1 j hj
        refine ⟨(opens_comment_succ at_start c cs j).2 hopen, ?_⟩
        intro p hp
        cases p with
        | zero => exact hzero
        | succ k =>
          rw [opens_comment_succ]
          exact hfirst k (by omega)
      · intro hnone p
        have hn : comment_start_from (isspace c) cs = none := by
          cases hf : comment_start_from (isspace c) cs with
          | none => rfl
          | some x => simp [hf] at hnone
        cases p with
        | zero => exact hzero
        | succ k =>
          rw [opens_comment_succ]
          exact ih2 hn k

theorem comment_start_from_take (s : Str) :
    ∀ (at_start : Bool) (q m : Nat), comment_start_from at_start s = some q → m ≤ q →
      comment_start_from at_start (s.take m) = none := by
  induction s with
  | nil => intro at_start q m h; simp [comment_start_from] at h
  | cons c cs ih =>
    intro at_start q m h hm
    cases m with
    | zero => rfl
    | succ k =>
      by_cases h0 : (at_start && starts_with BEGIN_COMMENT (c :: cs)) = true
      · simp only [comment_start_from, h0, if_true, Option.some.injEq] at h
        omega
      · simp only [comment_start_from, h0, if_false] at h
        obtain ⟨j, hj, rfl⟩ : ∃ j, comment_start_from (isspace c) cs = some j ∧ q = j + 1 := by
          cases hf : comment_start_from (isspace c) cs with
          | none => simp [hf] at h
          | some x => exact ⟨x, rfl, by simpa [hf] using h.symm⟩
        have h1 : ¬ (at_start && starts_with BEGIN_COMMENT (c :: cs.take k)) = true := by
          intro h2
          apply h0
          simp only [Bool.and_eq_true] at h2 ⊢
          refine ⟨h2.1, ?_⟩
          have hp : BEGIN_COMMENT <+: c :: cs.take k := by simpa [starts_with] using h2.2
          have hp2 : BEGIN_COMMENT <+: c :: cs :=
            hp.trans ((List.prefix_cons_inj c).2 (List.take_prefix k cs))
          simpa [starts_with] using hp2
        simp only [List.take_succ_cons, comment_start_from, h1, Bool.false_eq_true, if_false,
          ih (isspace c) j k hj (by omega), Option.map_none']

theorem strip_trailing_initial (s : Str) : strip_trailing s <+: s := by
  unfold strip_trailing
  have h := List.dropWhile_suffix isspace (l := s.reverse)
  have := List.reverse_prefix.2 h
  simpa using this

theorem comment_start_strip (line : Str) (q : Nat) (h : comment_start line = some q) :
    comment_start (strip_trailing (line.take q)) = none := by
  have hp : strip_trailing (line.take q) <+: line :=
    (strip_trailing_initial _).trans (List.take_prefix q line)
  have hlen : (strip_trailing (line.take q)).length ≤ q := by
    have := (strip_trailing_initial (line.take q)).length_le
    simp only [List.length_take] at this
    omega
  rw [List.prefix_iff_eq_take.1 hp]
  exact comment_start_from_take line true q _ h hlen

/-- C28: `read_line` finds the comment of a line at the first position at
which `//` stands at the start of the line or right after a whitespace
character; a `//` after another character, as in `http://x`, opens no
comment.  A line without comment is read as it is; a line with a comment is
read as the text before the comment without the whitespace at its end, and
when nothing is left the line is dropped: nothing is emitted or captured and
the state stays as it was. -/
theorem read_line_strips_comment (X : External) (H : Handlers) (stray : Char) (fuel : Nat)
    (cf : PPCommandFile) (w : World) (text : Str) :
    find_comment text = .ok (comment_start text) ∧
    (∀ q, comment_start text = some q →
      opens_comment true text q ∧ (∀ p, p < q → ¬ opens_comment true text p) ∧
      strip_comment text = strip_trailing (text.take q) ∧
      comment_start (strip_comment text) = none) ∧
    (comment_start text = none →
      (∀ p, ¬ opens_comment true text p) ∧ strip_comment text = text) ∧
    (comment_start text ≠ none → strip_comment text = [] →
      read_line X H stray fuel cf w text = .ok (true, cf, w)) ∧
    (strip_comment text ≠ [] →
      read_line X H stray fuel cf w text =
        read_line X H stray fuel cf w (strip_comment text)) ∧
    comment_start "see http://x".toList = none ∧
    strip_comment "a  // b // c".toList = "a".toList := by
  have hfirst := comment_start_from_first text true
  refine ⟨find_comment_eq text, ?_, ?_, ?_, ?_, by decide, by decide⟩
  · intro q hq
    have hs : strip_comment text = strip_trailing (text.take q) := by
      simp [strip_comment, hq]
    refine ⟨(hfirst.1 q hq).1, (hfirst.1 q hq).2, hs, ?_⟩
    rw [hs]
    exact comment_start_strip text q hq
  · intro hnone
    exact ⟨hfirst.2 hnone, by simp [strip_comment, hnone]⟩
  · intro hsome hempty
    cases hq : comment_start text with
    | none => exact absurd hq hsome
    | some q =>
      simp only [strip_comment, hq] at hempty
      simp [read_line, find_comment_eq, hq, hempty]
  · intro hne
    cases hq : comment_start text with
    | none => simp [strip_comment, hq]
    | some q =>
      have hs : strip_comment text = strip_trailing (text.take q) := by
        simp [strip_comment, hq]
      rw [hs] at hne ⊢
      have hnone := comment_start_strip text q hq
      have hlen : ¬ (strip_trailing (text.take q)).length = 0 := by
        simpa using hne
      simp only [read_line, find_comment_eq, hq, hnone, Option.map_some', ne_eq,
        Option.some.injEq, hlen, not_false_eq_true, if_true, Option.map_none',
        reduceCtorEq]

theorem read_line_strips_comment_witness :
    comment_start "x = 1  // note".toList = some 7 ∧
    strip_comment "x = 1  // note".toList = "x = 1".toList ∧
    read_line quiet idle_handlers ' ' 30 (new_command_file 0) (world_of [empty_scope])
        "x = 1  // note".toList =
      read_line quiet idle_handlers ' ' 30 (new_command_file 0) (world_of [empty_scope])
        (strip_comment "x = 1  // note".toList) ∧
    read_line quiet idle_handlers ' ' 30 (new_command_file 0) (world_of [empty_scope])
        "  // only a comment".toList =
      .ok (true, new_command_file 0, world_of [empty_scope]) :=
  ⟨by decide, by decide,
   (read_line_strips_comment quiet idle_handlers ' ' 30 (new_command_file 0)
      (world_of [empty_scope]) "x = 1  // note".toList).2.2.2.2.1 (by decide),
   (read_line_strips_comment quiet idle_handlers ' ' 30 (new_command_file 0)
      (world_of [empty_scope]) "  // only a comment".toList).2.2.2.1 (by decide) (by decide)⟩

/-! ### C29: commands continued over several lines -/

theorem takeWhile_append_of_dropWhile_ne_nil {α : Type} (p : α → Bool) :
    ∀ (l t : List α), l.dropWhile p ≠ [] →
      (l ++ t).takeWhile p = l.takeWhile p ∧ (l ++ t).dropWhile p = l.dropWhile p ++ t := by
  intro l
  induction l with
  | nil => intro t h; simp at h
  | cons a l ih =>
    intro t h
    by_cases ha : p a = true
    · simp only [List.dropWhile_cons, ha, if_true] at h
      obtain ⟨h1, h2⟩ := ih t h
      simp [List.takeWhile_cons, List.dropWhile_cons, ha, h1, h2]
    · simp [List.takeWhile_cons, List.dropWhile_cons, ha]

theorem not_comment_join (a b : Str) (ha : ¬ BEGIN_COMMENT <:+: a)
    (hb : ¬ BEGIN_COMMENT <:+: b) : ¬ BEGIN_COMMENT <:+: a ++ ' ' :: b := by
  induction a with
  | nil =>
    intro h
    rcases List.infix_cons_iff.1 h with h1 | h1
    · obtain ⟨t, ht⟩ := h1
      simp [BEGIN_COMMENT] at ht
    · exact hb h1
  | cons x a ih =>
    intro h
    rcases List.infix_cons_iff.1 h with h1 | h1
    · apply ha
      obtain ⟨t, ht⟩ := h1
      cases a with
      | nil => simp [BEGIN_COMMENT] at ht
      | cons y a2 =>
        simp only [BEGIN_COMMENT, List.cons_append, List.nil_append, List.cons.injEq] at ht
        obtain ⟨rfl, rfl, _⟩ := ht
        exact (List.prefix_append ['/', '/'] a2).isInfix
    · exact ih (fun h2 => ha (h2.trans (List.suffix_cons x a).isInfix)) h1

theorem not_comment_dropLast (a : Str) (ha : ¬ BEGIN_COMMENT <:+: a) :
    ¬ BEGIN_COMMENT <:+: a.dropLast :=
  fun h => ha (h.trans (List.dropLast_prefix a).isInfix)

theorem not_comment_join_continued (last : Str) (hlast : ¬ BEGIN_COMMENT <:+: last) :
    ∀ lines : List Str, (∀ l ∈ lines, ¬ BEGIN_COMMENT <:+: l) →
      ¬ BEGIN_COMMENT <:+: join_continued lines last := by
  intro lines
  induction lines with
  | nil => intro _; exact hlast
  | cons l ls ih =>
    intro h
    exact not_comment_join _ _ (not_comment_dropLast l (h l (by simp)))
      (ih (fun x hx => h x (by simp [hx])))

theorem read_line_pending (X : External) (H : Handlers) (stray : Char) (fuel : Nat)
    (cf : PPCommandFile) (w : World) (text : Str) (hgot : cf._got_command = true)
    (hfor : cf._in_for = false) (hcomment : ¬ BEGIN_COMMENT <:+: text) :
    read_line X H stray fuel cf w text = handle_command X H stray fuel cf w text := by
  simp only [read_line, find_comment_none _ hcomment]
  simp [hfor, hgot]

theorem handle_command_pending_more (X : External) (H : Handlers) (stray : Char) (fuel : Nat)
    (cf : PPCommandFile) (w : World) (text : Str) (hgot : cf._got_command = true)
    (hlast : text.getLast? = some '\\') :
    handle_command X H stray fuel cf w text =
      .ok (true, { cf with _got_command := true,
                           _params := cf._params ++ text.dropLast ++ " ".toList }, w) := by
  have hne : text ≠ [] := by
    rintro rfl
    simp at hlast
  have h1 : (cf._params ++ text).getLast? = some '\\' := by
    rw [List.getLast?_append_of_ne_nil _ hne]
    exact hlast
  have h2 : (cf._params ++ text).dropLast = cf._params ++ text.dropLast :=
    List.dropLast_append_of_ne_nil _ hne
  have h3 : (cf._params ++ text).isEmpty = false := by
    cases hp : cf._params ++ text with
    | nil => simp at hp; exact absurd hp.2 hne
    | cons a l => rfl
  simp only [handle_command, hgot, if_true, h1, Option.getD_some, h2, h3,
    Bool.false_eq_true, if_false]

theorem handle_command_pending_last (X : External) (H : Handlers) (stray : Char) (fuel : Nat)
    (cf : PPCommandFile) (w : World) (text : Str) (hgot : cf._got_command = true) :
    handle_command X H stray fuel cf w text =
      handle_command X H stray fuel { cf with _params := cf._params ++ text } w [] := by
  simp only [handle_command, hgot, if_true, List.append_nil]


theorem handle_command_start (X : External) (H : Handlers) (stray : Char) (fuel : Nat)
    (cf : PPCommandFile) (w : World) (body t : Str) (hgot : cf._got_command = false)
    (hparams : (body.dropWhile (fun c => !isspace c)).dropWhile isspace ≠ []) :
    handle_command X H stray fuel cf w (body ++ t) =
      handle_command X H stray fuel
        { cf with _command := body.takeWhile (fun c => !isspace c),
                  _params := (body.dropWhile (fun c => !isspace c)).dropWhile isspace ++ t,
                  _got_command := true } w [] := by
  have hd : body.dropWhile (fun c => !isspace c) ≠ [] := by
    intro h
    rw [h] at hparams
    exact hparams rfl
  obtain ⟨h1, h2⟩ := takeWhile_append_of_dropWhile_ne_nil (fun c => !isspace c) body t hd
  obtain ⟨_, h3⟩ := takeWhile_append_of_dropWhile_ne_nil isspace
    (body.dropWhile (fun c => !isspace c)) t hparams
  simp only [handle_command, hgot, h1, h2, h3, if_true, Bool.false_eq_true, if_false,
    List.append_nil]

theorem read_line_start (X : External) (H : Handlers) (stray : Char) (fuel : Nat)
    (cf : PPCommandFile) (w : World) (head t : Str) (d : Char) (rest : Str)
    (hgot : cf._got_command = false) (hfor : cf._in_for = false)
    (hcomment : ¬ BEGIN_COMMENT <:+: head ++ t)
    (hbody : head.dropWhile isspace = COMMAND_PREFIX :: d :: rest) (hd : isalpha d = true)
    (hparams : ((d :: rest).dropWhile (fun c => !isspace c)).dropWhile isspace ≠ []) :
    read_line X H stray fuel cf w (head ++ t) =
      handle_command X H stray fuel
        { cf with _command := (d :: rest).takeWhile (fun c => !isspace c),
                  _params :=
                    ((d :: rest).dropWhile (fun c => !isspace c)).dropWhile isspace ++ t,
                  _got_command := true } w [] := by
  have hne : head.dropWhile isspace ≠ [] := by rw [hbody]; simp
  have hb2 : (head ++ t).dropWhile isspace = COMMAND_PREFIX :: d :: (rest ++ t) := by
    rw [(takeWhile_append_of_dropWhile_ne_nil isspace head t hne).2, hbody]
    rfl
  rw [read_line_command X H stray fuel cf w (head ++ t) d (rest ++ t) hgot hfor hcomment hb2 hd]
  exact handle_command_start X H stray fuel cf w (d :: rest) t hgot hparams

theorem not_comment_append_char (a : Str) (c : Char) (hc : c ≠ '/')
    (ha : ¬ BEGIN_COMMENT <:+: a) : ¬ BEGIN_COMMENT <:+: a ++ [c] := by
  induction a with
  | nil =>
    intro h
    rcases List.infix_cons_iff.1 h with h1 | h1
    · obtain ⟨t, ht⟩ := h1
      simp [BEGIN_COMMENT] at ht
    · simp [BEGIN_COMMENT] at h1
  | cons x a ih =>
    intro h
    rcases List.infix_cons_iff.1 h with h1 | h1
    · apply ha
      obtain ⟨t, ht⟩ := h1
      cases a with
      | nil =>
        simp only [BEGIN_COMMENT, List.cons_append, List.nil_append, List.cons.injEq] at ht
        have h2 : '/' :: t = [c] := ht.2
        simp only [List.cons.injEq] at h2
        exact absurd h2.1.symm hc
      | cons y a2 =>
        simp only [BEGIN_COMMENT, List.cons_append, List.nil_append, List.cons.injEq] at ht
        obtain ⟨rfl, rfl, _⟩ := ht
        exact (List.prefix_append ['/', '/'] a2).isInfix
    · exact ih (fun h2 => ha (h2.trans (List.suffix_cons x a).isInfix)) h1

theorem read_lines_pending (X : External) (H : Handlers) (stray : Char) (fuel : Nat)
    (w : World) (last : Str) (hlast : ¬ BEGIN_COMMENT <:+: last) :
    ∀ (more : List Str) (cf : PPCommandFile), cf._got_command = true → cf._in_for = false →
      (∀ l ∈ more, l.getLast? = some '\\' ∧ ¬ BEGIN_COMMENT <:+: l) →
      read_lines (read_line X H stray fuel) more cf w =
        .ok (true, { cf with _params := cf._params ++ join_continued more [] }, w) ∧
      read_lines (read_line X H stray fuel) (more ++ [last]) cf w =
        handle_command X H stray fuel
          { cf with _params := cf._params ++ join_continued more last } w [] := by
  intro more
  induction more with
  | nil =>
    intro cf hgot hfor _
    refine ⟨by simp [read_lines, join_continued], ?_⟩
    rw [List.nil_append, read_lines_singleton,
      read_line_pending X H stray fuel cf w last hgot hfor hlast,
      handle_command_pending_last X H stray fuel cf w last hgot]
    rfl
  | cons m ms ih =>
    intro cf hgot hfor hmore
    obtain ⟨ns, sc, got, infor, ifn, bn, cmd, prm, ws0, sl⟩ := cf
    simp only at hgot hfor
    subst hgot hfor
    have hm := hmore m (by simp)
    have h1 : read_line X H stray fuel ⟨ns, sc, true, false, ifn, bn, cmd, prm, ws0, sl⟩ w m =
        .ok (true, ⟨ns, sc, true, false, ifn, bn, cmd, prm ++ m.dropLast ++ " ".toList,
          ws0, sl⟩, w) := by
      rw [read_line_pending X H stray fuel _ w m rfl rfl hm.2,
        handle_command_pending_more X H stray fuel _ w m rfl hm.1]
    obtain ⟨ih1, ih2⟩ := ih ⟨ns, sc, true, false, ifn, bn, cmd,
      prm ++ m.dropLast ++ " ".toList, ws0, sl⟩ rfl rfl (fun x hx => hmore x (by simp [hx]))
    have hj : ∀ t, prm ++ m.dropLast ++ " ".toList ++ t = prm ++ (m.dropLast ++ ' ' :: t) := by
      intro t; simp
    refine ⟨?_, ?_⟩
    · rw [read_lines_cons_ok _ _ _ _ _ _ _ h1, ih1]
      simp only [join_continued, hj]
    · rw [List.cons_append, read_lines_cons_ok _ _ _ _ _ _ _ h1, ih2]
      simp only [join_continued, hj]

/-- C29 (amended): outside capture mode, for a command whose first physical
line holds some parameter text before its trailing `\` and whose lines hold
no comment marker, reading the lines, each but the last ending in `\`, has
the same effect as reading the single line in which each trailing `\` is
replaced by one space and followed by the next line; and after the lines
that end in `\` no command has been dispatched: the command word and the
parameters joined so far are pending and the process state is as it was. -/
theorem continued_command_reads_as_joined (X : External) (H : Handlers) (stray : Char)
    (fuel : Nat) (cf : PPCommandFile) (w : World) (first : Str) (more : List Str)
    (last : Str) (d : Char) (rest : Str)
    (hgot : cf._got_command = false) (hfor : cf._in_for = false)
    (hfirst : first.getLast? = some '\\') (hmore : ∀ l ∈ more, l.getLast? = some '\\')
    (hcomment : ∀ l ∈ first :: more ++ [last], ¬ BEGIN_COMMENT <:+: l)
    (hbody : first.dropLast.dropWhile isspace = COMMAND_PREFIX :: d :: rest)
    (hd : isalpha d = true)
    (hparams : ((d :: rest).dropWhile (fun c => !isspace c)).dropWhile isspace ≠ []) :
    read_lines (read_line X H stray fuel) (first :: more ++ [last]) cf w =
      read_line X H stray fuel cf w (join_continued (first :: more) last) ∧
    read_lines (read_line X H stray fuel) (first :: more) cf w =
      .ok (true,
        { cf with
          _command := (d :: rest).takeWhile (fun c => !isspace c),
          _params := ((d :: rest).dropWhile (fun c => !isspace c)).dropWhile isspace ++
            ' ' :: join_continued more [],
          _got_command := true }, w) := by
  obtain ⟨ns, sc, got, infor, ifn, bn, cmd, prm, ws0, sl⟩ := cf
  simp only at hgot hfor
  subst hgot hfor
  have hsplit : first = first.dropLast ++ ['\\'] := by
    have := List.dropLast_append_getLast? '\\' (by simpa using hfirst)
    exact this.symm
  have hc1 : ¬ BEGIN_COMMENT <:+: first.dropLast ++ ['\\'] := by
    rw [← hsplit]; exact hcomment first (by simp)
  have hclast : ¬ BEGIN_COMMENT <:+: last := hcomment last (by simp)
  have hcmore : ∀ l ∈ more, ¬ BEGIN_COMMENT <:+: l := fun l hl => hcomment l (by simp [hl])
  have hstart : read_line X H stray fuel ⟨ns, sc, false, false, ifn, bn, cmd, prm, ws0, sl⟩ w
      first = .ok (true, ⟨ns, sc, true, false, ifn, bn,
        (d :: rest).takeWhile (fun c => !isspace c),
        ((d :: rest).dropWhile (fun c => !isspace c)).dropWhile isspace ++ " ".toList,
        ws0, sl⟩, w) := by
    conv_lhs => rw [hsplit]
    rw [read_line_start X H stray fuel _ w first.dropLast ['\\'] d rest rfl rfl hc1 hbody hd
      hparams]
    have h1 := handle_command_pending_last X H stray fuel
      ⟨ns, sc, true, false, ifn, bn, (d :: rest).takeWhile (fun c => !isspace c),
        ((d :: rest).dropWhile (fun c => !isspace c)).dropWhile isspace, ws0, sl⟩ w ['\\'] rfl
    have h2 := handle_command_pending_more X H stray fuel
      ⟨ns, sc, true, false, ifn, bn, (d :: rest).takeWhile (fun c => !isspace c),
        ((d :: rest).dropWhile (fun c => !isspace c)).dropWhile isspace, ws0, sl⟩ w ['\\'] rfl
      rfl
    rw [← h1, h2]
    simp
  obtain ⟨hp1, hp2⟩ := read_lines_pending X H stray fuel w last hclast more
    ⟨ns, sc, true, false, ifn, bn, (d :: rest).takeWhile (fun c => !isspace c),
      ((d :: rest).dropWhile (fun c => !isspace c)).dropWhile isspace ++ " ".toList, ws0, sl⟩
    rfl rfl (fun l hl => ⟨hmore l hl, hcmore l hl⟩)
  refine ⟨?_, ?_⟩
  · rw [List.cons_append, read_lines_cons_ok _ _ _ _ _ _ _ hstart, hp2]
    have hj : ¬ BEGIN_COMMENT <:+: first.dropLast ++ ' ' :: join_continued more last :=
      not_comment_join _ _ (not_comment_dropLast first (hcomment first (by simp)))
        (not_comment_join_continued last hclast more hcmore)
    have hjoin := read_line_start X H stray fuel
      ⟨ns, sc, false, false, ifn, bn, cmd, prm, ws0, sl⟩ w first.dropLast
      (' ' :: join_continued more last) d rest rfl rfl hj hbody hd hparams
    simp only [join_continued]
    rw [hjoin]
    simp
  · rw [read_lines_cons_ok _ _ _ _ _ _ _ hstart, hp1]
    simp

theorem continued_command_reads_as_joined_witness :
    ((new_command_file 0)._got_command = false ∧ (new_command_file 0)._in_for = false ∧
      "#define x a \\".toList.getLast? = some '\\' ∧
      "#define x a \\".toList.dropLast.dropWhile isspace =
        COMMAND_PREFIX :: 'd' :: "efine x a ".toList) ∧
    join_continued ["#define x a \\".toList, "b \\".toList] "c".toList =
      "#define x a  b  c".toList ∧
    (read_line quiet idle_handlers ' ' 30 (new_command_file 0) (world_of [empty_scope])
        "#define x a  b  c".toList).map (fun r => (r.1, local_binding r.2.2 "x".toList 0)) =
      .ok (true, some "a  b  c".toList) ∧
    read_lines (read_line quiet idle_handlers ' ' 30)
        ("#define x a \\".toList :: ["b \\".toList] ++ ["c".toList])
        (new_command_file 0) (world_of [empty_scope]) =
      read_line quiet idle_handlers ' ' 30 (new_command_file 0) (world_of [empty_scope])
        (join_continued ("#define x a \\".toList :: ["b \\".toList]) "c".toList) :=
  ⟨⟨rfl, rfl, by decide, by decide⟩, by decide, by decide!,
   (continued_command_reads_as_joined quiet idle_handlers ' ' 30 (new_command_file 0)
      (world_of [empty_scope]) "#define x a \\".toList ["b \\".toList] "c".toList 'd'
      "efine x a ".toList rfl rfl (by decide) (by decide) (by decide) (by decide) (by decide)
      (by decide)).1⟩

/-- C29, as stated, fails in three ways.  A line that holds only a comment
does not end the command: after `#define x a \` and `// note` the command is
still pending, while the joined line defines `x`.  When the `\` is the whole
parameter text, the space that replaces it stays at the head of the
parameters: `#define \`, `x 1` defines the variable with the empty name and
not `x`.  And in capture mode the lines are saved one by one, so that an
`#end x\` continued on the next line closes the block but is replayed in
part: the block fails, while with the joined line it emits `a` and `b`. -/
theorem continued_command_counterexamples :
    (read_lines (example_reader 30 3) ["#define x a \\".toList, "// note".toList]
        (new_command_file 0) (world_of [empty_scope])).map
        (fun r => (r.2.1._got_command, local_binding r.2.2 "x".toList 0)) =
      .ok (true, none) ∧
    (example_reader 30 3 (new_command_file 0) (world_of [empty_scope])
        (join_continued ["#define x a \\".toList] "// note".toList)).map
        (fun r => (r.2.1._got_command, local_binding r.2.2 "x".toList 0)) =
      .ok (false, some "a".toList) ∧
    (read_lines (example_reader 30 3) ["#define \\".toList, "x 1".toList]
        (new_command_file 0) (world_of [empty_scope])).map
        (fun r => (local_binding r.2.2 [] 0, local_binding r.2.2 "x".toList 0)) =
      .ok (some "x 1".toList, none) ∧
    (example_reader 30 3 (new_command_file 0) (world_of [empty_scope])
        (join_continued ["#define \\".toList] "x 1".toList)).map
        (fun r => (local_binding r.2.2 [] 0, local_binding r.2.2 "x".toList 0)) =
      .ok (none, some "1".toList) ∧
    (read_lines (example_reader 30 3)
        ["#foreach x a b".toList, "$[x]".toList, "#end x\\".toList, [] ]
        (new_command_file 0) (world_of [empty_scope])).map (fun r => (r.1, r.2.2.streams)) =
      .ok (false, ["a\n".toList]) ∧
    (read_lines (example_reader 30 3)
        ["#foreach x a b".toList, "$[x]".toList, join_continued ["#end x\\".toList] [] ]
        (new_command_file 0) (world_of [empty_scope])).map (fun r => (r.1, r.2.2.streams)) =
      .ok (true, ["a\nb\n".toList]) := by
  refine ⟨?_, ?_, ?_, ?_, ?_, ?_⟩ <;> decide!

/-! ### C30: the name of a function-form reference -/

/-- C30: with `F` defined as `upcase`, `$[$[F] abc]` expands to the empty
string and not, like `$[upcase abc]`, to `ABC`.  The scan of the reference
returns the name `upcase abc` with the inner reference expanded, but the
place of the first whitespace that it records is 4, the length of the text
`$[F]`, so the name used for the dispatch is `upca` and the parameters are
`se abc`.  With `G` defined as `sort`, a word as long as the text `$[G]`,
`$[$[G] b a]` expands like `$[sort b a]`. -/
theorem nested_function_name_misplaced :
    expand_string quiet 30 function_names 0 "$[$[F] abc]".toList = .ok ([], function_names) ∧
    expand_string quiet 30 function_names 0 "$[upcase abc]".toList =
      .ok ("ABC".toList, function_names) ∧
    r_expand_variable_loop quiet 30 function_names 0 [] "$[F] abc]".toList 0 [] 0 0 =
      .ok (("upcase abc".toList, [], 4, 0), function_names) ∧
    expand_string quiet 30 function_names 0 "$[$[G] b a]".toList =
      .ok ("a b".toList, function_names) := by
  refine ⟨?_, ?_, ?_, ?_⟩ <;> decide!

/-! ### C22: `patsubst` -/

theorem str_find_char_isSome (c : Char) :
    ∀ s : Str, (str_find [c] s).isSome = true ↔ c ∈ s := by
  intro s
  induction s with
  | nil => simp [str_find]
  | cons a l ih =>
    by_cases ha : a = c
    · subst ha
      simp [str_find, starts_with]
    · have hs : starts_with [c] (a :: l) = false := by
        have h3 : ¬ c = a := fun e => ha e.symm
        simp [starts_with, List.isPrefixOf, h3]
      have h2 : ¬ c = a := fun e => ha e.symm
      simp only [str_find, hs, Bool.false_eq_true, if_false, Option.isSome_map', ih,
        List.mem_cons, h2, false_or]

theorem make_has_wildcard (pattern : Str) :
    (PPFilenamePattern.make pattern).has_wildcard = true ↔ PATTERN_WILDCARD ∈ pattern := by
  rw [← str_find_char_isSome]
  unfold PPFilenamePattern.make
  cases str_find [PATTERN_WILDCARD] pattern <;> simp

theorem tokenize_whitespace_loop_append (t : Str) (ht : ∀ c ∈ t, isspace c = false) :
    ∀ (cur rest : Str),
      tokenize_whitespace_loop cur (t ++ rest) = tokenize_whitespace_loop (cur ++ t) rest := by
  induction t with
  | nil => intro cur rest; simp
  | cons a t ih =>
    intro cur rest
    have ha : isspace a = false := ht a (by simp)
    simp only [List.cons_append, tokenize_whitespace_loop, ha, Bool.false_eq_true, if_false]
    have e := ih (fun c hc => ht c (by simp [hc])) (cur ++ [a]) rest
    simp only [List.append_assoc, List.singleton_append] at e
    exact e

theorem tokenize_whitespace_repaste (ws : List Str)
    (h : ∀ t ∈ ws, t ≠ [] ∧ ∀ c ∈ t, isspace c = false) :
    tokenize_whitespace (repaste ws " ".toList) = ws := by
  induction ws with
  | nil => rfl
  | cons a rest ih =>
    obtain ⟨hne, hsp⟩ := h a (by simp)
    have hemp : a.isEmpty = false := by
      cases a with
      | nil => exact absurd rfl hne
      | cons _ _ => rfl
    cases rest with
    | nil =>
      have e : repaste [a] " ".toList = a ++ [] := by simp [repaste, List.intercalate]
      rw [e]
      unfold tokenize_whitespace
      rw [tokenize_whitespace_loop_append a hsp]
      simp [tokenize_whitespace_loop, hemp]
    | cons b rest =>
      have e : repaste (a :: b :: rest) " ".toList =
          a ++ (' ' :: repaste (b :: rest) " ".toList) := by
        simp [repaste, List.intercalate, List.intersperse]
      rw [e]
      have ih2 := ih (fun t ht => h t (by simp [ht]))
      unfold tokenize_whitespace at ih2 ⊢
      rw [tokenize_whitespace_loop_append a hsp]
      have hs : isspace ' ' = true := by decide
      simp only [List.nil_append, tokenize_whitespace_loop, hs, if_true, hemp,
        Bool.false_eq_true, if_false, ih2]

theorem transform_of_matches (U U2 : Unmatched) (pat source : PPFilenamePattern) (word : Str)
    (hw : source.has_wildcard = true) (hm : source.matches word = true) :
    pat.transform U word source = pat.transform U2 word source := by
  simp [PPFilenamePattern.transform, hw, hm]

theorem substitute_word_any (U U2 : Unmatched) (froms : List PPFilenamePattern)
    (target : PPFilenamePattern) (word : Str)
    (hall : ∀ f ∈ froms, f.has_wildcard = true) :
    substitute_word U froms target word = substitute_word U2 froms target word := by
  unfold substitute_word
  cases hf : froms.find? (·.matches word) with
  | none => rfl
  | some pi =>
    have h1 := List.find?_some hf
    have h2 := List.mem_of_find?_eq_some hf
    exact transform_of_matches U U2 target pi word (hall pi h2) (by simpa using h1)

theorem patsubst_word_single (U : Unmatched) (froms : List PPFilenamePattern)
    (target : PPFilenamePattern) (word : Str) :
    patsubst_word U word [(froms, target)] = substitute_word U froms target word := by
  simp only [patsubst_word, substitute_word]

theorem expand_patsubst_three (U : Unmatched) (T : TokenizeFn) (w w1 : World)
    (params from_text to_text text : Str)
    (htok : T w params = .ok ([from_text, to_text, text], w1))
    (hwild : ∀ f ∈ tokenize_whitespace from_text, PATTERN_WILDCARD ∈ f) :
    expand_patsubst U T w params =
      .ok (repaste ((tokenize_whitespace text).map
          (substitute_word U ((tokenize_whitespace from_text).map PPFilenamePattern.make)
            (PPFilenamePattern.make to_text))) " ".toList, w1) := by
  have hall : ((tokenize_whitespace from_text).map PPFilenamePattern.make).all
      (·.has_wildcard) = true := by
    simp only [List.all_eq_true, List.mem_map]
    rintro x ⟨f, hf, rfl⟩
    exact (make_has_wildcard f).2 (hwild f hf)
  simp only [expand_patsubst, htok, List.length_cons, List.length_nil]
  simp only [List.dropLast, patsubst_patterns, hall, if_true, Option.map_some']
  simp only [List.getLast?, List.getLast, Option.getD_some, Nat.reduceAdd, Nat.reduceLT,
    Nat.reduceMod, ne_eq, not_true_eq_false, if_false, patsubst_word_single,
    List.cons_ne_self, List.getLast_cons_cons, List.getLast_singleton, Nat.lt_irrefl]

theorem expand_patsubst_any (U U2 : Unmatched) (T : TokenizeFn) (w w1 : World)
    (params from_text to_text text : Str)
    (htok : T w params = .ok ([from_text, to_text, text], w1))
    (hwild : ∀ f ∈ tokenize_whitespace from_text, PATTERN_WILDCARD ∈ f) :
    expand_patsubst U T w params = expand_patsubst U2 T w params := by
  have hall : ∀ f ∈ (tokenize_whitespace from_text).map PPFilenamePattern.make,
      f.has_wildcard = true := by
    simp only [List.mem_map]
    rintro x ⟨f, hf, rfl⟩
    exact (make_has_wildcard f).2 (hwild f hf)
  rw [expand_patsubst_three U T w w1 params from_text to_text text htok hwild,
    expand_patsubst_three U2 T w w1 params from_text to_text text htok hwild]
  congr 3
  apply List.map_congr_left
  intro word _
  exact substitute_word_any U U2 _ _ word hall

/-- C22: when the parameters of `patsubst` are a from-text whose patterns all
hold the wildcard, a to-pattern and a text, the result is the words of the
text in their order, joined by one space, each word that matches a
from-pattern replaced by the transform of the to-pattern, taken with the
first from-pattern that matches, and every other word unchanged.  The result
does not depend on what `transform` gives for a word that its from-pattern
does not match.  When no word so replaced is empty or holds whitespace, the
words of the result are these words, as many as the text has and in the same
order.  `$[patsubst %.c,%.o,a.c b.h c.c]` expands to `a.o b.h c.o`. -/
theorem patsubst_maps_words (U : Unmatched) (T : TokenizeFn) (w w1 : World)
    (params from_text to_text text : Str)
    (htok : T w params = .ok ([from_text, to_text, text], w1))
    (hwild : ∀ f ∈ tokenize_whitespace from_text, PATTERN_WILDCARD ∈ f) :
    expand_patsubst U T w params =
      .ok (repaste ((tokenize_whitespace text).map
          (substitute_word U ((tokenize_whitespace from_text).map PPFilenamePattern.make)
            (PPFilenamePattern.make to_text))) " ".toList, w1) ∧
    (∀ U2 : Unmatched, expand_patsubst U2 T w params = expand_patsubst U T w params) ∧
    ((∀ word ∈ tokenize_whitespace text,
        substitute_word U ((tokenize_whitespace from_text).map PPFilenamePattern.make)
            (PPFilenamePattern.make to_text) word ≠ [] ∧
          ∀ c ∈ substitute_word U ((tokenize_whitespace from_text).map PPFilenamePattern.make)
            (PPFilenamePattern.make to_text) word, isspace c = false) →
      ∃ result, expand_patsubst U T w params = .ok (result, w1) ∧
        tokenize_whitespace result =
          (tokenize_whitespace text).map
            (substitute_word U ((tokenize_whitespace from_text).map PPFilenamePattern.make)
              (PPFilenamePattern.make to_text)) ∧
        (tokenize_whitespace result).length = (tokenize_whitespace text).length) ∧
    (∀ word, (∀ f ∈ tokenize_whitespace from_text,
        (PPFilenamePattern.make f).matches word = false) →
      substitute_word U ((tokenize_whitespace from_text).map PPFilenamePattern.make)
        (PPFilenamePattern.make to_text) word = word) ∧
    (∀ word, (∃ f ∈ tokenize_whitespace from_text,
        (PPFilenamePattern.make f).matches word = true) →
      ∃ pi ∈ (tokenize_whitespace from_text).map PPFilenamePattern.make,
        pi.has_wildcard = true ∧ pi.matches word = true ∧
        substitute_word U ((tokenize_whitespace from_text).map PPFilenamePattern.make)
          (PPFilenamePattern.make to_text) word =
            (PPFilenamePattern.make to_text).transform U word pi) ∧
    expand_string quiet 60 (world_of [empty_scope]) 0
        "$[patsubst %.c,%.o,a.c b.h c.c]".toList =
      .ok ("a.o b.h c.o".toList, world_of [empty_scope]) := by
  have hall : ∀ f ∈ (tokenize_whitespace from_text).map PPFilenamePattern.make,
      f.has_wildcard = true := by
    simp only [List.mem_map]
    rintro x ⟨f, hf, rfl⟩
    exact (make_has_wildcard f).2 (hwild f hf)
  have hmain := expand_patsubst_three U T w w1 params from_text to_text text htok hwild
  refine ⟨hmain, ?_, ?_, ?_, ?_, by decide!⟩
  · intro U2
    rw [hmain, expand_patsubst_three U2 T w w1 params from_text to_text text htok hwild]
    congr 3
    apply List.map_congr_left
    intro word _
    exact substitute_word_any U2 U _ _ word hall
  · intro hw
    refine ⟨_, hmain, ?_, ?_⟩
    · apply tokenize_whitespace_repaste
      intro t ht
      obtain ⟨word, hword, rfl⟩ := List.mem_map.1 ht
      exact hw word hword
    · rw [tokenize_whitespace_repaste]
      · simp
      · intro t ht
        obtain ⟨word, hword, rfl⟩ := List.mem_map.1 ht
        exact hw word hword
  · intro word hno
    have : ((tokenize_whitespace from_text).map PPFilenamePattern.make).find?
        (·.matches word) = none := by
      simp only [List.find?_eq_none, List.mem_map]
      rintro x ⟨f, hf, rfl⟩
      simp [hno f hf]
    simp [substitute_word, this]
  · rintro word ⟨f, hf, hm⟩
    cases hfind : ((tokenize_whitespace from_text).map PPFilenamePattern.make).find?
        (·.matches word) with
    | none =>
      rw [List.find?_eq_none] at hfind
      have := hfind (PPFilenamePattern.make f) (List.mem_map.2 ⟨f, hf, rfl⟩)
      simp [hm] at this
    | some pi =>
      have h1 := List.find?_some hfind
      have h2 := List.mem_of_find?_eq_some hfind
      exact ⟨pi, h2, hall pi h2, by simpa using h1, by simp only [substitute_word, hfind]⟩

theorem patsubst_maps_words_witness :
    (tokenize_params quiet 60 (world_of [empty_scope]) 0 "%.c,%.o,a.c b.h c.c".toList true =
        .ok (["%.c".toList, "%.o".toList, "a.c b.h c.c".toList], world_of [empty_scope]) ∧
      ∀ f ∈ tokenize_whitespace "%.c".toList, PATTERN_WILDCARD ∈ f) ∧
    repaste ((tokenize_whitespace "a.c b.h c.c".toList).map
        (substitute_word quiet.transform_unmatched
          ((tokenize_whitespace "%.c".toList).map PPFilenamePattern.make)
          (PPFilenamePattern.make "%.o".toList))) " ".toList = "a.o b.h c.o".toList ∧
    expand_patsubst quiet.transform_unmatched (fun w s => tokenize_params quiet 60 w 0 s true)
        (world_of [empty_scope]) "%.c,%.o,a.c b.h c.c".toList =
      .ok (repaste ((tokenize_whitespace "a.c b.h c.c".toList).map
          (substitute_word quiet.transform_unmatched
            ((tokenize_whitespace "%.c".toList).map PPFilenamePattern.make)
            (PPFilenamePattern.make "%.o".toList))) " ".toList, world_of [empty_scope]) :=
  ⟨⟨by decide!, by decide⟩, by decide!,
   (patsubst_maps_words quiet.transform_unmatched
      (fun w s => tokenize_params quiet 60 w 0 s true)
      (world_of [empty_scope]) (world_of [empty_scope]) "%.c,%.o,a.c b.h c.c".toList
      "%.c".toList "%.o".toList "a.c b.h c.c".toList (by decide!) (by decide)).1⟩

/-- C22, as stated, fails where a transform is empty or holds a blank: the
number of the words is not kept.  With the to-pattern `%` the word `.c`, which
matches `%.c`, becomes the empty string, and with a to-pattern without
wildcard that is empty both words do: of two words one, or none, is left.
With the to-pattern `a %.o` the word `x.c` becomes two words: of two words
three are made.  The results are the same whatever `transform` gives for a
word that its from-pattern does not match. -/
theorem patsubst_changes_word_count :
    expand_string quiet 60 (world_of [empty_scope]) 0 "$[patsubst %.c,%,.c x.c]".toList =
      .ok (" x".toList, world_of [empty_scope]) ∧
    tokenize_whitespace ".c x.c".toList = [".c".toList, "x.c".toList] ∧
    tokenize_whitespace " x".toList = ["x".toList] ∧
    expand_string quiet 60 (world_of [empty_scope]) 0 "$[patsubst a%,,ab ac]".toList =
      .ok (" ".toList, world_of [empty_scope]) ∧
    tokenize_whitespace "ab ac".toList = ["ab".toList, "ac".toList] ∧
    tokenize_whitespace " ".toList = [] ∧
    expand_string quiet 60 (world_of [empty_scope]) 0 "$[patsubst %.c,a %.o,x.c y.h]".toList =
      .ok ("a x.o y.h".toList, world_of [empty_scope]) ∧
    tokenize_whitespace "x.c y.h".toList = ["x.c".toList, "y.h".toList] ∧
    tokenize_whitespace "a x.o y.h".toList = ["a".toList, "x.o".toList, "y.h".toList] ∧
    (∀ U : Unmatched,
      expand_patsubst U (fun w s => tokenize_params quiet 60 w 0 s true)
          (world_of [empty_scope]) "%.c,%,.c x.c".toList =
        .ok (" x".toList, world_of [empty_scope]) ∧
      expand_patsubst U (fun w s => tokenize_params quiet 60 w 0 s true)
          (world_of [empty_scope]) "a%,,ab ac".toList =
        .ok (" ".toList, world_of [empty_scope]) ∧
      expand_patsubst U (fun w s => tokenize_params quiet 60 w 0 s true)
          (world_of [empty_scope]) "%.c,a %.o,x.c y.h".toList =
        .ok ("a x.o y.h".toList, world_of [empty_scope])) := by
  refine ⟨by decide!, by decide, by decide, by decide!, by decide, by decide, by decide!,
    by decide, by decide, ?_⟩
  intro U
  refine ⟨?_, ?_, ?_⟩
  · exact (expand_patsubst_any U quiet.transform_unmatched _ (world_of [empty_scope])
      (world_of [empty_scope]) _ "%.c".toList "%".toList ".c x.c".toList (by decide!)
      (by decide)).trans (by decide!)
  · exact (expand_patsubst_any U quiet.transform_unmatched _ (world_of [empty_scope])
      (world_of [empty_scope]) _ "a%".toList [] "ab ac".toList (by decide!)
      (by decide)).trans (by decide!)
  · exact (expand_patsubst_any U quiet.transform_unmatched _ (world_of [empty_scope])
      (world_of [empty_scope]) _ "%.c".toList "a %.o".toList "x.c y.h".toList (by decide!)
      (by decide)).trans (by decide!)

/-! ### C23: `expand_closure` on a cyclic map -/

theorem lookup_isSome_mem (mapdef : List (Str × Nat)) (k : Str)
    (h : (mapdef.lookup k).isSome = true) : k ∈ mapdef.map Prod.fst := by
  induction mapdef with
  | nil => simp at h
  | cons kv rest ih =>
    obtain ⟨k2, v⟩ := kv
    by_cases hk : k = k2
    · simp [hk]
    · have hk2 : (k == k2) = false := by simpa using hk
      simp only [List.lookup, hk2] at h
      simp [ih h]

theorem compare_output_loop_spec :
    ∀ (A B : List (Fin 256)) (fuel : Nat), min A.length B.length < fuel →
      compare_output_loop fuel
        (IfStream.get { is_open := true, rest := A, eofbit := false }).2
        (IfStream.get { is_open := true, rest := B, eofbit := false }).2
        ((IfStream.get { is_open := true, rest := A, eofbit := false }).1 !=
          (IfStream.get { is_open := true, rest := B, eofbit := false }).1) =
        .ok (decide (A ≠ B)) := by
  intro A
  induction A with
  | nil =>
    intro B fuel hfuel
    obtain ⟨fuel, rfl⟩ : ∃ f, fuel = f + 1 := ⟨fuel - 1, by omega⟩
    cases B with
    | nil => simp [compare_output_loop, IfStream.get]
    | cons y B =>
      simp only [compare_output_loop, IfStream.get]
      simp
  | cons x A ih =>
    intro B fuel hfuel
    obtain ⟨fuel, rfl⟩ : ∃ f, fuel = f + 1 := ⟨fuel - 1, by omega⟩
    cases B with
    | nil =>
      simp only [compare_output_loop, IfStream.get]
      simp
    | cons y B =>
      by_cases hxy : x = y
      · subst hxy
        have h := ih B fuel (by simp at hfuel ⊢; omega)
        simp only [compare_output_loop, IfStream.get] at h ⊢
        simp at h ⊢
        exact h
      · have hv : (x.val : Int) ≠ (y.val : Int) := by
          intro h
          exact hxy (Fin.ext (by exact_mod_cast h))
        simp only [compare_output_loop, IfStream.get]
        simp [hv, hxy]

/-- C27: `compare_output` replaces the target exactly when the bytes differ.
For a temporary file and a target that both exist under different names, and
a byte bound above the length of the shorter file, `compare_output` returns
true; afterwards the temporary name is gone, every other name refers to the
file it referred to before, and the target name refers to the temporary file
when the two byte sequences differ and to the target file itself, untouched,
when they are equal. -/
theorem compare_output_replaces_iff_differ (fuel : Nat) (disk : Disk)
    (temp_name true_name : Str) (temp target : DiskFile)
    (htemp : disk temp_name = some temp) (htrue : disk true_name = some target)
    (hne : temp_name ≠ true_name)
    (hfuel : min temp.bytes.length target.bytes.length < fuel) :
    ∃ disk2, compare_output fuel disk temp_name true_name = .ok (true, disk2) ∧
      disk2 temp_name = none ∧
      disk2 true_name = some (if temp.bytes ≠ target.bytes then temp else target) ∧
      ∀ name, name ≠ temp_name → name ≠ true_name → disk2 name = disk name := by
  have hloop := compare_output_loop_spec temp.bytes target.bytes fuel hfuel
  by_cases hd : temp.bytes = target.bytes
  · refine ⟨(unlink disk temp_name).2, ?_, ?_, ?_, ?_⟩
    · simp only [compare_output, IfStream.open, htemp, htrue, hloop]
      simp [hd]
    · simp [unlink, htemp]
    · simp [unlink, htemp, hd, htrue, Ne.symm hne]
    · intro name h1 h2
      simp [unlink, htemp, h1]
  · refine ⟨(rename (unlink disk true_name).2 temp_name true_name).2, ?_, ?_, ?_, ?_⟩
    · simp only [compare_output, IfStream.open, htemp, htrue, hloop]
      simp [hd, unlink, rename, htrue, htemp, hne]
    · simp [unlink, rename, htemp, htrue, hne]
    · simp [unlink, rename, htemp, htrue, hne, hd]
    · intro name h1 h2
      simp [unlink, rename, htemp, htrue, hne, h1, h2]

theorem compare_output_replaces_iff_differ_witness :
    (∃ disk2, compare_output 3 sample_disk "tmp".toList "out".toList = .ok (true, disk2) ∧
      disk2 "tmp".toList = none ∧
      disk2 "out".toList = some
        (if (⟨2, [104, 105]⟩ : DiskFile).bytes ≠ (⟨1, [104, 105]⟩ : DiskFile).bytes
          then ⟨2, [104, 105]⟩ else ⟨1, [104, 105]⟩) ∧
      ∀ name, name ≠ "tmp".toList → name ≠ "out".toList → disk2 name = sample_disk name) ∧
    (∃ disk2, compare_output 2 sample_disk "new".toList "old".toList = .ok (true, disk2) ∧
      disk2 "old".toList = some ⟨4, [104, 0]⟩) :=
  ⟨compare_output_replaces_iff_differ 3 sample_disk "tmp".toList "out".toList
      ⟨2, [104, 105]⟩ ⟨1, [104, 105]⟩ (by decide) (by decide) (by decide) (by decide),
   (compare_output_replaces_iff_differ 2 sample_disk "new".toList "old".toList
      ⟨4, [104, 0]⟩ ⟨3, [104]⟩ (by decide) (by decide) (by decide) (by decide)).imp
     (fun _ h => ⟨h.1, h.2.2.1⟩)⟩

/-! ### C25: `#call` of a subroutine that is not registered -/

/-- C25: `#call` of a name that is not registered does not return failure.
With an empty registry of subroutines `handle_call_command` returns false
only when the command has no name; for every name it goes past the message
and reads the formal parameters through the null pointer, whatever the
interpreter state.  Through `read_line`, the line `#call nosuch` faults, while
`#set nosuch 1`, the sibling check, returns false and leaves the interpreter
and the process state as they were; a registered subroutine is called and
returns true. -/
theorem call_of_undefined_subroutine_faults :
    (∀ (X : External) (fuel : Nat) (reader : Reader) (cf : PPCommandFile) (w : World),
      handle_call_command X fuel reader cf { w with subs := [] } =
        if (trim_blanks (cf._params.takeWhile (fun c => !isspace c))).isEmpty then
          .ok (false, cf, { w with subs := [] })
        else .error .abort) ∧
    full_reader 60 3 2 (new_command_file 0) two_named "#call nosuch".toList = .error .abort ∧
    full_reader 60 3 2 (new_command_file 0) two_named "#set nosuch 1".toList =
      .ok (false,
        { new_command_file 0 with _command := "set".toList, _params := "nosuch 1".toList },
        two_named) ∧
    run_output (read_lines (full_reader 60 3 2)
        ["#defsub s x".toList, "got $[x]".toList, "#end s".toList, "#call s 5".toList]
        (new_command_file 0) two_named) = .ok (true, ["got 5\n".toList]) := by
  refine ⟨?_, by decide!, by decide!, by decide!⟩
  intro X fuel reader cf w
  simp only [handle_call_command, get_sub, List.lookup]
  split
  · rfl
  · cases w.scopes[cf._scope]? <;> rfl

/-! ### C26: a failing line in the body of a user function -/

theorem replay_lines_append_ok (reader : Reader) :
    ∀ (l1 l2 : List Str) (cf cf1 : PPCommandFile) (w w1 : World),
      replay_lines reader l1 true cf w = .ok (true, cf1, w1) →
      replay_lines reader (l1 ++ l2) true cf w = replay_lines reader l2 true cf1 w1 := by
  intro l1
  induction l1 with
  | nil =>
    intro l2 cf cf1 w w1 h
    simp only [replay_lines, Except.ok.injEq, Prod.mk.injEq, true_and] at h
    obtain ⟨rfl, rfl⟩ := h
    rfl
  | cons l rest ih =>
    intro l2 cf cf1 w w1 h
    simp only [replay_lines, if_true, List.cons_append] at h ⊢
    rcases hr : reader cf w l with e | ⟨b, cf2, w2⟩
    · simp [hr] at h
    · simp only [hr] at h ⊢
      cases b with
      | true => exact ih l2 cf2 cf1 w2 w1 h
      | false =>
        cases rest with
        | nil => simp [replay_lines] at h
        | cons r rs => simp [replay_lines] at h

theorem replay_lines_false (reader : Reader) :
    ∀ (l : List Str) (cf : PPCommandFile) (w : World),
      replay_lines reader l false cf w = .ok (false, cf, w) := by
  intro l cf w
  cases l <;> simp [replay_lines]

/-- C26: a failing line in the body of a user function stops the body, not
the expansion.  When the lines `before` of the body are read with success and
the next line fails, `function_body`, the run of the body in
`expand_function`, does not read the lines after it and returns the text
written to its stream so far; the flag of the failure is dropped.  In the
example the body of `f` executes `#error` after writing `yes`: the
expansion of `$[f]` is `yes`, and the line `a $[f] b` is read with success
and written as `a yes b`, like the line after it. -/
theorem function_body_stops_at_failure (reader : Reader) (w w1 w2 : World) (scope : Nat)
    (before after : List Str) (line text : Str) (cf1 cf2 : PPCommandFile)
    (hbefore : replay_lines reader before true
      { new_command_file scope with
        _write_state :=
          { _out := w.streams.length, _format := .WF_collapse, _last_blank := true } }
      { w with streams := w.streams ++ [[]] } = .ok (true, cf1, w1))
    (hline : reader cf1 w1 line = .ok (false, cf2, w2))
    (htext : w2.streams[w.streams.length]? = some text) :
    function_body reader w scope (before ++ line :: after) =
      .ok (text, { w2 with streams := w2.streams.take w.streams.length }) ∧
    run_output (read_lines (full_reader 60 3 2)
        ["#defun f".toList, "yes".toList, "#error stop".toList, "no".toList, "#end f".toList,
         "a $[f] b".toList, "next".toList]
        (new_command_file 0) two_named) = .ok (true, ["a yes b\nnext\n".toList]) := by
  refine ⟨?_, by decide!⟩
  simp only [function_body]
  rw [replay_lines_append_ok reader before (line :: after) _ cf1 _ w1 hbefore]
  simp only [replay_lines, if_true, hline, replay_lines_false, htext]

theorem function_body_stops_at_failure_witness :
    function_body (full_reader 60 3 1) two_named 0
        (["yes".toList] ++ "#error stop".toList :: ["no".toList]) =
      .ok ("yes\n".toList, two_named) :=
  (function_body_stops_at_failure (full_reader 60 3 1) two_named
    { two_named with streams := [[], "yes\n".toList] }
    { two_named with streams := [[], "yes\n".toList] } 0
    ["yes".toList] ["no".toList] "#error stop".toList "yes\n".toList
    { new_command_file 0 with
      _write_state := { _out := 1, _format := .WF_collapse, _last_blank := false } }
    { new_command_file 0 with
      _command := "error".toList,
      _params := "stop".toList,
      _write_state := { _out := 1, _format := .WF_collapse, _last_blank := false } }
    (by decide!) (by decide!) (by decide!)).1

/-- C26, as stated, fails: the failure of a body line does not reach the
reader of the line that holds the reference.  With `f` defined by the body
`yes`, `#error stop`, `no`, the line `a $[f] b` is read with success and
written as `a yes b`, and `$[f]` expands to `yes`. -/
theorem function_failure_not_propagated :
    full_reader 60 3 2 (new_command_file 0)
        (define_func two_named "f".toList
          { formals := [], lines := ["yes".toList, "#error stop".toList, "no".toList] })
        "a $[f] b".toList =
      .ok (true,
        { new_command_file 0 with
          _write_state := { _out := 0, _format := .WF_collapse, _last_blank := false } },
        { define_func two_named "f".toList
            { formals := [], lines := ["yes".toList, "#error stop".toList, "no".toList] } with
          scopes := two_named.scopes ++ [{ empty_scope with _named_scopes := true }],
          streams := ["a yes b\n".toList] }) ∧
    expand_string (with_functions quiet
        (fun X => call_and_map_handlers X 60 (fun _ => idle_handlers)) ' ' 60 3 2) 60
        (define_func two_named "f".toList
          { formals := [], lines := ["yes".toList, "#error stop".toList, "no".toList] })
        0 "$[f]".toList =
      .ok ("yes".toList,
        { define_func two_named "f".toList
            { formals := [], lines := ["yes".toList, "#error stop".toList, "no".toList] } with
          scopes := two_named.scopes ++ [{ empty_scope with _named_scopes := true }] }) := by
  refine ⟨by decide!, by decide!⟩

/-! ### Map variables: the definition found and its owner -/

theorem p_find_map_variable_owner_rec_spec (w : World) (varname : Str) :
    ∀ (fuel sid : Nat),
      (∀ e, p_find_map_variable_owner_rec w fuel sid varname = .error e →
        p_find_map_variable_rec w fuel sid varname = .error e) ∧
      (p_find_map_variable_owner_rec w fuel sid varname = .ok none →
        p_find_map_variable_rec w fuel sid varname = .ok none) ∧
      (∀ owner, p_find_map_variable_owner_rec w fuel sid varname = .ok (some owner) →
        ∃ sc d, w.scopes[owner]? = some sc ∧ sc._map_variables.lookup varname = some d ∧
          p_find_map_variable_rec w fuel sid varname = .ok (some d)) := by
  intro fuel
  induction fuel with
  | zero =>
    intro sid
    simp [p_find_map_variable_owner_rec, p_find_map_variable_rec]
  | succ fuel ih =>
    intro sid
    simp only [p_find_map_variable_owner_rec, p_find_map_variable_rec]
    cases hsc : w.scopes[sid]? with
    | none => simp
    | some sc =>
      simp only []
      cases hl : sc._map_variables.lookup varname with
      | some d =>
        simp only [reduceCtorEq, false_implies, implies_true, true_and, Except.ok.injEq,
          Option.some.injEq, forall_eq']
        exact ⟨sc, d, hsc, hl, rfl⟩
      | none =>
        simp only []
        cases hp : sc._parent_scope with
        | none => simp
        | some parent => exact ih parent

theorem find_map_variable_owner_stack_spec (w : World) (varname : Str) :
    ∀ (stack : List Nat),
      (∀ e, find_map_variable_owner_stack w varname stack = .error e →
        find_map_variable_stack w varname stack = .error e) ∧
      (find_map_variable_owner_stack w varname stack = .ok none →
        find_map_variable_stack w varname stack = .ok none) ∧
      (∀ owner, find_map_variable_owner_stack w varname stack = .ok (some owner) →
        ∃ sc d, w.scopes[owner]? = some sc ∧ sc._map_variables.lookup varname = some d ∧
          find_map_variable_stack w varname stack = .ok (some d)) := by
  intro stack
  induction stack with
  | nil => simp [find_map_variable_owner_stack, find_map_variable_stack]
  | cons si rest ih =>
    obtain ⟨h1, h2, h3⟩ := p_find_map_variable_owner_rec_spec w varname w.scopes.length si
    simp only [find_map_variable_owner_stack, find_map_variable_stack,
      p_find_map_variable_owner, p_find_map_variable]
    rcases hr : p_find_map_variable_owner_rec w w.scopes.length si varname with e | _ | o
    · simp [h1 e hr]
    · simp only [h2 hr]
      exact ih
    · obtain ⟨sc, d, hsc, hl, hf⟩ := h3 o hr
      simp only [hf, reduceCtorEq, false_implies, implies_true, true_and, Except.ok.injEq,
        Option.some.injEq, forall_eq']
      exact ⟨sc, d, hsc, hl, rfl⟩

theorem find_map_variable_owner_spec (w : World) (sid : Nat) (varname : Str) :
    (∀ e, find_map_variable_owner w sid varname = .error e →
      find_map_variable w sid varname = .error e) ∧
    (find_map_variable_owner w sid varname = .ok none →
      find_map_variable w sid varname = .ok none) ∧
    (∀ owner, find_map_variable_owner w sid varname = .ok (some owner) →
      ∃ sc d, w.scopes[owner]? = some sc ∧ sc._map_variables.lookup varname = some d ∧
        find_map_variable w sid varname = .ok (some d)) := by
  obtain ⟨h1, h2, h3⟩ := p_find_map_variable_owner_rec_spec w varname w.scopes.length sid
  simp only [find_map_variable_owner, find_map_variable, p_find_map_variable_owner,
    p_find_map_variable]
  rcases hr : p_find_map_variable_owner_rec w w.scopes.length sid varname with e | _ | o
  · simp [h1 e hr]
  · simp only [h2 hr]
    exact find_map_variable_owner_stack_spec w varname _
  · obtain ⟨sc, d, hsc, hl, hf⟩ := h3 o hr
    simp only [hf, reduceCtorEq, false_implies, implies_true, true_and, Except.ok.injEq,
      Option.some.injEq, forall_eq']
    exact ⟨sc, d, hsc, hl, rfl⟩

theorem find_map_variable_owner_none (w : World) (sid : Nat) (varname : Str)
    (h : find_map_variable w sid varname = .ok none) :
    find_map_variable_owner w sid varname = .ok none := by
  obtain ⟨h1, h2, h3⟩ := find_map_variable_owner_spec w sid varname
  rcases hr : find_map_variable_owner w sid varname with e | _ | o
  · rw [h1 e hr] at h; simp at h
  · rfl
  · obtain ⟨sc, d, _, _, hf⟩ := h3 o hr
    rw [hf] at h; simp at h

theorem find_map_variable_owner_some (w : World) (sid : Nat) (varname : Str)
    (mapdef : List (Str × Nat)) (h : find_map_variable w sid varname = .ok (some mapdef)) :
    ∃ owner sc, find_map_variable_owner w sid varname = .ok (some owner) ∧
      w.scopes[owner]? = some sc ∧ sc._map_variables.lookup varname = some mapdef := by
  obtain ⟨h1, h2, h3⟩ := find_map_variable_owner_spec w sid varname
  rcases hr : find_map_variable_owner w sid varname with e | _ | o
  · rw [h1 e hr] at h; simp at h
  · rw [h2 hr] at h; simp at h
  · obtain ⟨sc, d, hsc, hl, hf⟩ := h3 o hr
    rw [hf] at h
    simp only [Except.ok.injEq, Option.some.injEq] at h
    subst h
    exact ⟨o, sc, rfl, hsc, hl⟩

/-! ### C24: references to a map variable that is not defined -/

theorem handle_command_addmap (X : External) (H : Handlers) (stray : Char) (fuel : Nat)
    (cf : PPCommandFile) (w : World) (p : Str) (hlast : ¬ (p.getLast?.getD stray = '\\'))
    (hif : failed_if cf = false) (hfor : cf._in_for = false) :
    handle_command X H stray fuel
        { cf with _command := "addmap".toList, _params := p, _got_command := true } w [] =
      H.handle_addmap_command
        { cf with _command := "addmap".toList, _params := p, _got_command := false } w := by
  simp only [failed_if] at hif
  simp [handle_command, hlast, failed_if, hif, hfor]

theorem read_line_addmap_line (X : External) (H : Handlers) (stray : Char) (fuel : Nat)
    (cf : PPCommandFile) (w : World) (params : Str) (hstray : stray ≠ '\\')
    (hgot : cf._got_command = false) (hfor : cf._in_for = false) (hif : failed_if cf = false)
    (hp : parameter_text params) :
    read_line X H stray fuel cf w ("#addmap ".toList ++ params) =
      H.handle_addmap_command
        { cf with _command := "addmap".toList, _params := params.dropWhile isspace } w := by
  obtain ⟨ns, sc, got, infor, ifn, bn, cmd, prm, ws0, sl⟩ := cf
  simp only at hgot hfor
  subst hgot hfor
  have h1 := read_line_with_params X H stray fuel
    ⟨ns, sc, false, false, ifn, bn, cmd, prm, ws0, sl⟩
    w 'a' "ddmap".toList params rfl (by decide) (by decide) hp.1
  have h2 := handle_command_addmap X H stray fuel
    ⟨ns, sc, false, false, ifn, bn, cmd, prm, ws0, sl⟩
    w (params.dropWhile isspace) (getLast?_getD_ne _ stray hstray hp.2) hif rfl
  simp only [Bool.false_eq_true, if_false] at h1
  exact h1.trans h2

/-- C24: of the three references to a map variable that is not defined only
`#formap` fails.  Outside a capture and a failing branch, the line
`#addmap` with the name of no map variable is read with success: the key is
expanded and nothing else changes.  A reference `$[M expr, keys]` to such a
name expands to the empty string and leaves the state as it is.  The replay
of a `#formap` block over such a name returns false without reading a line
of the body; in the example the block writes nothing and the read stops at
its `#end`. -/
theorem undefined_map_variable_fails_only_formap (X : External) (H : Handlers)
    (stray : Char) (fuel : Nat) (cf : PPCommandFile) (w w1 : World) (params text : Str)
    (hstray : stray ≠ '\\') (hgot : cf._got_command = false) (hfor : cf._in_for = false)
    (hif : failed_if cf = false) (hp : parameter_text params)
    (hH : H.handle_addmap_command = handle_addmap_command X fuel)
    (hexp : expand_string X fuel w cf._scope (params_definition (params.dropWhile isspace)) =
      .ok (text, w1))
    (hundef : find_map_variable w1 cf._scope (params_varname (params.dropWhile isspace)) =
      .ok none) :
    read_line X H stray fuel cf w ("#addmap ".toList ++ params) =
      .ok (true,
        { cf with _command := "addmap".toList, _params := params.dropWhile isspace }, w1) ∧
    (∀ (E : ExpandInFn) (w2 : World) (sid : Nat) (varname expression : Str) (keys : List Str),
      find_map_variable w2 sid varname = .ok none →
      expand_map_variable_keyed E w2 sid varname expression keys = .ok ([], w2)) ∧
    (∀ (reader : Reader) (n : Nat) (cf2 : PPCommandFile) (w2 : World) (varname mapvar : Str),
      cf2._saved_lines ≠ [] → find_map_variable w2 cf2._scope mapvar = .ok none →
      replay_formap reader n cf2 w2 varname mapvar =
        .ok (false, { cf2 with _saved_lines := [] }, w2)) ∧
    run_output (read_lines (full_reader 60 3 2)
        ["#formap v M".toList, "x".toList, "#end v".toList, "after".toList]
        (new_command_file 0) two_named) = .ok (false, [[]]) := by
  refine ⟨?_, ?_, ?_, by decide!⟩
  · rw [read_line_addmap_line X H stray fuel cf w params hstray hgot hfor hif hp, hH]
    simp only [handle_addmap_command, hexp, add_to_map_variable,
      find_map_variable_owner_none _ _ _ hundef]
  · intro E w2 sid varname expression keys h
    simp only [expand_map_variable_keyed, find_map_variable_owner_none _ _ _ h]
  · intro reader n cf2 w2 varname mapvar hsaved h
    have : cf2._saved_lines.isEmpty = false := by
      cases hs : cf2._saved_lines with
      | nil => exact absurd hs hsaved
      | cons a l => rfl
    simp only [replay_formap, this, Bool.false_eq_true, if_false,
      find_map_variable_owner_none _ _ _ h]

theorem undefined_map_variable_fails_only_formap_witness :
    read_line quiet (call_and_map_handlers quiet 60 (fun _ => idle_handlers) (full_reader 60 3 2))
        ' ' 60 (new_command_file 0) two_named ("#addmap ".toList ++ "M newkey".toList) =
      .ok (true,
        { new_command_file 0 with
          _command := "addmap".toList, _params := "M newkey".toList }, two_named) :=
  (undefined_map_variable_fails_only_formap quiet
    (call_and_map_handlers quiet 60 (fun _ => idle_handlers) (full_reader 60 3 2)) ' ' 60
    (new_command_file 0) two_named two_named "M newkey".toList "newkey".toList
    (by decide) rfl rfl (by decide) (by decide) rfl (by decide!) (by decide!)).1

/-- C24, as stated, fails for `#addmap` and for the reference: with no map
variable `M`, the lines `#addmap M newkey` and `a$[M $[v], newkey]b` are read
with success, the reference expands to the empty string, and the read goes
on with the next line. -/
theorem undefined_map_variable_not_fatal :
    run_output (read_lines (full_reader 60 3 2)
        ["#addmap M newkey".toList, "a$[M $[v], newkey]b".toList, "after".toList]
        (new_command_file 0) two_named) = .ok (true, ["ab\nafter\n".toList]) ∧
    full_reader 60 3 2 (new_command_file 0) two_named "#addmap M newkey".toList =
      .ok (true,
        { new_command_file 0 with
          _command := "addmap".toList, _params := "M newkey".toList }, two_named) := by
  refine ⟨by decide!, by decide!⟩

/-! ### C21: the round trip of a map variable -/

theorem lookup_map_variable_assign (k : Str) (scope : Nat) (key : Str) :
    ∀ mapdef : List (Str × Nat),
      (map_variable_assign k scope mapdef).lookup key =
        if key = k then some scope else mapdef.lookup key := by
  intro mapdef
  induction mapdef with
  | nil =>
    by_cases h : key = k
    · simp [map_variable_assign, List.lookup, h]
    · have : (key == k) = false := by simpa using h
      simp [map_variable_assign, List.lookup, h, this]
  | cons kv rest ih =>
    obtain ⟨k0, v⟩ := kv
    simp only [map_variable_assign]
    by_cases h0 : k0 = k
    · subst h0
      by_cases h : key = k0
      · simp [List.lookup, h]
      · have : (key == k0) = false := by simpa using h
        simp [List.lookup, h, this]
    · simp only [h0, if_false]
      by_cases hlt : str_lt k k0 = true
      · simp only [hlt, if_true]
        by_cases h : key = k
        · simp [List.lookup, h]
        · have : (key == k) = false := by simpa using h
          simp [List.lookup, h, this]
      · simp only [hlt, if_false]
        by_cases h : key = k0
        · subst h
          have : ¬ key = k := h0
          simp [List.lookup, this]
        · have : (key == k0) = false := by simpa using h
          simp only [List.lookup, this, ih]

theorem lookup_map_insert_same {β : Type} (key : Str) (value : β) :
    ∀ l : List (Str × β), (map_insert key value l).lookup key = some value := by
  intro l
  induction l with
  | nil => simp [map_insert, List.lookup]
  | cons kv rest ih =>
    obtain ⟨k, v⟩ := kv
    by_cases hk : k = key
    · subst hk
      simp [map_insert, List.lookup]
    · have hk2 : (key == k) = false := by simpa using Ne.symm hk
      simp [map_insert, hk, List.lookup, hk2, ih]

theorem map_set_same {α : Type} (f : PPScope → α) (l : List PPScope) (i : Nat)
    (x y : PPScope) (h : l[i]? = some x) (hf : f y = f x) : (l.set i y).map f = l.map f := by
  apply List.ext_getElem?
  intro j
  simp only [List.getElem?_map, List.getElem?_set]
  by_cases hij : i = j
  · subst hij
    have hlt : i < l.length := by
      rcases Nat.lt_or_ge i l.length with h1 | h1
      · exact h1
      · simp [List.getElem?_eq_none h1] at h
    simp [hlt, h, hf]
  · simp [hij]

theorem same_frame.getElem {α : Type} {f : PPScope → α} {w w2 : World}
    (h : same_frame f w w2) (i : Nat) : (w2.scopes[i]?).map f = (w.scopes[i]?).map f := by
  have := congrArg (fun l => l[i]?) h.2
  simpa [List.getElem?_map] using this

theorem same_frame.length {α : Type} {f : PPScope → α} {w w2 : World}
    (h : same_frame f w w2) : w2.scopes.length = w.scopes.length := by
  have := congrArg List.length h.2
  simpa using this

theorem same_frame.same {α : Type} (f : PPScope → α) (w : World) : same_frame f w w :=
  ⟨rfl, rfl⟩

theorem same_frame.put_scope {α : Type} (f : PPScope → α) (w : World) (sid : Nat)
    (sc sc2 : PPScope) (h : w.scopes[sid]? = some sc) (hf : f sc2 = f sc) :
    same_frame f w (w.put_scope sid sc2) :=
  ⟨rfl, map_set_same f w.scopes sid sc sc2 h hf⟩

theorem static_chain_congr (w w2 : World) (h : same_frame (fun sc => sc._parent_scope) w w2) :
    ∀ (fuel sid : Nat), static_chain w2 fuel sid = static_chain w fuel sid := by
  intro fuel
  induction fuel with
  | zero => intro sid; rfl
  | succ fuel ih =>
    intro sid
    have hg := h.getElem sid
    simp only [static_chain]
    rcases h2 : w2.scopes[sid]? with _ | sc2 <;> rcases h1 : w.scopes[sid]? with _ | sc1 <;>
      simp only [h1, h2, Option.map_none', Option.map_some', reduceCtorEq,
        Option.some.injEq] at hg
    · rfl
    · simp only
      rw [hg]
      rcases sc1._parent_scope with _ | parent
      · rfl
      · simp only [ih parent]

theorem static_chains_congr (w w2 : World) (h : same_frame (fun sc => sc._parent_scope) w w2) :
    ∀ stack : List Nat, static_chains w2 stack = static_chains w stack := by
  intro stack
  induction stack with
  | nil => rfl
  | cons si rest ih =>
    simp only [static_chains, ih, h.length, static_chain_congr w w2 h]

theorem resolution_order_congr (w w2 : World)
    (h : same_frame (fun sc => sc._parent_scope) w w2) (sid : Nat) :
    resolution_order w2 sid = resolution_order w sid := by
  simp only [resolution_order, h.length, static_chain_congr w w2 h,
    static_chains_congr w w2 h, h.1]

theorem p_find_map_variable_rec_congr (w w2 : World) (varname : Str)
    (h : same_frame (fun sc => (sc._parent_scope, sc._map_variables)) w w2) :
    ∀ (fuel sid : Nat),
      p_find_map_variable_rec w2 fuel sid varname = p_find_map_variable_rec w fuel sid varname := by
  intro fuel
  induction fuel with
  | zero => intro sid; rfl
  | succ fuel ih =>
    intro sid
    have hg := h.getElem sid
    simp only [p_find_map_variable_rec]
    rcases h2 : w2.scopes[sid]? with _ | sc2 <;> rcases h1 : w.scopes[sid]? with _ | sc1 <;>
      simp only [h1, h2, Option.map_none', Option.map_some', reduceCtorEq,
        Option.some.injEq, Prod.mk.injEq] at hg
    · rfl
    · simp only
      rw [hg.1, hg.2]
      rcases sc1._map_variables.lookup varname with _ | d
      · simp only
        rcases sc1._parent_scope with _ | parent
        · rfl
        · simp only [ih parent]
      · rfl

theorem find_map_variable_stack_congr (w w2 : World) (varname : Str)
    (h : same_frame (fun sc => (sc._parent_scope, sc._map_variables)) w w2) :
    ∀ stack : List Nat,
      find_map_variable_stack w2 varname stack = find_map_variable_stack w varname stack := by
  intro stack
  induction stack with
  | nil => rfl
  | cons si rest ih =>
    simp only [find_map_variable_stack, p_find_map_variable, h.length,
      p_find_map_variable_rec_congr w w2 varname h, ih]

theorem find_map_variable_congr (w w2 : World) (sid : Nat) (varname : Str)
    (h : same_frame (fun sc => (sc._parent_scope, sc._map_variables)) w w2) :
    find_map_variable w2 sid varname = find_map_variable w sid varname := by
  simp only [find_map_variable, p_find_map_variable, h.length,
    p_find_map_variable_rec_congr w w2 varname h, find_map_variable_stack_congr w w2 varname h,
    h.1]

theorem define_variable_frame {α : Type} (f : PPScope → α)
    (hf : ∀ (sc : PPScope) (v : List (Str × Str)), f { sc with _variables := v } = f sc)
    (w w2 : World) (sid : Nat) (varname definition : Str)
    (h : define_variable w sid varname definition = .ok w2) : same_frame f w w2 := by
  unfold define_variable at h
  cases hsc : w.scopes[sid]? with
  | none => simp [hsc] at h
  | some sc =>
    simp only [hsc, Except.ok.injEq] at h
    subst h
    exact same_frame.put_scope f w sid sc _ hsc (hf sc _)

theorem p_set_variable_rec_frame {α : Type} (f : PPScope → α)
    (hf : ∀ (sc : PPScope) (v : List (Str × Str)), f { sc with _variables := v } = f sc)
    (w : World) (varname definition : Str) :
    ∀ (fuel sid : Nat) (b : Bool) (w2 : World),
      p_set_variable_rec fuel w sid varname definition = .ok (b, w2) → same_frame f w w2 := by
  intro fuel
  induction fuel with
  | zero => intro sid b w2 h; simp [p_set_variable_rec] at h
  | succ fuel ih =>
    intro sid b w2 h
    simp only [p_set_variable_rec] at h
    cases hsc : w.scopes[sid]? with
    | none => simp [hsc] at h
    | some sc =>
      simp only [hsc] at h
      cases hl : sc._variables.lookup varname with
      | some d =>
        simp only [hl, Except.ok.injEq, Prod.mk.injEq] at h
        rw [← h.2]
        exact same_frame.put_scope f w sid sc _ hsc (hf sc _)
      | none =>
        simp only [hl] at h
        cases hp : sc._parent_scope with
        | none =>
          simp only [hp, Except.ok.injEq, Prod.mk.injEq] at h
          rw [← h.2]
          exact same_frame.same f w
        | some parent =>
          simp only [hp] at h
          exact ih parent b w2 h

theorem set_variable_stack_frame {α : Type} (f : PPScope → α)
    (hf : ∀ (sc : PPScope) (v : List (Str × Str)), f { sc with _variables := v } = f sc)
    (w : World) (varname definition : Str) :
    ∀ (stack : List Nat) (b : Bool) (w2 : World),
      set_variable_stack w varname definition stack = .ok (b, w2) → same_frame f w w2 := by
  intro stack
  induction stack with
  | nil =>
    intro b w2 h
    simp only [set_variable_stack, Except.ok.injEq, Prod.mk.injEq] at h
    rw [← h.2]
    exact same_frame.same f w
  | cons si rest ih =>
    intro b w2 h
    simp only [set_variable_stack, p_set_variable] at h
    rcases hr : p_set_variable_rec w.scopes.length w si varname definition with e | ⟨b1, w1⟩
    · simp [hr] at h
    · cases b1 with
      | true =>
        simp only [hr, Except.ok.injEq, Prod.mk.injEq] at h
        rw [← h.2]
        exact p_set_variable_rec_frame f hf w varname definition _ si true w1 hr
      | false =>
        simp only [hr] at h
        exact ih b w2 h

theorem set_variable_frame {α : Type} (f : PPScope → α)
    (hf : ∀ (sc : PPScope) (v : List (Str × Str)), f { sc with _variables := v } = f sc)
    (w w2 : World) (sid : Nat) (varname definition : Str) (b : Bool)
    (h : set_variable w sid varname definition = .ok (b, w2)) : same_frame f w w2 := by
  simp only [set_variable, p_set_variable] at h
  rcases hr : p_set_variable_rec w.scopes.length w sid varname definition with e | ⟨b1, w1⟩
  · simp [hr] at h
  · cases b1 with
    | true =>
      simp only [hr, Except.ok.injEq, Prod.mk.injEq] at h
      rw [← h.2]
      exact p_set_variable_rec_frame f hf w varname definition _ sid true w1 hr
    | false =>
      simp only [hr] at h
      rcases hs : set_variable_stack w varname definition w._scope_stack.reverse with
        e | ⟨b2, w3⟩
      · simp [hs] at h
      · cases b2 with
        | true =>
          simp only [hs, Except.ok.injEq, Prod.mk.injEq] at h
          rw [← h.2]
          exact set_variable_stack_frame f hf w varname definition _ true w3 hs
        | false =>
          simp only [hs] at h
          cases hg : getenv w varname with
          | none =>
            simp only [hg, Except.ok.injEq, Prod.mk.injEq] at h
            rw [← h.2]
            exact same_frame.same f w
          | some env =>
            simp only [hg] at h
            split at h
            · simp at h
            · rename_i w4 hd
              simp only [Except.ok.injEq, Prod.mk.injEq] at h
              rw [← h.2]
              exact define_variable_frame f hf w w4 _ varname definition hd

theorem p_find_map_variable_rec_update (w : World) (owner : Nat) (sc : PPScope)
    (varname : Str) (newdef : List (Str × Nat)) (hown : w.scopes[owner]? = some sc)
    (hM : (sc._map_variables.lookup varname).isSome = true) :
    ∀ (fuel sid : Nat),
      (p_find_map_variable_owner_rec w fuel sid varname = .ok (some owner) →
        p_find_map_variable_rec
          (w.put_scope owner
            { sc with _map_variables := map_insert varname newdef sc._map_variables })
          fuel sid varname = .ok (some newdef)) ∧
      (p_find_map_variable_owner_rec w fuel sid varname = .ok none →
        p_find_map_variable_rec
          (w.put_scope owner
            { sc with _map_variables := map_insert varname newdef sc._map_variables })
          fuel sid varname = .ok none) := by
  have hlt : owner < w.scopes.length := by
    rcases Nat.lt_or_ge owner w.scopes.length with h1 | h1
    · exact h1
    · simp [List.getElem?_eq_none h1] at hown
  intro fuel
  induction fuel with
  | zero => intro sid; simp [p_find_map_variable_owner_rec]
  | succ fuel ih =>
    intro sid
    simp only [p_find_map_variable_owner_rec, p_find_map_variable_rec, World.put_scope]
    by_cases hs : sid = owner
    · subst hs
      obtain ⟨d, hd⟩ := Option.isSome_iff_exists.1 hM
      simp [hown, hd, List.getElem?_set, hlt, lookup_map_insert_same]
    · rw [List.getElem?_set_ne (Ne.symm hs)]
      cases hsc : w.scopes[sid]? with
      | none => simp
      | some sc1 =>
        simp only []
        cases hl : sc1._map_variables.lookup varname with
        | some d => simp [hs]
        | none =>
          simp only []
          cases hp : sc1._parent_scope with
          | none => simp
          | some parent => exact ih parent

theorem find_map_variable_stack_update (w : World) (owner : Nat) (sc : PPScope)
    (varname : Str) (newdef : List (Str × Nat)) (hown : w.scopes[owner]? = some sc)
    (hM : (sc._map_variables.lookup varname).isSome = true) :
    ∀ stack : List Nat,
      (find_map_variable_owner_stack w varname stack = .ok (some owner) →
        find_map_variable_stack
          (w.put_scope owner
            { sc with _map_variables := map_insert varname newdef sc._map_variables })
          varname stack = .ok (some newdef)) ∧
      (find_map_variable_owner_stack w varname stack = .ok none →
        find_map_variable_stack
          (w.put_scope owner
            { sc with _map_variables := map_insert varname newdef sc._map_variables })
          varname stack = .ok none) := by
  intro stack
  induction stack with
  | nil => simp [find_map_variable_owner_stack, find_map_variable_stack]
  | cons si rest ih =>
    have hlen : (w.put_scope owner
        { sc with _map_variables := map_insert varname newdef sc._map_variables }).scopes.length =
        w.scopes.length := by simp [World.put_scope]
    obtain ⟨h1, h2⟩ :=
      p_find_map_variable_rec_update w owner sc varname newdef hown hM w.scopes.length si
    obtain ⟨_, _, h5⟩ := p_find_map_variable_owner_rec_spec w varname w.scopes.length si
    simp only [find_map_variable_owner_stack, find_map_variable_stack,
      p_find_map_variable_owner, p_find_map_variable, hlen]
    rcases hr : p_find_map_variable_owner_rec w w.scopes.length si varname with e | _ | o
    · simp
    · simp only [h2 hr]
      exact ih
    · simp only [Except.ok.injEq, Option.some.injEq, reduceCtorEq, false_implies, and_true]
      intro ho
      subst ho
      simp only [h1 hr]

theorem find_map_variable_update (w : World) (owner sid : Nat) (sc : PPScope)
    (varname : Str) (newdef : List (Str × Nat)) (hown : w.scopes[owner]? = some sc)
    (hM : (sc._map_variables.lookup varname).isSome = true)
    (h : find_map_variable_owner w sid varname = .ok (some owner)) :
    find_map_variable
      (w.put_scope owner
        { sc with _map_variables := map_insert varname newdef sc._map_variables })
      sid varname = .ok (some newdef) := by
  have hlen : (w.put_scope owner
      { sc with _map_variables := map_insert varname newdef sc._map_variables }).scopes.length =
      w.scopes.length := by simp [World.put_scope]
  have hstack : (w.put_scope owner
      { sc with _map_variables := map_insert varname newdef sc._map_variables })._scope_stack =
      w._scope_stack := rfl
  obtain ⟨h1, h2⟩ :=
    p_find_map_variable_rec_update w owner sc varname newdef hown hM w.scopes.length sid
  simp only [find_map_variable_owner, p_find_map_variable_owner] at h
  simp only [find_map_variable, p_find_map_variable, hlen, hstack]
  rcases hr : p_find_map_variable_owner_rec w w.scopes.length sid varname with e | _ | o
  · simp [hr] at h
  · simp only [hr] at h
    simp only [h2 hr]
    exact (find_map_variable_stack_update w owner sc varname newdef hown hM _).1 h
  · simp only [hr, Except.ok.injEq, Option.some.injEq] at h
    subst h
    simp only [h1 hr]

theorem lookup_isSome_of_mem (mapdef : List (Str × Nat)) (k : Str)
    (h : k ∈ mapdef.map Prod.fst) : (mapdef.lookup k).isSome = true := by
  induction mapdef with
  | nil => simp at h
  | cons kv rest ih =>
    obtain ⟨k2, v⟩ := kv
    by_cases hk : k = k2
    · simp [hk, List.lookup]
    · have hk2 : (k == k2) = false := by simpa using hk
      simp only [List.lookup, hk2]
      apply ih
      simpa [hk] using h

theorem add_to_map_variable_spec (w : World) (sid scope : Nat) (varname k : Str)
    (mapdef : List (Str × Nat)) (order : List Nat)
    (horder : resolution_order w sid = some order)
    (hmap : find_map_variable w sid varname = .ok (some mapdef)) :
    ∃ w2, add_to_map_variable w sid varname k scope = .ok w2 ∧
      find_map_variable w2 sid varname = .ok (some (map_variable_assign k scope mapdef)) := by
  obtain ⟨owner, sc, ho, hsc, hl⟩ := find_map_variable_owner_some w sid varname mapdef hmap
  have hM : (sc._map_variables.lookup varname).isSome = true := by simp [hl]
  have hparents : same_frame (fun sc => sc._parent_scope) w
      (w.put_scope owner
        { sc with
          _map_variables :=
            map_insert varname (map_variable_assign k scope mapdef) sc._map_variables }) :=
    same_frame.put_scope _ w owner sc _ hsc rfl
  have horder1 := (resolution_order_congr w _ hparents sid).trans horder
  obtain ⟨⟨b, w2⟩, hset⟩ := (set_variable_fails_iff _ sid varname
    (repaste ((map_variable_assign k scope mapdef).map Prod.fst) " ".toList) order horder1).1
  refine ⟨w2, ?_, ?_⟩
  · simp only [add_to_map_variable, ho, hsc, hl, Option.getD_some, hset]
  · rw [find_map_variable_congr _ w2 sid varname
      (set_variable_frame (fun sc => (sc._parent_scope, sc._map_variables)) (fun _ _ => rfl)
        _ w2 sid varname _ b hset)]
    exact find_map_variable_update w owner sid sc varname _ hsc hM ho

/-- C21: the round trip of a map variable.  In a state whose scope chains
are well formed, for a map variable found from the scope and a key `k` that
is one word: `add_to_map_variable` returns, and afterwards the map variable
holds `k` with the scope given; `expand_map_variable` on the parameters
`expr, k` returns what the expansion of `expr` in that scope returns; and
`expand_unmapped` returns the words of its key list that are neither `k` nor
a key of the map before, in their order.  Through the interpreter, after
`#map M K(scopeA scopeB)` and `#addmap M newkey` the line `$[M $[v], newkey]`
is written as the value of `v` in the current scope, and
`$[unmapped M, newkey other]` as `other`. -/
theorem add_to_map_variable_round_trip (T : TokenizeFn) (S : ExpandFn) (E : ExpandInFn)
    (w : World) (sid scope : Nat) (varname k expression params t1 uparams u0 u1 keys : Str)
    (mapdef : List (Str × Nat)) (order : List Nat)
    (horder : resolution_order w sid = some order)
    (hmap : find_map_variable w sid varname = .ok (some mapdef))
    (hk : tokenize_whitespace k = [k])
    (hT : ∀ w2, T w2 params = .ok ([expression, t1], w2))
    (hS : ∀ w2, S w2 t1 = .ok (k, w2))
    (hT2 : ∀ w2, T w2 uparams = .ok ([u0, u1], w2))
    (hS0 : ∀ w2, S w2 u0 = .ok (varname, w2))
    (hS1 : ∀ w2, S w2 u1 = .ok (keys, w2)) :
    (∃ w2, add_to_map_variable w sid varname k scope = .ok w2 ∧
      find_map_variable w2 sid varname = .ok (some (map_variable_assign k scope mapdef)) ∧
      expand_map_variable T S E w2 sid varname params = E w2 scope expression ∧
      expand_unmapped T S w2 sid uparams =
        .ok (repaste ((tokenize_whitespace keys).filter
          (fun x => decide (x ≠ k ∧ x ∉ mapdef.map Prod.fst))) " ".toList, w2)) ∧
    run_output (read_lines (full_reader 60 3 2)
        ["#map M K(scopeA scopeB)".toList, "#define v here".toList,
         "#addmap M newkey".toList, "$[M $[v], newkey]".toList,
         "$[unmapped M, newkey other]".toList, "$[M $[v], ka kb]".toList]
        (new_command_file 0) two_named) = .ok (true, ["here\nother\nin-a in-b\n".toList]) := by
  refine ⟨?_, by decide!⟩
  obtain ⟨w2, hadd, hfind⟩ := add_to_map_variable_spec w sid scope varname k mapdef order
    horder hmap
  refine ⟨w2, hadd, hfind, ?_, ?_⟩
  · obtain ⟨owner2, sc2, ho2, hsc2, hl2⟩ := find_map_variable_owner_some w2 sid varname _ hfind
    have hat : map_variable_at w2 owner2 varname = map_variable_assign k scope mapdef := by
      simp only [map_variable_at, hsc2, hl2, Option.getD_some]
    simp only [expand_map_variable, hT, hS, hk, expand_map_variable_keyed, ho2,
      expand_map_variable_keys, hat, lookup_map_variable_assign, if_true]
    rcases E w2 scope expression with e | ⟨r, w3⟩
    · rfl
    · cases r with
      | nil => rfl
      | cons c cs => simp [repaste, List.intercalate]
  · simp only [expand_unmapped, hT2, hS0, hS1, hfind]
    congr 3
    apply List.filter_congr
    intro x _
    rw [lookup_map_variable_assign]
    by_cases hx : x = k
    · simp [hx]
    · simp only [hx, if_false, ne_eq, not_false_eq_true, true_and]
      cases hl : mapdef.lookup x with
      | none =>
        have : x ∉ mapdef.map Prod.fst := by
          intro hmem
          have := lookup_isSome_of_mem mapdef x hmem
          simp [hl] at this
        simp [this]
      | some d =>
        have : x ∈ mapdef.map Prod.fst := lookup_isSome_mem mapdef x (by simp [hl])
        simp [this]

theorem add_to_map_variable_round_trip_witness :
    ∃ w2, add_to_map_variable cyclic_map 0 "M".toList "k".toList 0 = .ok w2 ∧
      find_map_variable w2 0 "M".toList =
        .ok (some (map_variable_assign "k".toList 0 [("a".toList, 1), ("b".toList, 2)])) ∧
      expand_map_variable
          (fun w p => if p = "e,k".toList then .ok (["e".toList, "k".toList], w)
            else .ok (["M".toList, "k other b".toList], w))
          (fun w s => .ok (s, w)) (fun w _ s => .ok (s, w)) w2 0 "M".toList "e,k".toList =
        .ok ("e".toList, w2) ∧
      expand_unmapped
          (fun w p => if p = "e,k".toList then .ok (["e".toList, "k".toList], w)
            else .ok (["M".toList, "k other b".toList], w))
          (fun w s => .ok (s, w)) w2 0 "M,k other b".toList =
        .ok (repaste ((tokenize_whitespace "k other b".toList).filter
          (fun x => decide (x ≠ "k".toList ∧
            x ∉ [("a".toList, 1), ("b".toList, 2)].map Prod.fst))) " ".toList, w2) :=
  (add_to_map_variable_round_trip
    (fun w p => if p = "e,k".toList then .ok (["e".toList, "k".toList], w)
      else .ok (["M".toList, "k other b".toList], w))
    (fun w s => .ok (s, w)) (fun w _ s => .ok (s, w)) cyclic_map 0 0 "M".toList "k".toList
    "e".toList "e,k".toList "k".toList "M,k other b".toList "M".toList "k other b".toList
    "k other b".toList [("a".toList, 1), ("b".toList, 2)] [0]
    (by decide) (by decide!) (by decide) (fun _ => rfl) (fun _ => rfl) (fun _ => if_neg (by decide))
    (fun _ => rfl) (fun _ => rfl)).1

/-! ### C33: the collapse format -/

theorem write_lines_collapse (out : Nat) :
    ∀ (lines : List Str) (last_blank : Bool) (w : World) (written : Str),
      w.streams[out]? = some written →
      ∃ ws2 w2,
        write_lines { _out := out, _format := .WF_collapse, _last_blank := last_blank } w lines =
          .ok (ws2, w2) ∧
        w2.streams[out]? = some (written ++ lines_text (collapse_blank_runs last_blank lines)) ∧
        ∀ i, i ≠ out → w2.streams[i]? = w.streams[i]? := by
  intro lines
  induction lines with
  | nil =>
    intro last_blank w written hw
    exact ⟨_, w, rfl, by simp [collapse_blank_runs, lines_text, hw], fun _ _ => rfl⟩
  | cons line rest ih =>
    intro last_blank w written hw
    have hlt : out < w.streams.length := by
      rcases Nat.lt_or_ge out w.streams.length with h | h
      · exact h
      · simp [List.getElem?_eq_none h] at hw
    cases hl : line.isEmpty with
    | true =>
      have hline : line = [] := List.isEmpty_iff.1 hl
      subst hline
      cases last_blank with
      | true =>
        obtain ⟨ws2, w2, h1, h2, h3⟩ := ih true w written hw
        refine ⟨ws2, w2, ?_, ?_, h3⟩
        · simp only [write_lines, write_line, write_collapse_line]
          simpa using h1
        · simpa [collapse_blank_runs] using h2
      | false =>
        obtain ⟨ws2, w2, h1, h2, h3⟩ := ih true
          { w with streams := w.streams.set out (written ++ "\n".toList) }
          (written ++ "\n".toList) (by simp [List.getElem?_set, hlt])
        refine ⟨ws2, w2, ?_, ?_, ?_⟩
        · simp only [write_lines, write_line, write_collapse_line, stream_write, hw]
          simpa using h1
        · simpa [collapse_blank_runs, lines_text] using h2
        · intro i hi
          rw [h3 i hi]
          simp [List.getElem?_set_ne (Ne.symm hi)]
    | false =>
      obtain ⟨ws2, w2, h1, h2, h3⟩ := ih false
        { w with streams := w.streams.set out (written ++ (line ++ "\n".toList)) }
        (written ++ (line ++ "\n".toList)) (by simp [List.getElem?_set, hlt])
      refine ⟨ws2, w2, ?_, ?_, ?_⟩
      · simp only [write_lines, write_line, write_collapse_line, stream_write, hw, hl]
        simpa using h1
      · simpa [collapse_blank_runs, lines_text, hl] using h2
      · intro i hi
        rw [h3 i hi]
        simp [List.getElem?_set_ne (Ne.symm hi)]

theorem collapse_keeps_lines :
    ∀ (lines : List Str) (last_blank : Bool),
      (collapse_blank_runs last_blank lines).filter (fun l => !l.isEmpty) =
        lines.filter (fun l => !l.isEmpty) := by
  intro lines
  induction lines with
  | nil => intro _; rfl
  | cons line rest ih =>
    intro last_blank
    cases hl : line.isEmpty with
    | true =>
      cases last_blank <;> simp [collapse_blank_runs, hl, List.filter_cons, ih]
    | false => simp [collapse_blank_runs, hl, List.filter_cons, ih]

theorem collapse_head :
    ∀ (lines : List Str), (collapse_blank_runs true lines).head? ≠ some [] := by
  intro lines
  induction lines with
  | nil => simp [collapse_blank_runs]
  | cons line rest ih =>
    cases hl : line.isEmpty with
    | true => simpa [collapse_blank_runs, hl] using ih
    | false =>
      simp only [collapse_blank_runs, hl, Bool.false_eq_true, if_false, List.head?_cons, ne_eq,
        Option.some.injEq]
      intro h
      simp [h] at hl

theorem collapse_no_blank_pair :
    ∀ (lines : List Str) (last_blank : Bool),
      no_blank_pair (collapse_blank_runs last_blank lines) = true := by
  intro lines
  induction lines with
  | nil => intro _; rfl
  | cons line rest ih =>
    intro last_blank
    cases hl : line.isEmpty with
    | true =>
      cases last_blank with
      | true => simpa [collapse_blank_runs, hl] using ih true
      | false =>
        simp only [collapse_blank_runs, hl, if_true, Bool.false_eq_true, if_false]
        have h1 := ih true
        have h2 := collapse_head rest
        cases hc : collapse_blank_runs true rest with
        | nil => rfl
        | cons b tl =>
          rw [hc] at h1 h2
          have hb : b.isEmpty = false := by
            cases b with
            | nil => simp at h2
            | cons _ _ => rfl
          simp [no_blank_pair, hb, h1]
    | false =>
      simp only [collapse_blank_runs, hl, Bool.false_eq_true, if_false]
      have h1 := ih false
      cases hc : collapse_blank_runs false rest with
      | nil => rfl
      | cons b tl =>
        rw [hc] at h1
        simp [no_blank_pair, hl, h1]

theorem collapse_no_newline :
    ∀ (lines : List Str) (last_blank : Bool), (∀ l ∈ lines, '\n' ∉ l) →
      ∀ l ∈ collapse_blank_runs last_blank lines, '\n' ∉ l := by
  intro lines
  induction lines with
  | nil => intro _ _ l hl; simp [collapse_blank_runs] at hl
  | cons line rest ih =>
    intro last_blank h l hl
    have hrest : ∀ l ∈ rest, '\n' ∉ l := fun l hl => h l (by simp [hl])
    cases he : line.isEmpty with
    | true =>
      cases last_blank with
      | true =>
        simp only [collapse_blank_runs, he, if_true] at hl
        exact ih true hrest l hl
      | false =>
        simp only [collapse_blank_runs, he, if_true, Bool.false_eq_true, if_false,
          List.mem_cons] at hl
        rcases hl with rfl | hl
        · simp
        · exact ih true hrest l hl
    | false =>
      simp only [collapse_blank_runs, he, Bool.false_eq_true, if_false, List.mem_cons] at hl
      rcases hl with rfl | hl
      · exact h l (by simp)
      · exact ih false hrest l hl

theorem lines_text_cons (a : Str) (rest : List Str) :
    lines_text (a :: rest) = a ++ '\n' :: lines_text rest := by
  simp [lines_text]

theorem lines_text_head (lines : List Str) (hnl : ∀ l ∈ lines, '\n' ∉ l)
    (hhead : lines.head? ≠ some []) : (lines_text lines).head? ≠ some '\n' := by
  cases lines with
  | nil => simp [lines_text]
  | cons a rest =>
    cases a with
    | nil => simp at hhead
    | cons c cs =>
      simp only [lines_text_cons, List.cons_append, List.head?_cons, ne_eq, Option.some.injEq]
      intro hc
      exact hnl (c :: cs) (by simp) (by simp [hc])

theorem no_blank_pair_tail (a : Str) (rest : List Str) (h : no_blank_pair (a :: rest) = true) :
    no_blank_pair rest = true := by
  cases rest with
  | nil => rfl
  | cons b tl =>
    simp only [no_blank_pair, Bool.and_eq_true] at h
    exact h.2

theorem lines_text_no_two (lines : List Str) (hnl : ∀ l ∈ lines, '\n' ∉ l)
    (hpair : no_blank_pair lines = true) : ¬ ['\n', '\n'] <+: lines_text lines := by
  cases lines with
  | nil => simp [lines_text]
  | cons a rest =>
    cases a with
    | cons c cs =>
      intro h
      rw [lines_text_cons] at h
      obtain ⟨t, ht⟩ := h
      simp only [List.cons_append, List.cons.injEq] at ht
      exact hnl (c :: cs) (by simp) (by simp [← ht.1])
    | nil =>
      intro h
      rw [lines_text_cons] at h
      obtain ⟨t, ht⟩ := h
      simp only [List.cons_append, List.nil_append, List.cons.injEq, true_and] at ht
      have hhead : rest.head? ≠ some [] := by
        cases rest with
        | nil => simp
        | cons b tl =>
          simp only [no_blank_pair, List.isEmpty_nil, Bool.true_and, Bool.and_eq_true,
            Bool.not_eq_true'] at hpair
          cases b with
          | nil => simp at hpair
          | cons _ _ => simp
      apply lines_text_head rest (fun l hl => hnl l (by simp [hl])) hhead
      rw [← ht]
      rfl

theorem lines_text_no_three :
    ∀ (lines : List Str), (∀ l ∈ lines, '\n' ∉ l) → no_blank_pair lines = true →
      ¬ ['\n', '\n', '\n'] <:+: lines_text lines := by
  intro lines
  induction lines with
  | nil => intro _ _; simp [lines_text]
  | cons a rest ih =>
    intro hnl hpair
    have hrest : ∀ l ∈ rest, '\n' ∉ l := fun l hl => hnl l (by simp [hl])
    have hpair2 := no_blank_pair_tail a rest hpair
    have ha : '\n' ∉ a := hnl a (by simp)
    rw [lines_text_cons]
    clear hnl hpair
    induction a with
    | nil =>
      intro h
      rcases List.infix_cons_iff.1 h with h1 | h1
      · obtain ⟨t, ht⟩ := h1
        simp only [List.cons_append, List.nil_append, List.cons.injEq, true_and] at ht
        exact lines_text_no_two rest hrest hpair2 ⟨t, by simpa using ht⟩
      · exact ih hrest hpair2 h1
    | cons c cs ihs =>
      intro h
      rcases List.infix_cons_iff.1 h with h1 | h1
      · obtain ⟨t, ht⟩ := h1
        simp only [List.cons_append, List.cons.injEq] at ht
        exact ha (by simp [← ht.1])
      · exact ihs (fun hc => ha (by simp [hc])) h1

theorem collapse_head_false (lines : List Str) :
    (collapse_blank_runs false lines).head? = some [] ↔ lines.head? = some [] := by
  cases lines with
  | nil => simp [collapse_blank_runs]
  | cons line rest =>
    cases hl : line.isEmpty with
    | true =>
      have hline : line = [] := List.isEmpty_iff.1 hl
      subst hline
      simp [collapse_blank_runs]
    | false =>
      have hne : line ≠ [] := fun h => by simp [h] at hl
      simp only [collapse_blank_runs, hl, Bool.false_eq_true, if_false, List.head?_cons,
        Option.some.injEq]

theorem lines_text_head_iff (lines : List Str) (hnl : ∀ l ∈ lines, '\n' ∉ l) :
    (lines_text lines).head? = some '\n' ↔ lines.head? = some [] := by
  constructor
  · intro h
    by_contra hne
    exact lines_text_head lines hnl hne h
  · intro h
    cases lines with
    | nil => simp at h
    | cons a rest =>
      simp only [List.head?_cons, Option.some.injEq] at h
      subst h
      simp [lines_text_cons]

/-- C33: the collapse format.  A writer in collapse format that writes a
sequence of lines, none of which holds a newline, succeeds on every line,
whatever its flag `_last_blank` and the text of its stream are at the start.
The text added consists of the lines of the sequence in which of every run
of empty lines one is kept, and none of a run at the start when the flag is
set: its non-empty lines are those given, unchanged and in order; it nowhere
holds two empty lines in a row (three newlines in a row); and it begins with
an empty line exactly when the flag is not set at the start and the first
line is empty.  The constructor sets the flag; the writer that `#output`
makes for its new, empty file is a copy that keeps the format and the flag
of the current writer.  No other stream changes. -/
theorem collapse_format_output (out : Nat) (w : World) (lines : List Str)
    (last_blank : Bool) (written : Str)
    (hout : w.streams[out]? = some written) (hnl : ∀ l ∈ lines, '\n' ∉ l) :
    (∃ ws2 w2 text,
      write_lines { _out := out, _format := .WF_collapse, _last_blank := last_blank } w
        lines = .ok (ws2, w2) ∧
      w2.streams[out]? = some (written ++ text) ∧
      (∀ i, i ≠ out → w2.streams[i]? = w.streams[i]?) ∧
      text = lines_text (collapse_blank_runs last_blank lines) ∧
      (collapse_blank_runs last_blank lines).filter (fun l => !l.isEmpty) =
        lines.filter (fun l => !l.isEmpty) ∧
      ¬ ['\n', '\n', '\n'] <:+: text ∧
      (text.head? = some '\n' ↔ last_blank = false ∧ lines.head? = some [])) ∧
    (new_command_file 0)._write_state =
      { _out := 0, _format := .WF_collapse, _last_blank := true } ∧
    (∀ (X : External) (tempnam : Str → Str → Option Str) (opens : Str → Bool) (fuel : Nat)
        (cf cf2 : PPCommandFile) (w0 w2 : World),
      cf._in_for = false →
      handle_output_command X tempnam opens fuel cf w0 = .ok (true, cf2, w2) →
      cf2._write_state._format = cf._write_state._format ∧
      cf2._write_state._last_blank = cf._write_state._last_blank ∧
      w2.streams[cf2._write_state._out]? = some []) ∧
    lines_text (collapse_blank_runs true [[], "a".toList, [], [], "b".toList, []]) =
      "a\n\nb\n\n".toList ∧
    lines_text (collapse_blank_runs false [[], "a".toList, [], [], "b".toList, []]) =
      "\na\n\nb\n\n".toList := by
  refine ⟨?_, rfl, ?_, by decide, by decide⟩
  · obtain ⟨ws2, w2, h1, h2, h3⟩ := write_lines_collapse out lines last_blank w written hout
    have hnl2 := collapse_no_newline lines last_blank hnl
    refine ⟨ws2, w2, _, h1, h2, h3, rfl, collapse_keeps_lines lines last_blank, ?_, ?_⟩
    · exact lines_text_no_three _ hnl2 (collapse_no_blank_pair lines last_blank)
    · rw [lines_text_head_iff _ hnl2]
      cases last_blank with
      | true =>
        simp only [Bool.true_eq_false, false_and, iff_false]
        exact collapse_head lines
      | false => simpa using collapse_head_false lines
  · intro X tempnam opens fuel cf cf2 w0 w2 hfor h
    simp only [handle_output_command, hfor, Bool.false_eq_true, if_false] at h
    repeat' split at h
    all_goals first
      | (cases h; done)
      | (cases h
         exact ⟨rfl, rfl, by simp⟩)

theorem collapse_format_output_witness :
    (∃ ws2 w2 text,
      write_lines { _out := 0, _format := .WF_collapse, _last_blank := false }
        (world_of [empty_scope]) [[], "a".toList, [], [], "b".toList, []] = .ok (ws2, w2) ∧
      w2.streams[0]? = some ([] ++ text) ∧
      (∀ i, i ≠ 0 → w2.streams[i]? = (world_of [empty_scope]).streams[i]?) ∧
      text = lines_text (collapse_blank_runs false [[], "a".toList, [], [], "b".toList, []]) ∧
      (collapse_blank_runs false [[], "a".toList, [], [], "b".toList, []]).filter
          (fun l => !l.isEmpty) =
        [[], "a".toList, [], [], "b".toList, []].filter (fun l => !l.isEmpty) ∧
      ¬ ['\n', '\n', '\n'] <:+: text ∧
      (text.head? = some '\n' ↔
        false = false ∧ [[], "a".toList, [], [], "b".toList, []].head? = some [])) ∧
    (new_command_file 0)._write_state =
      { _out := 0, _format := .WF_collapse, _last_blank := true } ∧
    (∀ (X : External) (tempnam : Str → Str → Option Str) (opens : Str → Bool) (fuel : Nat)
        (cf cf2 : PPCommandFile) (w0 w2 : World),
      cf._in_for = false →
      handle_output_command X tempnam opens fuel cf w0 = .ok (true, cf2, w2) →
      cf2._write_state._format = cf._write_state._format ∧
      cf2._write_state._last_blank = cf._write_state._last_blank ∧
      w2.streams[cf2._write_state._out]? = some []) ∧
    lines_text (collapse_blank_runs true [[], "a".toList, [], [], "b".toList, []]) =
      "a\n\nb\n\n".toList ∧
    lines_text (collapse_blank_runs false [[], "a".toList, [], [], "b".toList, []]) =
      "\na\n\nb\n\n".toList :=
  collapse_format_output 0 (world_of [empty_scope]) [[], "a".toList, [], [], "b".toList, []]
    false [] (by decide) (by decide)

/-- C33, as stated, fails for the file of an `#output` block that follows a
text line: the writer of the block is a copy of the current one, whose flag
`_last_blank` is not set after the text line, so the empty first line of the
block is written and the file begins with an empty line.  After an empty
line, or at the start of the input, the same block gives a file without it. -/
theorem collapse_output_starts_blank :
    run_output
      (read_lines (output_reader 60 3 2)
        ["x".toList, "#output f".toList, [], "y".toList, "#end f".toList]
        (new_command_file 0) (world_of [empty_scope])) =
      .ok (true, ["x\n".toList, "\ny\n".toList]) ∧
    run_output
      (read_lines (output_reader 60 3 2)
        ["x".toList, [], "#output f".toList, [], "y".toList, "#end f".toList]
        (new_command_file 0) (world_of [empty_scope])) =
      .ok (true, ["x\n\n".toList, "y\n".toList]) ∧
    run_output
      (read_lines (output_reader 60 3 2)
        ["#output f".toList, [], "y".toList, "#end f".toList]
        (new_command_file 0) (world_of [empty_scope])) =
      .ok (true, [[], "y\n".toList]) ∧
    (write_lines { _out := 0, _format := .WF_collapse, _last_blank := false }
        (world_of [empty_scope]) [[], "y".toList]).map (fun r => r.2.streams) =
      .ok ["\ny\n".toList] ∧
    lines_text (collapse_blank_runs true [[], "y".toList]) = "y\n".toList := by
  refine ⟨by decide!, by decide!, by decide!, by decide!, by decide⟩

/-! ### C37: the innermost frame of the if-stack -/

theorem if_stack_nested_failed (stack : List IfState) (h : if_stack_nested stack) :
    stack.any IfState.failing = innermost_failing stack := by
  cases stack with
  | nil => rfl
  | cons s rest =>
    simp only [List.any_cons]
    cases hr : rest.any IfState.failing with
    | false => simp [innermost_failing]
    | true =>
      rw [h.1 hr]
      rfl

theorem failed_if_eq (cf : PPCommandFile) :
    failed_if cf = innermost_failing cf._if_nesting := by
  unfold failed_if innermost_failing IfState.failing
  cases cf._if_nesting with
  | nil => rfl
  | cons s rest => cases s <;> rfl

theorem handle_if_command_nested (X : External) (fuel : Nat) (cf cf2 : PPCommandFile)
    (w w2 : World) (b : Bool) (hn : if_stack_nested cf._if_nesting)
    (h : handle_if_command X fuel cf w = .ok (b, cf2, w2)) :
    if_stack_nested cf2._if_nesting := by
  have hany := if_stack_nested_failed _ hn
  rw [← failed_if_eq] at hany
  unfold handle_if_command at h
  cases hf : failed_if cf with
  | true =>
    simp only [hf, if_true, Except.ok.injEq, Prod.mk.injEq] at h
    rw [← h.2.1]
    exact ⟨fun _ => rfl, hn⟩
  | false =>
    simp only [hf, Bool.false_eq_true, if_false] at h
    split at h
    · simp at h
    · simp only [Except.ok.injEq, Prod.mk.injEq] at h
      rw [← h.2.1]
      exact ⟨fun hr => by rw [hany, hf] at hr; simp at hr, hn⟩

theorem handle_elif_command_nested (X : External) (fuel : Nat) (cf cf2 : PPCommandFile)
    (w w2 : World) (b : Bool) (hn : if_stack_nested cf._if_nesting)
    (h : handle_elif_command X fuel cf w = .ok (b, cf2, w2)) :
    if_stack_nested cf2._if_nesting := by
  unfold handle_elif_command at h
  cases hs : cf._if_nesting with
  | nil =>
    simp only [hs, Except.ok.injEq, Prod.mk.injEq] at h
    rw [← h.2.1, hs]
    trivial
  | cons s rest =>
    rw [hs] at hn
    simp only [hs] at h
    cases s with
    | IS_else =>
      simp only [if_true, Except.ok.injEq, Prod.mk.injEq] at h
      rw [← h.2.1, hs]
      exact hn
    | IS_on =>
      simp only [reduceCtorEq, if_false, true_or, if_true, Except.ok.injEq, Prod.mk.injEq] at h
      rw [← h.2.1]
      exact ⟨fun _ => rfl, hn.2⟩
    | IS_done =>
      simp only [reduceCtorEq, if_false, or_true, if_true, Except.ok.injEq, Prod.mk.injEq] at h
      rw [← h.2.1]
      exact ⟨fun _ => rfl, hn.2⟩
    | IS_off =>
      simp only [reduceCtorEq, if_false, or_self] at h
      split at h
      · simp at h
      · simp only [Except.ok.injEq, Prod.mk.injEq] at h
        rw [← h.2.1]
        exact ⟨fun hr => by have := hn.1 hr; simp at this, hn.2⟩

theorem handle_else_command_nested (cf cf2 : PPCommandFile)
    (w w2 : World) (b : Bool) (hn : if_stack_nested cf._if_nesting)
    (h : handle_else_command cf w = .ok (b, cf2, w2)) :
    if_stack_nested cf2._if_nesting := by
  unfold handle_else_command at h
  cases hs : cf._if_nesting with
  | nil =>
    simp only [hs, Except.ok.injEq, Prod.mk.injEq] at h
    rw [← h.2.1, hs]
    trivial
  | cons s rest =>
    rw [hs] at hn
    simp only [hs] at h
    cases s with
    | IS_else =>
      simp only [if_true, Except.ok.injEq, Prod.mk.injEq] at h
      rw [← h.2.1, hs]
      exact hn
    | IS_on =>
      simp only [reduceCtorEq, if_false, true_or, if_true, Except.ok.injEq, Prod.mk.injEq] at h
      rw [← h.2.1]
      exact ⟨fun _ => rfl, hn.2⟩
    | IS_done =>
      simp only [reduceCtorEq, if_false, or_true, if_true, Except.ok.injEq, Prod.mk.injEq] at h
      rw [← h.2.1]
      exact ⟨fun _ => rfl, hn.2⟩
    | IS_off =>
      simp only [reduceCtorEq, if_false, or_self, Except.ok.injEq, Prod.mk.injEq] at h
      rw [← h.2.1]
      exact ⟨fun hr => by have := hn.1 hr; simp at this, hn.2⟩

theorem handle_endif_command_nested (cf cf2 : PPCommandFile)
    (w w2 : World) (b : Bool) (hn : if_stack_nested cf._if_nesting)
    (h : handle_endif_command cf w = .ok (b, cf2, w2)) :
    if_stack_nested cf2._if_nesting := by
  unfold handle_endif_command at h
  cases hs : cf._if_nesting with
  | nil =>
    simp only [hs, Except.ok.injEq, Prod.mk.injEq] at h
    rw [← h.2.1, hs]
    trivial
  | cons s rest =>
    rw [hs] at hn
    simp only [hs, Except.ok.injEq, Prod.mk.injEq] at h
    rw [← h.2.1]
    exact hn.2

theorem IfReachable.nested {X : External} {fuel : Nat} {cf : PPCommandFile}
    (h : IfReachable X fuel cf) : if_stack_nested cf._if_nesting := by
  induction h with
  | start cf h0 => rw [h0]; trivial
  | other cf cf2 _ heq ih => rw [heq]; exact ih
  | on_if cf cf2 w w2 b _ hstep ih => exact handle_if_command_nested X fuel cf cf2 w w2 b ih hstep
  | on_elif cf cf2 w w2 b _ hstep ih =>
    exact handle_elif_command_nested X fuel cf cf2 w w2 b ih hstep
  | on_else cf cf2 w w2 b _ hstep ih => exact handle_else_command_nested cf cf2 w w2 b ih hstep
  | on_endif cf cf2 w w2 b _ hstep ih => exact handle_endif_command_nested cf cf2 w w2 b ih hstep

/-- C37: the innermost frame of the if-stack decides.  In every state that
the commands `#if`, `#elif`, `#else` and `#endif` reach from a state without
open frame (any other step leaving the if-stack alone), every frame that
stands over a failing frame is in the state `IS_done`; so some frame is in
a failing state, `IS_off` or `IS_done`, exactly when `failed_if` holds, which
tests the innermost frame only. -/
theorem failed_if_tests_whole_stack (X : External) (fuel : Nat) (cf : PPCommandFile)
    (h : IfReachable X fuel cf) :
    if_stack_nested cf._if_nesting ∧
    (cf._if_nesting.any IfState.failing = failed_if cf) := by
  refine ⟨h.nested, ?_⟩
  rw [failed_if_eq]
  exact if_stack_nested_failed _ h.nested

theorem failed_if_tests_whole_stack_witness :
    if_stack_nested [IfState.IS_done, IfState.IS_done, IfState.IS_off] ∧
    ([IfState.IS_done, IfState.IS_done, IfState.IS_off].any IfState.failing =
      failed_if { new_command_file 0 with
        _if_nesting := [IfState.IS_done, IfState.IS_done, IfState.IS_off] }) :=
  failed_if_tests_whole_stack quiet 5
    { new_command_file 0 with
      _if_nesting := [IfState.IS_done, IfState.IS_done, IfState.IS_off] }
    (IfReachable.on_else
      { new_command_file 0 with
        _if_nesting := [IfState.IS_done, IfState.IS_done, IfState.IS_off] }
      _ (world_of [empty_scope]) (world_of [empty_scope]) true
      (IfReachable.on_if
        { new_command_file 0 with
            _if_nesting := [IfState.IS_done, IfState.IS_off] }
        _ (world_of [empty_scope]) (world_of [empty_scope]) true
        (IfReachable.on_if
          { new_command_file 0 with
                _if_nesting := [IfState.IS_off] }
          _ (world_of [empty_scope]) (world_of [empty_scope]) true
          (IfReachable.on_if (new_command_file 0) _ (world_of [empty_scope])
            (world_of [empty_scope]) true (IfReachable.start _ rfl) (by decide!))
          (by decide!))
        (by decide!))
      (by decide!))

/-! ### C40: a command without parameter text -/

/-- C40: a command without parameter text is tested on a character outside
the parameter string.  For the lines `endif` and `else` given to
`handle_command` in any interpreter state that is not in the middle of a
command, the parameter string is empty and the test for a trailing `\`
reads the character before the buffer: when that character is a backslash
the command is not dispatched (the method sets the continuation flag and
writes a blank outside the string), and otherwise it is dispatched at once.
The two outcomes for `#endif` with one open frame are shown on the
interpreter of the examples. -/
theorem empty_params_tested_outside_string :
    (∀ (X : External) (H : Handlers) (stray : Char) (fuel : Nat) (cf : PPCommandFile)
        (w : World),
      handle_command X H stray fuel { cf with _got_command := false } w "endif".toList =
        if stray = '\\' then .error .abort
        else handle_endif_command
          { cf with _got_command := false, _command := "endif".toList, _params := [] } w) ∧
    (∀ (X : External) (H : Handlers) (stray : Char) (fuel : Nat) (cf : PPCommandFile)
        (w : World),
      handle_command X H stray fuel { cf with _got_command := false } w "else".toList =
        if stray = '\\' then .error .abort
        else handle_else_command
          { cf with _got_command := false, _command := "else".toList, _params := [] } w) ∧
    read_line quiet idle_handlers ' ' 5
        { new_command_file 0 with _if_nesting := [.IS_on] } (world_of [empty_scope])
        "#endif".toList =
      .ok (true, { new_command_file 0 with _command := "endif".toList },
        world_of [empty_scope]) ∧
    read_line quiet idle_handlers '\\' 5
        { new_command_file 0 with _if_nesting := [.IS_on] } (world_of [empty_scope])
        "#endif".toList = .error .abort := by
  refine ⟨?_, ?_, by decide!, by decide!⟩
  · intro X H stray fuel cf w
    have h1 : ("endif".toList).takeWhile (fun c => !isspace c) = "endif".toList := by decide
    have h2 : (("endif".toList).dropWhile (fun c => !isspace c)).dropWhile isspace = [] := by
      decide
    simp only [handle_command, Bool.false_eq_true, if_false, h1, h2]
    by_cases hs : stray = '\\'
    · simp [hs]
    · simp [hs]
  · intro X H stray fuel cf w
    have h1 : ("else".toList).takeWhile (fun c => !isspace c) = "else".toList := by decide
    have h2 : (("else".toList).dropWhile (fun c => !isspace c)).dropWhile isspace = [] := by
      decide
    simp only [handle_command, Bool.false_eq_true, if_false, h1, h2]
    by_cases hs : stray = '\\'
    · simp [hs]
    · simp [hs]

/-! ### C34: the inline form of `patsubst` -/

theorem parents_first_nil : parents_first [] := ⟨0, [], rfl, by simp⟩

theorem parents_first_push (components : List Str) (c : Str) (h : parents_first components)
    (hc : c = "..".toList → components.isEmpty = true ∨ components.getLast? = some "..".toList) :
    parents_first (components ++ [c]) := by
  obtain ⟨k, rest, rfl, hrest⟩ := h
  by_cases hcc : c = "..".toList
  · have : rest = [] := by
      rcases hc hcc with h1 | h1
      · simp only [List.isEmpty_iff, List.append_eq_nil] at h1
        exact h1.2
      · by_contra hne
        rw [List.getLast?_append_of_ne_nil _ hne] at h1
        exact hrest (List.mem_of_getLast?_eq_some h1)
    subst this
    subst hcc
    refine ⟨k + 1, [], ?_, by simp⟩
    simp [List.replicate_succ']
  · refine ⟨k, rest ++ [c], by simp, ?_⟩
    intro hm
    rcases List.mem_append.1 hm with hm | hm
    · exact hrest hm
    · exact hcc (List.mem_singleton.1 hm).symm

theorem parents_first_pop (components : List Str) (h : parents_first components)
    (hne : components.isEmpty = false) (hlast : components.getLast? ≠ some "..".toList) :
    parents_first components.dropLast := by
  obtain ⟨k, rest, rfl, hrest⟩ := h
  have : rest ≠ [] := by
    rintro rfl
    cases k with
    | zero => simp at hne
    | succ k => simp [List.replicate_succ', List.getLast?_append] at hlast
  refine ⟨k, rest.dropLast, ?_, fun hm => hrest (List.dropLast_subset _ hm)⟩
  rw [List.dropLast_append_of_ne_nil _ this]

theorem takeWhile_not_slash (c : Char) (cs : Str) (hc : c ≠ '/') :
    (c :: cs).takeWhile (· ≠ '/') ≠ [] ∧ '/' ∉ (c :: cs).takeWhile (· ≠ '/') := by
  constructor
  · simp [List.takeWhile_cons, hc]
  · intro h
    have := List.mem_takeWhile_imp h
    simp at this

theorem standardize_loop_plain :
    ∀ (fuel : Nat) (s : Str) (components : List Str),
      s.head? ≠ some '/' → plain_components components → parents_first components →
      plain_components (standardize_loop fuel s components) ∧
        parents_first (standardize_loop fuel s components) := by
  intro fuel
  induction fuel with
  | zero => intro s components _ h1 h2; exact ⟨h1, h2⟩
  | succ fuel ih =>
    intro s components hs h1 h2
    cases s with
    | nil => exact ⟨h1, h2⟩
    | cons c cs =>
      have hc : c ≠ '/' := by simpa using hs
      obtain ⟨hne, hslash⟩ := takeWhile_not_slash c cs hc
      have hrest : (((c :: cs).dropWhile (· ≠ '/')).dropWhile (· = '/')).head? ≠ some '/' := by
        intro h
        have := List.head?_dropWhile_not (· = '/') ((c :: cs).dropWhile (· ≠ '/'))
        rw [h] at this
        simp at this
      simp only [standardize_loop]
      apply ih _ _ hrest
      · split_ifs with hdot hup
        · exact h1
        · intro x hx
          exact h1 x (List.dropLast_subset _ hx)
        · intro x hx
          rcases List.mem_append.1 hx with hx | hx
          · exact h1 x hx
          · simp only [List.mem_singleton] at hx
            subst hx
            exact ⟨hne, hslash, hdot⟩
      · split_ifs with hdot hup
        · exact h2
        · exact parents_first_pop components h2 (by simpa using hup.2.1) hup.2.2
        · apply parents_first_push components _ h2
          intro hcc
          by_contra hcon
          simp only [not_or] at hcon
          exact hup ⟨hcc, by simpa using hcon.1, hcon.2⟩

theorem repaste_cons_cons (a b : Str) (rest : List Str) (sep : Str) :
    repaste (a :: b :: rest) sep = a ++ sep ++ repaste (b :: rest) sep := by
  simp [repaste, List.intercalate, List.intersperse]

theorem repaste_head (components : List Str) (h : plain_components components) :
    (repaste components "/".toList).head? ≠ some '/' := by
  cases components with
  | nil => simp [repaste, List.intercalate]
  | cons c rest =>
    obtain ⟨hne, hslash, _⟩ := h c (by simp)
    cases c with
    | nil => exact absurd rfl hne
    | cons x xs =>
      have hx : x ≠ '/' := fun hx => hslash (by simp [hx])
      cases rest with
      | nil => simpa [repaste, List.intercalate] using hx
      | cons b tl =>
        rw [repaste_cons_cons]
        simpa using hx

theorem takeWhile_component (c tail : Str) (hc : '/' ∉ c)
    (h : tail = [] ∨ tail.head? = some '/') :
    (c ++ tail).takeWhile (· ≠ '/') = c ∧ (c ++ tail).dropWhile (· ≠ '/') = tail := by
  induction c with
  | nil =>
    rcases h with rfl | h
    · simp
    · cases tail with
      | nil => simp
      | cons t ts =>
        simp only [List.head?_cons, Option.some.injEq] at h
        subst h
        simp
  | cons x xs ih =>
    have hx : x ≠ '/' := fun hx => hc (by simp [hx])
    have hxs : '/' ∉ xs := fun hm => hc (by simp [hm])
    have hd : decide (x ≠ '/') = true := by simpa using hx
    obtain ⟨h1, h2⟩ := ih hxs
    simp only [List.cons_append, List.takeWhile_cons, List.dropWhile_cons, hd, if_true, h1, h2,
      and_self]

theorem standardize_loop_step (fuel : Nat) (s : Str) (acc : List Str) (hs : s ≠ []) :
    standardize_loop (fuel + 1) s acc =
      standardize_loop fuel ((s.dropWhile (· ≠ '/')).dropWhile (· = '/'))
        (if s.takeWhile (· ≠ '/') = ".".toList then acc
         else if s.takeWhile (· ≠ '/') = "..".toList ∧ ¬ acc.isEmpty ∧
             ¬ (acc.getLast? = some "..".toList) then acc.dropLast
         else acc ++ [s.takeWhile (· ≠ '/')]) := by
  cases s with
  | nil => exact absurd rfl hs
  | cons c cs => rfl

theorem parents_first_before (acc rest : List Str)
    (h : parents_first (acc ++ "..".toList :: rest)) :
    acc.isEmpty = true ∨ acc.getLast? = some "..".toList := by
  obtain ⟨k, r, heq, hr⟩ := h
  rcases List.append_eq_append_iff.1 heq with ⟨a2, h1, h2⟩ | ⟨c2, h1, h2⟩
  · cases hacc : acc.getLast? with
    | none =>
      left
      simpa using hacc
    | some y =>
      right
      have hy : y ∈ List.replicate k "..".toList := by
        rw [h1]
        exact List.mem_append_left _ (List.mem_of_getLast?_eq_some hacc)
      rw [(List.mem_replicate.1 hy).2]
  · exact absurd (by rw [h2]; simp) hr

theorem standardize_loop_components :
    ∀ (components acc : List Str) (fuel : Nat), plain_components components →
      parents_first (acc ++ components) → components.length ≤ fuel →
      standardize_loop fuel (repaste components "/".toList) acc = acc ++ components := by
  intro components
  induction components with
  | nil =>
    intro acc fuel _ _ _
    cases fuel <;> simp [repaste, List.intercalate, standardize_loop]
  | cons c rest ih =>
    intro acc fuel hplain hfirst hfuel
    obtain ⟨fuel, rfl⟩ : ∃ f, fuel = f + 1 := ⟨fuel - 1, by simp at hfuel; omega⟩
    obtain ⟨hne, hslash, hdot⟩ := hplain c (by simp)
    have hplain2 : plain_components rest := fun x hx => hplain x (by simp [hx])
    have hhead := repaste_head rest hplain2
    -- the text after the first component
    have htext : ∃ tail, repaste (c :: rest) "/".toList = c ++ tail ∧
        (tail = [] ∨ tail.head? = some '/') ∧
        tail.dropWhile (· = '/') = repaste rest "/".toList := by
      cases rest with
      | nil => exact ⟨[], by simp [repaste, List.intercalate], Or.inl rfl, by simp [repaste, List.intercalate]⟩
      | cons b tl =>
        refine ⟨'/' :: repaste (b :: tl) "/".toList, ?_, Or.inr rfl, ?_⟩
        · rw [repaste_cons_cons]; simp
        · simp only [List.dropWhile_cons, decide_True, if_true]
          cases hr : repaste (b :: tl) "/".toList with
          | nil => rfl
          | cons y ys =>
            rw [hr] at hhead
            have hy : y ≠ '/' := by simpa using hhead
            simp [List.dropWhile_cons, hy]
    obtain ⟨tail, ht1, ht2, ht3⟩ := htext
    obtain ⟨htake, hdrop⟩ := takeWhile_component c tail hslash ht2
    have hs : c ++ tail ≠ [] := by simp [hne]
    rw [ht1, standardize_loop_step fuel _ acc hs, htake, hdrop, ht3, if_neg hdot]
    have hpush : (if c = "..".toList ∧ ¬ acc.isEmpty ∧ ¬ (acc.getLast? = some "..".toList) then
          acc.dropLast
        else acc ++ [c]) = acc ++ [c] := by
      apply if_neg
      rintro ⟨hcc, h1, h2⟩
      rw [hcc] at hfirst
      rcases parents_first_before acc rest hfirst with h3 | h3
      · exact h1 h3
      · exact h2 h3
    rw [hpush, ih (acc ++ [c]) fuel hplain2 (by simpa using hfirst)
      (by simp at hfuel; omega)]
    simp

theorem repaste_length (components : List Str) (h : plain_components components) :
    components.length ≤ (repaste components "/".toList).length := by
  induction components with
  | nil => simp
  | cons c rest ih =>
    have hc : 1 ≤ c.length := by
      have := (h c (by simp)).1
      cases c with
      | nil => exact absurd rfl this
      | cons _ _ => simp
    have ih2 := ih (fun x hx => h x (by simp [hx]))
    cases rest with
    | nil => simpa [repaste, List.intercalate] using hc
    | cons b tl =>
      rw [repaste_cons_cons]
      simp only [List.length_append, List.length_cons] at ih2 ⊢
      omega

theorem dropWhile_slash_of_head (s : Str) (h : s.head? ≠ some '/') :
    s.dropWhile (· = '/') = s := by
  cases s with
  | nil => rfl
  | cons y ys =>
    have hy : y ≠ '/' := by simpa using h
    simp [List.dropWhile_cons, hy]

theorem standardize_components (f : Str) :
    ∃ components, plain_components components ∧ parents_first components ∧
      standardize f =
        (if f.head? = some '/' then "/".toList else []) ++ repaste components "/".toList := by
  cases f with
  | nil => exact ⟨[], by intro c hc; simp at hc, parents_first_nil,
      by simp [standardize, repaste, List.intercalate]⟩
  | cons c cs =>
    have hhead : ((c :: cs).dropWhile (· = '/')).head? ≠ some '/' := by
      intro h
      have := List.head?_dropWhile_not (· = '/') (c :: cs)
      rw [h] at this
      simp at this
    obtain ⟨h1, h2⟩ := standardize_loop_plain ((c :: cs).length + 1) _ [] hhead
      (by intro x hx; simp at hx) parents_first_nil
    refine ⟨_, h1, h2, ?_⟩
    simp only [standardize, List.head?_cons, Option.some.injEq]

theorem repaste_no_double_slash :
    ∀ components : List Str, plain_components components →
      ¬ ['/', '/'] <:+: repaste components "/".toList := by
  intro components
  induction components with
  | nil => intro _; simp [repaste, List.intercalate]
  | cons c rest ih =>
    intro h
    have hrest : plain_components rest := fun x hx => h x (by simp [hx])
    have hc : '/' ∉ c := (h c (by simp)).2.1
    cases rest with
    | nil =>
      intro hin
      have : '/' ∈ c := by
        have hsub := hin.subset
        have : repaste [c] "/".toList = c := by simp [repaste, List.intercalate]
        rw [this] at hsub
        exact hsub (by simp)
      exact hc this
    | cons b tl =>
      rw [repaste_cons_cons]
      have hhead := repaste_head (b :: tl) hrest
      have ih2 := ih hrest
      clear h ih
      induction c with
      | nil =>
        intro hin
        simp only [List.nil_append] at hin
        rcases List.infix_cons_iff.1 hin with h1 | h1
        · obtain ⟨t, ht⟩ := h1
          simp only [List.cons_append, List.nil_append, List.cons.injEq, true_and] at ht
          apply hhead
          have ht3 : '/' :: t = repaste (b :: tl) "/".toList := ht
          rw [← ht3]
          rfl
        · exact ih2 h1
      | cons x xs ihx =>
        intro hin
        have hx : x ≠ '/' := fun hx => hc (by simp [hx])
        rcases List.infix_cons_iff.1 (by simpa using hin) with h1 | h1
        · obtain ⟨t, ht⟩ := h1
          simp only [List.cons_append, List.cons.injEq] at ht
          exact hx ht.1.symm
        · exact ihx (fun hm => hc (by simp [hm])) (by simpa using h1)

/-- C39: the path normalisation of `standardize` is idempotent.
`expand_standardize` returns `standardize` of the expanded filename, and for
every filename the result of `standardize` is left unchanged by a second
application.  The result is `/` (for a filename that begins with a slash)
followed by components joined with single slashes: no component is empty,
holds a slash or is `.`, every component `..` stands before all others, and
the text holds no `//`. -/
theorem standardize_idempotent (f : Str) :
    standardize (standardize f) = standardize f ∧
    (∃ components, plain_components components ∧ parents_first components ∧
      standardize f =
        (if f.head? = some '/' then "/".toList else []) ++ repaste components "/".toList) ∧
    ¬ ['/', '/'] <:+: standardize f ∧
    (∀ (S : ExpandFn) (w : World) (params : Str),
      expand_standardize S w params =
        match S w params with
        | .error e => .error e
        | .ok (filename, w2) => .ok (standardize filename, w2)) ∧
    standardize "//a/./b//../c/".toList = "/a/c".toList ∧
    standardize "a/../../b".toList = "../b".toList := by
  obtain ⟨components, hp, hf, heq⟩ := standardize_components f
  have hhead := repaste_head components hp
  refine ⟨?_, ⟨components, hp, hf, heq⟩, ?_, ?_, by decide, by decide⟩
  · rw [heq]
    by_cases hg : f.head? = some '/'
    · simp only [hg, if_true]
      have hr : "/".toList ++ repaste components "/".toList =
          '/' :: repaste components "/".toList := rfl
      rw [hr]
      simp only [standardize, if_true, List.dropWhile_cons, decide_True]
      rw [dropWhile_slash_of_head _ hhead,
        standardize_loop_components components [] _ hp (by simpa using hf)
          (by have := repaste_length components hp; simp only [List.length_cons]; omega)]
      rfl
    · simp only [hg, if_false, List.nil_append]
      cases hr : repaste components "/".toList with
      | nil => rfl
      | cons y ys =>
        rw [hr] at hhead
        have hy : y ≠ '/' := by simpa using hhead
        simp only [standardize, hy, if_false, List.nil_append]
        rw [← hr, dropWhile_slash_of_head _ (by rw [hr]; simpa using hy),
          standardize_loop_components components [] _ hp (by simpa using hf)
            (by have := repaste_length components hp; omega)]
        rfl
  · rw [heq]
    have hno := repaste_no_double_slash components hp
    by_cases hg : f.head? = some '/'
    · simp only [hg, if_true]
      intro hin
      rcases List.infix_cons_iff.1 hin with h1 | h1
      · obtain ⟨t, ht⟩ := h1
        simp only [List.cons_append, List.nil_append, List.cons.injEq, true_and] at ht
        apply hhead
        have ht3 : '/' :: t = repaste components "/".toList := ht
        rw [← ht3]
        rfl
      · exact hno h1
    · simpa [hg] using hno
  · intro S w params
    simp only [expand_standardize, standardize]
    rcases S w params with e | ⟨filename, w2⟩
    · rfl
    · cases filename <;> rfl

/-! ### C38: the tokens of a string without whitespace -/

theorem two_step_induction {P : Str → Prop} (h0 : P []) (h1 : ∀ c, P [c])
    (h2 : ∀ c d rest, P rest → P (d :: rest) → P (c :: d :: rest)) : ∀ s, P s := by
  have : ∀ n, ∀ s : Str, s.length ≤ n → P s := by
    intro n
    induction n with
    | zero =>
      intro s hs
      have : s = [] := List.length_eq_zero.1 (by omega)
      subst this
      exact h0
    | succ n ih =>
      intro s hs
      match s with
      | [] => exact h0
      | [c] => exact h1 c
      | c :: d :: rest =>
        simp only [List.length_cons] at hs
        exact h2 c d rest (ih rest (by omega)) (ih (d :: rest) (by simp; omega))
  intro s
  exact this s.length s (Nat.le_refl _)

theorem split_spans_join :
    ∀ (s : Str) (depth : Nat) (cur : Str),
      repaste (split_spans depth cur s) [FUNCTION_PARAMETER_SEPARATOR] = cur ++ s := by
  intro s
  induction s using two_step_induction with
  | h0 => intro depth cur; simp [split_spans, repaste, List.intercalate]
  | h1 c =>
    intro depth cur
    simp only [split_spans]
    split_ifs with h
    · simp [repaste, List.intercalate, List.intersperse, h.1]
    · simp [repaste, List.intercalate]
  | h2 c d rest ih1 ih2 =>
    intro depth cur
    simp only [split_spans]
    split_ifs with h1 h2 h3
    · rw [ih1]; simp
    · rw [ih2]; simp
    · have := ih2 0 []
      cases hsp : split_spans 0 [] (d :: rest) with
      | nil => rw [hsp] at this; simp [repaste, List.intercalate] at this
      | cons a l =>
        rw [hsp] at this
        rw [repaste_cons_cons, this, h3.1]
        simp
    · rw [ih2]; simp

theorem split_spans_length :
    ∀ (s : Str) (depth : Nat) (cur : Str),
      (split_spans depth cur s).length = top_separators depth s + 1 := by
  intro s
  induction s using two_step_induction with
  | h0 => intro depth cur; simp [split_spans, top_separators]
  | h1 c =>
    intro depth cur
    simp only [split_spans, top_separators]
    split_ifs <;> rfl
  | h2 c d rest ih1 ih2 =>
    intro depth cur
    simp only [split_spans, top_separators]
    split_ifs with h1 h2 h3
    · exact ih1 _ _
    · exact ih2 _ _
    · simp [ih2]
    · exact ih2 _ _

theorem split_spans_trailing :
    ∀ (t : Str) (depth : Nat) (cur : Str), span_depth depth t = 0 →
      split_spans depth cur (t ++ [FUNCTION_PARAMETER_SEPARATOR]) =
        split_spans depth cur t ++ [[]] := by
  intro t
  induction t using two_step_induction with
  | h0 =>
    intro depth cur h
    simp only [span_depth] at h
    simp [split_spans, h]
  | h1 c =>
    intro depth cur h
    simp only [span_depth] at h
    simp only [List.cons_append, List.nil_append, split_spans]
    have hne : ¬ (c = VARIABLE_PREFIX ∧ FUNCTION_PARAMETER_SEPARATOR = VARIABLE_OPEN_BRACE) := by
      rintro ⟨_, h2⟩
      exact absurd h2 (by decide)
    rw [if_neg hne]
    split_ifs at h ⊢ with h2 h3 h4 h5 h6 <;> first
      | rfl
      | omega
      | simp_all
  | h2 c d rest ih1 ih2 =>
    intro depth cur h
    simp only [span_depth] at h
    simp only [List.cons_append, split_spans]
    split_ifs at h ⊢ with h1 h2 h3
    · exact ih1 _ _ h
    · exact ih2 _ _ h
    · obtain ⟨_, hd0⟩ := h3
      subst hd0
      have := ih2 0 [] h
      exact congrArg (cur :: ·) this
    · exact ih2 _ _ h

theorem mem_repaste (sep : Str) :
    ∀ (l : List Str) (t : Str), t ∈ l → ∀ c ∈ t, c ∈ repaste l sep := by
  intro l
  induction l with
  | nil => intro t ht; simp at ht
  | cons a rest ih =>
    intro t ht c hc
    cases rest with
    | nil =>
      simp only [List.mem_singleton] at ht
      subst ht
      simpa [repaste, List.intercalate] using hc
    | cons b tl =>
      rw [repaste_cons_cons]
      rcases List.mem_cons.1 ht with rfl | ht
      · simp [hc]
      · have := ih t ht c hc
        simp [this]

/-- C38: the tokens of a string without whitespace.  For every string `s`
that holds no whitespace character and every fuel above its length,
`tokenize_params` without expansion returns tokens whose paste with the
separator is `s`.  The empty string has no token; a non-empty `s` has one
token more than it has separators outside every `$[...]` span; and when `s`
ends with a separator that lies outside every span, its tokens are the
pieces of the text before that separator followed by exactly one empty
token. -/
theorem tokenize_params_join (X : External) (w : World) (sid : Nat) (s : Str) (fuel : Nat)
    (hs : ∀ c ∈ s, isspace c = false) (hfuel : s.length + 1 < fuel) :
    ∃ tokens, tokenize_params X fuel w sid s false = .ok (tokens, w) ∧
      repaste tokens [FUNCTION_PARAMETER_SEPARATOR] = s ∧
      (s = [] → tokens = []) ∧
      (s ≠ [] → tokens.length = top_separators 0 s + 1) ∧
      (∀ t, s = t ++ [FUNCTION_PARAMETER_SEPARATOR] → span_depth 0 t = 0 →
        tokens = split_spans 0 [] t ++ [[]]) := by
  by_cases hnil : s = []
  · subst hnil
    obtain ⟨n, rfl⟩ : ∃ n, fuel = n + 1 := ⟨fuel - 1, by simp at hfuel; omega⟩
    refine ⟨[], by simp [tokenize_params], by simp [repaste, List.intercalate], fun _ => rfl,
      fun h => absurd rfl h, ?_⟩
    intro t ht
    simp at ht
  · have hjoin := split_spans_join s 0 []
    have htrim : (split_spans 0 [] s).map trim_blanks = split_spans 0 [] s := by
      have hid : ∀ t ∈ split_spans 0 [] s, trim_blanks t = id t := by
        intro t ht
        apply trim_blanks_word
        intro c hc
        have := mem_repaste [FUNCTION_PARAMETER_SEPARATOR] _ t ht c hc
        rw [hjoin] at this
        exact hs c (by simpa using this)
      rw [List.map_congr_left hid, List.map_id]
    refine ⟨split_spans 0 [] s, ?_, by simpa using hjoin, fun h => absurd h hnil,
      fun _ => split_spans_length s 0 [], ?_⟩
    · rw [tokenize_params_counts X w sid fuel s hnil hfuel, htrim]
    · intro t ht hdepth
      rw [ht]
      exact split_spans_trailing t 0 [] hdepth

theorem tokenize_params_join_witness :
    ∃ tokens,
      tokenize_params quiet 20 (world_of [empty_scope]) 0 "a,$[f,$[g,h]],,c,".toList false =
        .ok (tokens, world_of [empty_scope]) ∧
      repaste tokens [FUNCTION_PARAMETER_SEPARATOR] = "a,$[f,$[g,h]],,c,".toList ∧
      ("a,$[f,$[g,h]],,c,".toList = [] → tokens = []) ∧
      ("a,$[f,$[g,h]],,c,".toList ≠ [] →
        tokens.length = top_separators 0 "a,$[f,$[g,h]],,c,".toList + 1) ∧
      (∀ t, "a,$[f,$[g,h]],,c,".toList = t ++ [FUNCTION_PARAMETER_SEPARATOR] →
        span_depth 0 t = 0 → tokens = split_spans 0 [] t ++ [[]]) :=
  tokenize_params_join quiet (world_of [empty_scope]) 0 "a,$[f,$[g,h]],,c,".toList 20
    (by decide) (by decide)

/-! ### C35: the two edge sets of `read_depends_file` -/

theorem mem_depends_insert (x z : Nat) :
    ∀ s : List Nat, z ∈ depends_insert x s ↔ z = x ∨ z ∈ s := by
  intro s
  induction s with
  | nil => simp [depends_insert]
  | cons y rest ih =>
    simp only [depends_insert]
    split_ifs with h1 h2
    · subst h1
      simp
    · simp
    · simp only [List.mem_cons, ih]
      tauto

theorem update_directory_getElem? (dirs : List PPDirectory) (i j : Nat)
    (f : PPDirectory → PPDirectory) :
    (update_directory dirs i f)[j]? = if j = i then (dirs[j]?).map f else dirs[j]? := by
  unfold update_directory
  cases hi : dirs[i]? with
  | none =>
    by_cases hji : j = i
    · subst hji
      simp [hi]
    · simp [hji]
  | some d =>
    have hlt : i < dirs.length := by
      rcases Nat.lt_or_ge i dirs.length with h | h
      · exact h
      · simp [List.getElem?_eq_none h] at hi
    by_cases hji : j = i
    · subst hji
      simp [List.getElem?_set, hlt, hi]
    · simp [List.getElem?_set, hji, Ne.symm hji]

theorem update_directory_length (dirs : List PPDirectory) (i : Nat)
    (f : PPDirectory → PPDirectory) : (update_directory dirs i f).length = dirs.length := by
  unfold update_directory
  cases dirs[i]? <;> simp

theorem add_dependency_getElem? (dirs : List PPDirectory) (this dir a : Nat) :
    (add_dependency dirs this dir)[a]? =
      (dirs[a]?).map (fun d =>
        { d with
          _i_depend_on := if a = this then depends_insert dir d._i_depend_on else d._i_depend_on,
          _depends_on_me :=
            if a = dir then depends_insert this d._depends_on_me else d._depends_on_me }) := by
  simp only [add_dependency, update_directory_getElem?]
  cases hda : dirs[a]? with
  | none => by_cases h1 : a = dir <;> by_cases h2 : a = this <;> simp [h1, h2]
  | some d =>
    by_cases h1 : a = dir
    · subst h1
      by_cases h2 : a = this
      · subst h2
        simp [hda]
      · simp [hda, h2]
    · by_cases h2 : a = this
      · subst h2
        simp [hda, h1]
      · simp [hda, h1, h2]

theorem add_dependency_length (dirs : List PPDirectory) (this dir : Nat) :
    (add_dependency dirs this dir).length = dirs.length := by
  simp [add_dependency, update_directory_length]

theorem depends_on_add (dirs : List PPDirectory) (this dir a b : Nat)
    (hthis : this < dirs.length) :
    depends_on (add_dependency dirs this dir) a b ↔
      depends_on dirs a b ∨ (a = this ∧ b = dir) := by
  simp only [depends_on, add_dependency_getElem?]
  cases hda : dirs[a]? with
  | none =>
    simp only [Option.map_none', reduceCtorEq, false_and, exists_false, false_or, false_iff,
      not_and]
    intro ha
    subst ha
    simp [List.getElem?_eq_none_iff] at hda
    omega
  | some d =>
    simp only [Option.map_some', Option.some.injEq, exists_eq_left']
    by_cases ha : a = this
    · simp only [ha, if_true, mem_depends_insert, true_and]
      tauto
    · simp [ha]

theorem depended_on_by_add (dirs : List PPDirectory) (this dir a b : Nat)
    (hdir : dir < dirs.length) :
    depended_on_by (add_dependency dirs this dir) a b ↔
      depended_on_by dirs a b ∨ (a = dir ∧ b = this) := by
  simp only [depended_on_by, add_dependency_getElem?]
  cases hda : dirs[a]? with
  | none =>
    simp only [Option.map_none', reduceCtorEq, false_and, exists_false, false_or, false_iff,
      not_and]
    intro ha
    subst ha
    simp [List.getElem?_eq_none_iff] at hda
    omega
  | some d =>
    simp only [Option.map_some', Option.some.injEq, exists_eq_left']
    by_cases ha : a = dir
    · simp only [ha, if_true, mem_depends_insert, true_and]
      tauto
    · simp [ha]

theorem find_dirname_lt (dirs : List PPDirectory) (dirname : Str) (i : Nat)
    (h : find_dirname dirs dirname = some i) : i < dirs.length := by
  unfold find_dirname at h
  split_ifs at h with hlt
  simp only [Option.some.injEq] at h
  omega

theorem inverse_edges_add (dirs : List PPDirectory) (this dir : Nat)
    (hthis : this < dirs.length) (hdir : dir < dirs.length) (hne : dir ≠ this)
    (h : inverse_edges dirs) : inverse_edges (add_dependency dirs this dir) := by
  constructor
  · intro a b
    rw [depends_on_add dirs this dir a b hthis, depended_on_by_add dirs this dir b a hdir, h.1 a b]
    tauto
  · intro a
    rw [depends_on_add dirs this dir a a hthis]
    rintro (h1 | ⟨h1, h2⟩)
    · exact h.2 a h1
    · exact hne (h2.symm.trans h1)

theorem add_dependency_tree (dirs : List PPDirectory) (this dir : Nat) :
    tree_of (add_dependency dirs this dir) = tree_of dirs := by
  apply List.ext_getElem?
  intro i
  simp only [tree_of, List.getElem?_map, add_dependency_getElem?]
  cases dirs[i]? <;> rfl

theorem read_depends_loop_spec (this : Nat) :
    ∀ (names : List Str) (dirs : List PPDirectory), this < dirs.length → inverse_edges dirs →
      inverse_edges (read_depends_loop this dirs names) ∧
        (read_depends_loop this dirs names).length = dirs.length ∧
        tree_of (read_depends_loop this dirs names) = tree_of dirs := by
  intro names
  induction names with
  | nil => intro dirs _ h; exact ⟨h, rfl, rfl⟩
  | cons name rest ih =>
    intro dirs hthis h
    simp only [read_depends_loop]
    cases hf : find_dirname dirs name with
    | none => exact ih dirs hthis h
    | some dir =>
      simp only []
      split_ifs with hne
      · have hlen := add_dependency_length dirs this dir
        obtain ⟨h1, h2, h3⟩ := ih (add_dependency dirs this dir) (by omega)
          (inverse_edges_add dirs this dir hthis (find_dirname_lt dirs name dir hf) hne h)
        exact ⟨h1, by omega, h3.trans (add_dependency_tree dirs this dir)⟩
      · exact ih dirs hthis h

theorem children_loop_keeps (P : World → Prop)
    (R : World → Nat → Except Fault (Bool × World))
    (hR : ∀ w c b w2, P w → R w c = .ok (b, w2) → P w2) :
    ∀ (l : List Nat) (w : World) (b : Bool) (w2 : World), P w →
      resolve_dependencies_loop R w l = .ok (b, w2) → P w2 := by
  intro l
  induction l with
  | nil =>
    intro w b w2 hP h
    simp only [resolve_dependencies_loop, Except.ok.injEq, Prod.mk.injEq] at h
    rw [← h.2]
    exact hP
  | cons c rest ih =>
    intro w b w2 hP h
    simp only [resolve_dependencies_loop] at h
    rcases hr : R w c with e | ⟨b1, w1⟩
    · rw [hr] at h; cases h
    · rw [hr] at h
      have hP1 := hR w c b1 w1 hP hr
      cases b1 with
      | false =>
        simp only [Except.ok.injEq, Prod.mk.injEq] at h
        rw [← h.2]
        exact hP1
      | true => exact ih w1 b w2 hP1 h

theorem read_depends_here_keeps (E : World → Nat → Str → Eval Str)
    (R : World → Nat → Str → Except Fault (Bool × World))
    (hE : ∀ w sid v r w2, E w sid v = .ok (r, w2) → w2.dirs = w.dirs)
    (hR : ∀ w sid f b w2, R w sid f = .ok (b, w2) → w2.dirs = w.dirs)
    (w : World) (this : Nat) (dir : PPDirectory) (b : Bool) (w2 : World)
    (hthis : this < w.dirs.length) (hinv : inverse_edges w.dirs)
    (h : read_depends_here E R w this dir = .ok (b, w2)) :
    inverse_edges w2.dirs ∧ tree_of w2.dirs = tree_of w.dirs := by
  unfold read_depends_here at h
  cases hs : dir._scope with
  | none =>
    rw [hs] at h
    simp only [Except.ok.injEq, Prod.mk.injEq] at h
    rw [← h.2]
    exact ⟨hinv, rfl⟩
  | some scope =>
    rw [hs] at h
    simp only at h
    rcases he1 : E w scope "DEPENDS_FILE".toList with e | ⟨name, wa⟩
    · rw [he1] at h; cases h
    · rw [he1] at h
      simp only at h
      have hda := hE _ _ _ _ _ he1
      split_ifs at h with hempty
      · simp only [Except.ok.injEq, Prod.mk.injEq] at h
        rw [← h.2, hda]
        exact ⟨hinv, rfl⟩
      · rcases hr1 : R wa scope name with e | ⟨br, wb⟩
        · rw [hr1] at h; cases h
        · rw [hr1] at h
          have hdb := hR _ _ _ _ _ hr1
          cases br with
          | false =>
            simp only [Except.ok.injEq, Prod.mk.injEq] at h
            rw [← h.2, hdb, hda]
            exact ⟨hinv, rfl⟩
          | true =>
            simp only at h
            rcases he2 : E wb scope "DEPEND_DIRS".toList with e | ⟨names, wc⟩
            · rw [he2] at h; cases h
            · rw [he2] at h
              simp only at h
              have hdc := hE _ _ _ _ _ he2
              rcases he3 : E { wc with
                  dirs := read_depends_loop this wc.dirs (tokenize_whitespace names) }
                  scope "DEPENDABLE_HEADERS".toList with e | ⟨hd, wd⟩
              · rw [he3] at h; cases h
              · rw [he3] at h
                simp only [Except.ok.injEq, Prod.mk.injEq] at h
                have hdd := hE _ _ _ _ _ he3
                rw [← h.2, hdd]
                simp only
                rw [hdc, hdb, hda]
                have := read_depends_loop_spec this (tokenize_whitespace names) w.dirs hthis hinv
                exact ⟨this.1, this.2.2⟩

theorem read_depends_file_keeps (E : World → Nat → Str → Eval Str)
    (R : World → Nat → Str → Except Fault (Bool × World))
    (hE : ∀ w sid v r w2, E w sid v = .ok (r, w2) → w2.dirs = w.dirs)
    (hR : ∀ w sid f b w2, R w sid f = .ok (b, w2) → w2.dirs = w.dirs) :
    ∀ (fuel : Nat) (w : World) (this : Nat) (b : Bool) (w2 : World), inverse_edges w.dirs →
      read_depends_file E R fuel w this = .ok (b, w2) → inverse_edges w2.dirs := by
  intro fuel
  induction fuel with
  | zero => intro w this b w2 _ h; cases h
  | succ fuel ih =>
    intro w this b w2 hinv h
    simp only [read_depends_file] at h
    cases hdir : w.dirs[this]? with
    | none => rw [hdir] at h; cases h
    | some dir =>
      rw [hdir] at h
      simp only at h
      have hthis : this < w.dirs.length := by
        rcases Nat.lt_or_ge this w.dirs.length with h1 | h1
        · exact h1
        · simp [List.getElem?_eq_none h1] at hdir
      rcases hown : read_depends_here E R w this dir with e | ⟨b1, w1⟩
      · rw [hown] at h; cases h
      · rw [hown] at h
        have hinv1 := (read_depends_here_keeps E R hE hR w this dir b1 w1 hthis hinv hown).1
        cases b1 with
        | false =>
          simp only [Except.ok.injEq, Prod.mk.injEq] at h
          rw [← h.2]
          exact hinv1
        | true =>
          simp only at h
          cases hdir1 : w1.dirs[this]? with
          | none => rw [hdir1] at h; cases h
          | some dir1 =>
            rw [hdir1] at h
            exact children_loop_keeps (fun w => inverse_edges w.dirs) _
              (fun w c b w2 hP hc => ih w c b w2 hP hc) dir1._children w1 b w2 hinv1 h

theorem read_depends_here_returns (E : World → Nat → Str → Eval Str)
    (R : World → Nat → Str → Except Fault (Bool × World))
    (hEt : ∀ w sid v, ∃ r w2, E w sid v = .ok (r, w2))
    (hRt : ∀ w sid f, ∃ b w2, R w sid f = .ok (b, w2))
    (w : World) (this : Nat) (dir : PPDirectory) :
    ∃ b w2, read_depends_here E R w this dir = .ok (b, w2) := by
  unfold read_depends_here
  cases dir._scope with
  | none => exact ⟨true, w, rfl⟩
  | some scope =>
    obtain ⟨name, wa, he1⟩ := hEt w scope "DEPENDS_FILE".toList
    simp only [he1]
    split_ifs
    · exact ⟨false, wa, rfl⟩
    · obtain ⟨br, wb, hr1⟩ := hRt wa scope name
      simp only [hr1]
      cases br with
      | false => exact ⟨false, wb, rfl⟩
      | true =>
        obtain ⟨names, wc, he2⟩ := hEt wb scope "DEPEND_DIRS".toList
        obtain ⟨hd, wd, he3⟩ := hEt { wc with
          dirs := read_depends_loop this wc.dirs (tokenize_whitespace names) } scope
          "DEPENDABLE_HEADERS".toList
        simp only [he2, he3]
        exact ⟨true, wd, rfl⟩

theorem children_loop_returns (l0 : List Nat) (T : List (Nat × List Nat))
    (R : World → Nat → Except Fault (Bool × World))
    (hR : ∀ w c, inverse_edges w.dirs → tree_of w.dirs = T → c ∈ l0 →
      ∃ b w2, R w c = .ok (b, w2) ∧ inverse_edges w2.dirs ∧ tree_of w2.dirs = T) :
    ∀ (l : List Nat) (w : World), (∀ c ∈ l, c ∈ l0) → inverse_edges w.dirs →
      tree_of w.dirs = T →
      ∃ b w2, resolve_dependencies_loop R w l = .ok (b, w2) ∧ inverse_edges w2.dirs ∧
        tree_of w2.dirs = T := by
  intro l
  induction l with
  | nil => intro w _ hinv ht; exact ⟨true, w, rfl, hinv, ht⟩
  | cons c rest ih =>
    intro w hl hinv ht
    obtain ⟨b1, w1, hr, hinv1, ht1⟩ := hR w c hinv ht (hl c (by simp))
    simp only [resolve_dependencies_loop, hr]
    cases b1 with
    | false => exact ⟨false, w1, rfl, hinv1, ht1⟩
    | true => exact ih w1 (fun x hx => hl x (by simp [hx])) hinv1 ht1

theorem tree_of_getElem? (dirs : List PPDirectory) (i : Nat) :
    (tree_of dirs)[i]? = (dirs[i]?).map (fun d => (d._depth, d._children)) := by
  simp [tree_of, List.getElem?_map]

theorem read_depends_file_returns (E : World → Nat → Str → Eval Str)
    (R : World → Nat → Str → Except Fault (Bool × World))
    (hE : ∀ w sid v r w2, E w sid v = .ok (r, w2) → w2.dirs = w.dirs)
    (hR : ∀ w sid f b w2, R w sid f = .ok (b, w2) → w2.dirs = w.dirs)
    (hEt : ∀ w sid v, ∃ r w2, E w sid v = .ok (r, w2))
    (hRt : ∀ w sid f, ∃ b w2, R w sid f = .ok (b, w2)) (bound : Nat) :
    ∀ (fuel : Nat) (w : World) (this : Nat) (p : Nat × List Nat), inverse_edges w.dirs →
      children_deeper (tree_of w.dirs) bound → (tree_of w.dirs)[this]? = some p →
      bound < p.1 + fuel →
      ∃ b w2, read_depends_file E R fuel w this = .ok (b, w2) ∧ inverse_edges w2.dirs ∧
        tree_of w2.dirs = tree_of w.dirs := by
  intro fuel
  induction fuel with
  | zero =>
    intro w this p _ hdeep hp hb
    have := (hdeep this p hp).1
    omega
  | succ fuel ih =>
    intro w this p hinv hdeep hp hb
    rw [tree_of_getElem?] at hp
    cases hdir : w.dirs[this]? with
    | none => simp [hdir] at hp
    | some dir =>
      have hthis : this < w.dirs.length := by
        rcases Nat.lt_or_ge this w.dirs.length with h1 | h1
        · exact h1
        · simp [List.getElem?_eq_none h1] at hdir
      obtain ⟨b1, w1, hown⟩ := read_depends_here_returns E R hEt hRt w this dir
      obtain ⟨hinv1, ht1⟩ := read_depends_here_keeps E R hE hR w this dir b1 w1 hthis hinv hown
      simp only [read_depends_file, hdir, hown]
      cases b1 with
      | false => exact ⟨false, w1, rfl, hinv1, ht1⟩
      | true =>
        simp only
        have hp1 : (tree_of w1.dirs)[this]? = some p := by
          rw [ht1, tree_of_getElem?]; exact hp
        rw [tree_of_getElem?] at hp1
        cases hdir1 : w1.dirs[this]? with
        | none => simp [hdir1] at hp1
        | some dir1 =>
          simp only [hdir1, Option.map_some', Option.some.injEq] at hp1
          simp only
          have hchildren := (hdeep this p (by rw [tree_of_getElem?]; exact hp)).2
          refine children_loop_returns dir1._children (tree_of w.dirs)
            (read_depends_file E R fuel) ?_ dir1._children w1 (fun c hc => hc) hinv1 ht1
          intro w3 c hinv3 ht3 hc
          obtain ⟨q, hq, hqd⟩ := hchildren c (by rw [← hp1]; exact hc)
          obtain ⟨b4, w4, h4, hinv4, ht4⟩ := ih w3 c q hinv3 (by rw [ht3]; exact hdeep)
            (by rw [ht3]; exact hq) (by rw [hqd]; omega)
          exact ⟨b4, w4, h4, hinv4, ht4.trans ht3⟩

theorem inverse_edges_of_empty (dirs : List PPDirectory)
    (h : ∀ dir ∈ dirs, dir._i_depend_on = [] ∧ dir._depends_on_me = []) :
    inverse_edges dirs := by
  constructor
  · intro a b
    constructor
    · rintro ⟨d, hd, hb⟩
      rw [(h d (List.getElem?_mem hd)).1] at hb
      simp at hb
    · rintro ⟨d, hd, hb⟩
      rw [(h d (List.getElem?_mem hd)).2] at hb
      simp at hb
  · rintro a ⟨d, hd, hb⟩
    rw [(h d (List.getElem?_mem hd)).1] at hb
    simp at hb

/-- C35: `read_depends_file` keeps the two edge sets mutually inverse and
irreflexive.  The expansions and the reading of the file are collaborators
that return and leave the directories alone.  In a tree in which every child
lies one level below its parent and no directory deeper than `bound`, with
fuel above `bound`, the call on the root of a state whose edge sets are
mutually inverse and irreflexive (as they are when empty) returns, and in
the state it returns, with success or failure, `B` is in the depends-on set of
`A` exactly when `A` is in the depended-on-by set of `B`, and no directory is
in its own depends-on set; the shape of the tree is unchanged.  Whatever the
tree and the fuel, a call that returns keeps the property.  In the
example `top` names itself and `b`, and `a` names `b`, `top`, a name that is
not a directory, and `b` again. -/
theorem read_depends_file_inverse_edges (E : World → Nat → Str → Eval Str)
    (R : World → Nat → Str → Except Fault (Bool × World))
    (hE : ∀ w sid v r w2, E w sid v = .ok (r, w2) → w2.dirs = w.dirs)
    (hR : ∀ w sid f b w2, R w sid f = .ok (b, w2) → w2.dirs = w.dirs)
    (hEt : ∀ w sid v, ∃ r w2, E w sid v = .ok (r, w2))
    (hRt : ∀ w sid f, ∃ b w2, R w sid f = .ok (b, w2))
    (bound fuel : Nat) (w : World) (root : Nat) (p : Nat × List Nat)
    (hinv : inverse_edges w.dirs) (hdeep : children_deeper (tree_of w.dirs) bound)
    (hroot : (tree_of w.dirs)[root]? = some p) (hfuel : bound < p.1 + fuel) :
    (∃ b w2, read_depends_file E R fuel w root = .ok (b, w2) ∧
      (∀ A B, depends_on w2.dirs A B ↔ depended_on_by w2.dirs B A) ∧
      (∀ A, ¬ depends_on w2.dirs A A) ∧ tree_of w2.dirs = tree_of w.dirs) ∧
    (∀ (n : Nat) (w1 : World) (this : Nat) (b : Bool) (w2 : World), inverse_edges w1.dirs →
      read_depends_file E R n w1 this = .ok (b, w2) → inverse_edges w2.dirs) ∧
    (read_depends_file local_expansion (fun w _ _ => .ok (true, w)) 3 depends_tree 0).map
        (fun r => (r.1, r.2.dirs.map (fun d => (d._i_depend_on, d._depends_on_me)))) =
      .ok (true, [([2], [1]), ([0, 2], []), ([], [0, 1])]) := by
  refine ⟨?_, read_depends_file_keeps E R hE hR, by decide⟩
  obtain ⟨b, w2, h, hinv2, ht⟩ :=
    read_depends_file_returns E R hE hR hEt hRt bound fuel w root p hinv hdeep hroot hfuel
  exact ⟨b, w2, h, hinv2.1, hinv2.2, ht⟩

theorem read_depends_file_inverse_edges_witness :
    ∃ b w2, read_depends_file local_expansion (fun w _ _ => .ok (true, w)) 2 depends_tree 0 =
        .ok (b, w2) ∧
      (∀ A B, depends_on w2.dirs A B ↔ depended_on_by w2.dirs B A) ∧
      (∀ A, ¬ depends_on w2.dirs A A) ∧ tree_of w2.dirs = tree_of depends_tree.dirs :=
  (read_depends_file_inverse_edges local_expansion (fun w _ _ => .ok (true, w))
    (fun w sid v r w2 h => by
      simp only [local_expansion, Except.ok.injEq, Prod.mk.injEq] at h
      rw [← h.2])
    (fun w sid f b w2 h => by
      simp only [Except.ok.injEq, Prod.mk.injEq] at h
      rw [← h.2])
    (fun w sid v => ⟨_, w, rfl⟩) (fun w sid f => ⟨true, w, rfl⟩) 1 2 depends_tree 0
    (0, [1, 2]) (inverse_edges_of_empty _ (by decide)) (by
      intro i q hq
      match i, hq with
      | 0, hq =>
        simp only [depends_tree, tree_of, world_of, List.map_cons, List.getElem?_cons_zero,
          Option.some.injEq] at hq
        subst hq
        exact ⟨by decide, by decide⟩
      | 1, hq =>
        simp only [depends_tree, tree_of, world_of, List.map_cons, List.getElem?_cons_succ,
          List.getElem?_cons_zero, Option.some.injEq] at hq
        subst hq
        exact ⟨by decide, by simp⟩
      | 2, hq =>
        simp only [depends_tree, tree_of, world_of, List.map_cons, List.getElem?_cons_succ,
          List.getElem?_cons_zero, Option.some.injEq] at hq
        subst hq
        exact ⟨by decide, by simp⟩
      | n + 3, hq =>
        simp [depends_tree, tree_of, world_of] at hq)
    rfl (by decide)).1

/-! ### C31: commands read while lines are captured -/

/-- C31: `#begin` and `#format` are executed while lines are captured.  In
every capturing state outside a failing branch, `handle_command` passes the
commands `begin` and `format` to their handlers, which do not test
`_in_for`, whereas `define`, which stands after the test of `_in_for`, is
only saved.  On the interpreter of the examples, after `#foreach i a` the
line `#format straight` changes the writer format at once and the line
`#begin x` creates a scope, registers it under `x` and makes it the current
scope; a `#begin x` inside a `#defsub` that is never called registers a
scope; and the body `(empty line)`, `x`, `#format straight` of a `#foreach`
is replayed in the format set during the capture, so that its first line is
written although the collapse format would drop it. -/
theorem capture_executes_begin_and_format :
    (∀ (X : External) (H : Handlers) (fuel : Nat) (cf : PPCommandFile) (w : World),
      handle_command X H ' ' fuel
          { cf with _got_command := false, _in_for := true, _if_nesting := [] } w
          "format straight".toList =
        H.handle_format_command
          { cf with
            _got_command := false, _in_for := true, _if_nesting := [],
            _command := "format".toList, _params := "straight".toList } w) ∧
    (∀ (X : External) (H : Handlers) (fuel : Nat) (cf : PPCommandFile) (w : World),
      handle_command X H ' ' fuel
          { cf with _got_command := false, _in_for := true, _if_nesting := [] } w
          "begin x".toList =
        H.handle_begin_command
          { cf with
            _got_command := false, _in_for := true, _if_nesting := [],
            _command := "begin".toList, _params := "x".toList } w) ∧
    (∀ (X : External) (H : Handlers) (fuel : Nat) (cf : PPCommandFile) (w : World),
      handle_command X H ' ' fuel
          { cf with _got_command := false, _in_for := true, _if_nesting := [] } w
          "define v 1".toList =
        .ok (true,
          { cf with
            _got_command := false, _in_for := true, _if_nesting := [],
            _command := "define".toList, _params := "v 1".toList }, w)) ∧
    capture_frame (read_lines (full_reader 60 3 2) ["#foreach i a".toList]
        (new_command_file 0) two_named) =
      .ok ⟨true, 0, .WF_collapse, [[]], two_named.named, 3⟩ ∧
    capture_frame (read_lines (full_reader 60 3 2)
        ["#foreach i a".toList, "#define v 1".toList, "text $[i]".toList]
        (new_command_file 0) two_named) =
      .ok ⟨true, 0, .WF_collapse, [[]], two_named.named, 3⟩ ∧
    capture_frame (read_lines (full_reader 60 3 2)
        ["#foreach i a".toList, "#format straight".toList]
        (new_command_file 0) two_named) =
      .ok ⟨true, 0, .WF_straight, [[]], two_named.named, 3⟩ ∧
    capture_frame (read_lines (full_reader 60 3 2) ["#foreach i a".toList, "#begin x".toList]
        (new_command_file 0) two_named) =
      .ok ⟨true, 3, .WF_collapse, [[]], two_named.named ++ [("x".toList, [3])], 4⟩ ∧
    capture_frame (read_lines (full_reader 60 3 2)
        ["#defsub s".toList, "#begin x".toList, "#end x".toList, "#end s".toList]
        (new_command_file 0) two_named) =
      .ok ⟨true, 0, .WF_collapse, [[]], two_named.named ++ [("x".toList, [3])], 4⟩ ∧
    capture_frame (read_lines (full_reader 60 3 2)
        ["#foreach i a".toList, [], "x".toList, "#end i".toList]
        (new_command_file 0) two_named) =
      .ok ⟨true, 0, .WF_collapse, ["x\n".toList], two_named.named, 3⟩ ∧
    capture_frame (read_lines (full_reader 60 3 2)
        ["#foreach i a".toList, [], "x".toList, "#format straight".toList, "#end i".toList]
        (new_command_file 0) two_named) =
      .ok ⟨true, 0, .WF_straight, ["\nx\n".toList], two_named.named, 3⟩ := by
  refine ⟨?_, ?_, ?_, by decide!, by decide!, by decide!, by decide!, by decide!, by decide!,
    by decide!⟩
  · intro X H fuel cf w
    have h1 : ("format straight".toList).takeWhile (fun c => !isspace c) = "format".toList := by
      decide
    have h2 : (("format straight".toList).dropWhile (fun c => !isspace c)).dropWhile isspace =
        "straight".toList := by decide
    simp only [handle_command, Bool.false_eq_true, if_false, h1, h2]
    simp [failed_if]
  · intro X H fuel cf w
    have h1 : ("begin x".toList).takeWhile (fun c => !isspace c) = "begin".toList := by decide
    have h2 : (("begin x".toList).dropWhile (fun c => !isspace c)).dropWhile isspace =
        "x".toList := by decide
    simp only [handle_command, Bool.false_eq_true, if_false, h1, h2]
    simp [failed_if]
  · intro X H fuel cf w
    have h1 : ("define v 1".toList).takeWhile (fun c => !isspace c) = "define".toList := by
      decide
    have h2 : (("define v 1".toList).dropWhile (fun c => !isspace c)).dropWhile isspace =
        "v 1".toList := by decide
    simp only [handle_command, Bool.false_eq_true, if_false, h1, h2]
    simp [failed_if]

/-! ### C32: the scope stack -/

section scope_stack
set_option linter.unusedTactic false
set_option linter.unreachableTactic false

theorem ok_world {α : Type} {a b : α} {w1 w2 : World}
    (h : (Except.ok (a, w1) : Eval α) = .ok (b, w2)) : w1 = w2 := by
  cases h; rfl

theorem stack_step {α : Type} {w w2 : World} {r : Eval α} {a : α} (w1 : World)
    (hk : stack_kept w1 r) (h : r = .ok (a, w2))
    (h1 : w1._scope_stack = w._scope_stack) : w2._scope_stack = w._scope_stack :=
  (hk a w2 h).trans h1

theorem ok_world3 {α β : Type} {a a2 : α} {b b2 : β} {w1 w2 : World}
    (h : (Except.ok (a, b, w1) : Except Fault (α × β × World)) = .ok (a2, b2, w2)) :
    w1 = w2 := by
  cases h; rfl

theorem ok_world1 {w1 w2 : World}
    (h : (Except.ok w1 : Except Fault World) = .ok w2) : w1 = w2 := by
  cases h; rfl

theorem step_step {α β : Type} {w w2 : World} {r : Except Fault (α × β × World)} {a : α}
    {b : β} (w1 : World) (hk : step_kept w1 r) (h : r = .ok (a, b, w2))
    (h1 : w1._scope_stack = w._scope_stack) : w2._scope_stack = w._scope_stack :=
  (hk a b w2 h).trans h1

theorem world_step {w w2 : World} {r : Except Fault World} (w1 : World)
    (hk : world_kept w1 r) (h : r = .ok w2)
    (h1 : w1._scope_stack = w._scope_stack) : w2._scope_stack = w._scope_stack :=
  (hk w2 h).trans h1

theorem stack_kept_ok {α : Type} (w : World) (a : α) : stack_kept w (.ok (a, w)) := by
  intro a2 w2 h
  cases h; rfl

theorem stack_kept_ite {α : Type} (w : World) (c : Prop) [Decidable c] (a b : Eval α)
    (ha : stack_kept w a) (hb : stack_kept w b) : stack_kept w (if c then a else b) := by
  split
  · exact ha
  · exact hb

theorem define_variable_stack (w w2 : World) (sid : Nat) (varname definition : Str)
    (h : define_variable w sid varname definition = .ok w2) :
    w2._scope_stack = w._scope_stack := by
  unfold define_variable at h
  split at h
  · cases h
  · cases h; rfl

theorem define_formals_loop_stack (formals : List Str) :
    ∀ (w w2 : World) (sid : Nat) (actual_words : List Str),
      define_formals_loop w sid formals actual_words = .ok w2 →
      w2._scope_stack = w._scope_stack := by
  induction formals with
  | nil => intro w w2 sid actual_words h; simp only [define_formals_loop] at h; cases h; rfl
  | cons formal rest ih =>
    intro w w2 sid actual_words h
    simp only [define_formals_loop] at h
    split at h
    · cases h
    · rename_i w1 h1
      exact (ih _ _ _ _ h).trans (define_variable_stack _ _ _ _ _ h1)

theorem with_rest_kept (rest : Str) (w : World) (r : Eval Str) (h : stack_kept w r) :
    stack_kept w (with_rest rest r) := by
  intro a w2 h2
  unfold with_rest at h2
  split at h2
  · cases h2
  · cases h2; exact h _ _ rfl

theorem pop_push_scope (w w1 w2 : World) (sid back : Nat)
    (h1 : w1._scope_stack = (push_scope w sid)._scope_stack)
    (h : pop_scope w1 = .ok (back, w2)) :
    back = sid ∧ w2._scope_stack = w._scope_stack := by
  unfold pop_scope at h
  have hs : w1._scope_stack = w._scope_stack ++ [sid] := h1
  rw [hs] at h
  simp only [List.getLast?_append, List.getLast?_singleton, Option.or_some,
    List.dropLast_concat] at h
  cases h
  exact ⟨rfl, rfl⟩

theorem expand_wildcard_kept (X : External) (es : ExpandFn)
    (hes : ∀ w s, stack_kept w (es w s)) (w : World) (params : Str) :
    stack_kept w (expand_wildcard X es w params) := by
  intro a w2 h
  simp only [expand_wildcard] at h
  repeat' split at h
  all_goals first
    | (cases h; done)
    | (have e := ok_world h; subst e; solve_by_elim [Eq.trans])

theorem expand_isdir_kept (X : External) (es : ExpandFn)
    (hes : ∀ w s, stack_kept w (es w s)) (w : World) (params : Str) :
    stack_kept w (expand_isdir X es w params) := by
  intro a w2 h
  simp only [expand_isdir] at h
  repeat' split at h
  all_goals first
    | (cases h; done)
    | (have e := ok_world h; subst e; solve_by_elim [Eq.trans])

theorem expand_isfile_kept (X : External) (es : ExpandFn)
    (hes : ∀ w s, stack_kept w (es w s)) (w : World) (params : Str) :
    stack_kept w (expand_isfile X es w params) := by
  intro a w2 h
  simp only [expand_isfile] at h
  repeat' split at h
  all_goals first
    | (cases h; done)
    | (have e := ok_world h; subst e; solve_by_elim [Eq.trans])

theorem expand_libtest_kept (X : External) (es : TokenizeFn)
    (hes : ∀ w s, stack_kept w (es w s)) (w : World) (params : Str) :
    stack_kept w (expand_libtest X es w params) := by
  intro a w2 h
  simp only [expand_libtest] at h
  repeat' split at h
  all_goals first
    | (cases h; done)
    | (have e := ok_world h; subst e; solve_by_elim [Eq.trans])

theorem expand_bintest_kept (X : External) (es : ExpandFn)
    (hes : ∀ w s, stack_kept w (es w s)) (w : World) (params : Str) :
    stack_kept w (expand_bintest X es w params) := by
  intro a w2 h
  simp only [expand_bintest] at h
  repeat' split at h
  all_goals first
    | (cases h; done)
    | (have e := ok_world h; subst e; solve_by_elim [Eq.trans])

theorem expand_shell_kept (X : External) (es : ExpandFn)
    (hes : ∀ w s, stack_kept w (es w s)) (w : World) (params : Str) :
    stack_kept w (expand_shell X es w params) := by
  intro a w2 h
  simp only [expand_shell] at h
  repeat' split at h
  all_goals first
    | (cases h; done)
    | (have e := ok_world h; subst e; solve_by_elim [Eq.trans])

theorem expand_standardize_kept (es : ExpandFn)
    (hes : ∀ w s, stack_kept w (es w s)) (w : World) (params : Str) :
    stack_kept w (expand_standardize es w params) := by
  intro a w2 h
  simp only [expand_standardize] at h
  repeat' split at h
  all_goals first
    | (cases h; done)
    | (have e := ok_world h; subst e; solve_by_elim [Eq.trans])

theorem expand_firstword_kept (es : ExpandFn)
    (hes : ∀ w s, stack_kept w (es w s)) (w : World) (params : Str) :
    stack_kept w (expand_firstword es w params) := by
  intro a w2 h
  simp only [expand_firstword] at h
  repeat' split at h
  all_goals first
    | (cases h; done)
    | (have e := ok_world h; subst e; solve_by_elim [Eq.trans])

theorem expand_patsubst_kept (U : Unmatched) (es : TokenizeFn)
    (hes : ∀ w s, stack_kept w (es w s)) (w : World) (params : Str) :
    stack_kept w (expand_patsubst U es w params) := by
  intro a w2 h
  simp only [expand_patsubst] at h
  repeat' split at h
  all_goals first
    | (cases h; done)
    | (have e := ok_world h; subst e; solve_by_elim [Eq.trans])

theorem expand_filter_kept (es : TokenizeFn)
    (hes : ∀ w s, stack_kept w (es w s)) (w : World) (params : Str) :
    stack_kept w (expand_filter es w params) := by
  intro a w2 h
  simp only [expand_filter] at h
  repeat' split at h
  all_goals first
    | (cases h; done)
    | (have e := ok_world h; subst e; solve_by_elim [Eq.trans])

theorem expand_filter_out_kept (es : TokenizeFn)
    (hes : ∀ w s, stack_kept w (es w s)) (w : World) (params : Str) :
    stack_kept w (expand_filter_out es w params) := by
  intro a w2 h
  simp only [expand_filter_out] at h
  repeat' split at h
  all_goals first
    | (cases h; done)
    | (have e := ok_world h; subst e; solve_by_elim [Eq.trans])

theorem expand_subst_kept (es : TokenizeFn)
    (hes : ∀ w s, stack_kept w (es w s)) (w : World) (params : Str) :
    stack_kept w (expand_subst es w params) := by
  intro a w2 h
  simp only [expand_subst] at h
  repeat' split at h
  all_goals first
    | (cases h; done)
    | (have e := ok_world h; subst e; solve_by_elim [Eq.trans])

theorem expand_sort_kept (es : ExpandFn)
    (hes : ∀ w s, stack_kept w (es w s)) (w : World) (params : Str) :
    stack_kept w (expand_sort es w params) := by
  intro a w2 h
  simp only [expand_sort] at h
  repeat' split at h
  all_goals first
    | (cases h; done)
    | (have e := ok_world h; subst e; solve_by_elim [Eq.trans])

theorem expand_unique_kept (es : ExpandFn)
    (hes : ∀ w s, stack_kept w (es w s)) (w : World) (params : Str) :
    stack_kept w (expand_unique es w params) := by
  intro a w2 h
  simp only [expand_unique] at h
  repeat' split at h
  all_goals first
    | (cases h; done)
    | (have e := ok_world h; subst e; solve_by_elim [Eq.trans])

theorem expand_if_kept (es : TokenizeFn)
    (hes : ∀ w s, stack_kept w (es w s)) (w : World) (params : Str) :
    stack_kept w (expand_if es w params) := by
  intro a w2 h
  simp only [expand_if] at h
  repeat' split at h
  all_goals first
    | (cases h; done)
    | (have e := ok_world h; subst e; solve_by_elim [Eq.trans])

theorem expand_eq_kept (es : TokenizeFn)
    (hes : ∀ w s, stack_kept w (es w s)) (w : World) (params : Str) :
    stack_kept w (expand_eq es w params) := by
  intro a w2 h
  simp only [expand_eq] at h
  repeat' split at h
  all_goals first
    | (cases h; done)
    | (have e := ok_world h; subst e; solve_by_elim [Eq.trans])

theorem expand_ne_kept (es : TokenizeFn)
    (hes : ∀ w s, stack_kept w (es w s)) (w : World) (params : Str) :
    stack_kept w (expand_ne es w params) := by
  intro a w2 h
  simp only [expand_ne] at h
  repeat' split at h
  all_goals first
    | (cases h; done)
    | (have e := ok_world h; subst e; solve_by_elim [Eq.trans])

theorem expand_not_kept (es : TokenizeFn)
    (hes : ∀ w s, stack_kept w (es w s)) (w : World) (params : Str) :
    stack_kept w (expand_not es w params) := by
  intro a w2 h
  simp only [expand_not] at h
  repeat' split at h
  all_goals first
    | (cases h; done)
    | (have e := ok_world h; subst e; solve_by_elim [Eq.trans])

theorem expand_or_kept (es : TokenizeFn)
    (hes : ∀ w s, stack_kept w (es w s)) (w : World) (params : Str) :
    stack_kept w (expand_or es w params) := by
  intro a w2 h
  simp only [expand_or] at h
  repeat' split at h
  all_goals first
    | (cases h; done)
    | (have e := ok_world h; subst e; solve_by_elim [Eq.trans])

theorem expand_and_kept (es : TokenizeFn)
    (hes : ∀ w s, stack_kept w (es w s)) (w : World) (params : Str) :
    stack_kept w (expand_and es w params) := by
  intro a w2 h
  simp only [expand_and] at h
  repeat' split at h
  all_goals first
    | (cases h; done)
    | (have e := ok_world h; subst e; solve_by_elim [Eq.trans])

theorem expand_upcase_kept (es : ExpandFn)
    (hes : ∀ w s, stack_kept w (es w s)) (w : World) (params : Str) :
    stack_kept w (expand_upcase es w params) := by
  intro a w2 h
  simp only [expand_upcase] at h
  repeat' split at h
  all_goals first
    | (cases h; done)
    | (have e := ok_world h; subst e; solve_by_elim [Eq.trans])

theorem expand_downcase_kept (es : ExpandFn)
    (hes : ∀ w s, stack_kept w (es w s)) (w : World) (params : Str) :
    stack_kept w (expand_downcase es w params) := by
  intro a w2 h
  simp only [expand_downcase] at h
  repeat' split at h
  all_goals first
    | (cases h; done)
    | (have e := ok_world h; subst e; solve_by_elim [Eq.trans])

theorem expand_cdefine_kept (es : ExpandFn)
    (hes : ∀ w s, stack_kept w (es w s)) (w : World) (params : Str) :
    stack_kept w (expand_cdefine es w params) := by
  intro a w2 h
  simp only [expand_cdefine] at h
  repeat' split at h
  all_goals first
    | (cases h; done)
    | (have e := ok_world h; subst e; solve_by_elim [Eq.trans])

theorem expand_map_variable_keys_kept (ei : ExpandInFn)
    (hei : ∀ w sid s, stack_kept w (ei w sid s)) (owner : Nat) (varname : Str)
    (expression : Str) (keys : List Str) :
    ∀ w, stack_kept w (expand_map_variable_keys ei owner varname expression w keys) := by
  induction keys with
  | nil => intro w a w2 h; simp only [expand_map_variable_keys] at h; cases h; rfl
  | cons key rest ih =>
    intro w a w2 h
    simp only [expand_map_variable_keys] at h
    repeat' split at h
    all_goals first
      | (cases h; done)
      | (try (first
           | (have e := ok_world h; subst e; clear h)
           | (have e := ok_world3 h; subst e; clear h)
           | (have e := ok_world1 h; subst e; clear h))
         repeat (first
           | rfl
           | (refine stack_step ?_ ?_ (by assumption) ?_
              any_goals (first | exact ih _ | exact hei _ _ _))
           | (refine step_step ?_ ?_ (by assumption) ?_
              any_goals (first | exact ih _ | exact hei _ _ _))
           | (refine world_step ?_ ?_ (by assumption) ?_
              any_goals (first | exact ih _ | exact hei _ _ _))
           | dsimp only [make_scope, World.put_scope]))

theorem expand_map_variable_keyed_kept (ei : ExpandInFn)
    (hei : ∀ w sid s, stack_kept w (ei w sid s)) (w : World) (sid : Nat)
    (varname expression : Str) (keys : List Str) :
    stack_kept w (expand_map_variable_keyed ei w sid varname expression keys) := by
  intro a w2 h
  have hk := expand_map_variable_keys_kept ei hei
  simp only [expand_map_variable_keyed] at h
  repeat' split at h
  all_goals first
    | (cases h; done)
    | (try (first
         | (have e := ok_world h; subst e; clear h)
         | (have e := ok_world3 h; subst e; clear h)
         | (have e := ok_world1 h; subst e; clear h))
       repeat (first
         | rfl
         | (refine stack_step ?_ ?_ (by assumption) ?_
            any_goals (first | exact hk _ _ _ _ _))
         | (refine step_step ?_ ?_ (by assumption) ?_
            any_goals (first | exact hk _ _ _ _ _))
         | (refine world_step ?_ ?_ (by assumption) ?_
            any_goals (first | exact hk _ _ _ _ _))
         | dsimp only [make_scope, World.put_scope]))

theorem expand_map_variable_kept (tn : TokenizeFn) (es : ExpandFn) (ei : ExpandInFn)
    (htn : ∀ w s, stack_kept w (tn w s)) (hes : ∀ w s, stack_kept w (es w s))
    (hei : ∀ w sid s, stack_kept w (ei w sid s)) (w : World) (sid : Nat)
    (varname params : Str) :
    stack_kept w (expand_map_variable tn es ei w sid varname params) := by
  intro a w2 h
  have hk := expand_map_variable_keyed_kept ei hei
  simp only [expand_map_variable] at h
  repeat' split at h
  all_goals first
    | (cases h; done)
    | (try (first
         | (have e := ok_world h; subst e; clear h)
         | (have e := ok_world3 h; subst e; clear h)
         | (have e := ok_world1 h; subst e; clear h))
       repeat (first
         | rfl
         | (refine stack_step ?_ ?_ (by assumption) ?_
            any_goals (first | exact hk _ _ _ _ _ | exact htn _ _ | exact hes _ _))
         | (refine step_step ?_ ?_ (by assumption) ?_
            any_goals (first | exact hk _ _ _ _ _ | exact htn _ _ | exact hes _ _))
         | (refine world_step ?_ ?_ (by assumption) ?_
            any_goals (first | exact hk _ _ _ _ _ | exact htn _ _ | exact hes _ _))
         | dsimp only [make_scope, World.put_scope]))

theorem closure_pass_kept (ei : ExpandInFn)
    (hei : ∀ w sid s, stack_kept w (ei w sid s)) (owner : Nat) (varname : Str)
    (expression close_on : Str) (words : List Str) :
    ∀ w closure results next_pass,
      stack_kept w (closure_pass ei owner varname expression close_on w words closure results
        next_pass) := by
  induction words with
  | nil =>
    intro w closure results next_pass a w2 h
    simp only [closure_pass] at h; cases h; rfl
  | cons word rest ih =>
    intro w closure results next_pass a w2 h
    simp only [closure_pass] at h
    repeat' split at h
    all_goals first
      | (cases h; done)
      | (try (first
           | (have e := ok_world h; subst e; clear h)
           | (have e := ok_world3 h; subst e; clear h)
           | (have e := ok_world1 h; subst e; clear h))
         repeat (first
           | rfl
           | (refine stack_step ?_ ?_ (by assumption) ?_
              any_goals (first | exact ih _ _ _ _ | exact hei _ _ _))
           | (refine step_step ?_ ?_ (by assumption) ?_
              any_goals (first | exact ih _ _ _ _ | exact hei _ _ _))
           | (refine world_step ?_ ?_ (by assumption) ?_
              any_goals (first | exact ih _ _ _ _ | exact hei _ _ _))
           | dsimp only [make_scope, World.put_scope]))

theorem closure_loop_kept (ei : ExpandInFn)
    (hei : ∀ w sid s, stack_kept w (ei w sid s)) (owner : Nat) (varname : Str)
    (expression close_on : Str) (fuel : Nat) :
    ∀ w closure results next_pass,
      stack_kept w (closure_loop ei owner varname expression close_on fuel w closure results
        next_pass) := by
  have hp := closure_pass_kept ei hei owner varname expression close_on
  induction fuel with
  | zero =>
    intro w closure results next_pass a w2 h
    simp only [closure_loop] at h; cases h
  | succ fuel ih =>
    intro w closure results next_pass a w2 h
    simp only [closure_loop] at h
    repeat' split at h
    all_goals first
      | (cases h; done)
      | (try (first
           | (have e := ok_world h; subst e; clear h)
           | (have e := ok_world3 h; subst e; clear h)
           | (have e := ok_world1 h; subst e; clear h))
         repeat (first
           | rfl
           | (refine stack_step ?_ ?_ (by assumption) ?_
              any_goals (first | exact ih _ _ _ _ | exact hp _ _ _ _ _))
           | (refine step_step ?_ ?_ (by assumption) ?_
              any_goals (first | exact ih _ _ _ _ | exact hp _ _ _ _ _))
           | (refine world_step ?_ ?_ (by assumption) ?_
              any_goals (first | exact ih _ _ _ _ | exact hp _ _ _ _ _))
           | dsimp only [make_scope, World.put_scope]))

theorem expand_closure_kept (tn : TokenizeFn) (es : ExpandFn) (ei : ExpandInFn)
    (htn : ∀ w s, stack_kept w (tn w s)) (hes : ∀ w s, stack_kept w (es w s))
    (hei : ∀ w sid s, stack_kept w (ei w sid s)) (fuel : Nat) (w : World) (sid : Nat)
    (params : Str) :
    stack_kept w (expand_closure tn es ei fuel w sid params) := by
  intro a w2 h
  have hk := closure_loop_kept ei hei
  simp only [expand_closure] at h
  repeat' split at h
  all_goals first
    | (cases h; done)
    | (try (first
         | (have e := ok_world h; subst e; clear h)
         | (have e := ok_world3 h; subst e; clear h)
         | (have e := ok_world1 h; subst e; clear h))
       repeat (first
         | rfl
         | (refine stack_step ?_ ?_ (by assumption) ?_
            any_goals (first | exact hk _ _ _ _ _ _ _ _ _ | exact htn _ _ | exact hes _ _))
         | (refine step_step ?_ ?_ (by assumption) ?_
            any_goals (first | exact hk _ _ _ _ _ _ _ _ _ | exact htn _ _ | exact hes _ _))
         | (refine world_step ?_ ?_ (by assumption) ?_
            any_goals (first | exact hk _ _ _ _ _ _ _ _ _ | exact htn _ _ | exact hes _ _))
         | dsimp only [make_scope, World.put_scope]))

theorem expand_unmapped_kept (tn : TokenizeFn) (es : ExpandFn)
    (htn : ∀ w s, stack_kept w (tn w s)) (hes : ∀ w s, stack_kept w (es w s))
    (w : World) (sid : Nat) (params : Str) :
    stack_kept w (expand_unmapped tn es w sid params) := by
  intro a w2 h
  simp only [expand_unmapped] at h
  repeat' split at h
  all_goals first
    | (cases h; done)
    | (try (first
         | (have e := ok_world h; subst e; clear h)
         | (have e := ok_world3 h; subst e; clear h)
         | (have e := ok_world1 h; subst e; clear h))
       repeat (first
         | rfl
         | (refine stack_step ?_ ?_ (by assumption) ?_
            any_goals (first | exact htn _ _ | exact hes _ _))
         | (refine step_step ?_ ?_ (by assumption) ?_
            any_goals (first | exact htn _ _ | exact hes _ _))
         | (refine world_step ?_ ?_ (by assumption) ?_
            any_goals (first | exact htn _ _ | exact hes _ _))
         | dsimp only [make_scope, World.put_scope]))

theorem expand_variable_nested_scopes_kept (ei : ExpandInFn)
    (hei : ∀ w sid s, stack_kept w (ei w sid s)) (varname : Str) (scopes : List Nat) :
    ∀ w, stack_kept w (expand_variable_nested_scopes ei varname w scopes) := by
  induction scopes with
  | nil => intro w a w2 h; simp only [expand_variable_nested_scopes] at h; cases h; rfl
  | cons scope rest ih =>
    intro w a w2 h
    simp only [expand_variable_nested_scopes] at h
    repeat' split at h
    all_goals first
      | (cases h; done)
      | (try (first
           | (have e := ok_world h; subst e; clear h)
           | (have e := ok_world3 h; subst e; clear h)
           | (have e := ok_world1 h; subst e; clear h))
         repeat (first
           | rfl
           | (refine stack_step ?_ ?_ (by assumption) ?_
              any_goals (first | exact ih _ | exact hei _ _ _))
           | (refine step_step ?_ ?_ (by assumption) ?_
              any_goals (first | exact ih _ | exact hei _ _ _))
           | (refine world_step ?_ ?_ (by assumption) ?_
              any_goals (first | exact ih _ | exact hei _ _ _))
           | dsimp only [make_scope, World.put_scope]))

theorem expand_variable_nested_kept (ei : ExpandInFn)
    (hei : ∀ w sid s, stack_kept w (ei w sid s)) (w : World) (sid : Nat)
    (varname scope_names : Str) :
    stack_kept w (expand_variable_nested ei w sid varname scope_names) := by
  intro a w2 h
  have hk := expand_variable_nested_scopes_kept ei hei
  simp only [expand_variable_nested] at h
  repeat' split at h
  all_goals first
    | (cases h; done)
    | (try (first
         | (have e := ok_world h; subst e; clear h)
         | (have e := ok_world3 h; subst e; clear h)
         | (have e := ok_world1 h; subst e; clear h))
       repeat (first
         | rfl
         | (refine stack_step ?_ ?_ (by assumption) ?_
            any_goals (first | exact hk _ _ _))
         | (refine step_step ?_ ?_ (by assumption) ?_
            any_goals (first | exact hk _ _ _))
         | (refine world_step ?_ ?_ (by assumption) ?_
            any_goals (first | exact hk _ _ _))
         | dsimp only [make_scope, World.put_scope]))

theorem engine_kept_zero (X : External) : engine_kept X 0 := by
  refine ⟨?_, ?_, ?_, ?_, ?_, ?_, ?_, ?_, ?_⟩
  · intro w sid expanded s a w2 h; simp [r_expand_string] at h
  · intro w sid expanded s k varname ws op a w2 h; simp [r_expand_variable_loop] at h
  · intro w sid expanded s a w2 h; simp [r_expand_variable] at h
  · intro w sid expand s token a w2 h; simp [tokenize_params_token] at h
  · intro w sid s expand a w2 h; simp [tokenize_params] at h
  · intro w sid name formals actuals w2 h; simp [define_formals] at h
  · intro w sid funcname sub params a w2 h; simp [expand_function] at h
  · intro w sid varname a w2 h; simp [get_variable] at h
  · intro w sid varname a w2 h; simp [expand_variable] at h

theorem r_expand_string_step_kept (X : External) (fuel : Nat) (ih : engine_kept X fuel)
    (w : World) (sid : Nat) (expanded : List Str) (s : Str) :
    stack_kept w (r_expand_string X (fuel + 1) w sid expanded s) := by
  obtain ⟨hs, hl, hv, htt, htp, hdf, hf, hg, he⟩ := ih
  intro a w2 h
  cases s with
  | nil => simp only [r_expand_string] at h; cases h; rfl
  | cons c cs =>
    simp only [r_expand_string] at h
    repeat' split at h
    all_goals first
      | (cases h; done)
      | (try (first
           | (have e := ok_world h; subst e; clear h)
           | (have e := ok_world3 h; subst e; clear h)
           | (have e := ok_world1 h; subst e; clear h))
         repeat (first
           | rfl
           | (refine stack_step ?_ ?_ (by assumption) ?_
              any_goals (first | exact hs _ _ _ _ | exact hv _ _ _ _))
           | (refine step_step ?_ ?_ (by assumption) ?_
              any_goals (first | exact hs _ _ _ _ | exact hv _ _ _ _))
           | (refine world_step ?_ ?_ (by assumption) ?_
              any_goals (first | exact hs _ _ _ _ | exact hv _ _ _ _))
           | dsimp only [make_scope, World.put_scope]))

theorem r_expand_variable_loop_step_kept (X : External) (fuel : Nat)
    (ih : engine_kept X fuel) (w : World) (sid : Nat) (expanded : List Str) (s : Str)
    (k : Nat) (varname : Str) (ws op : Nat) :
    stack_kept w (r_expand_variable_loop X (fuel + 1) w sid expanded s k varname ws op) := by
  obtain ⟨hs, hl, hv, htt, htp, hdf, hf, hg, he⟩ := ih
  intro a w2 h
  cases s with
  | nil => simp only [r_expand_variable_loop] at h; cases h; rfl
  | cons c cs =>
    simp only [r_expand_variable_loop] at h
    repeat' split at h
    all_goals first
      | (cases h; done)
      | (try (first
           | (have e := ok_world h; subst e; clear h)
           | (have e := ok_world3 h; subst e; clear h)
           | (have e := ok_world1 h; subst e; clear h))
         repeat (first
           | rfl
           | (refine stack_step ?_ ?_ (by assumption) ?_
              any_goals (first | exact hl _ _ _ _ _ _ _ _ | exact hv _ _ _ _))
           | (refine step_step ?_ ?_ (by assumption) ?_
              any_goals (first | exact hl _ _ _ _ _ _ _ _ | exact hv _ _ _ _))
           | (refine world_step ?_ ?_ (by assumption) ?_
              any_goals (first | exact hl _ _ _ _ _ _ _ _ | exact hv _ _ _ _))
           | dsimp only [make_scope, World.put_scope]))

theorem builtin_kept (X : External) (fuel : Nat) (ih : engine_kept X fuel)
    (w1 : World) (sid : Nat) (funcname params : Str) :
    stack_kept w1
      (if funcname = "wildcard".toList then
         expand_wildcard X (fun w s => r_expand_string X fuel w sid [] s) w1 params
       else if funcname = "isdir".toList then
         expand_isdir X (fun w s => r_expand_string X fuel w sid [] s) w1 params
       else if funcname = "isfile".toList then
         expand_isfile X (fun w s => r_expand_string X fuel w sid [] s) w1 params
       else if funcname = "libtest".toList then
         expand_libtest X (fun w s => tokenize_params X fuel w sid s true) w1 params
       else if funcname = "bintest".toList then
         expand_bintest X (fun w s => r_expand_string X fuel w sid [] s) w1 params
       else if funcname = "shell".toList then
         expand_shell X (fun w s => r_expand_string X fuel w sid [] s) w1 params
       else if funcname = "standardize".toList then
         expand_standardize (fun w s => r_expand_string X fuel w sid [] s) w1 params
       else if funcname = "firstword".toList then
         expand_firstword (fun w s => r_expand_string X fuel w sid [] s) w1 params
       else if funcname = "patsubst".toList then
         expand_patsubst X.transform_unmatched
           (fun w s => tokenize_params X fuel w sid s true) w1 params
       else if funcname = "subst".toList then
         expand_subst (fun w s => tokenize_params X fuel w sid s true) w1 params
       else if funcname = "filter".toList then
         expand_filter (fun w s => tokenize_params X fuel w sid s true) w1 params
       else if funcname = "filter_out".toList ∨ funcname = "filter-out".toList then
         expand_filter_out (fun w s => tokenize_params X fuel w sid s true) w1 params
       else if funcname = "sort".toList then
         expand_sort (fun w s => r_expand_string X fuel w sid [] s) w1 params
       else if funcname = "unique".toList then
         expand_unique (fun w s => r_expand_string X fuel w sid [] s) w1 params
       else if funcname = "if".toList then
         expand_if (fun w s => tokenize_params X fuel w sid s true) w1 params
       else if funcname = "eq".toList then
         expand_eq (fun w s => tokenize_params X fuel w sid s true) w1 params
       else if funcname = "ne".toList then
         expand_ne (fun w s => tokenize_params X fuel w sid s true) w1 params
       else if funcname = "not".toList then
         expand_not (fun w s => tokenize_params X fuel w sid s true) w1 params
       else if funcname = "or".toList then
         expand_or (fun w s => tokenize_params X fuel w sid s true) w1 params
       else if funcname = "and".toList then
         expand_and (fun w s => tokenize_params X fuel w sid s true) w1 params
       else if funcname = "upcase".toList then
         expand_upcase (fun w s => r_expand_string X fuel w sid [] s) w1 params
       else if funcname = "downcase".toList then
         expand_downcase (fun w s => r_expand_string X fuel w sid [] s) w1 params
       else if funcname = "cdefine".toList then
         expand_cdefine (fun w s => expand_variable X fuel w sid s) w1 params
       else if funcname = "closure".toList then
         expand_closure (fun w s => tokenize_params X fuel w sid s false)
           (fun w s => r_expand_string X fuel w sid [] s)
           (fun w scope s => r_expand_string X fuel w scope [] s) fuel w1 sid params
       else if funcname = "unmapped".toList then
         expand_unmapped (fun w s => tokenize_params X fuel w sid s false)
           (fun w s => r_expand_string X fuel w sid [] s) w1 sid params
       else
         expand_map_variable (fun w s => tokenize_params X fuel w sid s false)
           (fun w s => r_expand_string X fuel w sid [] s)
           (fun w scope s => r_expand_string X fuel w scope [] s) w1 sid funcname params) := by
  obtain ⟨hs, hl, hv, htt, htp, hdf, hf, hg, he⟩ := ih
  have hes : ∀ (w : World) (s : Str),
      stack_kept w (r_expand_string X fuel w sid [] s) := fun w s => hs w sid [] s
  have hei : ∀ (w : World) (scope : Nat) (s : Str),
      stack_kept w (r_expand_string X fuel w scope [] s) := fun w scope s => hs w scope [] s
  have ht : ∀ (w : World) (s : Str),
      stack_kept w (tokenize_params X fuel w sid s true) := fun w s => htp w sid s true
  have hn : ∀ (w : World) (s : Str),
      stack_kept w (tokenize_params X fuel w sid s false) := fun w s => htp w sid s false
  refine stack_kept_ite _ _ _ _ (expand_wildcard_kept X _ hes _ _) ?_
  refine stack_kept_ite _ _ _ _ (expand_isdir_kept X _ hes _ _) ?_
  refine stack_kept_ite _ _ _ _ (expand_isfile_kept X _ hes _ _) ?_
  refine stack_kept_ite _ _ _ _ (expand_libtest_kept X _ ht _ _) ?_
  refine stack_kept_ite _ _ _ _ (expand_bintest_kept X _ hes _ _) ?_
  refine stack_kept_ite _ _ _ _ (expand_shell_kept X _ hes _ _) ?_
  refine stack_kept_ite _ _ _ _ (expand_standardize_kept _ hes _ _) ?_
  refine stack_kept_ite _ _ _ _ (expand_firstword_kept _ hes _ _) ?_
  refine stack_kept_ite _ _ _ _ (expand_patsubst_kept _ _ ht _ _) ?_
  refine stack_kept_ite _ _ _ _ (expand_subst_kept _ ht _ _) ?_
  refine stack_kept_ite _ _ _ _ (expand_filter_kept _ ht _ _) ?_
  refine stack_kept_ite _ _ _ _ (expand_filter_out_kept _ ht _ _) ?_
  refine stack_kept_ite _ _ _ _ (expand_sort_kept _ hes _ _) ?_
  refine stack_kept_ite _ _ _ _ (expand_unique_kept _ hes _ _) ?_
  refine stack_kept_ite _ _ _ _ (expand_if_kept _ ht _ _) ?_
  refine stack_kept_ite _ _ _ _ (expand_eq_kept _ ht _ _) ?_
  refine stack_kept_ite _ _ _ _ (expand_ne_kept _ ht _ _) ?_
  refine stack_kept_ite _ _ _ _ (expand_not_kept _ ht _ _) ?_
  refine stack_kept_ite _ _ _ _ (expand_or_kept _ ht _ _) ?_
  refine stack_kept_ite _ _ _ _ (expand_and_kept _ ht _ _) ?_
  refine stack_kept_ite _ _ _ _ (expand_upcase_kept _ hes _ _) ?_
  refine stack_kept_ite _ _ _ _ (expand_downcase_kept _ hes _ _) ?_
  refine stack_kept_ite _ _ _ _ (expand_cdefine_kept _ (fun w s => he w sid s) _ _) ?_
  refine stack_kept_ite _ _ _ _ (expand_closure_kept _ _ _ hn hes hei _ _ _ _) ?_
  refine stack_kept_ite _ _ _ _ (expand_unmapped_kept _ _ hn hes _ _ _) ?_
  exact expand_map_variable_kept _ _ _ hn hes hei _ _ _ _

theorem r_expand_variable_step_kept (X : External) (fuel : Nat) (ih : engine_kept X fuel)
    (w : World) (sid : Nat) (expanded : List Str) (s : Str) :
    stack_kept w (r_expand_variable X (fuel + 1) w sid expanded s) := by
  have hb := builtin_kept X fuel ih
  obtain ⟨hs, hl, hv, htt, htp, hdf, hf, hg, he⟩ := ih
  intro a w2 h
  simp only [r_expand_variable] at h
  split at h
  · cases h
  · rename_i varname rest whitespace_at x w1 hloop
    have h1 : w1._scope_stack = w._scope_stack := hl _ _ _ _ _ _ _ _ _ _ hloop
    by_cases hws : whitespace_at ≠ 0
    · rw [if_pos hws] at h
      by_cases hlen : whitespace_at > varname.length
      · rw [if_pos hlen] at h; cases h
      · rw [if_neg hlen] at h
        rcases hfn : get_func w1 (varname.take whitespace_at) with _ | sub
        · rw [hfn] at h
          exact stack_step w1 (with_rest_kept _ _ _ (hb _ _ _ _)) h h1
        · rw [hfn] at h
          exact stack_step w1 (with_rest_kept _ _ _ (hf _ _ _ _ _)) h h1
    · rw [if_neg hws] at h
      split at h
      · cases h; exact h1
      · have hexp : ∀ (e : Eval Str) (x : Str) (w3 : World), e = .ok (x, w3) →
            stack_kept w1 e → w3._scope_stack = w._scope_stack :=
          fun e x w3 he2 hk => (hk _ _ he2).trans h1
        split at h
        · cases h
        · rename_i expansion w3 hexpansion
          have h3 : w3._scope_stack = w._scope_stack := by
            refine hexp _ _ _ hexpansion ?_
            repeat' split
            all_goals first
              | exact expand_variable_nested_kept _ (fun w scope s => he w scope s) _ _ _ _
              | exact hg _ _ _
          split at h
          · cases h
          · rename_i result w4 hres
            have e := ok_world h
            subst e
            exact (hs _ _ _ _ _ _ hres).trans h3

theorem tokenize_params_token_step_kept (X : External) (fuel : Nat)
    (ih : engine_kept X fuel) (w : World) (sid : Nat) (expand : Bool) (s token : Str) :
    stack_kept w (tokenize_params_token X (fuel + 1) w sid expand s token) := by
  obtain ⟨hs, hl, hv, htt, htp, hdf, hf, hg, he⟩ := ih
  intro a w2 h
  cases s with
  | nil => simp only [tokenize_params_token] at h; cases h; rfl
  | cons c cs =>
    simp only [tokenize_params_token] at h
    repeat' split at h
    all_goals first
      | (cases h; done)
      | (try (first
           | (have e := ok_world h; subst e; clear h)
           | (have e := ok_world3 h; subst e; clear h)
           | (have e := ok_world1 h; subst e; clear h))
         repeat (first
           | rfl
           | (refine stack_step ?_ ?_ (by assumption) ?_
              any_goals (first | exact htt _ _ _ _ _ | exact hv _ _ _ _))
           | (refine step_step ?_ ?_ (by assumption) ?_
              any_goals (first | exact htt _ _ _ _ _ | exact hv _ _ _ _))
           | (refine world_step ?_ ?_ (by assumption) ?_
              any_goals (first | exact htt _ _ _ _ _ | exact hv _ _ _ _))
           | dsimp only [make_scope, World.put_scope]))

theorem tokenize_params_step_kept (X : External) (fuel : Nat) (ih : engine_kept X fuel)
    (w : World) (sid : Nat) (s : Str) (expand : Bool) :
    stack_kept w (tokenize_params X (fuel + 1) w sid s expand) := by
  obtain ⟨hs, hl, hv, htt, htp, hdf, hf, hg, he⟩ := ih
  intro a w2 h
  cases s with
  | nil => simp only [tokenize_params] at h; cases h; rfl
  | cons c cs =>
    simp only [tokenize_params] at h
    repeat' split at h
    all_goals first
      | (cases h; done)
      | (try (first
           | (have e := ok_world h; subst e; clear h)
           | (have e := ok_world3 h; subst e; clear h)
           | (have e := ok_world1 h; subst e; clear h))
         repeat (first
           | rfl
           | (refine stack_step ?_ ?_ (by assumption) ?_
              any_goals (first | exact htt _ _ _ _ _ | exact htp _ _ _ _))
           | (refine step_step ?_ ?_ (by assumption) ?_
              any_goals (first | exact htt _ _ _ _ _ | exact htp _ _ _ _))
           | (refine world_step ?_ ?_ (by assumption) ?_
              any_goals (first | exact htt _ _ _ _ _ | exact htp _ _ _ _))
           | dsimp only [make_scope, World.put_scope]))

theorem define_formals_step_stack (X : External) (fuel : Nat) (ih : engine_kept X fuel)
    (w : World) (sid : Nat) (name : Str) (formals : List Str) (actuals : Str) (w2 : World)
    (h : define_formals X (fuel + 1) w sid name formals actuals = .ok w2) :
    w2._scope_stack = w._scope_stack := by
  obtain ⟨hs, hl, hv, htt, htp, hdf, hf, hg, he⟩ := ih
  simp only [define_formals] at h
  split at h
  · cases h
  · rename_i actual_words w1 h1
    exact (define_formals_loop_stack _ _ _ _ _ h).trans (htp _ _ _ _ _ _ h1)

theorem expand_function_step_kept (X : External)
    (hX : ∀ w scope lines, stack_kept w (X.read_lines w scope lines)) (fuel : Nat)
    (ih : engine_kept X fuel) (w : World) (sid : Nat) (funcname : Str)
    (sub : PPSubroutine) (params : Str) :
    stack_kept w (expand_function X (fuel + 1) w sid funcname sub params) := by
  obtain ⟨hs, hl, hv, htt, htp, hdf, hf, hg, he⟩ := ih
  intro a w2 h
  simp only [expand_function] at h
  split at h
  · cases h
  · split at h
    · cases h
    · rename_i w1 h1
      split at h
      · cases h
      · rename_i str w3 h3
        split at h
        · cases h
        · rename_i back w4 h4
          have e := ok_world h
          subst e
          have e1 := hdf _ _ _ _ _ _ h1
          have e3 := hX _ _ _ _ _ h3
          exact (pop_push_scope w w3 _ sid back (e3.trans e1) h4).2

theorem get_variable_step_kept (X : External) (fuel : Nat) (ih : engine_kept X fuel)
    (w : World) (sid : Nat) (varname : Str) :
    stack_kept w (get_variable X (fuel + 1) w sid varname) := by
  obtain ⟨hs, hl, hv, htt, htp, hdf, hf, hg, he⟩ := ih
  intro a w2 h
  simp only [get_variable] at h
  repeat' split at h
  all_goals first
    | (cases h; done)
    | (try (first
         | (have e := ok_world h; subst e; clear h)
         | (have e := ok_world3 h; subst e; clear h)
         | (have e := ok_world1 h; subst e; clear h))
       repeat (first
         | rfl
         | (refine stack_step ?_ ?_ (by assumption) ?_
            any_goals (first | exact hf _ _ _ _ _))
         | (refine step_step ?_ ?_ (by assumption) ?_
            any_goals (first | exact hf _ _ _ _ _))
         | (refine world_step ?_ ?_ (by assumption) ?_
            any_goals (first | exact hf _ _ _ _ _))
         | dsimp only [make_scope, World.put_scope]))

theorem expand_variable_step_kept (X : External) (fuel : Nat) (ih : engine_kept X fuel)
    (w : World) (sid : Nat) (varname : Str) :
    stack_kept w (expand_variable X (fuel + 1) w sid varname) := by
  obtain ⟨hs, hl, hv, htt, htp, hdf, hf, hg, he⟩ := ih
  intro a w2 h
  simp only [expand_variable] at h
  repeat' split at h
  all_goals first
    | (cases h; done)
    | (try (first
         | (have e := ok_world h; subst e; clear h)
         | (have e := ok_world3 h; subst e; clear h)
         | (have e := ok_world1 h; subst e; clear h))
       repeat (first
         | rfl
         | (refine stack_step ?_ ?_ (by assumption) ?_
            any_goals (first | exact hg _ _ _ | exact hs _ _ _ _))
         | (refine step_step ?_ ?_ (by assumption) ?_
            any_goals (first | exact hg _ _ _ | exact hs _ _ _ _))
         | (refine world_step ?_ ?_ (by assumption) ?_
            any_goals (first | exact hg _ _ _ | exact hs _ _ _ _))
         | dsimp only [make_scope, World.put_scope]))

theorem engine_kept_all (X : External)
    (hX : ∀ w scope lines, stack_kept w (X.read_lines w scope lines)) :
    ∀ fuel, engine_kept X fuel := by
  intro fuel
  induction fuel with
  | zero => exact engine_kept_zero X
  | succ fuel ih =>
    exact ⟨r_expand_string_step_kept X fuel ih, r_expand_variable_loop_step_kept X fuel ih,
      r_expand_variable_step_kept X fuel ih, tokenize_params_token_step_kept X fuel ih,
      tokenize_params_step_kept X fuel ih, define_formals_step_stack X fuel ih,
      expand_function_step_kept X hX fuel ih, get_variable_step_kept X fuel ih,
      expand_variable_step_kept X fuel ih⟩

theorem expand_string_kept (X : External)
    (hX : ∀ w scope lines, stack_kept w (X.read_lines w scope lines)) (fuel : Nat)
    (w : World) (sid : Nat) (s : Str) : stack_kept w (expand_string X fuel w sid s) :=
  (engine_kept_all X hX fuel).1 w sid [] s

theorem define_variable_kept (w : World) (sid : Nat) (varname definition : Str) :
    world_kept w (define_variable w sid varname definition) :=
  fun w2 h => define_variable_stack w w2 sid varname definition h

theorem set_variable_kept (w : World) (sid : Nat) (varname definition : Str) :
    stack_kept w (set_variable w sid varname definition) :=
  fun b w2 h =>
    (set_variable_frame (fun _ => ()) (fun _ _ => rfl) w w2 sid varname definition b h).1

theorem stream_write_kept (w : World) (out : Nat) (text : Str) :
    world_kept w (stream_write w out text) := by
  intro w2 h
  unfold stream_write at h
  split at h
  · cases h
  · cases h; rfl

theorem write_collapse_line_kept (ws : WriteState) (w : World) (line : Str) :
    step_kept w (write_collapse_line ws w line) := by
  intro a b w2 h
  have hsw := stream_write_kept
  simp only [write_collapse_line] at h
  repeat' split at h
  all_goals first
    | (cases h; done)
    | (try (first
         | (have e := ok_world h; subst e; clear h)
         | (have e := ok_world3 h; subst e; clear h)
         | (have e := ok_world1 h; subst e; clear h))
       repeat (first
         | rfl
         | (refine stack_step ?_ ?_ (by assumption) ?_
            any_goals (first | exact hsw _ _ _))
         | (refine step_step ?_ ?_ (by assumption) ?_
            any_goals (first | exact hsw _ _ _))
         | (refine world_step ?_ ?_ (by assumption) ?_
            any_goals (first | exact hsw _ _ _))
         | dsimp only [make_scope, World.put_scope]))

theorem write_makefile_line_kept (ws : WriteState) (w : World) (line : Str) :
    step_kept w (write_makefile_line ws w line) := by
  intro a b w2 h
  have hsw := stream_write_kept
  have hc := write_collapse_line_kept
  simp only [write_makefile_line] at h
  split at h
  · exact hc _ _ _ _ _ _ h
  · split at h
    · cases h
    · rename_i w1 h1
      have e := ok_world3 h
      subst e
      exact hsw _ _ _ _ h1

theorem write_line_kept (ws : WriteState) (w : World) (line : Str) :
    step_kept w (write_line ws w line) := by
  intro a b w2 h
  have hsw := stream_write_kept
  have hc := write_collapse_line_kept
  have hm := write_makefile_line_kept
  simp only [write_line] at h
  repeat' split at h
  all_goals first
    | (cases h; done)
    | (try (first
         | (have e := ok_world h; subst e; clear h)
         | (have e := ok_world3 h; subst e; clear h)
         | (have e := ok_world1 h; subst e; clear h))
       repeat (first
         | rfl
         | (refine stack_step ?_ ?_ (by assumption) ?_
            any_goals (first | exact hsw _ _ _ | exact hc _ _ _ | exact hm _ _ _))
         | (refine step_step ?_ ?_ (by assumption) ?_
            any_goals (first | exact hsw _ _ _ | exact hc _ _ _ | exact hm _ _ _))
         | (refine world_step ?_ ?_ (by assumption) ?_
            any_goals (first | exact hsw _ _ _ | exact hc _ _ _ | exact hm _ _ _))
         | dsimp only [make_scope, World.put_scope]))

theorem set_parent_kept (w : World) (sid parent : Nat) :
    world_kept w (set_parent w sid parent) := by
  intro w2 h
  unfold set_parent at h
  split at h
  · cases h
  · cases h; rfl

theorem handle_if_command_kept (X : External)
    (hes : ∀ fuel w sid s, stack_kept w (expand_string X fuel w sid s)) (fuel : Nat)
    (cf : PPCommandFile) (w : World) : step_kept w (handle_if_command X fuel cf w) := by
  intro a b w2 h
  have hif : ∀ (c : Prop) (d : Decidable c) (w : World) (sid : Nat) (s x : Str),
      stack_kept w (@ite _ c d (expand_string X fuel w sid s) (.ok (x, w))) :=
    fun c _ w sid s x => stack_kept_ite _ _ _ _ (hes _ _ _ _) (stack_kept_ok _ _)
  simp only [handle_if_command] at h
  repeat' split at h
  all_goals first
    | (cases h; done)
    | (try (first
         | (have e := ok_world h; subst e; clear h)
         | (have e := ok_world3 h; subst e; clear h)
         | (have e := ok_world1 h; subst e; clear h))
       repeat (first
         | rfl
         | (refine stack_step ?_ ?_ (by assumption) ?_
            any_goals (first | exact hif _ _ _ _ _ _))
         | (refine step_step ?_ ?_ (by assumption) ?_
            any_goals (first | exact hif _ _ _ _ _ _))
         | (refine world_step ?_ ?_ (by assumption) ?_
            any_goals (first | exact hif _ _ _ _ _ _))
         | dsimp only [make_scope, World.put_scope]))

theorem handle_elif_command_kept (X : External)
    (hes : ∀ fuel w sid s, stack_kept w (expand_string X fuel w sid s)) (fuel : Nat)
    (cf : PPCommandFile) (w : World) : step_kept w (handle_elif_command X fuel cf w) := by
  intro a b w2 h
  have hif : ∀ (c : Prop) (d : Decidable c) (w : World) (sid : Nat) (s x : Str),
      stack_kept w (@ite _ c d (expand_string X fuel w sid s) (.ok (x, w))) :=
    fun c _ w sid s x => stack_kept_ite _ _ _ _ (hes _ _ _ _) (stack_kept_ok _ _)
  simp only [handle_elif_command] at h
  repeat' split at h
  all_goals first
    | (cases h; done)
    | (try (first
         | (have e := ok_world h; subst e; clear h)
         | (have e := ok_world3 h; subst e; clear h)
         | (have e := ok_world1 h; subst e; clear h))
       repeat (first
         | rfl
         | (refine stack_step ?_ ?_ (by assumption) ?_
            any_goals (first | exact hif _ _ _ _ _ _))
         | (refine step_step ?_ ?_ (by assumption) ?_
            any_goals (first | exact hif _ _ _ _ _ _))
         | (refine world_step ?_ ?_ (by assumption) ?_
            any_goals (first | exact hif _ _ _ _ _ _))
         | dsimp only [make_scope, World.put_scope]))

theorem handle_else_command_kept (cf : PPCommandFile) (w : World) :
    step_kept w (handle_else_command cf w) := by
  intro a b w2 h
  simp only [handle_else_command] at h
  repeat' split at h
  all_goals first
    | (cases h; done)
    | (try (first
         | (have e := ok_world h; subst e; clear h)
         | (have e := ok_world3 h; subst e; clear h)
         | (have e := ok_world1 h; subst e; clear h))
       repeat (first
         | rfl
         | dsimp only [make_scope, World.put_scope]))

theorem handle_endif_command_kept (cf : PPCommandFile) (w : World) :
    step_kept w (handle_endif_command cf w) := by
  intro a b w2 h
  simp only [handle_endif_command] at h
  repeat' split at h
  all_goals first
    | (cases h; done)
    | (try (first
         | (have e := ok_world h; subst e; clear h)
         | (have e := ok_world3 h; subst e; clear h)
         | (have e := ok_world1 h; subst e; clear h))
       repeat (first
         | rfl
         | dsimp only [make_scope, World.put_scope]))

theorem handle_error_command_kept (X : External)
    (hes : ∀ fuel w sid s, stack_kept w (expand_string X fuel w sid s)) (fuel : Nat)
    (cf : PPCommandFile) (w : World) : step_kept w (handle_error_command X fuel cf w) := by
  intro a b w2 h
  simp only [handle_error_command] at h
  repeat' split at h
  all_goals first
    | (cases h; done)
    | (try (first
         | (have e := ok_world h; subst e; clear h)
         | (have e := ok_world3 h; subst e; clear h)
         | (have e := ok_world1 h; subst e; clear h))
       repeat (first
         | rfl
         | (refine stack_step ?_ ?_ (by assumption) ?_
            any_goals (first | exact hes _ _ _ _))
         | (refine step_step ?_ ?_ (by assumption) ?_
            any_goals (first | exact hes _ _ _ _))
         | (refine world_step ?_ ?_ (by assumption) ?_
            any_goals (first | exact hes _ _ _ _))
         | dsimp only [make_scope, World.put_scope]))

theorem handle_define_command_kept (X : External)
    (hes : ∀ fuel w sid s, stack_kept w (expand_string X fuel w sid s)) (fuel : Nat)
    (cf : PPCommandFile) (w : World) : step_kept w (handle_define_command X fuel cf w) := by
  intro a b w2 h
  have hd := define_variable_kept
  simp only [handle_define_command] at h
  repeat' split at h
  all_goals first
    | (cases h; done)
    | (try (first
         | (have e := ok_world h; subst e; clear h)
         | (have e := ok_world3 h; subst e; clear h)
         | (have e := ok_world1 h; subst e; clear h))
       repeat (first
         | rfl
         | (refine stack_step ?_ ?_ (by assumption) ?_
            any_goals (first | exact hes _ _ _ _ | exact hd _ _ _ _))
         | (refine step_step ?_ ?_ (by assumption) ?_
            any_goals (first | exact hes _ _ _ _ | exact hd _ _ _ _))
         | (refine world_step ?_ ?_ (by assumption) ?_
            any_goals (first | exact hes _ _ _ _ | exact hd _ _ _ _))
         | dsimp only [make_scope, World.put_scope]))

theorem handle_set_command_kept (X : External)
    (hes : ∀ fuel w sid s, stack_kept w (expand_string X fuel w sid s)) (fuel : Nat)
    (cf : PPCommandFile) (w : World) : step_kept w (handle_set_command X fuel cf w) := by
  intro a b w2 h
  have hd := set_variable_kept
  simp only [handle_set_command] at h
  repeat' split at h
  all_goals first
    | (cases h; done)
    | (try (first
         | (have e := ok_world h; subst e; clear h)
         | (have e := ok_world3 h; subst e; clear h)
         | (have e := ok_world1 h; subst e; clear h))
       repeat (first
         | rfl
         | (refine stack_step ?_ ?_ (by assumption) ?_
            any_goals (first | exact hes _ _ _ _ | exact hd _ _ _ _))
         | (refine step_step ?_ ?_ (by assumption) ?_
            any_goals (first | exact hes _ _ _ _ | exact hd _ _ _ _))
         | (refine world_step ?_ ?_ (by assumption) ?_
            any_goals (first | exact hes _ _ _ _ | exact hd _ _ _ _))
         | dsimp only [make_scope, World.put_scope]))

theorem handle_begin_command_kept (X : External)
    (hes : ∀ fuel w sid s, stack_kept w (expand_string X fuel w sid s)) (fuel : Nat)
    (cf : PPCommandFile) (w : World) : step_kept w (handle_begin_command X fuel cf w) := by
  intro a b w2 h
  have hp := set_parent_kept
  simp only [handle_begin_command] at h
  repeat' split at h
  all_goals first
    | (cases h; done)
    | (try (first
         | (have e := ok_world h; subst e; clear h)
         | (have e := ok_world3 h; subst e; clear h)
         | (have e := ok_world1 h; subst e; clear h))
       repeat (first
         | rfl
         | (refine stack_step ?_ ?_ (by assumption) ?_
            any_goals (first | exact hes _ _ _ _ | exact hp _ _ _))
         | (refine step_step ?_ ?_ (by assumption) ?_
            any_goals (first | exact hes _ _ _ _ | exact hp _ _ _))
         | (refine world_step ?_ ?_ (by assumption) ?_
            any_goals (first | exact hes _ _ _ _ | exact hp _ _ _))
         | dsimp only [make_scope, World.put_scope]))

theorem handle_forscopes_command_kept (X : External)
    (hes : ∀ fuel w sid s, stack_kept w (expand_string X fuel w sid s)) (fuel : Nat)
    (cf : PPCommandFile) (w : World) :
    step_kept w (handle_forscopes_command X fuel cf w) := by
  intro a b w2 h
  simp only [handle_forscopes_command] at h
  repeat' split at h
  all_goals first
    | (cases h; done)
    | (try (first
         | (have e := ok_world h; subst e; clear h)
         | (have e := ok_world3 h; subst e; clear h)
         | (have e := ok_world1 h; subst e; clear h))
       repeat (first
         | rfl
         | (refine stack_step ?_ ?_ (by assumption) ?_
            any_goals (first | exact hes _ _ _ _))
         | (refine step_step ?_ ?_ (by assumption) ?_
            any_goals (first | exact hes _ _ _ _))
         | (refine world_step ?_ ?_ (by assumption) ?_
            any_goals (first | exact hes _ _ _ _))
         | dsimp only [make_scope, World.put_scope]))

theorem handle_foreach_command_kept (X : External)
    (hes : ∀ fuel w sid s, stack_kept w (expand_string X fuel w sid s)) (fuel : Nat)
    (cf : PPCommandFile) (w : World) :
    step_kept w (handle_foreach_command X fuel cf w) := by
  intro a b w2 h
  simp only [handle_foreach_command] at h
  repeat' split at h
  all_goals first
    | (cases h; done)
    | (try (first
         | (have e := ok_world h; subst e; clear h)
         | (have e := ok_world3 h; subst e; clear h)
         | (have e := ok_world1 h; subst e; clear h))
       repeat (first
         | rfl
         | (refine stack_step ?_ ?_ (by assumption) ?_
            any_goals (first | exact hes _ _ _ _))
         | (refine step_step ?_ ?_ (by assumption) ?_
            any_goals (first | exact hes _ _ _ _))
         | (refine world_step ?_ ?_ (by assumption) ?_
            any_goals (first | exact hes _ _ _ _))
         | dsimp only [make_scope, World.put_scope]))

theorem handle_formap_command_kept (X : External)
    (hes : ∀ fuel w sid s, stack_kept w (expand_string X fuel w sid s)) (fuel : Nat)
    (cf : PPCommandFile) (w : World) :
    step_kept w (handle_formap_command X fuel cf w) := by
  intro a b w2 h
  simp only [handle_formap_command] at h
  repeat' split at h
  all_goals first
    | (cases h; done)
    | (try (first
         | (have e := ok_world h; subst e; clear h)
         | (have e := ok_world3 h; subst e; clear h)
         | (have e := ok_world1 h; subst e; clear h))
       repeat (first
         | rfl
         | (refine stack_step ?_ ?_ (by assumption) ?_
            any_goals (first | exact hes _ _ _ _))
         | (refine step_step ?_ ?_ (by assumption) ?_
            any_goals (first | exact hes _ _ _ _))
         | (refine world_step ?_ ?_ (by assumption) ?_
            any_goals (first | exact hes _ _ _ _))
         | dsimp only [make_scope, World.put_scope]))

theorem handle_format_command_kept (X : External)
    (hes : ∀ fuel w sid s, stack_kept w (expand_string X fuel w sid s)) (fuel : Nat)
    (cf : PPCommandFile) (w : World) :
    step_kept w (handle_format_command X fuel cf w) := by
  intro a b w2 h
  simp only [handle_format_command] at h
  repeat' split at h
  all_goals first
    | (cases h; done)
    | (try (first
         | (have e := ok_world h; subst e; clear h)
         | (have e := ok_world3 h; subst e; clear h)
         | (have e := ok_world1 h; subst e; clear h))
       repeat (first
         | rfl
         | (refine stack_step ?_ ?_ (by assumption) ?_
            any_goals (first | exact hes _ _ _ _))
         | (refine step_step ?_ ?_ (by assumption) ?_
            any_goals (first | exact hes _ _ _ _))
         | (refine world_step ?_ ?_ (by assumption) ?_
            any_goals (first | exact hes _ _ _ _))
         | dsimp only [make_scope, World.put_scope]))

theorem handle_print_command_kept (X : External)
    (hes : ∀ fuel w sid s, stack_kept w (expand_string X fuel w sid s)) (fuel : Nat)
    (cf : PPCommandFile) (w : World) :
    step_kept w (handle_print_command X fuel cf w) := by
  intro a b w2 h
  simp only [handle_print_command] at h
  repeat' split at h
  all_goals first
    | (cases h; done)
    | (try (first
         | (have e := ok_world h; subst e; clear h)
         | (have e := ok_world3 h; subst e; clear h)
         | (have e := ok_world1 h; subst e; clear h))
       repeat (first
         | rfl
         | (refine stack_step ?_ ?_ (by assumption) ?_
            any_goals (first | exact hes _ _ _ _))
         | (refine step_step ?_ ?_ (by assumption) ?_
            any_goals (first | exact hes _ _ _ _))
         | (refine world_step ?_ ?_ (by assumption) ?_
            any_goals (first | exact hes _ _ _ _))
         | dsimp only [make_scope, World.put_scope]))

theorem handle_defsub_command_kept (X : External)
    (htp : ∀ fuel w sid s b, stack_kept w (tokenize_params X fuel w sid s b)) (fuel : Nat)
    (is_defsub : Bool) (cf : PPCommandFile) (w : World) :
    step_kept w (handle_defsub_command X fuel is_defsub cf w) := by
  intro a b w2 h
  simp only [handle_defsub_command] at h
  repeat' split at h
  all_goals first
    | (cases h; done)
    | (try (first
         | (have e := ok_world h; subst e; clear h)
         | (have e := ok_world3 h; subst e; clear h)
         | (have e := ok_world1 h; subst e; clear h))
       repeat (first
         | rfl
         | (refine stack_step ?_ ?_ (by assumption) ?_
            any_goals (first | exact htp _ _ _ _ _))
         | (refine step_step ?_ ?_ (by assumption) ?_
            any_goals (first | exact htp _ _ _ _ _))
         | (refine world_step ?_ ?_ (by assumption) ?_
            any_goals (first | exact htp _ _ _ _ _))
         | dsimp only [make_scope, World.put_scope]))

theorem add_to_map_variable_kept (w : World) (sid : Nat) (varname key : Str) (scope : Nat) :
    world_kept w (add_to_map_variable w sid varname key scope) := by
  intro w2 h
  have hd := set_variable_kept
  simp only [add_to_map_variable] at h
  repeat' split at h
  all_goals first
    | (cases h; done)
    | (try (first
         | (have e := ok_world h; subst e; clear h)
         | (have e := ok_world3 h; subst e; clear h)
         | (have e := ok_world1 h; subst e; clear h))
       repeat (first
         | rfl
         | (refine stack_step ?_ ?_ (by assumption) ?_
            any_goals (first | exact hd _ _ _ _))
         | (refine step_step ?_ ?_ (by assumption) ?_
            any_goals (first | exact hd _ _ _ _))
         | (refine world_step ?_ ?_ (by assumption) ?_
            any_goals (first | exact hd _ _ _ _))
         | dsimp only [make_scope, World.put_scope]))

theorem define_map_variable_loop_kept (X : External)
    (hev : ∀ fuel w sid s, stack_kept w (expand_variable X fuel w sid s)) (fuel : Nat)
    (sid : Nat) (varname key_varname : Str) (scopes : List Nat) :
    ∀ w results,
      stack_kept w (define_map_variable_loop X fuel sid varname key_varname w scopes
        results) := by
  induction scopes with
  | nil => intro w results a w2 h; simp only [define_map_variable_loop] at h; cases h; rfl
  | cons scope rest ih =>
    intro w results a w2 h
    simp only [define_map_variable_loop] at h
    repeat' split at h
    all_goals first
      | (cases h; done)
      | (try (first
           | (have e := ok_world h; subst e; clear h)
           | (have e := ok_world3 h; subst e; clear h)
           | (have e := ok_world1 h; subst e; clear h))
         repeat (first
           | rfl
           | (refine stack_step ?_ ?_ (by assumption) ?_
              any_goals (first | exact ih _ _ | exact hev _ _ _ _))
           | (refine step_step ?_ ?_ (by assumption) ?_
              any_goals (first | exact ih _ _ | exact hev _ _ _ _))
           | (refine world_step ?_ ?_ (by assumption) ?_
              any_goals (first | exact ih _ _ | exact hev _ _ _ _))
           | dsimp only [make_scope, World.put_scope]))

theorem define_map_variable_scoped_kept (X : External)
    (hev : ∀ fuel w sid s, stack_kept w (expand_variable X fuel w sid s)) (fuel : Nat)
    (w : World) (sid : Nat) (varname key_varname scope_names : Str) :
    world_kept w (define_map_variable_scoped X fuel w sid varname key_varname
      scope_names) := by
  intro w2 h
  have hd := define_variable_kept
  have hl := define_map_variable_loop_kept X hev
  simp only [define_map_variable_scoped] at h
  repeat' split at h
  all_goals first
    | (cases h; done)
    | (try (first
         | (have e := ok_world h; subst e; clear h)
         | (have e := ok_world3 h; subst e; clear h)
         | (have e := ok_world1 h; subst e; clear h))
       repeat (first
         | rfl
         | (refine stack_step ?_ ?_ (by assumption) ?_
            any_goals (first | exact hd _ _ _ _ | exact hl _ _ _ _ _ _ _))
         | (refine step_step ?_ ?_ (by assumption) ?_
            any_goals (first | exact hd _ _ _ _ | exact hl _ _ _ _ _ _ _))
         | (refine world_step ?_ ?_ (by assumption) ?_
            any_goals (first | exact hd _ _ _ _ | exact hl _ _ _ _ _ _ _))
         | dsimp only [make_scope, World.put_scope]))

theorem define_map_variable_kept (X : External)
    (hev : ∀ fuel w sid s, stack_kept w (expand_variable X fuel w sid s)) (fuel : Nat)
    (w : World) (sid : Nat) (varname definition : Str) :
    world_kept w (define_map_variable X fuel w sid varname definition) := by
  intro w2 h
  have hl := define_map_variable_scoped_kept X hev
  simp only [define_map_variable] at h
  repeat' split at h
  all_goals first
    | (cases h; done)
    | (try (first
         | (have e := ok_world h; subst e; clear h)
         | (have e := ok_world3 h; subst e; clear h)
         | (have e := ok_world1 h; subst e; clear h))
       repeat (first
         | rfl
         | (refine stack_step ?_ ?_ (by assumption) ?_
            any_goals (first | exact hl _ _ _ _ _ _))
         | (refine step_step ?_ ?_ (by assumption) ?_
            any_goals (first | exact hl _ _ _ _ _ _))
         | (refine world_step ?_ ?_ (by assumption) ?_
            any_goals (first | exact hl _ _ _ _ _ _))
         | dsimp only [make_scope, World.put_scope]))

theorem handle_map_command_kept (X : External)
    (hev : ∀ fuel w sid s, stack_kept w (expand_variable X fuel w sid s)) (fuel : Nat)
    (cf : PPCommandFile) (w : World) : step_kept w (handle_map_command X fuel cf w) := by
  intro a b w2 h
  have hl := define_map_variable_kept X hev
  simp only [handle_map_command] at h
  repeat' split at h
  all_goals first
    | (cases h; done)
    | (try (first
         | (have e := ok_world h; subst e; clear h)
         | (have e := ok_world3 h; subst e; clear h)
         | (have e := ok_world1 h; subst e; clear h))
       repeat (first
         | rfl
         | (refine stack_step ?_ ?_ (by assumption) ?_
            any_goals (first | exact hl _ _ _ _ _))
         | (refine step_step ?_ ?_ (by assumption) ?_
            any_goals (first | exact hl _ _ _ _ _))
         | (refine world_step ?_ ?_ (by assumption) ?_
            any_goals (first | exact hl _ _ _ _ _))
         | dsimp only [make_scope, World.put_scope]))

theorem handle_addmap_command_kept (X : External)
    (hes : ∀ fuel w sid s, stack_kept w (expand_string X fuel w sid s)) (fuel : Nat)
    (cf : PPCommandFile) (w : World) :
    step_kept w (handle_addmap_command X fuel cf w) := by
  intro a b w2 h
  have hl := add_to_map_variable_kept
  simp only [handle_addmap_command] at h
  repeat' split at h
  all_goals first
    | (cases h; done)
    | (try (first
         | (have e := ok_world h; subst e; clear h)
         | (have e := ok_world3 h; subst e; clear h)
         | (have e := ok_world1 h; subst e; clear h))
       repeat (first
         | rfl
         | (refine stack_step ?_ ?_ (by assumption) ?_
            any_goals (first | exact hl _ _ _ _ _ | exact hes _ _ _ _))
         | (refine step_step ?_ ?_ (by assumption) ?_
            any_goals (first | exact hl _ _ _ _ _ | exact hes _ _ _ _))
         | (refine world_step ?_ ?_ (by assumption) ?_
            any_goals (first | exact hl _ _ _ _ _ | exact hes _ _ _ _))
         | dsimp only [make_scope, World.put_scope]))

theorem expand_self_reference_loop_kept (X : External)
    (hv : ∀ fuel w sid ex s, stack_kept w (r_expand_variable X fuel w sid ex s)) (fuel : Nat)
    (sid : Nat) (reference : Str) (steps : Nat) :
    ∀ w str,
      stack_kept w (expand_self_reference_loop X fuel sid reference steps w str) := by
  induction steps with
  | zero => intro w str a w2 h; simp [expand_self_reference_loop] at h
  | succ steps ih =>
    intro w str a w2 h
    simp only [expand_self_reference_loop] at h
    repeat' split at h
    all_goals first
      | (cases h; done)
      | (try (first
           | (have e := ok_world h; subst e; clear h)
           | (have e := ok_world3 h; subst e; clear h)
           | (have e := ok_world1 h; subst e; clear h))
         repeat (first
           | rfl
           | (refine stack_step ?_ ?_ (by assumption) ?_
              any_goals (first | exact ih _ _ | exact hv _ _ _ _ _))
           | (refine step_step ?_ ?_ (by assumption) ?_
              any_goals (first | exact ih _ _ | exact hv _ _ _ _ _))
           | (refine world_step ?_ ?_ (by assumption) ?_
              any_goals (first | exact ih _ _ | exact hv _ _ _ _ _))
           | dsimp only [make_scope, World.put_scope]))

theorem handle_defer_command_kept (X : External)
    (hv : ∀ fuel w sid ex s, stack_kept w (r_expand_variable X fuel w sid ex s)) (fuel : Nat)
    (cf : PPCommandFile) (w : World) : step_kept w (handle_defer_command X fuel cf w) := by
  intro a b w2 h
  have hl := expand_self_reference_loop_kept X hv
  have hd := define_variable_kept
  simp only [handle_defer_command, expand_self_reference] at h
  repeat' split at h
  all_goals first
    | (cases h; done)
    | (try (first
         | (have e := ok_world h; subst e; clear h)
         | (have e := ok_world3 h; subst e; clear h)
         | (have e := ok_world1 h; subst e; clear h))
       repeat (first
         | rfl
         | (refine stack_step ?_ ?_ (by assumption) ?_
            any_goals (first | exact hl _ _ _ _ _ _ | exact hd _ _ _ _))
         | (refine step_step ?_ ?_ (by assumption) ?_
            any_goals (first | exact hl _ _ _ _ _ _ | exact hd _ _ _ _))
         | (refine world_step ?_ ?_ (by assumption) ?_
            any_goals (first | exact hl _ _ _ _ _ _ | exact hd _ _ _ _))
         | dsimp only [make_scope, World.put_scope]))

theorem replay_lines_kept (reader : Reader) (hr : reader_kept reader) (lines : List Str) :
    ∀ okflag cf w, step_kept w (replay_lines reader lines okflag cf w) := by
  induction lines with
  | nil => intro okflag cf w a b w2 h; simp only [replay_lines] at h; cases h; rfl
  | cons line rest ih =>
    intro okflag cf w a b w2 h
    simp only [replay_lines] at h
    repeat' split at h
    all_goals first
      | (cases h; done)
      | (try (first
           | (have e := ok_world h; subst e; clear h)
           | (have e := ok_world3 h; subst e; clear h)
           | (have e := ok_world1 h; subst e; clear h))
         repeat (first
           | rfl
           | (refine stack_step ?_ ?_ (by assumption) ?_
              any_goals (first | exact ih _ _ _ | exact hr _ _ _))
           | (refine step_step ?_ ?_ (by assumption) ?_
              any_goals (first | exact ih _ _ _ | exact hr _ _ _))
           | (refine world_step ?_ ?_ (by assumption) ?_
              any_goals (first | exact ih _ _ _ | exact hr _ _ _))
           | dsimp only [make_scope, World.put_scope]))

theorem read_lines_kept (reader : Reader) (hr : reader_kept reader) (lines : List Str) :
    ∀ cf w, step_kept w (read_lines reader lines cf w) := by
  induction lines with
  | nil => intro cf w a b w2 h; simp only [read_lines] at h; cases h; rfl
  | cons line rest ih =>
    intro cf w a b w2 h
    simp only [read_lines] at h
    repeat' split at h
    all_goals first
      | (cases h; done)
      | (try (first
           | (have e := ok_world h; subst e; clear h)
           | (have e := ok_world3 h; subst e; clear h)
           | (have e := ok_world1 h; subst e; clear h))
         repeat (first
           | rfl
           | (refine stack_step ?_ ?_ (by assumption) ?_
              any_goals (first | exact ih _ _ | exact hr _ _ _))
           | (refine step_step ?_ ?_ (by assumption) ?_
              any_goals (first | exact ih _ _ | exact hr _ _ _))
           | (refine world_step ?_ ?_ (by assumption) ?_
              any_goals (first | exact ih _ _ | exact hr _ _ _))
           | dsimp only [make_scope, World.put_scope]))

theorem replay_foreach_loop_kept (reader : Reader) (hr : reader_kept reader)
    (varname : Str) (lines : List Str) (words : List Str) :
    ∀ okflag cf w, step_kept w (replay_foreach_loop reader varname lines words okflag cf w) := by
  have hl := replay_lines_kept reader hr lines
  have hd := define_variable_kept
  induction words with
  | nil => intro okflag cf w a b w2 h; simp only [replay_foreach_loop] at h; cases h; rfl
  | cons word rest ih =>
    intro okflag cf w a b w2 h
    simp only [replay_foreach_loop] at h
    repeat' split at h
    all_goals first
      | (cases h; done)
      | (try (first
           | (have e := ok_world h; subst e; clear h)
           | (have e := ok_world3 h; subst e; clear h)
           | (have e := ok_world1 h; subst e; clear h))
         repeat (first
           | rfl
           | (refine stack_step ?_ ?_ (by assumption) ?_
              any_goals (first | exact ih _ _ _ | exact hl _ _ _ | exact hd _ _ _ _))
           | (refine step_step ?_ ?_ (by assumption) ?_
              any_goals (first | exact ih _ _ _ | exact hl _ _ _ | exact hd _ _ _ _))
           | (refine world_step ?_ ?_ (by assumption) ?_
              any_goals (first | exact ih _ _ _ | exact hl _ _ _ | exact hd _ _ _ _))
           | dsimp only [make_scope, World.put_scope]))

theorem replay_foreach_kept (reader : Reader) (hr : reader_kept reader)
    (cf : PPCommandFile) (w : World) (varname : Str) (words : List Str) :
    step_kept w (replay_foreach reader cf w varname words) := by
  intro a b w2 h
  have hl := replay_foreach_loop_kept reader hr
  simp only [replay_foreach] at h
  repeat' split at h
  all_goals first
    | (cases h; done)
    | (try (first
         | (have e := ok_world h; subst e; clear h)
         | (have e := ok_world3 h; subst e; clear h)
         | (have e := ok_world1 h; subst e; clear h))
       repeat (first
         | rfl
         | (refine stack_step ?_ ?_ (by assumption) ?_
            any_goals (first | exact hl _ _ _ _ _ _))
         | (refine step_step ?_ ?_ (by assumption) ?_
            any_goals (first | exact hl _ _ _ _ _ _))
         | (refine world_step ?_ ?_ (by assumption) ?_
            any_goals (first | exact hl _ _ _ _ _ _))
         | dsimp only [make_scope, World.put_scope]))

theorem replay_forscopes_loop_kept (reader : Reader) (hr : reader_kept reader)
    (lines : List Str) (scopes : List Nat) :
    ∀ okflag cf w a b w2,
      replay_forscopes_loop reader lines scopes okflag cf w = .ok (a, b, w2) →
      w2._scope_stack = w._scope_stack ∧ b._scope = cf._scope := by
  have hl := replay_lines_kept reader hr lines
  induction scopes with
  | nil =>
    intro okflag cf w a b w2 h
    simp only [replay_forscopes_loop] at h; cases h; exact ⟨rfl, rfl⟩
  | cons scope rest ih =>
    intro okflag cf w a b w2 h
    simp only [replay_forscopes_loop] at h
    split at h
    · cases h
    · rename_i ok1 cf1 w1 h1
      split at h
      · cases h
      · rename_i back w3 h3
        have e1 := hl _ _ _ _ _ _ h1
        obtain ⟨hb, e3⟩ := pop_push_scope w w1 w3 cf._scope back e1 h3
        obtain ⟨e4, hs⟩ := ih _ _ _ _ _ _ h
        exact ⟨e4.trans e3, hs.trans hb⟩

theorem replay_forscopes_kept (reader : Reader) (hr : reader_kept reader)
    (cf : PPCommandFile) (w : World) (name : Str) (a : Bool) (b : PPCommandFile)
    (w2 : World) (h : replay_forscopes reader cf w name = .ok (a, b, w2)) :
    w2._scope_stack = w._scope_stack ∧ b._scope = cf._scope := by
  simp only [replay_forscopes] at h
  split at h
  · cases h
  · split at h
    · cases h
    · split at h
      · cases h
      · have key := replay_forscopes_loop_kept reader hr _ _ _ _ _ _ _ _ h
        exact key

theorem replay_formap_loop_kept (reader : Reader) (hr : reader_kept reader)
    (varname : Str) (lines : List Str) (owner : Nat) (mapvar : Str) (fuel : Nat) :
    ∀ last okflag cf w a b w2,
      replay_formap_loop reader varname lines owner mapvar fuel last okflag cf w =
        .ok (a, b, w2) →
      w2._scope_stack = w._scope_stack ∧ b._scope = cf._scope := by
  have hl := replay_lines_kept reader hr lines
  induction fuel with
  | zero =>
    intro last okflag cf w a b w2 h
    simp only [replay_formap_loop] at h; cases h
  | succ fuel ih =>
    intro last okflag cf w a b w2 h
    simp only [replay_formap_loop] at h
    split at h
    · cases h; exact ⟨rfl, rfl⟩
    · split at h
      · split at h
        · cases h
        · rename_i w0 h0
          have e0 := define_variable_stack _ _ _ _ _ h0
          split at h
          · cases h
          · rename_i ok1 cf1 w1 h1
            split at h
            · cases h
            · rename_i back w3 h3
              have e1 := hl _ _ _ _ _ _ h1
              obtain ⟨hb, e3⟩ := pop_push_scope w0 w1 w3 cf._scope back e1 h3
              obtain ⟨e4, hs⟩ := ih _ _ _ _ _ _ _ h
              exact ⟨e4.trans (e3.trans e0), hs.trans hb⟩
      · cases h; exact ⟨rfl, rfl⟩

theorem replay_formap_kept (reader : Reader) (hr : reader_kept reader) (fuel : Nat)
    (cf : PPCommandFile) (w : World) (varname mapvar : Str) (a : Bool) (b : PPCommandFile)
    (w2 : World) (h : replay_formap reader fuel cf w varname mapvar = .ok (a, b, w2)) :
    w2._scope_stack = w._scope_stack ∧ b._scope = cf._scope := by
  simp only [replay_formap] at h
  split at h
  · cases h
  · split at h
    · cases h
    · cases h; exact ⟨rfl, rfl⟩
    · have key := replay_formap_loop_kept reader hr _ _ _ _ _ _ _ _ _ _ _ _ h
      exact key

theorem handle_call_command_kept (X : External)
    (hdf : ∀ fuel w sid name formals actuals w2,
      define_formals X fuel w sid name formals actuals = .ok w2 →
      w2._scope_stack = w._scope_stack)
    (fuel : Nat) (reader : Reader) (hr : reader_kept reader)
    (cf : PPCommandFile) (w : World) (a : Bool) (b : PPCommandFile) (w2 : World)
    (h : handle_call_command X fuel reader cf w = .ok (a, b, w2)) :
    w2._scope_stack = w._scope_stack ∧ b._scope = cf._scope := by
  simp only [handle_call_command] at h
  split at h
  · cases h; exact ⟨rfl, rfl⟩
  · split at h
    · cases h
    · split at h
      · cases h
      · split at h
        · cases h
        · rename_i w1 h1
          split at h
          · cases h
          · rename_i ok3 cf3 w3 h3
            split at h
            · cases h
            · rename_i back w4 h4
              cases h
              have e1 := hdf _ _ _ _ _ _ _ h1
              have e3 := read_lines_kept reader hr _ _ _ _ _ _ h3
              exact ⟨(pop_push_scope w w3 _ cf._scope back (e3.trans e1) h4).2, rfl⟩

theorem step_kept_ite {α β : Type} (w : World) (c : Prop) [Decidable c]
    (x y : Except Fault (α × β × World)) (hx : step_kept w x) (hy : step_kept w y) :
    step_kept w (if c then x else y) := by
  split
  · exact hx
  · exact hy

theorem step_kept_ok {α β : Type} (w : World) (a : α) (b : β) :
    step_kept w (.ok (a, b, w)) := by
  intro a2 b2 w2 h
  cases h; rfl

theorem handle_end_command_kept (X : External)
    (hes : ∀ fuel w sid s, stack_kept w (expand_string X fuel w sid s))
    (close_output : BlockNesting → World → Except Fault (Bool × World))
    (hclose : ∀ nest w, stack_kept w (close_output nest w))
    (reader : Reader) (hr : reader_kept reader) (fuel : Nat)
    (cf : PPCommandFile) (w : World) :
    step_kept w (handle_end_command X close_output reader fuel cf w) := by
  intro a b w2 h
  have hfs : ∀ cf w name, step_kept w (replay_forscopes reader cf w name) :=
    fun cf w name a b w2 h => (replay_forscopes_kept reader hr cf w name a b w2 h).1
  have hfm : ∀ n cf w v m, step_kept w (replay_formap reader n cf w v m) :=
    fun n cf w v m a b w2 h => (replay_formap_kept reader hr n cf w v m a b w2 h).1
  have hfe := replay_foreach_kept reader hr
  simp only [handle_end_command, define_sub, define_func] at h
  repeat' split at h
  all_goals first
    | (cases h; done)
    | (try (first
         | (have e := ok_world h; subst e; clear h)
         | (have e := ok_world3 h; subst e; clear h)
         | (have e := ok_world1 h; subst e; clear h))
       repeat (first
         | rfl
         | (refine stack_step ?_ ?_ (by assumption) ?_
            any_goals (first | exact hes _ _ _ _ | exact hfs _ _ _ | exact hfm _ _ _ _ _ | exact hfe _ _ _ _ | exact hclose _ _))
         | (refine step_step ?_ ?_ (by assumption) ?_
            any_goals (first | exact hes _ _ _ _ | exact hfs _ _ _ | exact hfm _ _ _ _ _ | exact hfe _ _ _ _ | exact hclose _ _))
         | (refine world_step ?_ ?_ (by assumption) ?_
            any_goals (first | exact hes _ _ _ _ | exact hfs _ _ _ | exact hfm _ _ _ _ _ | exact hfe _ _ _ _ | exact hclose _ _))
         | dsimp only [make_scope, World.put_scope]))

theorem dispatch_kept (X : External)
    (hes : ∀ fuel w sid s, stack_kept w (expand_string X fuel w sid s))
    (H : Handlers) (hH : handlers_kept H) (fuel : Nat) (cf : PPCommandFile) (w : World) :
    step_kept w
      (if cf._command = "if".toList then handle_if_command X fuel cf w
       else if cf._command = "elif".toList then handle_elif_command X fuel cf w
       else if cf._command = "else".toList then handle_else_command cf w
       else if cf._command = "endif".toList then handle_endif_command cf w
       else if failed_if cf then .ok (true, cf, w)
       else if cf._command = "begin".toList then H.handle_begin_command cf w
       else if cf._command = "forscopes".toList then H.handle_forscopes_command cf w
       else if cf._command = "foreach".toList then H.handle_foreach_command cf w
       else if cf._command = "formap".toList then H.handle_formap_command cf w
       else if cf._command = "format".toList then H.handle_format_command cf w
       else if cf._command = "output".toList then H.handle_output_command cf w
       else if cf._command = "print".toList then H.handle_print_command cf w
       else if cf._command = "defsub".toList then H.handle_defsub_command true cf w
       else if cf._command = "defun".toList then H.handle_defsub_command false cf w
       else if cf._command = "end".toList then H.handle_end_command cf w
       else if cf._in_for then .ok (true, cf, w)
       else if cf._command = "include".toList then H.handle_include_command cf w
       else if cf._command = "sinclude".toList then H.handle_sinclude_command cf w
       else if cf._command = "call".toList then H.handle_call_command cf w
       else if cf._command = "error".toList then handle_error_command X fuel cf w
       else if cf._command = "defer".toList then H.handle_defer_command cf w
       else if cf._command = "define".toList then handle_define_command X fuel cf w
       else if cf._command = "set".toList then handle_set_command X fuel cf w
       else if cf._command = "map".toList then H.handle_map_command cf w
       else if cf._command = "addmap".toList then H.handle_addmap_command cf w
       else .ok (false, cf, w)) := by
  refine step_kept_ite _ _ _ _ (handle_if_command_kept X hes _ _ _) ?_
  refine step_kept_ite _ _ _ _ (handle_elif_command_kept X hes _ _ _) ?_
  refine step_kept_ite _ _ _ _ (handle_else_command_kept _ _) ?_
  refine step_kept_ite _ _ _ _ (handle_endif_command_kept _ _) ?_
  refine step_kept_ite _ _ _ _ (step_kept_ok _ _ _) ?_
  refine step_kept_ite _ _ _ _ (hH.begin_kept _ _) ?_
  refine step_kept_ite _ _ _ _ (hH.forscopes_kept _ _) ?_
  refine step_kept_ite _ _ _ _ (hH.foreach_kept _ _) ?_
  refine step_kept_ite _ _ _ _ (hH.formap_kept _ _) ?_
  refine step_kept_ite _ _ _ _ (hH.format_kept _ _) ?_
  refine step_kept_ite _ _ _ _ (hH.output_kept _ _) ?_
  refine step_kept_ite _ _ _ _ (hH.print_kept _ _) ?_
  refine step_kept_ite _ _ _ _ (hH.defsub_kept _ _ _) ?_
  refine step_kept_ite _ _ _ _ (hH.defsub_kept _ _ _) ?_
  refine step_kept_ite _ _ _ _ (hH.end_kept _ _) ?_
  refine step_kept_ite _ _ _ _ (step_kept_ok _ _ _) ?_
  refine step_kept_ite _ _ _ _ (hH.include_kept _ _) ?_
  refine step_kept_ite _ _ _ _ (hH.sinclude_kept _ _) ?_
  refine step_kept_ite _ _ _ _ (hH.call_kept _ _) ?_
  refine step_kept_ite _ _ _ _ (handle_error_command_kept X hes _ _ _) ?_
  refine step_kept_ite _ _ _ _ (hH.defer_kept _ _) ?_
  refine step_kept_ite _ _ _ _ (handle_define_command_kept X hes _ _ _) ?_
  refine step_kept_ite _ _ _ _ (handle_set_command_kept X hes _ _ _) ?_
  refine step_kept_ite _ _ _ _ (hH.map_kept _ _) ?_
  refine step_kept_ite _ _ _ _ (hH.addmap_kept _ _) ?_
  exact step_kept_ok _ _ _

theorem handle_command_kept (X : External)
    (hes : ∀ fuel w sid s, stack_kept w (expand_string X fuel w sid s))
    (H : Handlers) (hH : handlers_kept H) (stray : Char) (fuel : Nat)
    (cf : PPCommandFile) (w : World) (line : Str) :
    step_kept w (handle_command X H stray fuel cf w line) := by
  unfold handle_command
  refine step_kept_ite _ _ _ _ (step_kept_ite _ _ _ _ ?_ (step_kept_ok _ _ _))
    (dispatch_kept X hes H hH fuel _ w)
  intro a b w2 h
  cases h

theorem read_line_kept (X : External)
    (hes : ∀ fuel w sid s, stack_kept w (expand_string X fuel w sid s))
    (H : Handlers) (hH : handlers_kept H) (stray : Char) (fuel : Nat)
    (cf : PPCommandFile) (w : World) (line : Str) :
    step_kept w (read_line X H stray fuel cf w line) := by
  intro a b w2 h
  have hc := handle_command_kept X hes H hH stray fuel
  have hw := write_line_kept
  simp only [read_line] at h
  repeat' split at h
  all_goals first
    | (cases h; done)
    | (try (first
         | (have e := ok_world h; subst e; clear h)
         | (have e := ok_world3 h; subst e; clear h)
         | (have e := ok_world1 h; subst e; clear h))
       repeat (first
         | rfl
         | (refine stack_step ?_ ?_ (by assumption) ?_
            any_goals (first | exact hc _ _ _ | exact hes _ _ _ _ | exact hw _ _ _))
         | (refine step_step ?_ ?_ (by assumption) ?_
            any_goals (first | exact hc _ _ _ | exact hes _ _ _ _ | exact hw _ _ _))
         | (refine world_step ?_ ?_ (by assumption) ?_
            any_goals (first | exact hc _ _ _ | exact hes _ _ _ _ | exact hw _ _ _))
         | dsimp only [make_scope, World.put_scope]))

theorem source_handlers_kept (X : External)
    (hX : ∀ w scope lines, stack_kept w (X.read_lines w scope lines))
    (B : Reader → Handlers) (fuel : Nat) (reader : Reader) (hr : reader_kept reader)
    (hB : files_kept (B reader)) :
    handlers_kept
      (interpreter_handlers X (call_and_map_handlers X fuel B) fuel reader) := by
  have hes : ∀ fuel w sid s, stack_kept w (expand_string X fuel w sid s) :=
    fun fuel w sid s => expand_string_kept X hX fuel w sid s
  have hE := engine_kept_all X hX
  exact
    { begin_kept := handle_begin_command_kept X hes fuel
      forscopes_kept := handle_forscopes_command_kept X hes fuel
      foreach_kept := handle_foreach_command_kept X hes fuel
      formap_kept := handle_formap_command_kept X hes fuel
      format_kept := handle_format_command_kept X hes fuel
      output_kept := hB.of_output
      print_kept := handle_print_command_kept X hes fuel
      defsub_kept :=
        handle_defsub_command_kept X (fun fuel w sid s b => (hE fuel).2.2.2.2.1 w sid s b) fuel
      end_kept := handle_end_command_kept X hes _ hB.of_close reader hr fuel
      include_kept := hB.of_include
      sinclude_kept := hB.of_sinclude
      call_kept := fun cf w a b w2 h =>
        (handle_call_command_kept X (fun fuel => (hE fuel).2.2.2.2.2.1) fuel reader hr cf w a b
          w2 h).1
      defer_kept :=
        handle_defer_command_kept X (fun fuel w sid ex s => (hE fuel).2.2.1 w sid ex s) fuel
      map_kept :=
        handle_map_command_kept X (fun fuel w sid s => (hE fuel).2.2.2.2.2.2.2.2 w sid s) fuel
      addmap_kept := handle_addmap_command_kept X hes fuel
      close_kept := hB.of_close }

theorem read_line_rec_kept (X : External)
    (hX : ∀ w scope lines, stack_kept w (X.read_lines w scope lines))
    (B : Reader → Handlers) (hB : ∀ reader, reader_kept reader → files_kept (B reader))
    (stray : Char) (fuel : Nat) :
    ∀ depth,
      reader_kept (read_line_rec X (call_and_map_handlers X fuel B) stray fuel depth) := by
  intro depth
  induction depth with
  | zero => intro cf w line a b w2 h; simp [read_line_rec] at h
  | succ depth ih =>
    intro cf w line
    exact read_line_kept X (fun fuel w sid s => expand_string_kept X hX fuel w sid s) _
      (source_handlers_kept X hX B fuel _ ih (hB _ ih)) stray fuel cf w line

theorem function_body_kept (reader : Reader) (hr : reader_kept reader) (w : World)
    (nested_scope : Nat) (lines : List Str) :
    stack_kept w (function_body reader w nested_scope lines) := by
  intro a w2 h
  simp only [function_body] at h
  split at h
  · cases h
  · rename_i ok1 cf1 w1 h1
    split at h
    · cases h
    · cases h
      have key := replay_lines_kept reader hr _ _ _ _ _ _ _ h1
      exact key

theorem source_external_kept (X : External) (B : Reader → Handlers)
    (hB : ∀ reader, reader_kept reader → files_kept (B reader))
    (stray : Char) (fuel depth : Nat) :
    ∀ level w scope lines,
      stack_kept w ((source_external X B stray fuel depth level).read_lines w scope lines) := by
  intro level
  induction level with
  | zero => intro w scope lines a w2 h; simp [source_external, with_functions] at h
  | succ level ih =>
    intro w scope lines
    exact function_body_kept _
      (read_line_rec_kept (source_external X B stray fuel depth level) ih B hB stray fuel
        depth) w scope lines

theorem source_reader_kept (X : External) (B : Reader → Handlers)
    (hB : ∀ reader, reader_kept reader → files_kept (B reader))
    (stray : Char) (fuel depth level : Nat) :
    reader_kept (source_reader X B stray fuel depth level) :=
  read_line_rec_kept _ (source_external_kept X B hB stray fuel depth level) B hB stray fuel
    depth

theorem files_kept_idle : files_kept idle_handlers :=
  { of_output := fun _ _ => step_kept_ok _ _ _
    of_include := fun _ _ => step_kept_ok _ _ _
    of_sinclude := fun _ _ => step_kept_ok _ _ _
    of_close := fun _ _ _ _ h => by cases h; rfl }

theorem full_reader_eq (fuel depth level : Nat) :
    full_reader fuel depth level =
      source_reader quiet (fun _ => idle_handlers) ' ' fuel depth level := rfl

theorem step_returns (r : Step) (h : r.toBool = true) :
    ∃ ok cf2 w2, r = .ok (ok, cf2, w2) := by
  rcases r with e | ⟨ok, cf2, w2⟩
  · cases h
  · exact ⟨ok, cf2, w2, rfl⟩

/-- C32: when `read_line` returns, with success or with failure, the scope
stack is the one it was called with, for every state and every line, and the
replays of `#call`, `#forscopes` and `#formap` return with the current scope
they were entered with.  The interpreter is that of the source with the bodies
of user functions read by itself; the handlers of `#output`, `#include` and
`#sinclude`, which stand outside it, are taken to keep the scope stack.  A
`#call` of a subroutine that is not defined does not return. -/
theorem read_line_restores_scope_stack (X : External) (B : Reader → Handlers)
    (stray : Char) (fuel depth level : Nat)
    (hB : ∀ reader, reader_kept reader → files_kept (B reader)) :
    (∀ cf w line ok cf2 w2,
      source_reader X B stray fuel depth level cf w line = .ok (ok, cf2, w2) →
      w2._scope_stack = w._scope_stack) ∧
    (∀ cf w ok cf2 w2,
      handle_call_command (source_external X B stray fuel depth level) fuel
        (source_reader X B stray fuel depth level) cf w = .ok (ok, cf2, w2) →
      w2._scope_stack = w._scope_stack ∧ cf2._scope = cf._scope) ∧
    (∀ cf w name ok cf2 w2,
      replay_forscopes (source_reader X B stray fuel depth level) cf w name =
        .ok (ok, cf2, w2) →
      w2._scope_stack = w._scope_stack ∧ cf2._scope = cf._scope) ∧
    (∀ n cf w varname mapvar ok cf2 w2,
      replay_formap (source_reader X B stray fuel depth level) n cf w varname mapvar =
        .ok (ok, cf2, w2) →
      w2._scope_stack = w._scope_stack ∧ cf2._scope = cf._scope) := by
  have hr := source_reader_kept X B hB stray fuel depth level
  have hX := source_external_kept X B hB stray fuel depth level
  refine ⟨fun cf w line ok cf2 w2 h => hr cf w line ok cf2 w2 h, ?_, ?_, ?_⟩
  · intro cf w ok cf2 w2 h
    exact handle_call_command_kept _ (fun fuel => (engine_kept_all _ hX fuel).2.2.2.2.2.1)
      fuel _ hr cf w ok cf2 w2 h
  · intro cf w name ok cf2 w2 h
    exact replay_forscopes_kept _ hr cf w name ok cf2 w2 h
  · intro n cf w varname mapvar ok cf2 w2 h
    exact replay_formap_kept _ hr n cf w varname mapvar ok cf2 w2 h

theorem read_line_restores_scope_stack_witness :
    stack_frame (full_reader 60 3 2 (new_command_file 0) stacked_world "#call f a".toList) =
      .ok (false, 0, [0]) ∧
    stack_frame (full_reader 60 3 2 (new_command_file 0) stacked_world "#call g".toList) =
      .ok (true, 0, [0]) ∧
    stack_frame
      (read_lines (full_reader 60 3 2)
        ["#forscopes scopeA scopeB".toList, "$[K]".toList, "#error x".toList,
         "#end scopeA scopeB".toList] (new_command_file 0) stacked_world) =
      .ok (false, 0, [0]) ∧
    stack_frame
      (read_lines (full_reader 60 3 2)
        ["#formap k M".toList, "$[k] $[K]".toList, "#error x".toList, "#end k".toList]
        (new_command_file 0) stacked_world) = .ok (false, 0, [0]) ∧
    stack_frame
      (read_lines (full_reader 60 3 2)
        ["#formap k M".toList, "$[k] $[K]".toList, "#end k".toList]
        (new_command_file 0) stacked_world) = .ok (true, 0, [0]) ∧
    (∃ ok cf2 w2,
      full_reader 60 3 2 (new_command_file 0) stacked_world "#call f a".toList =
        .ok (ok, cf2, w2) ∧
      w2._scope_stack = stacked_world._scope_stack) ∧
    (∃ ok cf2 w2,
      replay_forscopes (full_reader 60 3 2)
        { new_command_file 0 with
          _saved_lines := ["$[K]".toList, "#error x".toList, "#end scopeA scopeB".toList] }
        stacked_world "scopeA scopeB".toList = .ok (ok, cf2, w2) ∧
      w2._scope_stack = stacked_world._scope_stack ∧ cf2._scope = 0) ∧
    (∃ ok cf2 w2,
      replay_formap (full_reader 60 3 2) 60
        { new_command_file 0 with
          _saved_lines := ["$[k] $[K]".toList, "#error x".toList, "#end k".toList] }
        stacked_world "k".toList "M".toList = .ok (ok, cf2, w2) ∧
      w2._scope_stack = stacked_world._scope_stack ∧ cf2._scope = 0) := by
  have key := read_line_restores_scope_stack quiet (fun _ => idle_handlers) ' ' 60 3 2
    (fun _ _ => files_kept_idle)
  refine ⟨by decide!, by decide!, by decide!, by decide!, by decide!, ?_, ?_, ?_⟩
  · obtain ⟨ok, cf2, w2, h⟩ :=
      step_returns
        (full_reader 60 3 2 (new_command_file 0) stacked_world "#call f a".toList)
        (by decide!)
    exact ⟨ok, cf2, w2, h, key.1 _ _ _ _ _ _ h⟩
  · obtain ⟨ok, cf2, w2, h⟩ :=
      step_returns
        (replay_forscopes (full_reader 60 3 2)
          { new_command_file 0 with
            _saved_lines :=
              ["$[K]".toList, "#error x".toList, "#end scopeA scopeB".toList] }
          stacked_world "scopeA scopeB".toList)
        (by decide!)
    exact ⟨ok, cf2, w2, h, key.2.2.1 _ _ _ _ _ _ h⟩
  · obtain ⟨ok, cf2, w2, h⟩ :=
      step_returns
        (replay_formap (full_reader 60 3 2) 60
          { new_command_file 0 with
            _saved_lines := ["$[k] $[K]".toList, "#error x".toList, "#end k".toList] }
          stacked_world "k".toList "M".toList)
        (by decide!)
    exact ⟨ok, cf2, w2, h, key.2.2.2 _ _ _ _ _ _ _ _ h⟩

end scope_stack

/-! ### C36: termination on plain references -/

theorem unguarded_le (names expanded : List Str) : unguarded names expanded ≤ names.length :=
  List.countP_le_length _

theorem unguarded_cons_lt (name : Str) (expanded : List Str) :
    ∀ names : List Str, name ∈ names → name ∉ expanded →
      unguarded names (name :: expanded) < unguarded names expanded := by
  have hmono : ∀ names : List Str,
      unguarded names (name :: expanded) ≤ unguarded names expanded := by
    intro names
    unfold unguarded
    apply List.countP_mono_left
    intro x _ hx
    simp only [List.mem_cons, not_or, decide_eq_true_eq] at hx ⊢
    exact hx.2
  intro names
  induction names with
  | nil => intro h; cases h
  | cons n rest ih =>
    intro hmem hex
    by_cases hn : n = name
    · subst hn
      have h1 : unguarded (n :: rest) (n :: expanded) = unguarded rest (n :: expanded) := by
        simp [unguarded]
      have h2 : unguarded (n :: rest) expanded = unguarded rest expanded + 1 := by
        simp [unguarded, hex]
      have := hmono rest
      omega
    · have hmem2 : name ∈ rest := by
        rcases List.mem_cons.mp hmem with h | h
        · exact absurd h.symm hn
        · exact h
      have := ih hmem2 hex
      by_cases hne : n ∈ expanded
      · have h1 : unguarded (n :: rest) (name :: expanded) = unguarded rest (name :: expanded) := by
          simp [unguarded, hne]
        have h2 : unguarded (n :: rest) expanded = unguarded rest expanded := by
          simp [unguarded, hne]
        omega
      · have h1 : unguarded (n :: rest) (name :: expanded) =
            unguarded rest (name :: expanded) + 1 := by
          simp [unguarded, hne, hn]
        have h2 : unguarded (n :: rest) expanded = unguarded rest expanded + 1 := by
          simp [unguarded, hne]
        omega

theorem get_variable_any_fuel (X : External) (w : World) (sid : Nat) (name : Str) (n : Nat)
    (hfun : w.funcs = []) :
    get_variable X (n + 1) w sid name = get_variable X 1 w sid name := by
  simp [get_variable, get_func, hfun]

theorem PlainRefs.length_ref (name rest : Str) :
    (reference name ++ rest).length = name.length + rest.length + 3 := by
  simp [reference]; omega

theorem at_reference_reference (name rest : Str) :
    at_reference (reference name ++ rest) = true := by
  cases name <;> simp [reference, at_reference]

theorem r_expand_string_plain_refs (X : External) (w : World) (sid : Nat) (V : Str → Str)
    (names : List Str) (M : Nat) (P : Str → Prop) (hfun : w.funcs = [])
    (hV : ∀ name, get_variable X 1 w sid name = .ok (V name, w))
    (hnames : ∀ name, V name ≠ [] → name ∈ names)
    (hP : ∀ t, P t → t.length ≤ M ∧ ∃ ns, PlainRefs t ns ∧ ∀ n ∈ ns, P (V n)) :
    ∀ (m : Nat) (t : Str) (ns : List Str), PlainRefs t ns → (∀ n ∈ ns, P (V n)) →
      ∀ (expanded : List Str) (fuel : Nat), unguarded names expanded ≤ m →
        t.length + 1 + m * M ≤ fuel →
        ∃ r, r_expand_string X fuel w sid expanded t = .ok (r, w) := by
  intro m
  induction m using Nat.strong_induction_on with
  | _ m ihm =>
    intro t ns hpr
    induction hpr with
    | nil =>
      intro _ expanded fuel _ hf
      obtain ⟨n, rfl⟩ : ∃ n, fuel = n + 1 := ⟨fuel - 1, by omega⟩
      exact ⟨[], by simp [r_expand_string]⟩
    | char c s ns hat _ ih =>
      intro hns expanded fuel hm hf
      obtain ⟨n, rfl⟩ : ∃ n, fuel = n + 1 := ⟨fuel - 1, by omega⟩
      obtain ⟨r, hr⟩ := ih hns expanded n hm (by simp only [List.length_cons] at hf; omega)
      exact ⟨c :: r, by simp [r_expand_string, hat, hr]⟩
    | ref name rest ns hp _ ih =>
      intro hns expanded fuel hm hf
      rw [PlainRefs.length_ref] at hf
      obtain ⟨n, rfl⟩ : ∃ n, fuel = n + 2 := ⟨fuel - 2, by omega⟩
      obtain ⟨r, hr⟩ := ih (fun n hn => hns n (List.mem_cons_of_mem _ hn)) expanded (n + 1) hm
        (by omega)
      have hvar := r_expand_variable_plain X w sid expanded name rest n hp (by omega)
      have hg : get_variable X n w sid name = .ok (V name, w) := by
        obtain ⟨k, rfl⟩ : ∃ k, n = k + 1 := ⟨n - 1, by omega⟩
        rw [get_variable_any_fuel X w sid name k hfun]
        exact hV name
      have hnested : ∃ x, r_expand_variable X (n + 1) w sid expanded (reference name ++ rest) =
          .ok ((x, rest), w) := by
        rw [hvar]
        by_cases hmem : name ∈ expanded
        · exact ⟨[], by simp [hmem]⟩
        · simp only [hmem, if_false, hg]
          have hinner : ∃ x, r_expand_string X n w sid (name :: expanded) (V name) =
              .ok (x, w) := by
            by_cases hv : V name = []
            · obtain ⟨k, rfl⟩ : ∃ k, n = k + 1 := ⟨n - 1, by omega⟩
              exact ⟨[], by simp [hv, r_expand_string]⟩
            · have hlt := unguarded_cons_lt name expanded names (hnames name hv) hmem
              obtain ⟨hlen, ns2, hpr2, hns2⟩ := hP (V name) (hns name (List.mem_cons_self _ _))
              have hmul : (unguarded names (name :: expanded) + 1) * M ≤ m * M :=
                Nat.mul_le_mul_right M (by omega)
              rw [Nat.add_mul, Nat.one_mul] at hmul
              exact ihm (unguarded names (name :: expanded)) (by omega) (V name) ns2 hpr2 hns2
                (name :: expanded) n (le_refl _) (by omega)
          obtain ⟨x, hx⟩ := hinner
          exact ⟨x, by simp [hx]⟩
      obtain ⟨x, hx⟩ := hnested
      have hat := at_reference_reference name rest
      refine ⟨x ++ r, ?_⟩
      cases hu : reference name ++ rest with
      | nil => simp [reference] at hu
      | cons c cs =>
        rw [hu] at hat hx
        rw [show n + 2 = (n + 1) + 1 from rfl]
        simp only [r_expand_string, hat, if_true, hx, hr]

theorem get_variable_single_scope (X : External) (bindings : List (Str × Str))
    (name : Str) :
    get_variable X 1 (single_scope bindings) 0 name =
      .ok ((bindings.lookup name).getD [], single_scope bindings) := by
  cases h : bindings.lookup name with
  | none =>
    simp [get_variable, get_func, p_get_variable, p_get_variable_rec, single_scope, world_of,
      empty_scope, get_variable_stack, getenv, h]
  | some d =>
    simp [get_variable, get_func, p_get_variable, p_get_variable_rec, single_scope, world_of,
      empty_scope, h]

theorem lookup_value_bound (name : Str) :
    ∀ bindings : List (Str × Str), (bindings.lookup name).getD [] ≠ [] →
      name ∈ bindings.map Prod.fst := by
  intro bindings
  induction bindings with
  | nil => intro h; simp at h
  | cons b rest ih =>
    obtain ⟨k, v⟩ := b
    intro h
    by_cases hk : name = k
    · simp [hk]
    · have hb : (name == k) = false := by simpa using hk
      simp only [List.lookup, hb] at h
      simp [ih h]

/-- C36: with no user function registered, with lookups that return (`V`
is the value of every name, empty for a name that is not bound) and with the
names that have a value all in `names`, `expand_string` returns on every
string `s` of a set `P` of strings of at most `M` characters that holds,
with each string, the definition of every name it refers to, and in which
every reference is a plain `$[name]`, however the definitions refer to one
another: `(names.length + 1) * M + 1` units of fuel are enough, one level of
`M` for the string and one for each name.  With the chain `expanded` of the
variables being expanded, a level is needed only for each name that is not
on the chain. -/
theorem expand_string_terminates_on_plain_references (X : External) (w : World) (sid : Nat)
    (V : Str → Str) (names : List Str) (M : Nat) (P : Str → Prop) (s : Str)
    (hfun : w.funcs = []) (hV : ∀ name, get_variable X 1 w sid name = .ok (V name, w))
    (hnames : ∀ name, V name ≠ [] → name ∈ names)
    (hP : ∀ t, P t → t.length ≤ M ∧ ∃ ns, PlainRefs t ns ∧ ∀ n ∈ ns, P (V n))
    (hs : P s) :
    (∀ fuel, (names.length + 1) * M + 1 ≤ fuel →
      ∃ r, expand_string X fuel w sid s = .ok (r, w)) ∧
    (∀ expanded fuel, s.length + 1 + unguarded names expanded * M ≤ fuel →
      ∃ r, r_expand_string X fuel w sid expanded s = .ok (r, w)) := by
  obtain ⟨hlen, ns, hpr, hns⟩ := hP s hs
  have key := fun expanded fuel =>
    r_expand_string_plain_refs X w sid V names M P hfun hV hnames hP
      (unguarded names expanded) s ns hpr hns expanded fuel (le_refl _)
  refine ⟨fun fuel hf => key [] fuel ?_, key⟩
  have h1 := unguarded_le names []
  have h2 : unguarded names [] * M ≤ names.length * M := Nat.mul_le_mul_right M h1
  rw [Nat.add_mul, Nat.one_mul] at hf
  omega

theorem expand_string_terminates_on_plain_references_witness :
    expand_string quiet 49 (single_scope mutual_bindings) 0 "$[C] $[U]".toList =
      .ok ("abab ".toList, single_scope mutual_bindings) ∧
    ((∀ fuel, ((mutual_bindings.map Prod.fst).length + 1) * 12 + 1 ≤ fuel →
      ∃ r, expand_string quiet fuel (single_scope mutual_bindings) 0 "$[C] $[U]".toList =
        .ok (r, single_scope mutual_bindings)) ∧
    (∀ expanded fuel,
      "$[C] $[U]".toList.length + 1 +
        unguarded (mutual_bindings.map Prod.fst) expanded * 12 ≤ fuel →
      ∃ r, r_expand_string quiet fuel (single_scope mutual_bindings) 0 expanded
        "$[C] $[U]".toList = .ok (r, single_scope mutual_bindings))) := by
  refine ⟨by decide!, ?_⟩
  refine expand_string_terminates_on_plain_references quiet (single_scope mutual_bindings) 0
    (fun name => (mutual_bindings.lookup name).getD []) (mutual_bindings.map Prod.fst) 12
    (fun t => t ∈ ["$[C] $[U]".toList, "a$[B]".toList, "$[A]b$[U]".toList,
      "$[C]$[A]$[B]".toList, []])
    "$[C] $[U]".toList rfl (get_variable_single_scope quiet mutual_bindings)
    (fun name => lookup_value_bound name mutual_bindings) ?_ (by simp)
  intro t ht
  simp only [List.mem_cons, List.mem_singleton, List.not_mem_nil, or_false] at ht
  rcases ht with rfl | rfl | rfl | rfl | rfl
  · refine ⟨by decide, ["C".toList, "U".toList],
      .ref "C".toList _ _ (by decide)
        (.char ' ' _ _ rfl (.ref "U".toList [] _ (by decide) .nil)), ?_⟩
    intro n hn
    simp only [List.mem_cons, List.mem_singleton, List.not_mem_nil, or_false] at hn
    rcases hn with rfl | rfl <;> decide
  · refine ⟨by decide, ["B".toList],
      .char 'a' _ _ rfl (.ref "B".toList [] _ (by decide) .nil), ?_⟩
    intro n hn
    simp only [List.mem_cons, List.mem_singleton, List.not_mem_nil, or_false] at hn
    rcases hn with rfl; decide
  · refine ⟨by decide, ["A".toList, "U".toList],
      .ref "A".toList _ _ (by decide)
        (.char 'b' _ _ rfl (.ref "U".toList [] _ (by decide) .nil)), ?_⟩
    intro n hn
    simp only [List.mem_cons, List.mem_singleton, List.not_mem_nil, or_false] at hn
    rcases hn with rfl | rfl <;> decide
  · refine ⟨by decide, ["C".toList, "A".toList, "B".toList],
      .ref "C".toList _ _ (by decide)
        (.ref "A".toList _ _ (by decide) (.ref "B".toList [] _ (by decide) .nil)), ?_⟩
    intro n hn
    simp only [List.mem_cons, List.mem_singleton, List.not_mem_nil, or_false] at hn
    rcases hn with rfl | rfl | rfl <;> decide
  · exact ⟨by decide, [], .nil, by simp⟩

end PPRemake
